import Mathlib

/-!
Explicit free-list allocator (`mm.c`): shallow embedding and verification.

The arena is a byte-addressed memory `Nat → Nat` (a cell is read modulo 256).
Addresses are natural numbers; `size_t` values are naturals reduced modulo
`2 ^ 64` where the C arithmetic can wrap, and header/footer/link words are
32-bit (`unsigned int`) values reduced modulo `2 ^ 32` by `PUT`.
Words are stored little-endian.  Pointer arithmetic is computed on naturals
(it is only defined by C inside the arena, where it never wraps).
-/

namespace MM

/-! ## Constants and macros of `mm.c` -/

/-- Word and header/footer size (bytes). -/
@[simp] def WSIZE : Nat := 4
/-- Double word size (bytes). -/
@[simp] def DSIZE : Nat := 8
/-- Extend heap by this amount (bytes): `1 << 12`. -/
@[simp] def CHUNKSIZE : Nat := 4096
/-- Number of values of `size_t` (LP64). -/
@[simp] def SIZE_MOD : Nat := 2 ^ 64
/-- The value of `size_t tmp = 1 << 31`: the `int` value `INT_MIN` converted to `size_t`. -/
@[simp] def TMP_INIT : Nat := 2 ^ 64 - 2 ^ 31
/-- The pointer value `(void *)-1`. -/
@[simp] def PTR_ERR : Nat := 2 ^ 64 - 1

/-- Byte memory. -/
abbrev Mem := Nat → Nat

/-- `GET(p)`: read the 32-bit word at address `p`. -/
def GET (m : Mem) (p : Nat) : Nat :=
  m p % 256 + 256 * (m (p + 1) % 256) + 65536 * (m (p + 2) % 256) + 16777216 * (m (p + 3) % 256)

/-- `PUT(p, val)`: store the low 32 bits of `val` at address `p`. -/
def PUT (m : Mem) (p val : Nat) : Mem := fun a =>
  if a = p then val % 256
  else if a = p + 1 then val / 256 % 256
  else if a = p + 2 then val / 65536 % 256
  else if a = p + 3 then val / 16777216 % 256
  else m a

/-- `memcpy(dst, src, n)` on regions that do not overlap. -/
def memcpy (m : Mem) (dst src n : Nat) : Mem := fun a =>
  if dst ≤ a ∧ a < dst + n then m (src + (a - dst)) else m a

/-- `PACK(size, alloc)`. -/
def PACK (size alloc : Nat) : Nat := size ||| alloc

/-- The cast `(int)w` of a 32-bit word (two's complement). -/
def toInt (w : Nat) : Int :=
  if w % 2 ^ 32 < 2 ^ 31 then ((w % 2 ^ 32 : Nat) : Int) else ((w % 2 ^ 32 : Nat) : Int) - 2 ^ 32

/-- Conversion of an `int` to `unsigned int`. -/
def toWord (z : Int) : Nat := (z % 2 ^ 32).toNat

/-- `ADDR_SUB(p, q)`: `(int)((size_t)p - (size_t)q)`. -/
def ADDR_SUB (p q : Nat) : Int := toInt (toWord ((p : Int) - (q : Int)))

/-- Pointer plus `int` offset, as in `bp + (int)GET(bp)`. -/
def ptrAdd (p : Nat) (off : Int) : Nat := ((p : Int) + off).toNat

/-- `GET_SIZE(p)`: `GET(p) & ~0x7` (an `unsigned int`). -/
def GET_SIZE (m : Mem) (p : Nat) : Nat := GET m p &&& 0xFFFFFFF8

/-- `GET_ALLOC(p)`: `GET(p) & 0x1`. -/
def GET_ALLOC (m : Mem) (p : Nat) : Nat := GET m p &&& 0x1

/-- `HDRP(bp)`. -/
def HDRP (bp : Nat) : Nat := bp - WSIZE

/-- `FTRP(bp)`. -/
def FTRP (m : Mem) (bp : Nat) : Nat := bp + GET_SIZE m (HDRP bp) - DSIZE

/-- `NEXT_FRBP(bp)`: address of the next-link word of a free block. -/
def NEXT_FRBP (bp : Nat) : Nat := bp

/-- `PREV_FRBP(bp)`: address of the prev-link word of a free block. -/
def PREV_FRBP (bp : Nat) : Nat := bp + WSIZE

/-- `NEXT_BLKP(bp)`. -/
def NEXT_BLKP (m : Mem) (bp : Nat) : Nat := bp + GET_SIZE m (bp - WSIZE)

/-- `PREV_BLKP(bp)`. -/
def PREV_BLKP (m : Mem) (bp : Nat) : Nat := bp - GET_SIZE m (bp - DSIZE)

/-! ## Allocator state -/

/-- The arena of `memlib` (`mem_heap`, `mem_brk`, `mem_max_addr`, and its bytes) together
with the two globals of `mm.c`. -/
structure Heap where
  mem : Mem
  mem_heap : Nat
  mem_brk : Nat
  mem_max_addr : Nat
  heap_listp : Nat
  fr_listp : Nat

/-- Modelled from the spec: `mem_sbrk` of `memlib.c`, which is not part of the sources.
`grow(bytes)` extends the arena by `bytes` and returns the start of the new region; it
fails only when the capacity ceiling would be exceeded. -/
def mem_sbrk (s : Heap) (incr : Nat) : Option (Heap × Nat) :=
  if s.mem_brk + incr > s.mem_max_addr then none
  else some ({ s with mem_brk := s.mem_brk + incr }, s.mem_brk)

/-- Modelled from the spec: `mem_heap_lo` of `memlib.c` (`low_bound()`). -/
def mem_heap_lo (s : Heap) : Nat := s.mem_heap

/-- Modelled from the spec: `mem_heap_hi` of `memlib.c` (`high_bound()`), the last byte. -/
def mem_heap_hi (s : Heap) : Nat := s.mem_brk - 1

/-! ## The routines of `mm.c` -/

/-- `add_free_block(bp)`. -/
def add_free_block (s : Heap) (bp : Nat) : Heap :=
  if s.fr_listp = 0 then
    let m1 := PUT s.mem (NEXT_FRBP bp) 0
    let m2 := PUT m1 (PREV_FRBP bp) 0
    { s with mem := m2, fr_listp := bp }
  else
    let m1 := PUT s.mem (PREV_FRBP bp) 0
    let m2 := PUT m1 (NEXT_FRBP bp) (toWord (ADDR_SUB s.fr_listp bp))
    let m3 := PUT m2 (PREV_FRBP s.fr_listp) (toWord (ADDR_SUB bp s.fr_listp))
    { s with mem := m3, fr_listp := bp }

/-- `delete_free_block(bp)`. -/
def delete_free_block (s : Heap) (bp : Nat) : Heap :=
  if bp = s.fr_listp then
    if GET s.mem (NEXT_FRBP bp) ≠ 0 then
      let fr := ptrAdd bp (toInt (GET s.mem (NEXT_FRBP bp)))
      { s with mem := PUT s.mem (PREV_FRBP fr) 0, fr_listp := fr }
    else
      { s with fr_listp := 0 }
  else
    if GET s.mem (NEXT_FRBP bp) ≠ 0 then
      let tmp1 := ptrAdd bp (toInt (GET s.mem (PREV_FRBP bp)))
      let tmp2 := ptrAdd bp (toInt (GET s.mem (NEXT_FRBP bp)))
      let m1 := PUT s.mem (NEXT_FRBP tmp1) (toWord (ADDR_SUB tmp2 tmp1))
      let m2 := PUT m1 (PREV_FRBP tmp2) (toWord (ADDR_SUB tmp1 tmp2))
      { s with mem := m2 }
    else
      let tmp := ptrAdd bp (toInt (GET s.mem (PREV_FRBP bp)))
      { s with mem := PUT s.mem (NEXT_FRBP tmp) 0 }

/-- `coalesce(bp)`: boundary tag coalescing; returns the state and the coalesced block. -/
def coalesce (s : Heap) (bp : Nat) : Heap × Nat :=
  let m := s.mem
  let prev_alloc := GET_ALLOC m (FTRP m (PREV_BLKP m bp))
  let next_alloc := GET_ALLOC m (HDRP (NEXT_BLKP m bp))
  let size := GET_SIZE m (HDRP bp)
  if prev_alloc ≠ 0 ∧ next_alloc ≠ 0 then
    (add_free_block s bp, bp)
  else if prev_alloc ≠ 0 ∧ next_alloc = 0 then
    let size2 := size + GET_SIZE m (HDRP (NEXT_BLKP m bp))
    let s1 := delete_free_block s (NEXT_BLKP m bp)
    let m1 := PUT s1.mem (HDRP bp) (PACK size2 0)
    let m2 := PUT m1 (FTRP m1 bp) (PACK size2 0)
    (add_free_block { s1 with mem := m2 } bp, bp)
  else if prev_alloc = 0 ∧ next_alloc ≠ 0 then
    let size3 := size + GET_SIZE m (HDRP (PREV_BLKP m bp))
    let m1 := PUT m (FTRP m bp) (PACK size3 0)
    let m2 := PUT m1 (HDRP (PREV_BLKP m1 bp)) (PACK size3 0)
    ({ s with mem := m2 }, PREV_BLKP m2 bp)
  else
    let size4 := size +
      (GET_SIZE m (HDRP (PREV_BLKP m bp)) + GET_SIZE m (FTRP m (NEXT_BLKP m bp))) % 2 ^ 32
    let m1 := PUT m (HDRP (PREV_BLKP m bp)) (PACK size4 0)
    let m2 := PUT m1 (FTRP m1 (NEXT_BLKP m1 bp)) (PACK size4 0)
    let s1 := delete_free_block { s with mem := m2 } (NEXT_BLKP m2 bp)
    (s1, PREV_BLKP s1.mem bp)

/-- `extend_heap(words)`: returns the state and the block pointer, `0` (NULL) on failure. -/
def extend_heap (s : Heap) (words : Nat) : Heap × Nat :=
  let size := if words % 2 ≠ 0 then ((words + 1) * WSIZE) % SIZE_MOD else (words * WSIZE) % SIZE_MOD
  match mem_sbrk s size with
  | none => (s, 0)
  | some (s1, bp) =>
    let m1 := PUT s1.mem (HDRP bp) (PACK size 0)
    let m2 := PUT m1 (FTRP m1 bp) (PACK size 0)
    let m3 := PUT m2 (HDRP (NEXT_BLKP m2 bp)) (PACK 0 1)
    coalesce { s1 with mem := m3 } bp

/-- `mm_init()`: returns the state and `-1` on error, `0` on success. -/
def mm_init (s : Heap) : Heap × Int :=
  match mem_sbrk s (4 * WSIZE) with
  | none => ({ s with heap_listp := PTR_ERR }, -1)
  | some (s1, p) =>
    let m1 := PUT s1.mem p 0
    let m2 := PUT m1 (p + 1 * WSIZE) (PACK DSIZE 1)
    let m3 := PUT m2 (p + 2 * WSIZE) (PACK DSIZE 1)
    let m4 := PUT m3 (p + 3 * WSIZE) (PACK 0 1)
    let s2 : Heap := { s1 with mem := m4, heap_listp := p + 2 * WSIZE, fr_listp := 0 }
    let r := extend_heap s2 (CHUNKSIZE / WSIZE)
    if r.2 = 0 then (r.1, -1) else (r.1, 0)

/-- `place(bp, asize)`. The subtraction `csize - asize` is a `size_t` subtraction. -/
def place (s : Heap) (bp asize : Nat) : Heap :=
  let csize := GET_SIZE s.mem (HDRP bp)
  let rem := (csize + SIZE_MOD - asize % SIZE_MOD) % SIZE_MOD
  if rem ≥ 2 * DSIZE then
    let m1 := PUT s.mem (HDRP bp) (PACK asize 1)
    let m2 := PUT m1 (FTRP m1 bp) (PACK asize 1)
    let s1 := delete_free_block { s with mem := m2 } bp
    let bp2 := NEXT_BLKP s1.mem bp
    let m3 := PUT s1.mem (HDRP bp2) (PACK rem 0)
    let m4 := PUT m3 (FTRP m3 bp2) (PACK rem 0)
    add_free_block { s1 with mem := m4 } bp2
  else
    let m1 := PUT s.mem (HDRP bp) (PACK csize 1)
    let m2 := PUT m1 (FTRP m1 bp) (PACK csize 1)
    delete_free_block { s with mem := m2 } bp

/-- The loop of `find_fit`, with the number of iterations bounded by `fuel`
(`none`: the bound was reached).  The final test after the loop is included. -/
def find_fit_loop (m : Mem) (asize : Nat) : Nat → Nat → Nat → Nat → Option Nat
  | 0, _, _, _ => none
  | fuel + 1, bp, tmp, record =>
    if bp ≠ 0 ∧ GET m (NEXT_FRBP bp) ≠ 0 then
      let c : Prop := GET_SIZE m (HDRP bp) ≥ asize ∧ GET_SIZE m (HDRP bp) < tmp
      let record1 := if c then bp else record
      let tmp1 := if c then GET_SIZE m (HDRP bp) else tmp
      if (tmp1 + SIZE_MOD - asize % SIZE_MOD) % SIZE_MOD < 256 then some record1
      else find_fit_loop m asize fuel (ptrAdd bp (toInt (GET m (NEXT_FRBP bp)))) tmp1 record1
    else if bp ≠ 0 ∧ GET_SIZE m (HDRP bp) ≥ asize ∧ GET_SIZE m (HDRP bp) < tmp then some bp
    else some record

/-- `find_fit(asize)`: `some 0` is NULL. -/
def find_fit (fuel : Nat) (s : Heap) (asize : Nat) : Option Nat :=
  find_fit_loop s.mem asize fuel s.fr_listp TMP_INIT 0

/-- The adjusted block size computed by `mm_malloc`. -/
def adjust (size : Nat) : Nat :=
  if size ≤ DSIZE then 2 * DSIZE
  else DSIZE * (((size + DSIZE + (DSIZE - 1)) % SIZE_MOD) / DSIZE)

/-- `mm_malloc(size)`; `fuel` bounds the free-list scan of `find_fit`. -/
def mm_malloc (fuel : Nat) (s0 : Heap) (size : Nat) : Option (Heap × Nat) :=
  let s := if s0.heap_listp = 0 then (mm_init s0).1 else s0
  if size = 0 then some (s, 0)
  else
    let asize := adjust size
    match find_fit fuel s asize with
    | none => none
    | some bp =>
      if bp ≠ 0 then some (place s bp asize, bp)
      else
        let extendsize := max asize CHUNKSIZE
        let r := extend_heap s (extendsize / WSIZE)
        if r.2 = 0 then some (r.1, 0)
        else some (place r.1 r.2 asize, r.2)

/-- `mm_free(bp)`. -/
def mm_free (s0 : Heap) (bp : Nat) : Heap :=
  if bp = 0 then s0
  else
    let size := GET_SIZE s0.mem (HDRP bp)
    let s := if s0.heap_listp = 0 then (mm_init s0).1 else s0
    let m1 := PUT s.mem (HDRP bp) (PACK size 0)
    let m2 := PUT m1 (FTRP m1 bp) (PACK size 0)
    (coalesce { s with mem := m2 } bp).1

/-- `realloc(ptr, size)`. -/
def realloc (fuel : Nat) (s : Heap) (ptr size : Nat) : Option (Heap × Nat) :=
  if size = 0 then some (mm_free s ptr, 0)
  else if ptr = 0 then mm_malloc fuel s size
  else
    match mm_malloc fuel s size with
    | none => none
    | some (s1, newptr) =>
      if newptr = 0 then some (s1, 0)
      else
        let oldsize := GET_SIZE s1.mem (HDRP ptr)
        let n := if size < oldsize then size else oldsize
        some (mm_free { s1 with mem := memcpy s1.mem newptr ptr n } ptr, newptr)

end MM

namespace MM

/-! ## Ghost description of a well-formed heap -/

/-- A block of the physical block list: block pointer, size and allocated flag. -/
structure Blk where
  bp : Nat
  size : Nat
  alloc : Nat
  deriving DecidableEq

/-- The blocks `bs` tile the address range from block pointer `p` to block pointer `e`. -/
def Layout : Nat → List Blk → Nat → Prop
  | p, [], e => p = e
  | p, b :: rest, e =>
    b.bp = p ∧ 16 ≤ b.size ∧ b.size % 8 = 0 ∧ b.alloc ≤ 1 ∧ Layout (p + b.size) rest e

/-- Header and footer of block `b` both hold `PACK(size, alloc)`. -/
def Tagged (m : Mem) (b : Blk) : Prop :=
  GET m (b.bp - 4) = b.size + b.alloc ∧ GET m (b.bp + b.size - 8) = b.size + b.alloc

/-- Every block of the list carries its boundary tags in memory. -/
def Tags (m : Mem) (bs : List Blk) : Prop := ∀ b ∈ bs, Tagged m b

/-- No two neighbours of the block list are both free. -/
def NoAdjFree (bs : List Blk) : Prop := List.Chain' (fun a b => a.alloc = 1 ∨ b.alloc = 1) bs

/-- The 32-bit link word stored at block `x` that designates block `y`. -/
def linkTo (x y : Nat) : Nat := toWord ((y : Int) - (x : Int))

/-- Blocks `x` and `y` are consecutive in the free list: next-link of `x`, prev-link of `y`. -/
def LinkR (m : Mem) (x y : Nat) : Prop := GET m x = linkTo x y ∧ GET m (y + 4) = linkTo y x

/-- The list `fl` is a doubly linked free list in memory: consecutive members are linked
both ways, the prev-link of the head is 0 and the next-link of the tail is 0. -/
def Links (m : Mem) (fl : List Nat) : Prop :=
  List.Chain' (LinkR m) fl ∧ (∀ x, fl.head? = some x → GET m (x + 4) = 0) ∧
    (∀ x, fl.getLast? = some x → GET m x = 0)

/-- Members of a free list lie in a window of `2 ^ 31` bytes above `lo` and their link
words do not overlap. -/
def FlSep (lo : Nat) (fl : List Nat) : Prop :=
  (∀ x ∈ fl, lo < x ∧ x + 8 ≤ lo + 2 ^ 31) ∧ (∀ x ∈ fl, ∀ y ∈ fl, x = y ∨ x + 8 ≤ y ∨ y + 8 ≤ x)

/-- The structural part of heap well-formedness, relative to the block list `bs` and the
free list `fl`. -/
structure Base (s : Heap) (bs : List Blk) (fl : List Nat) : Prop where
  lo8 : s.mem_heap % 8 = 0
  cap : s.mem_max_addr ≤ s.mem_heap + 2 ^ 31
  brk_le : s.mem_brk ≤ s.mem_max_addr
  hl : s.heap_listp = s.mem_heap + 8
  pro_h : GET s.mem (s.mem_heap + 4) = 9
  pro_f : GET s.mem (s.mem_heap + 8) = 9
  layout : Layout (s.mem_heap + 16) bs s.mem_brk
  epi : GET s.mem (s.mem_brk - 4) = 1
  tags : Tags s.mem bs
  flhead : s.fr_listp = fl.headD 0
  links : Links s.mem fl
  nodup : fl.Nodup
  flsub : ∀ x ∈ fl, ∃ b ∈ bs, b.bp = x ∧ b.alloc = 0

/-- Heap well-formedness: structure, eager coalescing, and the free list holds every free block. -/
structure WF (s : Heap) (bs : List Blk) (fl : List Nat) extends Base s bs fl : Prop where
  noadj : NoAdjFree bs
  flall : ∀ b ∈ bs, b.alloc = 0 → b.bp ∈ fl

end MM

namespace MM

/-- Header and footer of the block at `bp` rewritten as `PACK(sz, a)` (closed form of the
two `PUT`s through `HDRP` and `FTRP`). -/
def setTags (m : Mem) (bp sz a : Nat) : Mem :=
  PUT (PUT m (bp - 4) (sz + a)) (bp + sz - 8) (sz + a)

/-- The word at address `q` does not overlap the link words of any member of `fl`. -/
def Clear (q : Nat) (fl : List Nat) : Prop := ∀ x ∈ fl, q + 4 ≤ x ∨ x + 8 ≤ q

end MM

namespace MM

/-- State in which `coalesce(c.bp)` is called: the block `c` has just been tagged free, is
not yet on the free list, and the rest of the heap is well formed. -/
structure PreCoal (s : Heap) (pre : List Blk) (c : Blk) (post : List Blk) (fl : List Nat) :
    Prop where
  base : Base s (pre ++ c :: post) fl
  cfree : c.alloc = 0
  cnot : c.bp ∉ fl
  flall : ∀ b ∈ pre ++ post, b.alloc = 0 → b.bp ∈ fl
  noadj : NoAdjFree (pre ++ { c with alloc := 1 } :: post)

end MM

namespace MM

/-- Memory `m'` agrees with `m` outside the block span from block pointer `q` to block
pointer `r` (headers included), except possibly inside link words of members of `fl`. -/
def FrameOut (m m' : Mem) (q r : Nat) (fl : List Nat) : Prop :=
  ∀ a, (a + 4 < q ∨ r ≤ a + 4) → (∀ x ∈ fl, a < x ∨ x + 8 ≤ a) → m' a = m a

end MM

namespace MM

/-- The free block immediately before the current one, if any. -/
def prevFree (pre : List Blk) : Option Blk :=
  match pre.getLast? with
  | some pv => if pv.alloc = 0 then some pv else none
  | none => none

/-- The free block immediately after the current one, if any. -/
def nextFree (post : List Blk) : Option Blk :=
  match post.head? with
  | some nx => if nx.alloc = 0 then some nx else none
  | none => none

/-- The block produced by coalescing the free block `c` with its free neighbours. -/
def coalesceBlk (pre : List Blk) (c : Blk) (post : List Blk) : Blk :=
  match prevFree pre, nextFree post with
  | none, none => ⟨c.bp, c.size, 0⟩
  | none, some nx => ⟨c.bp, c.size + nx.size, 0⟩
  | some pv, none => ⟨pv.bp, pv.size + c.size, 0⟩
  | some pv, some nx => ⟨pv.bp, pv.size + c.size + nx.size, 0⟩

/-- The block list after coalescing `c`. -/
def coalesceBlocks (pre : List Blk) (c : Blk) (post : List Blk) : List Blk :=
  (if (prevFree pre).isSome then pre.dropLast else pre) ++
    coalesceBlk pre c post :: (if (nextFree post).isSome then post.tail else post)

/-- The free list after coalescing `c`. -/
def coalesceList (pre : List Blk) (c : Blk) (post : List Blk) (fl : List Nat) : List Nat :=
  match prevFree pre, nextFree post with
  | none, none => c.bp :: fl
  | none, some nx => c.bp :: fl.erase nx.bp
  | some _, none => fl
  | some _, some nx => fl.erase nx.bp

end MM

namespace MM

/-- The block list after `place(c.bp, asize)` on the free block `c`. -/
def placeBlocks (pre : List Blk) (c : Blk) (post : List Blk) (asize : Nat) : List Blk :=
  if c.size - asize ≥ 16 then
    pre ++ ⟨c.bp, asize, 1⟩ :: ⟨c.bp + asize, c.size - asize, 0⟩ :: post
  else pre ++ ⟨c.bp, c.size, 1⟩ :: post

/-- The free list after `place(c.bp, asize)` on the free block `c`. -/
def placeList (c : Blk) (asize : Nat) (fl : List Nat) : List Nat :=
  if c.size - asize ≥ 16 then (c.bp + asize) :: fl.erase c.bp else fl.erase c.bp

end MM

namespace MM

/-! ## Client view: live allocations, reachable states, heap walks -/

/-- Memory `m'` agrees with `m` on the whole span (header, payload, footer) of every
allocated block of `bs`. -/
def SpanFrame (m m' : Mem) (bs : List Blk) : Prop :=
  ∀ b ∈ bs, b.alloc = 1 → ∀ a, b.bp ≤ a + 4 → a + 4 < b.bp + b.size → m' a = m a

/-- The table of live allocations: each entry is the pointer handed out and the number of
bytes that were requested for it. -/
abbrev Live := List (Nat × Nat)

/-- Every live allocation is an allocated block large enough for the request. -/
def LiveOK (bs : List Blk) (live : Live) : Prop :=
  ∀ e ∈ live, ∃ b ∈ bs, b.bp = e.1 ∧ b.alloc = 1 ∧ e.2 + 8 ≤ b.size

/-- A well-formed heap whose allocated blocks cover the live allocations. -/
def Inv (s : Heap) (live : Live) : Prop := ∃ bs fl, WF s bs fl ∧ LiveOK bs live

/-- The call that took memory `m` to `m'` left the block at `q` alone: its header, its
payload and its footer (the bytes from `q - 4` up to `q + GET_SIZE(HDRP(q)) - 4`) are
unchanged. -/
def Keeps (m m' : Mem) (q : Nat) : Prop :=
  ∀ a, q ≤ a + 4 → a + 4 < q + GET_SIZE m (HDRP q) → m' a = m a

/-- An arena on which nothing has been requested yet: the base is a multiple of 8 and the
capacity stays within the reach of the 32-bit link offsets. -/
def Fresh (s : Heap) : Prop :=
  s.mem_brk = s.mem_heap ∧ s.mem_heap % 8 = 0 ∧ s.mem_max_addr ≤ s.mem_heap + 2 ^ 31

/-- The live table after `realloc(ptr, size)` returned `q`. -/
def reallocLive (live : Live) (ptr size q : Nat) : Live :=
  if size = 0 then live.filter (fun e => e.1 ≠ ptr)
  else if q = 0 then live
  else (q, size) :: live.filter (fun e => e.1 ≠ ptr)

/-- States reachable from a successful `mm_init` by `mm_malloc`, `mm_free` of live pointers,
`realloc` of NULL or live pointers, and stores of the client into the bytes it requested
for a live allocation, together with the table of live allocations.  Every requested size
is below `lim`. -/
inductive Reach (lim : Nat) : Heap → Live → Prop
  | start (s0 : Heap) : Fresh s0 → (mm_init s0).2 = 0 → Reach lim (mm_init s0).1 []
  | malloc (s : Heap) (live : Live) (fuel size : Nat) (s' : Heap) (p : Nat) :
      Reach lim s live → size < lim → mm_malloc fuel s size = some (s', p) →
      Reach lim s' (if p = 0 then live else (p, size) :: live)
  | free (s : Heap) (live : Live) (p : Nat) :
      Reach lim s live → p ∈ live.map Prod.fst →
      Reach lim (mm_free s p) (live.filter (fun e => e.1 ≠ p))
  | realloc (s : Heap) (live : Live) (fuel ptr size : Nat) (s' : Heap) (q : Nat) :
      Reach lim s live → size < lim → (ptr = 0 ∨ ptr ∈ live.map Prod.fst) →
      realloc fuel s ptr size = some (s', q) →
      Reach lim s' (reallocLive live ptr size q)
  | store (s : Heap) (live : Live) (p n : Nat) (m' : Mem) :
      Reach lim s live → (p, n) ∈ live → (∀ a, (a < p ∨ p + n ≤ a) → m' a = s.mem a) →
      Reach lim { s with mem := m' } live

/-- The physical block list read from memory: block pointers from `bp` up to the first
header of size 0 (the epilogue), following `NEXT_BLKP`; `fuel` bounds the walk. -/
def blockWalk (m : Mem) : Nat → Nat → Option (List Nat)
  | 0, _ => none
  | fuel + 1, bp =>
    if GET_SIZE m (HDRP bp) = 0 then some []
    else (blockWalk m fuel (NEXT_BLKP m bp)).map (fun l => bp :: l)

/-- The free list read from memory: block pointers from `bp` following the next offsets up
to a 0 offset; `fuel` bounds the walk. -/
def freeWalk (m : Mem) : Nat → Nat → Option (List Nat)
  | 0, _ => none
  | fuel + 1, bp =>
    if bp = 0 then some []
    else if GET m (NEXT_FRBP bp) = 0 then some [bp]
    else (freeWalk m fuel (ptrAdd bp (toInt (GET m (NEXT_FRBP bp))))).map (fun l => bp :: l)

/-- The blocks between the prologue and the epilogue, when the walk ends within `fuel`. -/
def heapBlocks (fuel : Nat) (s : Heap) : Option (List Nat) :=
  blockWalk s.mem fuel (NEXT_BLKP s.mem s.heap_listp)

/-- No two physically adjacent blocks between prologue and epilogue are both free. -/
def NoAdjacentFree (s : Heap) : Prop :=
  ∃ fuel L, heapBlocks fuel s = some L ∧
    L.Chain' (fun a b => GET_ALLOC s.mem (HDRP a) ≠ 0 ∨ GET_ALLOC s.mem (HDRP b) ≠ 0)

/-- The free list is exactly the set of blocks whose header has the allocated flag clear,
each of them once. -/
def FreeListExact (s : Heap) : Prop :=
  ∃ fuel L F, heapBlocks fuel s = some L ∧ freeWalk s.mem fuel s.fr_listp = some F ∧
    F.Nodup ∧ ∀ x, x ∈ F ↔ (x ∈ L ∧ GET_ALLOC s.mem (HDRP x) = 0)

/-- Every block between prologue and epilogue has a footer equal to its header, and the
predecessor of its successor is the block itself. -/
def TagsMatch (s : Heap) : Prop :=
  ∃ fuel L, heapBlocks fuel s = some L ∧
    ∀ bp ∈ L, GET s.mem (HDRP bp) = GET s.mem (FTRP s.mem bp) ∧
      PREV_BLKP s.mem (NEXT_BLKP s.mem bp) = bp

/-! ## Closed forms of the states built by `mm_init` -/

/-- The state in which `mm_init` calls `extend_heap`: padding, prologue and epilogue are
written at the old end `s.mem_brk` of the arena. -/
def initMid (s : Heap) : Heap :=
  ⟨PUT (PUT (PUT (PUT s.mem s.mem_brk 0) (s.mem_brk + 4) 9) (s.mem_brk + 8) 9)
    (s.mem_brk + 12) 1, s.mem_heap, s.mem_brk + 16, s.mem_max_addr, s.mem_brk + 8, 0⟩

/-- The state a successful `mm_init` leaves behind. -/
def initHeap (s : Heap) : Heap :=
  ⟨PUT (PUT (PUT (setTags (initMid s).mem (s.mem_brk + 16) 4096 0)
    (s.mem_brk + 16 + 4096 - 4) 1) (s.mem_brk + 16) 0) (s.mem_brk + 16 + 4) 0,
    s.mem_heap, s.mem_brk + 16 + 4096, s.mem_max_addr, s.mem_brk + 8, s.mem_brk + 16⟩

/-! ## Concrete states used as test inputs -/

/-- An empty arena at address 1024 with room for 100000 bytes. -/
def s0 : Heap := ⟨fun _ => 0, 1024, 1024, 101024, 0, 0⟩

/-- The state after `mm_init` on `s0`. -/
def sI : Heap := (mm_init s0).1

/-- The result of `mm_malloc`, with the input state and NULL when the scan bound is hit. -/
def stepMalloc (fuel : Nat) (s : Heap) (size : Nat) : Heap × Nat :=
  (mm_malloc fuel s size).getD (s, 0)

/-- The result of `realloc`, with the input state and NULL when the scan bound is hit. -/
def stepRealloc (fuel : Nat) (s : Heap) (ptr size : Nat) : Heap × Nat :=
  (realloc fuel s ptr size).getD (s, 0)

/-- The state after `mm_init` and `mm_malloc(16)`, which returns 1040. -/
def sA : Heap := (stepMalloc 5 sI 16).1

/-- The state `sA` after the client stored the words 4 and 7 in its allocation. -/
def sP : Heap := { sA with mem := PUT (PUT sA.mem 1040 4) 1048 7 }

/-- The state after a second `mm_malloc(16)`, which returns 1064. -/
def sB : Heap := (stepMalloc 5 sA 16).1

/-- The state after freeing the first allocation. -/
def sC : Heap := mm_free sB 1040

/-- The state after `mm_malloc(2^64 - 8)` on `sC`, which returns 1040. -/
def sD : Heap := (stepMalloc 5 sC (2 ^ 64 - 8)).1

/-- The state after freeing 1040 again. -/
def sE : Heap := mm_free sD 1040

/-- The state after `mm_malloc(2^64 - 1)` on the initial heap. -/
def sW : Heap := (stepMalloc 5 sI (2 ^ 64 - 1)).1

/-- The state after `mm_malloc(2^64 - 8)` on `sA`. -/
def sX : Heap := (stepMalloc 5 sA (2 ^ 64 - 8)).1

end MM

namespace MM

/-! ## Free lists on their own -/

/-- The list `fl` is the free list of `s`, well formed: `fr_listp` is its head (NULL when
empty), consecutive members are linked both ways with the head's prev-offset and the
tail's next-offset 0, no member occurs twice, and the members lie in a window of `2 ^ 31`
bytes above `lo` with link words that do not overlap. -/
def FreeListWF (s : Heap) (lo : Nat) (fl : List Nat) : Prop :=
  s.fr_listp = fl.headD 0 ∧ Links s.mem fl ∧ fl.Nodup ∧ FlSep lo fl

/-! ## Readings used by `coalesce` -/

/-- The local `prev_alloc` of `coalesce(bp)`: `GET_ALLOC(FTRP(PREV_BLKP(bp)))`. -/
def prev_alloc (m : Mem) (bp : Nat) : Nat := GET_ALLOC m (FTRP m (PREV_BLKP m bp))

/-- The local `next_alloc` of `coalesce(bp)`: `GET_ALLOC(HDRP(NEXT_BLKP(bp)))`. -/
def next_alloc (m : Mem) (bp : Nat) : Nat := GET_ALLOC m (HDRP (NEXT_BLKP m bp))

/-- The sum of the sizes recorded in the headers of the blocks `L`. -/
def totalSize (m : Mem) (L : List Nat) : Nat :=
  (L.map (fun bp => GET_SIZE m (HDRP bp))).sum

/-! ## Allocation rounds -/

/-- `k` calls `mm_malloc(size)` in a row: the final state and the addresses returned, in
order (`none`: the scan bound was hit). -/
def mallocN (fuel size : Nat) : Nat → Heap → Option (Heap × List Nat)
  | 0, s => some (s, [])
  | k + 1, s =>
    match mm_malloc fuel s size with
    | none => none
    | some (s1, p) =>
      match mallocN fuel size k s1 with
      | none => none
      | some (s2, ps) => some (s2, p :: ps)

/-- The calls `mm_free(p)` for the addresses `ps`, in order. -/
def freeAll (s : Heap) (ps : List Nat) : Heap := ps.foldl mm_free s

/-- One round: allocate `k` blocks of `size` bytes, then free them in allocation order. -/
def round (fuel k size : Nat) (s : Heap) : Option Heap :=
  (mallocN fuel size k s).map (fun r => freeAll r.1 r.2)

/-- The state after `n` rounds. -/
def rounds (fuel k size : Nat) : Nat → Heap → Option Heap
  | 0, s => some s
  | n + 1, s => (round fuel k size s).bind (rounds fuel k size n)

/-- The heap is one free block spanning everything between prologue and epilogue, and the
free list has exactly that member. -/
def OneBlock (s : Heap) : Prop :=
  heapBlocks 2 s = some [s.mem_heap + 16] ∧
  GET s.mem (HDRP (s.mem_heap + 16)) = PACK (s.mem_brk - (s.mem_heap + 16)) 0 ∧
  GET s.mem (FTRP s.mem (s.mem_heap + 16)) = GET s.mem (HDRP (s.mem_heap + 16)) ∧
  freeWalk s.mem 2 s.fr_listp = some [s.mem_heap + 16]

/-! ## More concrete states used as test inputs -/

/-- The state `sA` after block 1040 has been tagged free, as `mm_free(1040)` does before it
calls `coalesce`. -/
def sF : Heap := { sA with mem := setTags sA.mem 1040 24 0 }

/-- The state after `mm_init`, `mm_malloc(2^64 - 1)` (which returns 1040) and
`mm_free(1040)`. -/
def sV : Heap := mm_free sW 1040

/-- The state after `mm_init`, allocations of 1000, 16, 100, 16, 32 and 16 bytes (which
return 1040, 2048, 2072, 2184, 2208 and 2248) and the release of 2208, 2072 and 1040: the
free list is 1040, 2072, 2208, 2272, with the sizes 1008, 112, 40 and 2864. -/
def sG : Heap :=
  mm_free (mm_free (mm_free (stepMalloc 5 (stepMalloc 5 (stepMalloc 5 (stepMalloc 5
    (stepMalloc 5 (stepMalloc 5 sI 1000).1 16).1 100).1 16).1 32).1 16).1 2208) 2072) 1040

end MM

namespace MM

/-! ## The heap checker -/

/-- The lines `mm_checkheap` prints; a `%p` argument is kept as the address. -/
inductive Diag
  | checkHeap
  | epilogueOK
  | notAligned
  | hdrFtr (p : Nat)
  | twoFree
  | outOfHeap (p : Nat)
  | prologueOK
  | checkFreeList
  | freeListEmpty
  | inconsPrev
  | inconsNext
  | alloced (p : Nat)
  deriving DecidableEq, Repr

/-- Negation of an `unsigned int`: `-w`. -/
def negWord (w : Nat) : Nat := (2 ^ 32 - w % 2 ^ 32) % 2 ^ 32

/-- The block loop of `mm_checkheap` from the block pointer `p` with the counter `cnt` of
consecutive free blocks; `fuel` bounds the number of iterations (`none`: the bound was
reached). -/
def checkheap_blocks (s : Heap) : Nat → Nat → Nat → Option (List Diag)
  | 0, _, _ => none
  | fuel + 1, p, cnt =>
    if GET_SIZE s.mem (HDRP p) = 0 then some []
    else
      let p1 := NEXT_BLKP s.mem p
      let d1 := if p1 % 8 ≠ 0 then [Diag.notAligned] else []
      let d2 :=
        if GET s.mem (HDRP p1) ≠ GET s.mem (FTRP s.mem p1) ∧ GET_SIZE s.mem (HDRP p1) ≠ 0 then
          [Diag.hdrFtr p1]
        else []
      let cnt1 := if GET_ALLOC s.mem (HDRP p1) ≠ 0 then 0 else cnt + 1
      let d3 := if GET_ALLOC s.mem (HDRP p1) = 0 ∧ cnt1 = 2 then [Diag.twoFree] else []
      let d4 :=
        if (p1 < mem_heap_lo s ∨ p1 > mem_heap_hi s) ∧ GET_SIZE s.mem (HDRP p1) ≠ 0 then
          [Diag.outOfHeap p1]
        else []
      (checkheap_blocks s fuel p1 cnt1).map (fun r => d1 ++ d2 ++ d3 ++ d4 ++ r)

/-- The test `GET(PREV_FRBP(tmp)) != -GET(NEXT_FRBP(tmp + (int)GET(PREV_FRBP(tmp))))
&& tmp != fr_listp` of `mm_checkheap`. -/
def prevBad (s : Heap) (tmp : Nat) : Prop :=
  GET s.mem (PREV_FRBP tmp) ≠
      negWord (GET s.mem (NEXT_FRBP (ptrAdd tmp (toInt (GET s.mem (PREV_FRBP tmp)))))) ∧
    tmp ≠ s.fr_listp

/-- The test `GET(NEXT_FRBP(tmp)) != -GET(PREV_FRBP(tmp + (int)GET(NEXT_FRBP(tmp))))` of
`mm_checkheap`. -/
def nextBad (s : Heap) (tmp : Nat) : Prop :=
  GET s.mem (NEXT_FRBP tmp) ≠
    negWord (GET s.mem (PREV_FRBP (ptrAdd tmp (toInt (GET s.mem (NEXT_FRBP tmp))))))

instance (s : Heap) (tmp : Nat) : Decidable (prevBad s tmp) := by
  unfold prevBad; exact inferInstance

instance (s : Heap) (tmp : Nat) : Decidable (nextBad s tmp) := by
  unfold nextBad; exact inferInstance

/-- The free-list loop of `mm_checkheap` from the member `tmp`, with the tests made after
the loop on the member it stops at; `fuel` bounds the number of iterations. -/
def checkheap_free (s : Heap) : Nat → Nat → Option (List Diag)
  | 0, _ => none
  | fuel + 1, tmp =>
    let d1 := if prevBad s tmp then [Diag.inconsPrev] else []
    let d3 := if GET_ALLOC s.mem tmp ≠ 0 then [Diag.alloced tmp] else []
    if GET s.mem (NEXT_FRBP tmp) ≠ 0 then
      let d2 := if nextBad s tmp then [Diag.inconsNext] else []
      (checkheap_free s fuel (ptrAdd tmp (toInt (GET s.mem tmp)))).map
        (fun r => d1 ++ d2 ++ d3 ++ r)
    else
      let d4 :=
        if tmp < mem_heap_lo s ∨ tmp > mem_heap_hi s then [Diag.outOfHeap tmp] else []
      some (d1 ++ d3 ++ d4)

/-- The output of `mm_checkheap(lineno)`, line by line; `fuel` bounds each of its two
loops.  The allocator state is only read. -/
def mm_checkheap (fuel : Nat) (s : Heap) (_lineno : Int) : Option (List Diag) :=
  let d0 :=
    Diag.checkHeap ::
      (if GET_SIZE s.mem (HDRP s.heap_listp) = DSIZE then [Diag.epilogueOK] else [])
  match checkheap_blocks s fuel s.heap_listp 0 with
  | none => none
  | some db =>
    if s.fr_listp = 0 then
      some (d0 ++ db ++ [Diag.prologueOK, Diag.checkFreeList, Diag.freeListEmpty])
    else
      match checkheap_free s fuel s.fr_listp with
      | none => none
      | some df => some (d0 ++ db ++ [Diag.prologueOK, Diag.checkFreeList] ++ df)

/-! ## Concrete states for the heap checker -/

/-- The state `sA` in which header and footer of the free-list member 1064 have the
allocated flag set while 1064 stays on the free list. -/
def sK : Heap := { sA with mem := setTags sA.mem 1064 4072 1 }

/-- The state `sA` after the address 6000, which lies above `mem_heap_hi()`, has been
pushed on the free list: the free list is 6000, 1064. -/
def sQ : Heap := add_free_block sA 6000

end MM

set_option linter.all false

namespace MM

/-! ## Words, bytes and bit masks -/

theorem GET_lt (m : Mem) (p : Nat) : GET m p < 2 ^ 32 := by
  unfold GET
  omega

theorem PUT_frame (m : Mem) (p v a : Nat) (h : a < p ∨ p + 4 ≤ a) : PUT m p v a = m a := by
  unfold PUT
  have h1 : a ≠ p := by omega
  have h2 : a ≠ p + 1 := by omega
  have h3 : a ≠ p + 2 := by omega
  have h4 : a ≠ p + 3 := by omega
  simp [h1, h2, h3, h4]

theorem GET_congr (m m' : Mem) (q : Nat) (h : ∀ a, q ≤ a → a < q + 4 → m' a = m a) :
    GET m' q = GET m q := by
  unfold GET
  rw [h q (by omega) (by omega), h (q + 1) (by omega) (by omega), h (q + 2) (by omega) (by omega),
    h (q + 3) (by omega) (by omega)]

theorem GET_PUT_same (m : Mem) (p v : Nat) : GET (PUT m p v) p = v % 2 ^ 32 := by
  unfold GET PUT
  simp
  omega

theorem GET_PUT_disj (m : Mem) (p v q : Nat) (h : q + 4 ≤ p ∨ p + 4 ≤ q) :
    GET (PUT m p v) q = GET m q := by
  apply GET_congr
  intro a h1 h2
  exact PUT_frame m p v a (by omega)

theorem mask_testBit (i : Nat) (h : i < 32) : Nat.testBit 0xFFFFFFF8 i = decide (3 ≤ i) := by
  interval_cases i <;> rfl

theorem and_mask_eq (w : Nat) (h : w < 2 ^ 32) : w &&& 0xFFFFFFF8 = w / 8 * 8 := by
  apply Nat.eq_of_testBit_eq
  intro i
  rw [Nat.testBit_and, Nat.mul_comm, show (8:Nat) = 2 ^ 3 by norm_num, Nat.testBit_mul_pow_two,
    ← Nat.shiftRight_eq_div_pow, Nat.testBit_shiftRight]
  by_cases hi : i < 32
  · rw [mask_testBit i hi]
    by_cases h3 : 3 ≤ i
    · simp [h3, Nat.add_sub_cancel' h3]
    · simp [h3]
  · have : w.testBit i = false := by
      apply Nat.testBit_lt_two_pow
      calc w < 2 ^ 32 := h
        _ ≤ 2 ^ i := Nat.pow_le_pow_right (by norm_num) (by omega)
    have h3 : 3 ≤ i := by omega
    simp [this, h3, Nat.add_sub_cancel' h3]

theorem PACK_eq (size a : Nat) (h : size % 8 = 0) (ha : a < 8) : PACK size a = size + a := by
  have := Nat.mul_add_lt_is_or (i := 3) (b := a) (by simpa using ha) (size / 8)
  have h2 : 2 ^ 3 * (size / 8) = size := by omega
  rw [h2] at this
  exact this.symm

theorem GET_SIZE_eq (m : Mem) (p : Nat) : GET_SIZE m p = GET m p / 8 * 8 :=
  and_mask_eq _ (GET_lt m p)

theorem GET_ALLOC_eq (m : Mem) (p : Nat) : GET_ALLOC m p = GET m p % 2 := by
  unfold GET_ALLOC
  exact Nat.and_one_is_mod _

theorem GET_SIZE_of_tag (m : Mem) (p sz a : Nat) (h : GET m p = sz + a) (h8 : sz % 8 = 0)
    (ha : a ≤ 1) : GET_SIZE m p = sz := by
  rw [GET_SIZE_eq, h]
  omega

theorem GET_ALLOC_of_tag (m : Mem) (p sz a : Nat) (h : GET m p = sz + a) (h8 : sz % 8 = 0)
    (ha : a ≤ 1) : GET_ALLOC m p = a := by
  rw [GET_ALLOC_eq, h]
  omega

theorem GET_SIZE_lt (m : Mem) (p : Nat) : GET_SIZE m p < 2 ^ 32 := by
  have := GET_lt m p
  rw [GET_SIZE_eq]
  omega

theorem GET_SIZE_mod8 (m : Mem) (p : Nat) : GET_SIZE m p % 8 = 0 := by
  rw [GET_SIZE_eq]
  omega

theorem GET_SIZE_PUT_same (m : Mem) (p sz a : Nat) (h8 : sz % 8 = 0) (ha : a ≤ 1)
    (hlt : sz + a < 2 ^ 32) : GET_SIZE (PUT m p (sz + a)) p = sz := by
  apply GET_SIZE_of_tag _ _ sz a _ h8 ha
  rw [GET_PUT_same]
  omega

theorem GET_SIZE_PUT_disj (m : Mem) (p v q : Nat) (h : q + 4 ≤ p ∨ p + 4 ≤ q) :
    GET_SIZE (PUT m p v) q = GET_SIZE m q := by
  unfold GET_SIZE
  rw [GET_PUT_disj _ _ _ _ h]

theorem GET_ALLOC_PUT_disj (m : Mem) (p v q : Nat) (h : q + 4 ≤ p ∨ p + 4 ≤ q) :
    GET_ALLOC (PUT m p v) q = GET_ALLOC m q := by
  unfold GET_ALLOC
  rw [GET_PUT_disj _ _ _ _ h]

/-! ## Signed link offsets -/

theorem toWord_ADDR_SUB (p q : Nat) : toWord (ADDR_SUB p q) = toWord ((p : Int) - (q : Int)) := by
  unfold ADDR_SUB toInt toWord
  split <;> omega

theorem toWord_lt (z : Int) : toWord z < 2 ^ 32 := by
  unfold toWord
  omega

theorem toInt_toWord (z : Int) (h1 : -(2 ^ 31) ≤ z) (h2 : z < 2 ^ 31) : toInt (toWord z) = z := by
  unfold toInt toWord
  split <;> omega

theorem ptrAdd_link (p q : Nat) (h1 : q < p + 2 ^ 31) (h2 : p < q + 2 ^ 31) :
    ptrAdd p (toInt (toWord ((q : Int) - (p : Int)))) = q := by
  rw [toInt_toWord _ (by omega) (by omega)]
  unfold ptrAdd
  omega

theorem toWord_eq_zero (p q : Nat) (h1 : q < p + 2 ^ 31) (h2 : p < q + 2 ^ 31) :
    toWord ((q : Int) - (p : Int)) = 0 ↔ q = p := by
  unfold toWord
  omega

end MM

namespace MM

/-! ## Free-list primitives -/

theorem linkTo_dec (x y : Nat) (h1 : y < x + 2 ^ 31) (h2 : x < y + 2 ^ 31) :
    ptrAdd x (toInt (linkTo x y)) = y := ptrAdd_link x y h1 h2

theorem linkTo_ne_zero (x y : Nat) (h1 : y < x + 2 ^ 31) (h2 : x < y + 2 ^ 31) (h : x ≠ y) :
    linkTo x y ≠ 0 := by
  intro h0
  exact h ((toWord_eq_zero x y h1 h2).1 h0).symm

theorem linkTo_lt (x y : Nat) : linkTo x y < 2 ^ 32 := toWord_lt _

theorem linkTo_mod (x y : Nat) : linkTo x y % 2 ^ 32 = linkTo x y :=
  Nat.mod_eq_of_lt (linkTo_lt x y)

theorem toWord_ADDR_SUB_link (x y : Nat) : toWord (ADDR_SUB y x) = linkTo x y :=
  toWord_ADDR_SUB y x

theorem LinkR_congr (m m' : Mem) (x y : Nat) (hx : ∀ a, x ≤ a → a < x + 4 → m' a = m a)
    (hy : ∀ a, y + 4 ≤ a → a < y + 8 → m' a = m a) (h : LinkR m x y) : LinkR m' x y := by
  unfold LinkR at *
  rw [GET_congr m m' x hx, GET_congr m m' (y + 4) hy]
  exact h

theorem Links_congr (m m' : Mem) (fl : List Nat)
    (hf : ∀ x ∈ fl, ∀ a, x ≤ a → a < x + 8 → m' a = m a) (h : Links m fl) : Links m' fl := by
  obtain ⟨hc, hh, ht⟩ := h
  refine ⟨?_, ?_, ?_⟩
  · rw [List.Chain'.iff_mem] at hc ⊢
    refine hc.imp ?_
    rintro a b ⟨ha, hb, hab⟩
    refine ⟨ha, hb, LinkR_congr m m' a b ?_ ?_ hab⟩
    · intro c h1 h2
      exact hf a ha c h1 (by omega)
    · intro c h1 h2
      exact hf b hb c (by omega) h2
  · intro x hx
    rw [GET_congr m m' (x + 4)]
    · exact hh x hx
    · intro a h1 h2
      exact hf x (List.mem_of_mem_head? hx) a (by omega) (by omega)
  · intro x hx
    rw [GET_congr m m' x]
    · exact ht x hx
    · intro a h1 h2
      exact hf x (List.mem_of_mem_getLast? hx) a h1 (by omega)

end MM

namespace MM

theorem Chain_congr (m m' : Mem) (l : List Nat)
    (hn : ∀ x ∈ l.dropLast, ∀ a, x ≤ a → a < x + 4 → m' a = m a)
    (hp : ∀ x ∈ l.tail, ∀ a, x + 4 ≤ a → a < x + 8 → m' a = m a)
    (h : List.Chain' (LinkR m) l) : List.Chain' (LinkR m') l := by
  induction l with
  | nil => exact List.chain'_nil
  | cons x r ih =>
    cases r with
    | nil => exact List.chain'_singleton x
    | cons y r2 =>
      rw [List.chain'_cons] at h ⊢
      refine ⟨LinkR_congr m m' x y (hn x (by simp)) (hp y (by simp)) h.1, ih ?_ ?_ h.2⟩
      · intro z hz
        exact hn z (by rw [List.dropLast_cons₂]; exact List.mem_cons_of_mem _ hz)
      · intro z hz
        exact hp z (by simp only [List.tail_cons] at hz ⊢; exact List.mem_cons_of_mem _ hz)

@[simp] theorem add_free_block_brk (s : Heap) (bp : Nat) :
    (add_free_block s bp).mem_brk = s.mem_brk := by
  unfold add_free_block; split <;> rfl

@[simp] theorem add_free_block_heap (s : Heap) (bp : Nat) :
    (add_free_block s bp).mem_heap = s.mem_heap := by
  unfold add_free_block; split <;> rfl

@[simp] theorem add_free_block_max (s : Heap) (bp : Nat) :
    (add_free_block s bp).mem_max_addr = s.mem_max_addr := by
  unfold add_free_block; split <;> rfl

@[simp] theorem add_free_block_hl (s : Heap) (bp : Nat) :
    (add_free_block s bp).heap_listp = s.heap_listp := by
  unfold add_free_block; split <;> rfl

@[simp] theorem add_free_block_fr (s : Heap) (bp : Nat) :
    (add_free_block s bp).fr_listp = bp := by
  unfold add_free_block; split <;> rfl

@[simp] theorem delete_free_block_brk (s : Heap) (bp : Nat) :
    (delete_free_block s bp).mem_brk = s.mem_brk := by
  unfold delete_free_block; split <;> split <;> rfl

@[simp] theorem delete_free_block_heap (s : Heap) (bp : Nat) :
    (delete_free_block s bp).mem_heap = s.mem_heap := by
  unfold delete_free_block; split <;> split <;> rfl

@[simp] theorem delete_free_block_max (s : Heap) (bp : Nat) :
    (delete_free_block s bp).mem_max_addr = s.mem_max_addr := by
  unfold delete_free_block; split <;> split <;> rfl

@[simp] theorem delete_free_block_hl (s : Heap) (bp : Nat) :
    (delete_free_block s bp).heap_listp = s.heap_listp := by
  unfold delete_free_block; split <;> split <;> rfl

theorem add_free_block_nil (s : Heap) (bp : Nat) (h : s.fr_listp = 0) :
    add_free_block s bp = { s with mem := PUT (PUT s.mem bp 0) (bp + 4) 0, fr_listp := bp } := by
  simp [add_free_block, h, NEXT_FRBP, PREV_FRBP]

theorem add_free_block_cons (s : Heap) (bp : Nat) (h : s.fr_listp ≠ 0) :
    add_free_block s bp =
      { s with mem := PUT (PUT (PUT s.mem (bp + 4) 0) bp (linkTo bp s.fr_listp)) (s.fr_listp + 4)
                  (linkTo s.fr_listp bp),
               fr_listp := bp } := by
  simp [add_free_block, h, NEXT_FRBP, PREV_FRBP, toWord_ADDR_SUB_link]

/-- Pushing a block onto a well-formed free list: the list becomes `bp :: fl`, and memory
changes only inside the link words of `bp` and of the old head. -/
theorem add_free_block_links (s : Heap) (fl : List Nat) (bp lo : Nat)
    (hl : Links s.mem fl) (hh : s.fr_listp = fl.headD 0)
    (hsep : FlSep lo (bp :: fl)) (hnd : (bp :: fl).Nodup) :
    Links (add_free_block s bp).mem (bp :: fl) ∧
    (∀ a, (a < bp ∨ bp + 8 ≤ a) → (a < s.fr_listp + 4 ∨ s.fr_listp + 8 ≤ a ∨ s.fr_listp = 0) →
      (add_free_block s bp).mem a = s.mem a) := by
  obtain ⟨hc, hhd, hlast⟩ := hl
  cases fl with
  | nil =>
    simp only [List.headD_nil] at hh
    rw [add_free_block_nil s bp hh]
    simp only []
    refine ⟨⟨List.chain'_singleton _, ?_, ?_⟩, ?_⟩
    · intro x hx
      simp only [List.head?_cons, Option.some.injEq] at hx
      subst hx
      rw [GET_PUT_same]; rfl
    · intro x hx
      simp only [List.getLast?_singleton, Option.some.injEq] at hx
      subst hx
      rw [GET_PUT_disj _ _ _ _ (by omega), GET_PUT_same]; rfl
    · intro a h1 _
      rw [PUT_frame _ _ _ _ (by omega), PUT_frame _ _ _ _ (by omega)]
  | cons h t =>
    simp only [List.headD_cons] at hh
    have hbp := hsep.1 bp (by simp)
    have hh' := hsep.1 h (by simp)
    have hd := hsep.2 bp (by simp) h (by simp)
    have hne : bp ≠ h := by
      intro e
      rw [List.nodup_cons] at hnd
      exact hnd.1 (by simp [e])
    have hfr0 : s.fr_listp ≠ 0 := by omega
    rw [add_free_block_cons s bp hfr0]
    simp only [hh]
    refine ⟨⟨?_, ?_, ?_⟩, ?_⟩
    · rw [List.chain'_cons]
      refine ⟨⟨?_, ?_⟩, ?_⟩
      · rw [GET_PUT_disj _ _ _ _ (by omega), GET_PUT_same, linkTo_mod]
      · rw [GET_PUT_same, linkTo_mod]
      · refine Chain_congr s.mem _ (h :: t) ?_ ?_ hc
        · intro x hx a h1 h2
          have hxm := List.mem_of_mem_dropLast hx
          have hxs := hsep.2 bp (by simp) x (List.mem_cons_of_mem _ hxm)
          have hxh := hsep.2 h (by simp) x (List.mem_cons_of_mem _ hxm)
          have : bp ≠ x := by
            intro e
            rw [List.nodup_cons] at hnd
            exact hnd.1 (e ▸ hxm)
          rw [PUT_frame _ _ _ _ (by omega), PUT_frame _ _ _ _ (by omega),
            PUT_frame _ _ _ _ (by omega)]
        · intro x hx a h1 h2
          simp only [List.tail_cons] at hx
          have hxs := hsep.2 bp (by simp) x (by simp [hx])
          have hxh := hsep.2 h (by simp) x (by simp [hx])
          rw [List.nodup_cons, List.nodup_cons] at hnd
          have : bp ≠ x := by
            intro e
            exact hnd.1 (by simp [e, hx])
          have : h ≠ x := by
            intro e
            exact hnd.2.1 (e ▸ hx)
          rw [PUT_frame _ _ _ _ (by omega), PUT_frame _ _ _ _ (by omega),
            PUT_frame _ _ _ _ (by omega)]
    · intro x hx
      simp only [List.head?_cons, Option.some.injEq] at hx
      subst hx
      rw [GET_PUT_disj _ _ _ _ (by omega), GET_PUT_disj _ _ _ _ (by omega), GET_PUT_same]; rfl
    · intro x hx
      rw [List.getLast?_cons_cons] at hx
      have hxm : x ∈ h :: t := List.mem_of_mem_getLast? hx
      have hxs := hsep.2 bp (by simp) x (List.mem_cons_of_mem _ hxm)
      have hxh := hsep.2 h (by simp) x (List.mem_cons_of_mem _ hxm)
      have : bp ≠ x := by
        intro e
        rw [List.nodup_cons] at hnd
        exact hnd.1 (e ▸ hxm)
      rw [GET_PUT_disj _ _ _ _ (by omega), GET_PUT_disj _ _ _ _ (by omega),
        GET_PUT_disj _ _ _ _ (by omega)]
      exact hlast x hx
    · intro a h1 h2
      rw [PUT_frame _ _ _ _ (by omega), PUT_frame _ _ _ _ (by omega),
        PUT_frame _ _ _ _ (by omega)]

end MM

namespace MM

/-- Removing the member `bp` from a linked list, given what the new memory keeps and what
it re-links at the junction. -/
theorem Links_splice (m m' : Mem) (l1 l2 : List Nat) (bp : Nat)
    (hl : Links m (l1 ++ bp :: l2))
    (F1 : ∀ x ∈ l1.dropLast, ∀ a, x ≤ a → a < x + 4 → m' a = m a)
    (F2 : ∀ x ∈ l1, ∀ a, x + 4 ≤ a → a < x + 8 → m' a = m a)
    (F3 : ∀ x ∈ l2, ∀ a, x ≤ a → a < x + 4 → m' a = m a)
    (F4 : ∀ x ∈ l2.tail, ∀ a, x + 4 ≤ a → a < x + 8 → m' a = m a)
    (J1 : l1 = [] → ∀ y, l2.head? = some y → GET m' (y + 4) = 0)
    (J2 : l2 = [] → ∀ x, l1.getLast? = some x → GET m' x = 0)
    (J3 : ∀ x, l1.getLast? = some x → ∀ y, l2.head? = some y → LinkR m' x y) :
    Links m' (l1 ++ l2) := by
  obtain ⟨hc, hhd, hlast⟩ := hl
  rw [List.chain'_append] at hc
  obtain ⟨hc1, hc2, -⟩ := hc
  refine ⟨?_, ?_, ?_⟩
  · rw [List.chain'_append]
    refine ⟨Chain_congr m m' l1 F1 ?_ hc1, Chain_congr m m' l2 ?_ F4 hc2.tail, ?_⟩
    · intro x hx
      exact F2 x (List.mem_of_mem_tail hx)
    · intro x hx
      exact F3 x (List.mem_of_mem_dropLast hx)
    · intro x hx y hy
      exact J3 x hx y hy
  · intro x hx
    cases l1 with
    | nil => exact J1 rfl x (by simpa using hx)
    | cons h t =>
      simp only [List.cons_append, List.head?_cons, Option.some.injEq] at hx
      subst hx
      rw [GET_congr m m' (h + 4) (fun a h1 h2 => F2 h (by simp) a h1 (by omega))]
      exact hhd h (by simp)
  · intro x hx
    cases l2 with
    | nil =>
      simp only [List.append_nil] at hx
      exact J2 rfl x hx
    | cons h t =>
      rw [List.getLast?_append_cons] at hx
      rw [GET_congr m m' x (fun a h1 h2 => F3 x (List.mem_of_mem_getLast? hx) a h1 (by omega))]
      apply hlast
      rw [List.getLast?_append_cons, List.getLast?_cons_cons]
      exact hx

theorem delete_free_block_head_last (s : Heap) (bp : Nat) (h1 : bp = s.fr_listp)
    (h2 : GET s.mem bp = 0) : delete_free_block s bp = { s with fr_listp := 0 } := by
  subst h1
  simp [delete_free_block, NEXT_FRBP, h2]

theorem delete_free_block_head (s : Heap) (bp t2 : Nat) (h1 : bp = s.fr_listp)
    (h2 : GET s.mem bp ≠ 0) (h3 : ptrAdd bp (toInt (GET s.mem bp)) = t2) :
    delete_free_block s bp = { s with mem := PUT s.mem (t2 + 4) 0, fr_listp := t2 } := by
  subst h1
  simp [delete_free_block, NEXT_FRBP, PREV_FRBP, h2, h3]

theorem delete_free_block_last (s : Heap) (bp t1 : Nat) (h1 : bp ≠ s.fr_listp)
    (h2 : GET s.mem bp = 0) (h3 : ptrAdd bp (toInt (GET s.mem (bp + 4))) = t1) :
    delete_free_block s bp = { s with mem := PUT s.mem t1 0 } := by
  simp [delete_free_block, NEXT_FRBP, PREV_FRBP, h1, h2, h3]

theorem delete_free_block_mid (s : Heap) (bp t1 t2 : Nat) (h1 : bp ≠ s.fr_listp)
    (h2 : GET s.mem bp ≠ 0) (h3 : ptrAdd bp (toInt (GET s.mem (bp + 4))) = t1)
    (h4 : ptrAdd bp (toInt (GET s.mem bp)) = t2) :
    delete_free_block s bp =
      { s with mem := PUT (PUT s.mem t1 (linkTo t1 t2)) (t2 + 4) (linkTo t2 t1) } := by
  simp [delete_free_block, NEXT_FRBP, PREV_FRBP, h1, h2, h3, h4, toWord_ADDR_SUB_link]

end MM

namespace MM

theorem headD_append_mem (l1 l : List Nat) (h : l1 ≠ []) : (l1 ++ l).headD 0 ∈ l1 := by
  cases l1 with
  | nil => exact absurd rfl h
  | cons a t => simp

/-- Unlinking a member of a well-formed free list: the list loses exactly that member, the
order of the others is kept, and memory changes only inside link words of other members. -/
theorem delete_free_block_links (s : Heap) (l1 l2 : List Nat) (bp lo : Nat)
    (hl : Links s.mem (l1 ++ bp :: l2)) (hh : s.fr_listp = (l1 ++ bp :: l2).headD 0)
    (hsep : FlSep lo (l1 ++ bp :: l2)) (hnd : (l1 ++ bp :: l2).Nodup) :
    Links (delete_free_block s bp).mem (l1 ++ l2) ∧
    (delete_free_block s bp).fr_listp = (l1 ++ l2).headD 0 ∧
    (∀ a, (∀ x ∈ l1 ++ l2, a < x ∨ x + 8 ≤ a) → (delete_free_block s bp).mem a = s.mem a) := by
  have hnd' := hnd
  rw [List.nodup_append, List.nodup_cons] at hnd'
  obtain ⟨hn1, ⟨hbp2, hn2⟩, hdis⟩ := hnd'
  have hbp1 : bp ∉ l1 := fun h => hdis h (by simp)
  have h12 : ∀ x ∈ l1, ∀ y ∈ l2, x ≠ y := by
    intro x hx y hy e
    exact hdis hx (by simp [e, hy])
  have sep : ∀ x ∈ l1 ++ bp :: l2, ∀ y ∈ l1 ++ bp :: l2, x ≠ y → x + 8 ≤ y ∨ y + 8 ≤ x := by
    intro x hx y hy hne
    rcases hsep.2 x hx y hy with h | h
    · exact absurd h hne
    · exact h
  have rng := hsep.1
  have hc := hl.1
  have hbpm : bp ∈ l1 ++ bp :: l2 := by simp
  rcases List.eq_nil_or_concat l1 with rfl | ⟨L, t1, rfl⟩
  · simp only [List.nil_append, List.headD_cons] at hh
    cases l2 with
    | nil =>
      have h0 : GET s.mem bp = 0 := hl.2.2 bp (by simp)
      rw [delete_free_block_head_last s bp hh.symm h0]
      refine ⟨⟨List.chain'_nil, by simp, by simp⟩, rfl, fun a _ => rfl⟩
    | cons t2 r =>
      have hlk : LinkR s.mem bp t2 := by
        simp only [List.nil_append, List.chain'_cons] at hc
        exact hc.1
      have ht2m : t2 ∈ [] ++ bp :: t2 :: r := by simp
      have hne : bp ≠ t2 := by
        intro e
        exact hbp2 (by simp [e])
      have r1 := rng bp hbpm
      have r2 := rng t2 ht2m
      have hg : GET s.mem bp ≠ 0 := by
        rw [hlk.1]
        exact linkTo_ne_zero bp t2 (by omega) (by omega) hne
      have hd : ptrAdd bp (toInt (GET s.mem bp)) = t2 := by
        rw [hlk.1]
        exact linkTo_dec bp t2 (by omega) (by omega)
      rw [delete_free_block_head s bp t2 hh.symm hg hd]
      refine ⟨?_, rfl, ?_⟩
      · refine Links_splice s.mem _ [] (t2 :: r) bp hl (by simp) (by simp) ?_ ?_ ?_ (by simp) (by simp)
        · intro x hx a h1 h2
          have hxm : x ∈ [] ++ bp :: t2 :: r := by simp [List.mem_cons.1 hx]
          have := hsep.2 x hxm t2 ht2m
          exact PUT_frame _ _ _ _ (by omega)
        · intro x hx a h1 h2
          simp only [List.tail_cons] at hx
          have hxm : x ∈ [] ++ bp :: t2 :: r := by simp [hx]
          have hxne : x ≠ t2 := by
            intro e
            rw [List.nodup_cons] at hn2
            exact hn2.1 (e ▸ hx)
          have := sep x hxm t2 ht2m hxne
          exact PUT_frame _ _ _ _ (by omega)
        · intro _ y hy
          simp only [List.head?_cons, Option.some.injEq] at hy
          subst hy
          rw [GET_PUT_same]; rfl
      · intro a ha
        have := ha t2 (by simp)
        exact PUT_frame _ _ _ _ (by omega)
  · rw [List.concat_eq_append] at *
    have ht1m : t1 ∈ L ++ [t1] ++ bp :: l2 := by simp
    have ht1l : t1 ∈ L ++ [t1] := by simp
    have hnefr : bp ≠ s.fr_listp := by
      intro e
      apply hbp1
      rw [e, hh]
      exact headD_append_mem _ _ (by simp)
    have hlk1 : LinkR s.mem t1 bp := by
      rw [List.chain'_append] at hc
      exact hc.2.2 t1 (by simp) bp (by simp)
    have hne1 : t1 ≠ bp := fun e => hbp1 (e ▸ ht1l)
    have r1 := rng bp hbpm
    have r2 := rng t1 ht1m
    have hd1 : ptrAdd bp (toInt (GET s.mem (bp + 4))) = t1 := by
      rw [hlk1.2]
      exact linkTo_dec bp t1 (by omega) (by omega)
    have hL : ∀ x ∈ L, x ≠ t1 := by
      intro x hx e
      rw [List.nodup_append] at hn1
      exact hn1.2.2 hx (by simp [e])
    have hfr : (L ++ [t1] ++ l2).headD 0 = (L ++ [t1] ++ bp :: l2).headD 0 := by
      cases L <;> simp
    cases l2 with
    | nil =>
      have h0 : GET s.mem bp = 0 := hl.2.2 bp (by simp)
      rw [delete_free_block_last s bp t1 hnefr h0 hd1]
      refine ⟨?_, ?_, ?_⟩
      · refine Links_splice s.mem _ (L ++ [t1]) [] bp hl ?_ ?_ (by simp) (by simp) (by simp) ?_ (by simp)
        · intro x hx a h1 h2
          simp only [List.dropLast_concat] at hx
          have hxm : x ∈ L ++ [t1] ++ [bp] := by simp [hx]
          have := sep x hxm t1 ht1m (hL x hx)
          exact PUT_frame _ _ _ _ (by omega)
        · intro x hx a h1 h2
          have hxm : x ∈ L ++ [t1] ++ [bp] := by
            simp only [List.mem_append, List.mem_singleton] at hx ⊢
            tauto
          have := hsep.2 x hxm t1 ht1m
          exact PUT_frame _ _ _ _ (by omega)
        · intro _ x hx
          simp only [List.getLast?_concat, Option.some.injEq] at hx
          subst hx
          rw [GET_PUT_same]; rfl
      · simp only [hh]
        exact hfr.symm
      · intro a ha
        have := ha t1 (by simp)
        exact PUT_frame _ _ _ _ (by omega)
    | cons t2 r =>
      have hlk2 : LinkR s.mem bp t2 := by
        rw [List.chain'_append, List.chain'_cons] at hc
        exact hc.2.1.1
      have ht2m : t2 ∈ L ++ [t1] ++ bp :: t2 :: r := by simp
      have hne2 : bp ≠ t2 := by
        intro e
        exact hbp2 (by simp [e])
      have hne12 : t1 ≠ t2 := h12 t1 ht1l t2 (by simp)
      have r3 := rng t2 ht2m
      have s12 := sep t1 ht1m t2 ht2m hne12
      have hg : GET s.mem bp ≠ 0 := by
        rw [hlk2.1]
        exact linkTo_ne_zero bp t2 (by omega) (by omega) hne2
      have hd2 : ptrAdd bp (toInt (GET s.mem bp)) = t2 := by
        rw [hlk2.1]
        exact linkTo_dec bp t2 (by omega) (by omega)
      rw [delete_free_block_mid s bp t1 t2 hnefr hg hd1 hd2]
      show Links (PUT (PUT s.mem t1 (linkTo t1 t2)) (t2 + 4) (linkTo t2 t1)) _ ∧ s.fr_listp = _ ∧
        ∀ a, _ → PUT (PUT s.mem t1 (linkTo t1 t2)) (t2 + 4) (linkTo t2 t1) a = s.mem a
      refine ⟨?_, ?_, ?_⟩
      · refine Links_splice s.mem _ (L ++ [t1]) (t2 :: r) bp hl ?_ ?_ ?_ ?_ (by simp) (by simp) ?_
        · intro x hx a h1 h2
          simp only [List.dropLast_concat] at hx
          have hxm : x ∈ L ++ [t1] ++ bp :: t2 :: r := by simp [hx]
          have := sep x hxm t1 ht1m (hL x hx)
          have := hsep.2 x hxm t2 ht2m
          rw [PUT_frame _ _ _ _ (by omega), PUT_frame _ _ _ _ (by omega)]
        · intro x hx a h1 h2
          have hxm : x ∈ L ++ [t1] ++ bp :: t2 :: r := by
            simp only [List.mem_append, List.mem_singleton, List.mem_cons] at hx ⊢
            tauto
          have := hsep.2 x hxm t1 ht1m
          have := sep x hxm t2 ht2m (h12 x hx t2 (by simp))
          rw [PUT_frame _ _ _ _ (by omega), PUT_frame _ _ _ _ (by omega)]
        · intro x hx a h1 h2
          have hxm : x ∈ L ++ [t1] ++ bp :: t2 :: r := by
            simp only [List.mem_append, List.mem_singleton, List.mem_cons] at hx ⊢
            tauto
          have := sep x hxm t1 ht1m (fun e => h12 t1 ht1l x hx e.symm)
          have := hsep.2 x hxm t2 ht2m
          rw [PUT_frame _ _ _ _ (by omega), PUT_frame _ _ _ _ (by omega)]
        · intro x hx a h1 h2
          simp only [List.tail_cons] at hx
          have hxm : x ∈ L ++ [t1] ++ bp :: t2 :: r := by simp [hx]
          have hxne : x ≠ t2 := by
            intro e
            rw [List.nodup_cons] at hn2
            exact hn2.1 (e ▸ hx)
          have := hsep.2 x hxm t1 ht1m
          have := sep x hxm t2 ht2m hxne
          rw [PUT_frame _ _ _ _ (by omega), PUT_frame _ _ _ _ (by omega)]
        · intro x hx y hy
          simp only [List.getLast?_concat, Option.some.injEq] at hx
          simp only [List.head?_cons, Option.some.injEq] at hy
          subst hx hy
          refine ⟨?_, ?_⟩
          · dsimp only
            rw [GET_PUT_disj _ _ _ _ (by omega), GET_PUT_same, linkTo_mod]
          · dsimp only
            rw [GET_PUT_same, linkTo_mod]
      · simp only [hh]
        exact hfr.symm
      · intro a ha
        have := ha t1 (by simp)
        have := ha t2 (by simp)
        rw [PUT_frame _ _ _ _ (by omega), PUT_frame _ _ _ _ (by omega)]

end MM

namespace MM

/-! ## Layout of the block list -/

theorem Layout_nil (p e : Nat) : Layout p [] e ↔ p = e := Iff.rfl

theorem Layout_cons (p e : Nat) (b : Blk) (r : List Blk) :
    Layout p (b :: r) e ↔
      b.bp = p ∧ 16 ≤ b.size ∧ b.size % 8 = 0 ∧ b.alloc ≤ 1 ∧ Layout (p + b.size) r e := Iff.rfl

theorem Layout_append (l1 l2 : List Blk) (p e : Nat) :
    Layout p (l1 ++ l2) e ↔ ∃ q, Layout p l1 q ∧ Layout q l2 e := by
  induction l1 generalizing p with
  | nil => simp [Layout]
  | cons b r ih =>
    rw [List.cons_append, Layout_cons, ih]
    constructor
    · rintro ⟨h1, h2, h3, h4, q, h5, h6⟩
      exact ⟨q, (Layout_cons _ _ _ _).2 ⟨h1, h2, h3, h4, h5⟩, h6⟩
    · rintro ⟨q, h0, h6⟩
      obtain ⟨h1, h2, h3, h4, h5⟩ := (Layout_cons _ _ _ _).1 h0
      exact ⟨h1, h2, h3, h4, q, h5, h6⟩

theorem Layout_le (bs : List Blk) (p e : Nat) (h : Layout p bs e) : p ≤ e := by
  induction bs generalizing p with
  | nil => exact le_of_eq h
  | cons b r ih =>
    obtain ⟨-, -, -, -, h5⟩ := h
    have := ih _ h5
    omega

theorem Layout_mem (bs : List Blk) (p e : Nat) (h : Layout p bs e) (b : Blk) (hb : b ∈ bs) :
    p ≤ b.bp ∧ b.bp + b.size ≤ e ∧ 16 ≤ b.size ∧ b.size % 8 = 0 ∧ b.alloc ≤ 1 := by
  induction bs generalizing p with
  | nil => cases hb
  | cons c r ih =>
    obtain ⟨h1, h2, h3, h4, h5⟩ := h
    rcases List.mem_cons.1 hb with rfl | hb'
    · have := Layout_le _ _ _ h5
      refine ⟨by omega, by omega, h2, h3, h4⟩
    · have := ih _ h5 hb'
      refine ⟨by omega, this.2⟩

theorem Layout_mod8 (bs : List Blk) (p e : Nat) (h : Layout p bs e) (hp : p % 8 = 0) (b : Blk)
    (hb : b ∈ bs) : b.bp % 8 = 0 := by
  induction bs generalizing p with
  | nil => cases hb
  | cons c r ih =>
    obtain ⟨h1, h2, h3, h4, h5⟩ := h
    rcases List.mem_cons.1 hb with rfl | hb'
    · omega
    · exact ih _ h5 (by omega) hb'

theorem Layout_end_mod8 (bs : List Blk) (p e : Nat) (h : Layout p bs e) (hp : p % 8 = 0) :
    e % 8 = 0 := by
  induction bs generalizing p with
  | nil => rw [← h]; exact hp
  | cons c r ih =>
    obtain ⟨h1, h2, h3, h4, h5⟩ := h
    exact ih _ h5 (by omega)

theorem Layout_sep (bs : List Blk) (p e : Nat) (h : Layout p bs e) (b c : Blk) (hb : b ∈ bs)
    (hc : c ∈ bs) : b = c ∨ b.bp + b.size ≤ c.bp ∨ c.bp + c.size ≤ b.bp := by
  induction bs generalizing p with
  | nil => cases hb
  | cons d r ih =>
    obtain ⟨h1, h2, h3, h4, h5⟩ := h
    rcases List.mem_cons.1 hb with rfl | hb'
    · rcases List.mem_cons.1 hc with rfl | hc'
      · exact Or.inl rfl
      · have := Layout_mem _ _ _ h5 c hc'
        right; left; omega
    · rcases List.mem_cons.1 hc with rfl | hc'
      · have := Layout_mem _ _ _ h5 b hb'
        right; right; omega
      · exact ih _ h5 hb' hc'

theorem Layout_bp_inj (bs : List Blk) (p e : Nat) (h : Layout p bs e) (b c : Blk) (hb : b ∈ bs)
    (hc : c ∈ bs) (hbc : b.bp = c.bp) : b = c := by
  rcases Layout_sep bs p e h b c hb hc with h1 | h1 | h1
  · exact h1
  · have := Layout_mem _ _ _ h b hb
    omega
  · have := Layout_mem _ _ _ h c hc
    omega

/-- Decomposition of a layout around one block. -/
theorem Layout_split (pre post : List Blk) (c : Blk) (p e : Nat)
    (h : Layout p (pre ++ c :: post) e) :
    Layout p pre c.bp ∧ Layout (c.bp + c.size) post e ∧ 16 ≤ c.size ∧ c.size % 8 = 0 ∧
      c.alloc ≤ 1 := by
  rw [Layout_append] at h
  obtain ⟨q, h1, h2, h3, h4, h5, h6⟩ := h
  subst h2
  exact ⟨h1, h6, h3, h4, h5⟩

theorem Layout_join (pre post : List Blk) (c : Blk) (p e : Nat) (h1 : Layout p pre c.bp)
    (h2 : Layout (c.bp + c.size) post e) (h3 : 16 ≤ c.size) (h4 : c.size % 8 = 0)
    (h5 : c.alloc ≤ 1) : Layout p (pre ++ c :: post) e := by
  rw [Layout_append]
  exact ⟨c.bp, h1, rfl, h3, h4, h5, h2⟩

/-! ## Tag words and link words do not overlap -/

theorem Clear_tags (bs : List Blk) (p e : Nat) (h : Layout p bs e) (hp : 4 ≤ p) (fl : List Nat)
    (hfl : ∀ x ∈ fl, ∃ b ∈ bs, b.bp = x) (c : Blk) (hc : c ∈ bs) :
    Clear (c.bp - 4) fl ∧ Clear (c.bp + c.size - 8) fl := by
  have hcm := Layout_mem _ _ _ h c hc
  constructor
  · intro x hx
    obtain ⟨b, hb, rfl⟩ := hfl x hx
    have hbm := Layout_mem _ _ _ h b hb
    rcases Layout_sep _ _ _ h b c hb hc with h1 | h1 | h1
    · subst h1; omega
    · omega
    · omega
  · intro x hx
    obtain ⟨b, hb, rfl⟩ := hfl x hx
    have hbm := Layout_mem _ _ _ h b hb
    rcases Layout_sep _ _ _ h b c hb hc with h1 | h1 | h1
    · subst h1; omega
    · omega
    · omega

theorem Clear_outside (bs : List Blk) (p e : Nat) (h : Layout p bs e) (fl : List Nat)
    (hfl : ∀ x ∈ fl, ∃ b ∈ bs, b.bp = x) (q : Nat) (hq : q + 4 ≤ p ∨ e ≤ q + 4) :
    Clear q fl := by
  intro x hx
  obtain ⟨b, hb, rfl⟩ := hfl x hx
  have hbm := Layout_mem _ _ _ h b hb
  omega

theorem FlSep_of_layout (bs : List Blk) (p e lo : Nat) (h : Layout p bs e) (fl : List Nat)
    (hfl : ∀ x ∈ fl, ∃ b ∈ bs, b.bp = x) (hlo : lo < p) (he : e ≤ lo + 2 ^ 31) : FlSep lo fl := by
  constructor
  · intro x hx
    obtain ⟨b, hb, rfl⟩ := hfl x hx
    have hbm := Layout_mem _ _ _ h b hb
    omega
  · intro x hx y hy
    obtain ⟨b, hb, rfl⟩ := hfl x hx
    obtain ⟨c, hc, rfl⟩ := hfl y hy
    have hbm := Layout_mem _ _ _ h b hb
    have hcm := Layout_mem _ _ _ h c hc
    rcases Layout_sep _ _ _ h b c hb hc with h1 | h1 | h1
    · subst h1; left; rfl
    · omega
    · omega

/-! ## Rewriting boundary tags -/

theorem tag_write_eq (m : Mem) (bp sz a : Nat) (h8 : sz % 8 = 0) (ha : a ≤ 1)
    (hlt : sz + a < 2 ^ 32) :
    PUT (PUT m (HDRP bp) (PACK sz a)) (FTRP (PUT m (HDRP bp) (PACK sz a)) bp) (PACK sz a) =
      setTags m bp sz a := by
  have hp : PACK sz a = sz + a := PACK_eq sz a h8 (by omega)
  unfold FTRP setTags HDRP
  simp only [WSIZE, DSIZE, hp]
  rw [GET_SIZE_PUT_same m (bp - 4) sz a h8 ha hlt]

theorem setTags_frame (m : Mem) (bp sz a x : Nat)
    (h1 : x < bp - 4 ∨ bp - 4 + 4 ≤ x) (h2 : x < bp + sz - 8 ∨ bp + sz - 8 + 4 ≤ x) :
    setTags m bp sz a x = m x := by
  unfold setTags
  rw [PUT_frame _ _ _ _ h2, PUT_frame _ _ _ _ h1]

theorem GET_setTags_disj (m : Mem) (bp sz a q : Nat)
    (h1 : q + 4 ≤ bp - 4 ∨ bp - 4 + 4 ≤ q) (h2 : q + 4 ≤ bp + sz - 8 ∨ bp + sz - 8 + 4 ≤ q) :
    GET (setTags m bp sz a) q = GET m q := by
  unfold setTags
  rw [GET_PUT_disj _ _ _ _ h2, GET_PUT_disj _ _ _ _ h1]

theorem setTags_Tagged (m : Mem) (bp sz a : Nat) (hbp : 4 ≤ bp) (hsz : 8 ≤ sz)
    (hlt : sz + a < 2 ^ 32) : Tagged (setTags m bp sz a) ⟨bp, sz, a⟩ := by
  unfold Tagged setTags
  refine ⟨?_, ?_⟩
  · simp only []
    rw [GET_PUT_disj _ _ _ _ (by omega), GET_PUT_same, Nat.mod_eq_of_lt hlt]
  · simp only []
    rw [GET_PUT_same, Nat.mod_eq_of_lt hlt]

theorem Links_setTags (m : Mem) (fl : List Nat) (bp sz a : Nat) (h : Links m fl)
    (h1 : Clear (bp - 4) fl) (h2 : Clear (bp + sz - 8) fl) : Links (setTags m bp sz a) fl := by
  apply Links_congr m _ fl _ h
  intro x hx y hy1 hy2
  have := h1 x hx
  have := h2 x hx
  exact setTags_frame m bp sz a y (by omega) (by omega)

theorem Links_PUT (m : Mem) (fl : List Nat) (p v : Nat) (h : Links m fl)
    (h1 : Clear p fl) : Links (PUT m p v) fl := by
  apply Links_congr m _ fl _ h
  intro x hx y hy1 hy2
  have := h1 x hx
  exact PUT_frame m p v y (by omega)

theorem Tagged_congr (m m' : Mem) (b : Blk) (h : Tagged m b)
    (h1 : GET m' (b.bp - 4) = GET m (b.bp - 4))
    (h2 : GET m' (b.bp + b.size - 8) = GET m (b.bp + b.size - 8)) : Tagged m' b := by
  unfold Tagged at *
  rw [h1, h2]
  exact h

end MM
namespace MM

/-- Reassembling the structural invariant after the blocks `mid` (spanning block pointers `q`
to `r`) have been replaced by `mid'`: memory outside that span changed only inside link words
of old free-list members. -/
theorem Base_replace (s s' : Heap) (pre mid mid' post : List Blk) (fl fl' : List Nat) (q r : Nat)
    (hb : Base s (pre ++ mid ++ post) fl)
    (hheap : s'.mem_heap = s.mem_heap) (hbrk : s'.mem_brk = s.mem_brk)
    (hmax : s'.mem_max_addr = s.mem_max_addr) (hhl : s'.heap_listp = s.heap_listp)
    (hq : Layout (s.mem_heap + 16) pre q) (hmid' : Layout q mid' r)
    (hr : Layout r post s.mem_brk)
    (hFF : ∀ a, (a + 4 < q ∨ r ≤ a + 4) → (∀ x ∈ fl, a < x ∨ x + 8 ≤ a) → s'.mem a = s.mem a)
    (hT : Tags s'.mem mid')
    (hlinks : Links s'.mem fl') (hhead : s'.fr_listp = fl'.headD 0) (hnd : fl'.Nodup)
    (hsub : ∀ x ∈ fl', ∃ b ∈ pre ++ mid' ++ post, b.bp = x ∧ b.alloc = 0) :
    Base s' (pre ++ mid' ++ post) fl' := by
  have hflold : ∀ x ∈ fl, ∃ b ∈ pre ++ mid ++ post, b.bp = x := by
    intro x hx
    obtain ⟨b, hb1, hb2, -⟩ := hb.flsub x hx
    exact ⟨b, hb1, hb2⟩
  have hqr := Layout_le _ _ _ hmid'
  have hpq := Layout_le _ _ _ hq
  have hre := Layout_le _ _ _ hr
  have hword : ∀ w, (w + 8 ≤ q ∨ r ≤ w + 4) → Clear w fl → GET s'.mem w = GET s.mem w := by
    intro w hw hcl
    apply GET_congr
    intro a h1 h2
    apply hFF a (by omega)
    intro x hx
    have := hcl x hx
    omega
  have hold : ∀ b ∈ pre ++ post, Tagged s'.mem b := by
    intro b hbm
    have hbm' : b ∈ pre ++ mid ++ post := by
      simp only [List.mem_append] at hbm ⊢
      tauto
    have hcl := Clear_tags _ _ _ hb.layout (by omega) fl hflold b hbm'
    have hpos : b.bp + b.size ≤ q ∨ r ≤ b.bp := by
      rcases List.mem_append.1 hbm with h | h
      · exact Or.inl (Layout_mem _ _ _ hq b h).2.1
      · exact Or.inr (Layout_mem _ _ _ hr b h).1
    have hbb := Layout_mem _ _ _ hb.layout b hbm'
    refine Tagged_congr s.mem s'.mem b (hb.tags b hbm') (hword _ (by omega) hcl.1)
      (hword _ (by omega) hcl.2)
  refine { lo8 := ?_, cap := ?_, brk_le := ?_, hl := ?_, pro_h := ?_, pro_f := ?_, layout := ?_,
           epi := ?_, tags := ?_, flhead := hhead, links := hlinks, nodup := hnd, flsub := hsub }
  · rw [hheap]; exact hb.lo8
  · rw [hheap, hmax]; exact hb.cap
  · rw [hbrk, hmax]; exact hb.brk_le
  · rw [hhl, hheap]; exact hb.hl
  · rw [hheap, hword _ (by omega) (Clear_outside _ _ _ hb.layout fl hflold _ (by omega))]
    exact hb.pro_h
  · rw [hheap, hword _ (by omega) (Clear_outside _ _ _ hb.layout fl hflold _ (by omega))]
    exact hb.pro_f
  · rw [hheap, hbrk, Layout_append]
    exact ⟨r, (Layout_append _ _ _ _).2 ⟨q, hq, hmid'⟩, hr⟩
  · rw [hbrk, hword _ (by omega) (Clear_outside _ _ _ hb.layout fl hflold _ (by omega))]
    exact hb.epi
  · intro b hbm
    simp only [List.mem_append] at hbm
    rcases hbm with (h | h) | h
    · exact hold b (List.mem_append_left _ h)
    · exact hT b h
    · exact hold b (List.mem_append_right _ h)

/-- Reassembling well-formedness after the blocks `mid` (spanning block pointers `q` to `r`)
have been replaced by `mid'`: memory outside that span changed only inside link words of
old free-list members. -/
theorem WF_replace (s s' : Heap) (pre mid mid' post : List Blk) (fl fl' : List Nat) (q r : Nat)
    (hb : Base s (pre ++ mid ++ post) fl)
    (hheap : s'.mem_heap = s.mem_heap) (hbrk : s'.mem_brk = s.mem_brk)
    (hmax : s'.mem_max_addr = s.mem_max_addr) (hhl : s'.heap_listp = s.heap_listp)
    (hq : Layout (s.mem_heap + 16) pre q) (hmid' : Layout q mid' r)
    (hr : Layout r post s.mem_brk)
    (hFF : ∀ a, (a + 4 < q ∨ r ≤ a + 4) → (∀ x ∈ fl, a < x ∨ x + 8 ≤ a) → s'.mem a = s.mem a)
    (hT : Tags s'.mem mid')
    (hlinks : Links s'.mem fl') (hhead : s'.fr_listp = fl'.headD 0) (hnd : fl'.Nodup)
    (hsub : ∀ x ∈ fl', ∃ b ∈ pre ++ mid' ++ post, b.bp = x ∧ b.alloc = 0)
    (hall : ∀ b ∈ pre ++ mid' ++ post, b.alloc = 0 → b.bp ∈ fl')
    (hna : NoAdjFree (pre ++ mid' ++ post)) :
    WF s' (pre ++ mid' ++ post) fl' :=
  { toBase := Base_replace s s' pre mid mid' post fl fl' q r hb hheap hbrk hmax hhl hq hmid' hr
      hFF hT hlinks hhead hnd hsub,
    noadj := hna, flall := hall }

end MM
namespace MM

theorem PUT_comm (m : Mem) (p v q w : Nat) (h : p + 4 ≤ q ∨ q + 4 ≤ p) :
    PUT (PUT m p v) q w = PUT (PUT m q w) p v := by
  funext a
  by_cases h1 : a < q ∨ q + 4 ≤ a
  · rw [PUT_frame _ q w a h1]
    by_cases h2 : a < p ∨ p + 4 ≤ a
    · rw [PUT_frame _ p v a h2, PUT_frame _ p v a h2, PUT_frame _ q w a h1]
    · unfold PUT
      have e1 : a ≠ q := by omega
      have e2 : a ≠ q + 1 := by omega
      have e3 : a ≠ q + 2 := by omega
      have e4 : a ≠ q + 3 := by omega
      simp [e1, e2, e3, e4]
  · have h2 : a < p ∨ p + 4 ≤ a := by omega
    rw [PUT_frame _ p v a h2]
    unfold PUT
    have e1 : a ≠ p := by omega
    have e2 : a ≠ p + 1 := by omega
    have e3 : a ≠ p + 2 := by omega
    have e4 : a ≠ p + 3 := by omega
    simp [e1, e2, e3, e4]

/-- Numeric facts about a block of a well-formed heap. -/
theorem Base_block (s : Heap) (pre post : List Blk) (c : Blk) (fl : List Nat)
    (hb : Base s (pre ++ c :: post) fl) :
    Layout (s.mem_heap + 16) pre c.bp ∧ Layout (c.bp + c.size) post s.mem_brk ∧
    16 ≤ c.size ∧ c.size % 8 = 0 ∧ c.alloc ≤ 1 ∧ s.mem_heap + 16 ≤ c.bp ∧
    c.bp + c.size ≤ s.mem_brk ∧ s.mem_brk ≤ s.mem_heap + 2 ^ 31 ∧ Tagged s.mem c := by
  obtain ⟨h1, h2, h3, h4, h5⟩ := Layout_split _ _ _ _ _ hb.layout
  have := Layout_le _ _ _ h1
  have := Layout_le _ _ _ h2
  have := hb.cap
  have := hb.brk_le
  exact ⟨h1, h2, h3, h4, h5, by omega, by omega, by omega, hb.tags c (by simp)⟩

theorem GET_SIZE_hdr (m : Mem) (c : Blk) (ht : Tagged m c) (h8 : c.size % 8 = 0)
    (ha : c.alloc ≤ 1) : GET_SIZE m (c.bp - 4) = c.size :=
  GET_SIZE_of_tag m _ c.size c.alloc ht.1 h8 ha

theorem GET_SIZE_ftr (m : Mem) (c : Blk) (ht : Tagged m c) (h8 : c.size % 8 = 0)
    (ha : c.alloc ≤ 1) : GET_SIZE m (c.bp + c.size - 8) = c.size :=
  GET_SIZE_of_tag m _ c.size c.alloc ht.2 h8 ha

theorem GET_ALLOC_hdr (m : Mem) (c : Blk) (ht : Tagged m c) (h8 : c.size % 8 = 0)
    (ha : c.alloc ≤ 1) : GET_ALLOC m (c.bp - 4) = c.alloc :=
  GET_ALLOC_of_tag m _ c.size c.alloc ht.1 h8 ha

theorem GET_ALLOC_ftr (m : Mem) (c : Blk) (ht : Tagged m c) (h8 : c.size % 8 = 0)
    (ha : c.alloc ≤ 1) : GET_ALLOC m (c.bp + c.size - 8) = c.alloc :=
  GET_ALLOC_of_tag m _ c.size c.alloc ht.2 h8 ha

/-- What `coalesce` reads about the block after `c`. -/
theorem next_view (s : Heap) (pre post : List Blk) (c : Blk) (fl : List Nat)
    (hb : Base s (pre ++ c :: post) fl) :
    GET_SIZE s.mem (HDRP c.bp) = c.size ∧ NEXT_BLKP s.mem c.bp = c.bp + c.size ∧
    GET_ALLOC s.mem (HDRP (NEXT_BLKP s.mem c.bp)) = (post.head?.map Blk.alloc).getD 1 := by
  obtain ⟨h1, h2, h3, h4, h5, h6, h7, h8, h9⟩ := Base_block s pre post c fl hb
  have hs : GET_SIZE s.mem (c.bp - 4) = c.size := GET_SIZE_hdr s.mem c h9 h4 h5
  have hn : NEXT_BLKP s.mem c.bp = c.bp + c.size := by
    unfold NEXT_BLKP
    simp only [WSIZE, hs]
  refine ⟨by simpa [HDRP] using hs, hn, ?_⟩
  rw [hn]
  cases post with
  | nil =>
    rw [Layout_nil] at h2
    simp only [HDRP, WSIZE, List.head?_nil, Option.map_none', Option.getD_none, h2]
    rw [GET_ALLOC_eq, hb.epi]
  | cons nx r =>
    have hnx := hb.tags nx (by simp)
    rw [Layout_cons] at h2
    obtain ⟨e1, e2, e3, e4, -⟩ := h2
    simp only [HDRP, WSIZE, List.head?_cons, Option.map_some', Option.getD_some, ← e1]
    exact GET_ALLOC_hdr s.mem nx hnx e3 e4

/-- What `coalesce` reads about the block before `c`, when there is one. -/
theorem prev_view_some (s : Heap) (pre post : List Blk) (pv c : Blk) (fl : List Nat)
    (hb : Base s (pre ++ pv :: c :: post) fl) :
    pv.bp + pv.size = c.bp ∧ PREV_BLKP s.mem c.bp = pv.bp ∧
    GET_SIZE s.mem (HDRP pv.bp) = pv.size ∧
    GET_ALLOC s.mem (FTRP s.mem (PREV_BLKP s.mem c.bp)) = pv.alloc := by
  obtain ⟨h1, h2, h3, h4, h5, h6, h7, h8, h9⟩ := Base_block s pre (c :: post) pv fl hb
  rw [Layout_cons] at h2
  obtain ⟨e1, -⟩ := h2
  have hf : GET_SIZE s.mem (pv.bp + pv.size - 8) = pv.size := GET_SIZE_ftr s.mem pv h9 h4 h5
  have hp : PREV_BLKP s.mem c.bp = pv.bp := by
    unfold PREV_BLKP
    simp only [DSIZE, e1, hf]
    omega
  have hs : GET_SIZE s.mem (pv.bp - 4) = pv.size := GET_SIZE_hdr s.mem pv h9 h4 h5
  refine ⟨e1.symm, hp, by simpa [HDRP] using hs, ?_⟩
  rw [hp]
  unfold FTRP
  simp only [HDRP, WSIZE, DSIZE, hs]
  exact GET_ALLOC_ftr s.mem pv h9 h4 h5

/-- When `c` is the first block, `coalesce` reads the prologue as its allocated predecessor. -/
theorem prev_view_none (s : Heap) (post : List Blk) (c : Blk) (fl : List Nat)
    (hb : Base s (c :: post) fl) :
    GET_ALLOC s.mem (FTRP s.mem (PREV_BLKP s.mem c.bp)) = 1 := by
  have hl := hb.layout
  rw [Layout_cons] at hl
  obtain ⟨e1, -⟩ := hl
  have h1 : GET_SIZE s.mem (s.mem_heap + 8) = 8 :=
    GET_SIZE_of_tag s.mem _ 8 1 hb.pro_f (by norm_num) (by norm_num)
  have h2 : GET_SIZE s.mem (s.mem_heap + 4) = 8 :=
    GET_SIZE_of_tag s.mem _ 8 1 hb.pro_h (by norm_num) (by norm_num)
  have hp : PREV_BLKP s.mem c.bp = s.mem_heap + 8 := by
    unfold PREV_BLKP
    simp only [DSIZE, e1]
    rw [show s.mem_heap + 16 - 8 = s.mem_heap + 8 by omega, h1]
    omega
  rw [hp]
  unfold FTRP
  simp only [HDRP, WSIZE, DSIZE]
  rw [show s.mem_heap + 8 - 4 = s.mem_heap + 4 by omega, h2,
    show s.mem_heap + 8 + 8 - 8 = s.mem_heap + 8 by omega]
  exact GET_ALLOC_of_tag s.mem _ 8 1 hb.pro_f (by norm_num) (by norm_num)

theorem prev_view (s : Heap) (pre post : List Blk) (c : Blk) (fl : List Nat)
    (hb : Base s (pre ++ c :: post) fl) :
    GET_ALLOC s.mem (FTRP s.mem (PREV_BLKP s.mem c.bp)) = (pre.getLast?.map Blk.alloc).getD 1 := by
  rcases List.eq_nil_or_concat pre with rfl | ⟨L, pv, rfl⟩
  · simpa using prev_view_none s post c fl (by simpa using hb)
  · rw [List.concat_eq_append] at hb ⊢
    have hb' : Base s (L ++ pv :: c :: post) fl := by simpa using hb
    simpa using (prev_view_some s L post pv c fl hb').2.2.2

end MM
namespace MM

theorem NoAdj_mid (pre post : List Blk) (c : Blk) :
    NoAdjFree (pre ++ c :: post) ↔
      NoAdjFree pre ∧ NoAdjFree post ∧ (∀ x ∈ pre.getLast?, x.alloc = 1 ∨ c.alloc = 1) ∧
      (∀ y ∈ post.head?, c.alloc = 1 ∨ y.alloc = 1) := by
  unfold NoAdjFree
  rw [List.chain'_append, List.chain'_cons']
  simp only [List.head?_cons, Option.mem_def, Option.some.injEq, forall_eq']
  tauto

theorem FrameOut_word (m m' : Mem) (q r : Nat) (fl : List Nat) (h : FrameOut m m' q r fl)
    (w : Nat) (hw : w + 8 ≤ q ∨ r ≤ w + 4) (hc : Clear w fl) : GET m' w = GET m w := by
  apply GET_congr
  intro a h1 h2
  apply h a (by omega)
  intro x hx
  have := hc x hx
  omega

/-- The members of the free list are boundary-tagged free blocks away from `c`. -/
theorem PreCoal_flsub (s : Heap) (pre post : List Blk) (c : Blk) (fl : List Nat)
    (h : PreCoal s pre c post fl) :
    ∀ x ∈ fl, ∃ b ∈ pre ++ post, b.bp = x ∧ b.alloc = 0 := by
  intro x hx
  obtain ⟨b, hb1, hb2, hb3⟩ := h.base.flsub x hx
  simp only [List.mem_append, List.mem_cons] at hb1
  rcases hb1 with h1 | rfl | h1
  · exact ⟨b, by simp [h1], hb2, hb3⟩
  · exact absurd (hb2 ▸ hx) h.cnot
  · exact ⟨b, by simp [h1], hb2, hb3⟩

/-- Case 1 of `coalesce`: both neighbours allocated. -/
theorem coalesce_case1 (s : Heap) (pre post : List Blk) (c : Blk) (fl : List Nat)
    (h : PreCoal s pre c post fl)
    (hp : ∀ pv ∈ pre.getLast?, pv.alloc = 1) (hn : ∀ nx ∈ post.head?, nx.alloc = 1) :
    coalesce s c.bp = (add_free_block s c.bp, c.bp) ∧
    WF (add_free_block s c.bp) (pre ++ c :: post) (c.bp :: fl) ∧
    FrameOut s.mem (add_free_block s c.bp).mem c.bp (c.bp + c.size) fl := by
  have hb := h.base
  obtain ⟨h1, h2, h3, h4, h5, h6, h7, h8, h9⟩ := Base_block s pre post c fl hb
  have hnv := next_view s pre post c fl hb
  have hpv := prev_view s pre post c fl hb
  have hpa : GET_ALLOC s.mem (FTRP s.mem (PREV_BLKP s.mem c.bp)) = 1 := by
    rw [hpv]
    cases hg : pre.getLast? with
    | none => rfl
    | some pv => simpa using hp pv hg
  have hna : GET_ALLOC s.mem (HDRP (NEXT_BLKP s.mem c.bp)) = 1 := by
    rw [hnv.2.2]
    cases hg : post.head? with
    | none => rfl
    | some nx => simpa using hn nx hg
  have heq : coalesce s c.bp = (add_free_block s c.bp, c.bp) := by
    unfold coalesce
    simp [hpa, hna]
  have hflold := PreCoal_flsub s pre post c fl h
  have hmemb : ∀ x ∈ c.bp :: fl, ∃ b ∈ pre ++ c :: post, b.bp = x := by
    intro x hx
    rcases List.mem_cons.1 hx with rfl | hx'
    · exact ⟨c, by simp, rfl⟩
    · obtain ⟨b, hb1, hb2, -⟩ := hflold x hx'
      refine ⟨b, ?_, hb2⟩
      simp only [List.mem_append, List.mem_cons] at hb1 ⊢
      tauto
  have hsep : FlSep s.mem_heap (c.bp :: fl) :=
    FlSep_of_layout _ _ _ _ hb.layout _ hmemb (by omega) (by omega)
  have hnd : (c.bp :: fl).Nodup := List.nodup_cons.2 ⟨h.cnot, hb.nodup⟩
  obtain ⟨hl, hfr⟩ := add_free_block_links s fl c.bp s.mem_heap hb.links hb.flhead hsep hnd
  have hFF : FrameOut s.mem (add_free_block s c.bp).mem c.bp (c.bp + c.size) fl := by
    intro a ha hx
    apply hfr a (by omega)
    cases hfl : fl with
    | nil =>
      right; right
      rw [hb.flhead, hfl]; rfl
    | cons y t =>
      have : s.fr_listp = y := by rw [hb.flhead, hfl]; rfl
      have := hx y (by rw [hfl]; simp)
      omega
  refine ⟨heq, ?_, hFF⟩
  have e : pre ++ c :: post = pre ++ [c] ++ post := by simp
  rw [e]
  have hbm := hb
  rw [e] at hbm
  have hfl' : ∀ x ∈ fl, ∃ b ∈ pre ++ c :: post, b.bp = x := fun x hx => hmemb x (List.mem_cons_of_mem _ hx)
  have hcl := Clear_tags _ _ _ hb.layout (by omega) fl hfl' c (by simp)
  refine WF_replace s _ pre [c] [c] post fl (c.bp :: fl) c.bp (c.bp + c.size) hbm (by simp) (by simp)
    (by simp) (by simp) h1 ?_ h2 ?_ ?_ hl (by simp) hnd ?_ ?_ ?_
  · rw [Layout_cons, Layout_nil]
    exact ⟨rfl, h3, h4, h5, rfl⟩
  · exact hFF
  · intro b hbm
    rw [List.mem_singleton] at hbm
    subst hbm
    refine Tagged_congr s.mem _ b h9 ?_ ?_
    · apply GET_congr
      intro a a1 a2
      apply hfr a (by omega)
      cases hfl : fl with
      | nil =>
        right; right
        rw [hb.flhead, hfl]; rfl
      | cons y t =>
        have : s.fr_listp = y := by rw [hb.flhead, hfl]; rfl
        have := hcl.1 y (by rw [hfl]; simp)
        omega
    · apply GET_congr
      intro a a1 a2
      apply hfr a (by omega)
      cases hfl : fl with
      | nil =>
        right; right
        rw [hb.flhead, hfl]; rfl
      | cons y t =>
        have : s.fr_listp = y := by rw [hb.flhead, hfl]; rfl
        have := hcl.2 y (by rw [hfl]; simp)
        omega
  · intro x hx
    rcases List.mem_cons.1 hx with rfl | hx'
    · exact ⟨c, by simp, rfl, h.cfree⟩
    · obtain ⟨b, hb1, hb2, hb3⟩ := hflold x hx'
      refine ⟨b, ?_, hb2, hb3⟩
      simp only [List.mem_append, List.mem_singleton] at hb1 ⊢
      tauto
  · intro b hbm hb0
    simp only [List.mem_append, List.mem_singleton] at hbm
    rcases hbm with (hq | rfl) | hq
    · exact List.mem_cons_of_mem _ (h.flall b (by simp [hq]) hb0)
    · simp
    · exact List.mem_cons_of_mem _ (h.flall b (by simp [hq]) hb0)
  · rw [← e, NoAdj_mid]
    have := (NoAdj_mid pre post { c with alloc := 1 }).1 h.noadj
    refine ⟨this.1, this.2.1, ?_, ?_⟩
    · intro x hx
      exact Or.inl (hp x hx)
    · intro y hy
      exact Or.inr (hn y hy)

end MM
namespace MM
set_option linter.all false

/-! ## The four branches of `coalesce` in closed form -/

theorem coalesce_branch1 (s : Heap) (bp : Nat)
    (hpa : GET_ALLOC s.mem (FTRP s.mem (PREV_BLKP s.mem bp)) ≠ 0)
    (hna : GET_ALLOC s.mem (HDRP (NEXT_BLKP s.mem bp)) ≠ 0) :
    coalesce s bp = (add_free_block s bp, bp) := by
  unfold coalesce
  simp [hpa, hna]

theorem coalesce_branch2 (s : Heap) (bp S nx : Nat)
    (hpa : GET_ALLOC s.mem (FTRP s.mem (PREV_BLKP s.mem bp)) ≠ 0)
    (hna : GET_ALLOC s.mem (HDRP (NEXT_BLKP s.mem bp)) = 0)
    (hnx : NEXT_BLKP s.mem bp = nx)
    (hS : GET_SIZE s.mem (HDRP bp) + GET_SIZE s.mem (HDRP nx) = S)
    (hS8 : S % 8 = 0) (hlt : S < 2 ^ 32) :
    coalesce s bp =
      (add_free_block { delete_free_block s nx with
        mem := setTags (delete_free_block s nx).mem bp S 0 } bp, bp) := by
  have ht := tag_write_eq (delete_free_block s nx).mem bp S 0 hS8 (by norm_num) (by omega)
  unfold coalesce
  simp only [hpa, hna, ne_eq, not_true_eq_false, not_false_eq_true, and_self, and_false, false_and,
    and_true, true_and, if_true, if_false]
  simp only [hnx, hS, ht]

theorem coalesce_branch3 (s : Heap) (bp S ftr pb : Nat)
    (hpa : GET_ALLOC s.mem (FTRP s.mem (PREV_BLKP s.mem bp)) = 0)
    (hna : GET_ALLOC s.mem (HDRP (NEXT_BLKP s.mem bp)) ≠ 0)
    (hS : GET_SIZE s.mem (HDRP bp) + GET_SIZE s.mem (HDRP (PREV_BLKP s.mem bp)) = S)
    (hpk : PACK S 0 = S) (hf : FTRP s.mem bp = ftr)
    (hp1 : PREV_BLKP (PUT s.mem ftr S) bp = pb)
    (hp2 : PREV_BLKP (PUT (PUT s.mem ftr S) (HDRP pb) S) bp = pb) :
    coalesce s bp = ({ s with mem := PUT (PUT s.mem ftr S) (HDRP pb) S }, pb) := by
  unfold coalesce
  simp only [hpa, hna, ne_eq, not_true_eq_false, not_false_eq_true, and_self, and_false, false_and,
    and_true, true_and, if_true, if_false]
  simp only [hS, hpk, hf, hp1, hp2]

theorem coalesce_branch4 (s : Heap) (bp S ftr pb nx : Nat)
    (hpa : GET_ALLOC s.mem (FTRP s.mem (PREV_BLKP s.mem bp)) = 0)
    (hna : GET_ALLOC s.mem (HDRP (NEXT_BLKP s.mem bp)) = 0)
    (hpb : PREV_BLKP s.mem bp = pb)
    (hS : GET_SIZE s.mem (HDRP bp) +
      (GET_SIZE s.mem (HDRP pb) + GET_SIZE s.mem (FTRP s.mem (NEXT_BLKP s.mem bp))) % 2 ^ 32 = S)
    (hpk : PACK S 0 = S)
    (hf : FTRP (PUT s.mem (HDRP pb) S) (NEXT_BLKP (PUT s.mem (HDRP pb) S) bp) = ftr)
    (hnx : NEXT_BLKP (PUT (PUT s.mem (HDRP pb) S) ftr S) bp = nx) :
    coalesce s bp =
      (delete_free_block { s with mem := PUT (PUT s.mem (HDRP pb) S) ftr S } nx,
        PREV_BLKP (delete_free_block { s with mem := PUT (PUT s.mem (HDRP pb) S) ftr S } nx).mem
          bp) := by
  unfold coalesce
  simp only [hpa, hna, ne_eq, not_true_eq_false, not_false_eq_true, and_self, and_false, false_and,
    and_true, true_and, if_true, if_false]
  simp only [hpb, hS, hpk, hf, hnx]

end MM
namespace MM

theorem PREV_BLKP_congr (m m' : Mem) (bp : Nat) (h : GET m' (bp - 8) = GET m (bp - 8)) :
    PREV_BLKP m' bp = PREV_BLKP m bp := by
  unfold PREV_BLKP GET_SIZE
  simp only [DSIZE, h]

theorem FrameOut_mono (m m' : Mem) (q r : Nat) (fl : List Nat) (h : FrameOut m m' q r []) :
    FrameOut m m' q r fl := by
  intro a ha _
  exact h a ha (by simp)

theorem FrameOut_setTags (m : Mem) (bp sz a : Nat) (hbp : 4 ≤ bp) (hsz : 8 ≤ sz) :
    FrameOut m (setTags m bp sz a) bp (bp + sz) [] := by
  intro x hx _
  exact setTags_frame m bp sz a x (by omega) (by omega)

/-- Case 3 of `coalesce` (only the preceding block is free): the code path in closed form. -/
theorem coalesce_case3_eq (s : Heap) (pre post : List Blk) (pv c : Blk) (fl : List Nat)
    (hb : Base s (pre ++ pv :: c :: post) fl) (hp : pv.alloc = 0)
    (hn : ∀ nx ∈ post.head?, nx.alloc = 1) :
    coalesce s c.bp =
      ({ s with mem := setTags s.mem pv.bp (pv.size + c.size) 0 }, pv.bp) := by
  have hb2 : Base s ((pre ++ [pv]) ++ c :: post) fl := by simpa using hb
  obtain ⟨h1, h2, h3, h4, h5, h6, h7, h8, h9⟩ := Base_block s (pre ++ [pv]) post c fl hb2
  obtain ⟨g1, g2, g3, g4, g5, g6, g7, g8, g9⟩ := Base_block s pre (c :: post) pv fl hb
  have hnv := next_view s (pre ++ [pv]) post c fl hb2
  obtain ⟨v1, v2, v3, v4⟩ := prev_view_some s pre post pv c fl hb
  have hpa : GET_ALLOC s.mem (FTRP s.mem (PREV_BLKP s.mem c.bp)) = 0 := by rw [v4, hp]
  have hna : GET_ALLOC s.mem (HDRP (NEXT_BLKP s.mem c.bp)) ≠ 0 := by
    rw [hnv.2.2]
    cases hg : post.head? with
    | none => simp
    | some nx => simp [hn nx hg]
  have hS8 : (c.size + pv.size) % 8 = 0 := by omega
  have hpk : PACK (c.size + pv.size) 0 = c.size + pv.size := PACK_eq _ _ hS8 (by norm_num)
  have hf : FTRP s.mem c.bp = c.bp + c.size - 8 := by
    unfold FTRP
    simp only [hnv.1, DSIZE]
  have d1 : c.bp - 8 + 4 ≤ c.bp + c.size - 8 ∨ c.bp + c.size - 8 + 4 ≤ c.bp - 8 := by
    clear hf hpk hna hpa v2 v3 v4 hnv
    omega
  have d2 : c.bp - 8 + 4 ≤ pv.bp - 4 ∨ pv.bp - 4 + 4 ≤ c.bp - 8 := by
    clear hf hpk hna hpa v2 v3 v4 hnv d1
    omega
  have d3 : c.bp + c.size - 8 + 4 ≤ pv.bp - 4 ∨ pv.bp - 4 + 4 ≤ c.bp + c.size - 8 := by
    clear hf hpk hna hpa v2 v3 v4 hnv d1 d2
    omega
  have d4 : pv.bp + (pv.size + c.size) - 8 = c.bp + c.size - 8 := by
    clear hf hpk hna hpa v2 v3 v4 hnv d1 d2 d3
    omega
  have e1 : PREV_BLKP (PUT s.mem (c.bp + c.size - 8) (c.size + pv.size)) c.bp = pv.bp := by
    rw [PREV_BLKP_congr s.mem _ c.bp (GET_PUT_disj _ _ _ _ d1), v2]
  have e2 : PREV_BLKP (PUT (PUT s.mem (c.bp + c.size - 8) (c.size + pv.size)) (pv.bp - 4)
      (c.size + pv.size)) c.bp = pv.bp := by
    rw [PREV_BLKP_congr s.mem _ c.bp, v2]
    rw [GET_PUT_disj _ _ _ _ d2, GET_PUT_disj _ _ _ _ d1]
  have hmem : PUT (PUT s.mem (c.bp + c.size - 8) (c.size + pv.size)) (pv.bp - 4)
      (c.size + pv.size) = setTags s.mem pv.bp (pv.size + c.size) 0 := by
    unfold setTags
    rw [PUT_comm _ _ _ _ _ d3, d4, Nat.add_zero, Nat.add_comm pv.size c.size]
  rw [coalesce_branch3 s c.bp (c.size + pv.size) (c.bp + c.size - 8) pv.bp hpa hna
    (by rw [v2, hnv.1, v3]) hpk hf e1 e2]
  simp only [HDRP, WSIZE, hmem]


/-- Case 3 of `coalesce`: the merged block takes the place of `pv` and `c`, and the free
list is unchanged. -/
theorem coalesce_case3 (s : Heap) (pre post : List Blk) (pv c : Blk) (fl : List Nat)
    (h : PreCoal s (pre ++ [pv]) c post fl) (hp : pv.alloc = 0)
    (hn : ∀ nx ∈ post.head?, nx.alloc = 1) :
    coalesce s c.bp =
      ({ s with mem := setTags s.mem pv.bp (pv.size + c.size) 0 }, pv.bp) ∧
    WF { s with mem := setTags s.mem pv.bp (pv.size + c.size) 0 }
      (pre ++ ⟨pv.bp, pv.size + c.size, 0⟩ :: post) fl ∧
    pv.bp + pv.size = c.bp := by
  have hb := h.base
  obtain ⟨h1, h2, h3, h4, h5, h6, h7, h8, h9⟩ := Base_block s (pre ++ [pv]) post c fl hb
  have hb' : Base s (pre ++ pv :: c :: post) fl := by simpa using hb
  obtain ⟨g1, g2, g3, g4, g5, g6, g7, g8, g9⟩ := Base_block s pre (c :: post) pv fl hb'
  have v1 : pv.bp + pv.size = c.bp := (prev_view_some s pre post pv c fl hb').1
  refine ⟨coalesce_case3_eq s pre post pv c fl hb' hp hn, ?_, v1⟩
  have hflold := PreCoal_flsub s (pre ++ [pv]) post c fl h
  have hfl' : ∀ x ∈ fl, ∃ b ∈ pre ++ pv :: c :: post, b.bp = x := by
    intro x hx
    obtain ⟨b, hb1, hb2, -⟩ := hflold x hx
    refine ⟨b, ?_, hb2⟩
    simp only [List.mem_append, List.mem_cons, List.mem_singleton] at hb1 ⊢
    tauto
  have hp4 : 4 ≤ s.mem_heap + 16 := by omega
  have hclp := Clear_tags _ _ _ hb'.layout hp4 fl hfl' pv (by simp)
  have hclc := Clear_tags _ _ _ hb'.layout hp4 fl hfl' c (by simp)
  have e : pre ++ ⟨pv.bp, pv.size + c.size, 0⟩ :: post
      = pre ++ [⟨pv.bp, pv.size + c.size, 0⟩] ++ post := by simp
  rw [e]
  have hbm : Base s (pre ++ [pv, c] ++ post) fl := by simpa using hb
  have hnoadj := (NoAdj_mid (pre ++ [pv]) post { c with alloc := 1 }).1 h.noadj
  have hnoadj2 := (NoAdj_mid pre [] pv).1 hnoadj.1
  have a1 : 16 ≤ pv.size + c.size := by omega
  have a2 : (pv.size + c.size) % 8 = 0 := by omega
  have a3 : pv.bp + (pv.size + c.size) = c.bp + c.size := by omega
  have a4 : 4 ≤ pv.bp := by omega
  have a5 : 8 ≤ pv.size + c.size := by omega
  have a6 : pv.size + c.size + 0 < 2 ^ 32 := by omega
  have a7 : pv.bp + (pv.size + c.size) - 8 = c.bp + c.size - 8 := by omega
  have hlay : Layout pv.bp [⟨pv.bp, pv.size + c.size, 0⟩] (c.bp + c.size) := by
    rw [Layout_cons, Layout_nil]
    exact ⟨rfl, a1, a2, by simp, a3⟩
  have hfo : FrameOut s.mem (setTags s.mem pv.bp (pv.size + c.size) 0) pv.bp (c.bp + c.size) fl := by
    apply FrameOut_mono
    have := FrameOut_setTags s.mem pv.bp (pv.size + c.size) 0 a4 a5
    rw [a3] at this
    exact this
  have htag : Tags (setTags s.mem pv.bp (pv.size + c.size) 0) [⟨pv.bp, pv.size + c.size, 0⟩] := by
    intro b hbm
    rw [List.mem_singleton] at hbm
    subst hbm
    exact setTags_Tagged s.mem pv.bp (pv.size + c.size) 0 a4 a5 a6
  have hlk : Links (setTags s.mem pv.bp (pv.size + c.size) 0) fl := by
    refine Links_setTags s.mem fl pv.bp (pv.size + c.size) 0 hb.links hclp.1 ?_
    rw [a7]
    exact hclc.2
  have hsub : ∀ x ∈ fl, ∃ b ∈ pre ++ [(⟨pv.bp, pv.size + c.size, 0⟩ : Blk)] ++ post,
      b.bp = x ∧ b.alloc = 0 := by
    intro x hx
    obtain ⟨b, hb1, hb2, hb3⟩ := hflold x hx
    simp only [List.mem_append, List.mem_singleton] at hb1
    rcases hb1 with (hq | hq) | hq
    · exact ⟨b, by simp [hq], hb2, hb3⟩
    · exact ⟨⟨pv.bp, pv.size + c.size, 0⟩, by simp, by rw [← hb2, hq], rfl⟩
    · exact ⟨b, by simp [hq], hb2, hb3⟩
  have hall : ∀ b ∈ pre ++ [(⟨pv.bp, pv.size + c.size, 0⟩ : Blk)] ++ post,
      b.alloc = 0 → b.bp ∈ fl := by
    intro b hbm hb0
    simp only [List.mem_append, List.mem_singleton] at hbm
    rcases hbm with (hq | hq) | hq
    · exact h.flall b (by simp [hq]) hb0
    · rw [hq]
      exact h.flall pv (by simp) hp
    · exact h.flall b (by simp [hq]) hb0
  have hna : NoAdjFree (pre ++ [(⟨pv.bp, pv.size + c.size, 0⟩ : Blk)] ++ post) := by
    rw [← e, NoAdj_mid]
    refine ⟨hnoadj2.1, hnoadj.2.1, ?_, ?_⟩
    · intro x hx
      rcases hnoadj2.2.2.1 x hx with h0 | h0
      · exact Or.inl h0
      · rw [hp] at h0
        exact absurd h0 (by norm_num)
    · intro y hy
      exact Or.inr (hn y hy)
  exact WF_replace s _ pre [pv, c] [⟨pv.bp, pv.size + c.size, 0⟩] post fl fl pv.bp
    (c.bp + c.size) hbm rfl rfl rfl rfl g1 hlay h2 hfo htag hlk hb.flhead hb.nodup hsub hall hna

end MM
namespace MM


theorem erase_mid (l1 l2 : List Nat) (a : Nat) (hnd : (l1 ++ a :: l2).Nodup) :
    (l1 ++ a :: l2).erase a = l1 ++ l2 := by
  have h1 : a ∉ l1 := by
    intro h
    rw [List.nodup_append] at hnd
    exact hnd.2.2 h (by simp)
  rw [List.erase_append_right _ h1, List.erase_cons_head]

/-- Unlinking a member, stated with `List.erase`. -/
theorem delete_free_block_erase (s : Heap) (fl : List Nat) (bp lo : Nat)
    (hl : Links s.mem fl) (hh : s.fr_listp = fl.headD 0) (hsep : FlSep lo fl) (hnd : fl.Nodup)
    (hm : bp ∈ fl) :
    Links (delete_free_block s bp).mem (fl.erase bp) ∧
    (delete_free_block s bp).fr_listp = (fl.erase bp).headD 0 ∧
    (∀ a, (∀ x ∈ fl.erase bp, a < x ∨ x + 8 ≤ a) → (delete_free_block s bp).mem a = s.mem a) := by
  obtain ⟨l1, l2, rfl⟩ := List.append_of_mem hm
  rw [erase_mid l1 l2 bp hnd]
  exact delete_free_block_links s l1 l2 bp lo hl hh hsep hnd

theorem GET_delete_free_block (s : Heap) (fl : List Nat) (bp lo : Nat)
    (hl : Links s.mem fl) (hh : s.fr_listp = fl.headD 0) (hsep : FlSep lo fl) (hnd : fl.Nodup)
    (hm : bp ∈ fl) (q : Nat) (hq : Clear q (fl.erase bp)) :
    GET (delete_free_block s bp).mem q = GET s.mem q := by
  apply GET_congr
  intro a h1 h2
  apply (delete_free_block_erase s fl bp lo hl hh hsep hnd hm).2.2 a
  intro x hx
  have := hq x hx
  omega

theorem Clear_erase (q : Nat) (fl : List Nat) (bp : Nat) (h : Clear q fl) :
    Clear q (fl.erase bp) := by
  intro x hx
  exact h x (List.mem_of_mem_erase hx)

theorem Clear_cons (q x : Nat) (fl : List Nat) (h1 : q + 4 ≤ x ∨ x + 8 ≤ q) (h : Clear q fl) :
    Clear q (x :: fl) := by
  intro y hy
  rcases List.mem_cons.1 hy with rfl | hy'
  · exact h1
  · exact h y hy'

theorem GET_add_free_block (s : Heap) (fl : List Nat) (bp lo : Nat)
    (hl : Links s.mem fl) (hh : s.fr_listp = fl.headD 0)
    (hsep : FlSep lo (bp :: fl)) (hnd : (bp :: fl).Nodup) (q : Nat) (hq : Clear q (bp :: fl)) :
    GET (add_free_block s bp).mem q = GET s.mem q := by
  apply GET_congr
  intro a h1 h2
  have hb := hq bp (by simp)
  apply (add_free_block_links s fl bp lo hl hh hsep hnd).2 a (by omega)
  cases hfl : fl with
  | nil =>
    right; right
    rw [hh, hfl]; rfl
  | cons y t =>
    have e : s.fr_listp = y := by rw [hh, hfl]; rfl
    have := hq y (by rw [hfl]; simp)
    rw [e]
    omega

theorem add_free_block_frame (s : Heap) (fl : List Nat) (bp lo : Nat)
    (hl : Links s.mem fl) (hh : s.fr_listp = fl.headD 0)
    (hsep : FlSep lo (bp :: fl)) (hnd : (bp :: fl).Nodup) (a : Nat)
    (ha : ∀ x ∈ bp :: fl, a < x ∨ x + 8 ≤ a) :
    (add_free_block s bp).mem a = s.mem a := by
  have hb := ha bp (by simp)
  apply (add_free_block_links s fl bp lo hl hh hsep hnd).2 a hb
  cases hfl : fl with
  | nil =>
    right; right
    rw [hh, hfl]; rfl
  | cons y t =>
    have e : s.fr_listp = y := by rw [hh, hfl]; rfl
    have := ha y (by rw [hfl]; simp)
    rw [e]
    omega

end MM
namespace MM

/-- Case 2 of `coalesce` (only the following block is free): the code path in closed form. -/
theorem coalesce_case2_eq (s : Heap) (pre post : List Blk) (c nx : Blk) (fl : List Nat)
    (hb : Base s (pre ++ c :: nx :: post) fl)
    (hp : ∀ pv ∈ pre.getLast?, pv.alloc = 1) (hn : nx.alloc = 0) :
    coalesce s c.bp =
      (add_free_block { delete_free_block s nx.bp with
        mem := setTags (delete_free_block s nx.bp).mem c.bp (c.size + nx.size) 0 } c.bp,
       c.bp) := by
  obtain ⟨h1, h2, h3, h4, h5, h6, h7, h8, h9⟩ := Base_block s pre (nx :: post) c fl hb
  have hb2 : Base s ((pre ++ [c]) ++ nx :: post) fl := by simpa using hb
  obtain ⟨g1, g2, g3, g4, g5, g6, g7, g8, g9⟩ := Base_block s (pre ++ [c]) post nx fl hb2
  have hnv := next_view s pre (nx :: post) c fl hb
  have hpv := prev_view s pre (nx :: post) c fl hb
  have hnxbp : nx.bp = c.bp + c.size := ((Layout_cons _ _ _ _).1 h2).1
  have hpa : GET_ALLOC s.mem (FTRP s.mem (PREV_BLKP s.mem c.bp)) ≠ 0 := by
    rw [hpv]
    cases hg : pre.getLast? with
    | none => simp
    | some pv => simp [hp pv hg]
  have hna : GET_ALLOC s.mem (HDRP (NEXT_BLKP s.mem c.bp)) = 0 := by
    rw [hnv.2.2]
    simp [hn]
  have hsz : GET_SIZE s.mem (HDRP nx.bp) = nx.size := by
    have := GET_SIZE_hdr s.mem nx g9 g4 g5
    simpa [HDRP] using this
  have hS8 : (c.size + nx.size) % 8 = 0 := by omega
  have hlt : c.size + nx.size < 2 ^ 32 := by omega
  exact coalesce_branch2 s c.bp (c.size + nx.size) nx.bp hpa hna (by rw [hnv.2.1, hnxbp])
    (by rw [hnv.1, hsz]) hS8 hlt


/-- Case 2 of `coalesce`: the merged block takes the place of `c` and `nx`; it is pushed on
the free list from which `nx` has been removed. -/
theorem coalesce_case2 (s : Heap) (pre post : List Blk) (c nx : Blk) (fl : List Nat)
    (h : PreCoal s pre c (nx :: post) fl)
    (hp : ∀ pv ∈ pre.getLast?, pv.alloc = 1) (hn : nx.alloc = 0) :
    (coalesce s c.bp).2 = c.bp ∧
    WF (coalesce s c.bp).1 (pre ++ ⟨c.bp, c.size + nx.size, 0⟩ :: post)
      (c.bp :: fl.erase nx.bp) ∧
    FrameOut s.mem (coalesce s c.bp).1.mem c.bp (c.bp + (c.size + nx.size)) fl := by
  have hb := h.base
  rw [coalesce_case2_eq s pre post c nx fl hb hp hn]
  obtain ⟨h1, h2, h3, h4, h5, h6, h7, h8, h9⟩ := Base_block s pre (nx :: post) c fl hb
  have hb2 : Base s ((pre ++ [c]) ++ nx :: post) fl := by simpa using hb
  obtain ⟨g1, g2, g3, g4, g5, g6, g7, g8, g9⟩ := Base_block s (pre ++ [c]) post nx fl hb2
  have hnxbp : nx.bp = c.bp + c.size := ((Layout_cons _ _ _ _).1 h2).1
  have hflold := PreCoal_flsub s pre (nx :: post) c fl h
  have hfl' : ∀ x ∈ fl, ∃ b ∈ pre ++ c :: nx :: post, b.bp = x := by
    intro x hx
    obtain ⟨b, hb1, hb2, -⟩ := hb.flsub x hx
    exact ⟨b, hb1, hb2⟩
  have hp4 : 4 ≤ s.mem_heap + 16 := by omega
  have hclc := Clear_tags _ _ _ hb.layout hp4 fl hfl' c (by simp)
  have hcln := Clear_tags _ _ _ hb.layout hp4 fl hfl' nx (by simp)
  have hnxfl : nx.bp ∈ fl := h.flall nx (by simp) hn
  have hsep : FlSep s.mem_heap fl :=
    FlSep_of_layout _ _ _ _ hb.layout fl hfl' (by omega) (by omega)
  -- step 1: unlink nx
  obtain ⟨hl1, hh1, hf1⟩ :=
    delete_free_block_erase s fl nx.bp s.mem_heap hb.links hb.flhead hsep hb.nodup hnxfl
  generalize hs1 : delete_free_block s nx.bp = s1 at hl1 hh1 hf1 ⊢
  have e1h : s1.mem_heap = s.mem_heap := by rw [← hs1]; simp
  have e1b : s1.mem_brk = s.mem_brk := by rw [← hs1]; simp
  have e1m : s1.mem_max_addr = s.mem_max_addr := by rw [← hs1]; simp
  have e1l : s1.heap_listp = s.heap_listp := by rw [← hs1]; simp
  -- arithmetic
  have a1 : 16 ≤ c.size + nx.size := by omega
  have a2 : (c.size + nx.size) % 8 = 0 := by omega
  have a3 : c.bp + (c.size + nx.size) = nx.bp + nx.size := by omega
  have a4 : 4 ≤ c.bp := by omega
  have a5 : 8 ≤ c.size + nx.size := by omega
  have a6 : c.size + nx.size + 0 < 2 ^ 32 := by omega
  have a7 : c.bp + (c.size + nx.size) - 8 = nx.bp + nx.size - 8 := by omega
  -- step 2: retag
  have hcl1 : Clear (c.bp - 4) (fl.erase nx.bp) := Clear_erase _ _ _ hclc.1
  have hcl2 : Clear (c.bp + (c.size + nx.size) - 8) (fl.erase nx.bp) := by
    rw [a7]; exact Clear_erase _ _ _ hcln.2
  have hl2 : Links (setTags s1.mem c.bp (c.size + nx.size) 0) (fl.erase nx.bp) :=
    Links_setTags s1.mem _ c.bp (c.size + nx.size) 0 hl1 hcl1 hcl2
  have ht2 : Tagged (setTags s1.mem c.bp (c.size + nx.size) 0) ⟨c.bp, c.size + nx.size, 0⟩ :=
    setTags_Tagged s1.mem c.bp (c.size + nx.size) 0 a4 a5 a6
  -- step 3: push the merged block
  have hnd3 : (c.bp :: fl.erase nx.bp).Nodup :=
    List.nodup_cons.2 ⟨fun hm => h.cnot (List.mem_of_mem_erase hm), hb.nodup.erase _⟩
  have hmem3 : ∀ x ∈ c.bp :: fl.erase nx.bp, ∃ b ∈ pre ++ c :: nx :: post, b.bp = x := by
    intro x hx
    rcases List.mem_cons.1 hx with rfl | hx'
    · exact ⟨c, by simp, rfl⟩
    · exact hfl' x (List.mem_of_mem_erase hx')
  have hsep3 : FlSep s.mem_heap (c.bp :: fl.erase nx.bp) :=
    FlSep_of_layout _ _ _ _ hb.layout _ hmem3 (by omega) (by omega)
  generalize hs2 : ({ s1 with mem := setTags s1.mem c.bp (c.size + nx.size) 0 } : Heap) = s2
  have e2mem : s2.mem = setTags s1.mem c.bp (c.size + nx.size) 0 := by rw [← hs2]
  have e2fr : s2.fr_listp = s1.fr_listp := by rw [← hs2]
  have e2h : s2.mem_heap = s.mem_heap := by rw [← hs2]; exact e1h
  have e2b : s2.mem_brk = s.mem_brk := by rw [← hs2]; exact e1b
  have e2m : s2.mem_max_addr = s.mem_max_addr := by rw [← hs2]; exact e1m
  have e2l : s2.heap_listp = s.heap_listp := by rw [← hs2]; exact e1l
  have hl2' : Links s2.mem (fl.erase nx.bp) := by rw [e2mem]; exact hl2
  have hh2 : s2.fr_listp = (fl.erase nx.bp).headD 0 := by rw [e2fr]; exact hh1
  obtain ⟨hl3, -⟩ := add_free_block_links s2 _ c.bp s.mem_heap hl2' hh2 hsep3 hnd3
  have hf3 := add_free_block_frame s2 _ c.bp s.mem_heap hl2' hh2 hsep3 hnd3
  have hg3 := GET_add_free_block s2 _ c.bp s.mem_heap hl2' hh2 hsep3 hnd3
  -- the frame of the whole operation
  have hFF : FrameOut s.mem (add_free_block s2 c.bp).mem c.bp (c.bp + (c.size + nx.size)) fl := by
    intro a ha hx
    have i1 : s1.mem a = s.mem a := hf1 a (fun x hx' => hx x (List.mem_of_mem_erase hx'))
    have i2 : s2.mem a = s1.mem a := by
      rw [e2mem]
      exact setTags_frame s1.mem c.bp _ 0 a (by omega) (by omega)
    have i3 : (add_free_block s2 c.bp).mem a = s2.mem a := by
      apply hf3 a
      intro x hx'
      rcases List.mem_cons.1 hx' with rfl | hx''
      · omega
      · exact hx x (List.mem_of_mem_erase hx'')
    rw [i3, i2, i1]
  -- tags of the merged block
  have hT : Tags (add_free_block s2 c.bp).mem [⟨c.bp, c.size + nx.size, 0⟩] := by
    intro b hbm
    rw [List.mem_singleton] at hbm
    subst hbm
    have k1 : Clear (c.bp - 4) (c.bp :: fl.erase nx.bp) := Clear_cons _ _ _ (by omega) hcl1
    have k2 : Clear (c.bp + (c.size + nx.size) - 8) (c.bp :: fl.erase nx.bp) :=
      Clear_cons _ _ _ (by omega) hcl2
    refine Tagged_congr s2.mem _ _ (by rw [e2mem]; exact ht2) (hg3 _ k1) (hg3 _ k2)
  -- list bookkeeping
  have hne : ∀ b ∈ pre ++ post, b.bp ≠ nx.bp := by
    intro b hbm
    rcases List.mem_append.1 hbm with hq | hq
    · have := Layout_mem _ _ _ h1 b hq
      omega
    · have := Layout_mem _ _ _ g2 b hq
      omega
  have hsub : ∀ x ∈ c.bp :: fl.erase nx.bp,
      ∃ b ∈ pre ++ [(⟨c.bp, c.size + nx.size, 0⟩ : Blk)] ++ post, b.bp = x ∧ b.alloc = 0 := by
    intro x hx
    rcases List.mem_cons.1 hx with rfl | hx'
    · exact ⟨⟨c.bp, c.size + nx.size, 0⟩, by simp, rfl, rfl⟩
    · have hx1 := (hb.nodup.mem_erase_iff.1 hx')
      obtain ⟨b, hb1, hb2, hb3⟩ := hflold x hx1.2
      simp only [List.mem_append, List.mem_cons] at hb1
      rcases hb1 with hq | hq | hq
      · exact ⟨b, by simp [hq], hb2, hb3⟩
      · rw [hq] at hb2
        exact absurd hb2.symm hx1.1
      · exact ⟨b, by simp [hq], hb2, hb3⟩
  have hall : ∀ b ∈ pre ++ [(⟨c.bp, c.size + nx.size, 0⟩ : Blk)] ++ post,
      b.alloc = 0 → b.bp ∈ c.bp :: fl.erase nx.bp := by
    intro b hbm hb0
    simp only [List.mem_append, List.mem_singleton] at hbm
    rcases hbm with (hq | hq) | hq
    · refine List.mem_cons_of_mem _ (hb.nodup.mem_erase_iff.2 ⟨hne b (by simp [hq]), ?_⟩)
      exact h.flall b (by simp [hq]) hb0
    · rw [hq]; simp
    · refine List.mem_cons_of_mem _ (hb.nodup.mem_erase_iff.2 ⟨hne b (by simp [hq]), ?_⟩)
      exact h.flall b (by simp [hq]) hb0
  have hnoadj := (NoAdj_mid pre (nx :: post) { c with alloc := 1 }).1 h.noadj
  have hnoadj2 := (NoAdj_mid [] post nx).1 (by simpa using hnoadj.2.1)
  have e : pre ++ ⟨c.bp, c.size + nx.size, 0⟩ :: post
      = pre ++ [⟨c.bp, c.size + nx.size, 0⟩] ++ post := by simp
  have hna : NoAdjFree (pre ++ [(⟨c.bp, c.size + nx.size, 0⟩ : Blk)] ++ post) := by
    rw [← e, NoAdj_mid]
    refine ⟨hnoadj.1, hnoadj2.2.1, ?_, ?_⟩
    · intro x hx
      exact Or.inl (hp x hx)
    · intro y hy
      rcases hnoadj2.2.2.2 y hy with h0 | h0
      · rw [hn] at h0
        exact absurd h0 (by norm_num)
      · exact Or.inr h0
  have hlay : Layout c.bp [⟨c.bp, c.size + nx.size, 0⟩] (nx.bp + nx.size) := by
    rw [Layout_cons, Layout_nil]
    exact ⟨rfl, a1, a2, by simp, a3⟩
  have hbm : Base s (pre ++ [c, nx] ++ post) fl := by simpa using hb
  have hFF' : FrameOut s.mem (add_free_block s2 c.bp).mem c.bp (nx.bp + nx.size) fl := by
    rw [← a3]; exact hFF
  refine ⟨rfl, ?_, hFF⟩
  rw [e]
  exact WF_replace s _ pre [c, nx] [⟨c.bp, c.size + nx.size, 0⟩] post fl (c.bp :: fl.erase nx.bp)
    c.bp (nx.bp + nx.size) hbm (by simp [e2h]) (by simp [e2b]) (by simp [e2m]) (by simp [e2l])
    h1 hlay g2 hFF' hT hl3 (by simp) hnd3 hsub hall hna

end MM
namespace MM

theorem NEXT_BLKP_congr (m m' : Mem) (bp : Nat) (h : GET m' (bp - 4) = GET m (bp - 4)) :
    NEXT_BLKP m' bp = NEXT_BLKP m bp := by
  unfold NEXT_BLKP GET_SIZE
  simp only [WSIZE, h]

theorem FTRP_congr (m m' : Mem) (bp : Nat) (h : GET m' (bp - 4) = GET m (bp - 4)) :
    FTRP m' bp = FTRP m bp := by
  unfold FTRP GET_SIZE HDRP
  simp only [WSIZE, h]

theorem FTRP_of_tag (m : Mem) (b : Blk) (ht : Tagged m b) (h8 : b.size % 8 = 0)
    (ha : b.alloc ≤ 1) : FTRP m b.bp = b.bp + b.size - 8 := by
  unfold FTRP HDRP
  simp only [WSIZE, DSIZE, GET_SIZE_hdr m b ht h8 ha]

theorem NEXT_BLKP_of_tag (m : Mem) (b : Blk) (ht : Tagged m b) (h8 : b.size % 8 = 0)
    (ha : b.alloc ≤ 1) : NEXT_BLKP m b.bp = b.bp + b.size := by
  unfold NEXT_BLKP
  simp only [WSIZE, GET_SIZE_hdr m b ht h8 ha]

/-- Case 4 of `coalesce` (both neighbours free): the code path in closed form. -/
theorem coalesce_case4_eq (s : Heap) (pre post : List Blk) (pv c nx : Blk) (fl : List Nat)
    (hb : Base s (pre ++ pv :: c :: nx :: post) fl) (hp : pv.alloc = 0) (hn : nx.alloc = 0) :
    coalesce s c.bp =
      (delete_free_block
          { s with mem := setTags s.mem pv.bp (pv.size + c.size + nx.size) 0 } nx.bp,
       PREV_BLKP (delete_free_block
          { s with mem := setTags s.mem pv.bp (pv.size + c.size + nx.size) 0 } nx.bp).mem
          c.bp) := by
  have hb1 : Base s ((pre ++ [pv]) ++ c :: nx :: post) fl := by simpa using hb
  have hb2 : Base s ((pre ++ [pv, c]) ++ nx :: post) fl := by simpa using hb
  obtain ⟨h1, h2, h3, h4, h5, h6, h7, h8, h9⟩ := Base_block s (pre ++ [pv]) (nx :: post) c fl hb1
  obtain ⟨g1, g2, g3, g4, g5, g6, g7, g8, g9⟩ := Base_block s (pre ++ [pv, c]) post nx fl hb2
  obtain ⟨p1, p2, p3, p4, p5, p6, p7, p8, p9⟩ := Base_block s pre (c :: nx :: post) pv fl hb
  have hnv := next_view s (pre ++ [pv]) (nx :: post) c fl hb1
  obtain ⟨v1, v2, v3, v4⟩ := prev_view_some s pre (nx :: post) pv c fl hb
  have hnxbp : nx.bp = c.bp + c.size := ((Layout_cons _ _ _ _).1 h2).1
  have hpa : GET_ALLOC s.mem (FTRP s.mem (PREV_BLKP s.mem c.bp)) = 0 := by rw [v4, hp]
  have hna : GET_ALLOC s.mem (HDRP (NEXT_BLKP s.mem c.bp)) = 0 := by
    rw [hnv.2.2]
    simp [hn]
  have hfn : FTRP s.mem nx.bp = nx.bp + nx.size - 8 := FTRP_of_tag s.mem nx g9 g4 g5
  have hszn : GET_SIZE s.mem (nx.bp + nx.size - 8) = nx.size := GET_SIZE_ftr s.mem nx g9 g4 g5
  have hS : GET_SIZE s.mem (HDRP c.bp) +
      (GET_SIZE s.mem (HDRP pv.bp) + GET_SIZE s.mem (FTRP s.mem (NEXT_BLKP s.mem c.bp))) % 2 ^ 32 =
      pv.size + c.size + nx.size := by
    rw [hnv.1, v3, hnv.2.1, ← hnxbp, hfn, hszn]
    clear * - h3 h4 h6 h7 h8 g3 g4 g6 g7 p3 p4 p6 p7 v1 hnxbp
    omega
  have hS8 : (pv.size + c.size + nx.size) % 8 = 0 := by clear * - h3 h4 h6 h7 h8 g3 g4 g6 g7 p3 p4 p6 p7 v1 hnxbp; omega
  have hpk : PACK (pv.size + c.size + nx.size) 0 = pv.size + c.size + nx.size :=
    PACK_eq _ _ hS8 (by norm_num)
  have d1 : c.bp - 4 + 4 ≤ pv.bp - 4 ∨ pv.bp - 4 + 4 ≤ c.bp - 4 := by
    clear * - h3 h4 h6 h7 h8 g3 g4 g6 g7 p3 p4 p6 p7 v1 hnxbp; omega
  have d2 : nx.bp - 4 + 4 ≤ pv.bp - 4 ∨ pv.bp - 4 + 4 ≤ nx.bp - 4 := by
    clear * - h3 h4 h6 h7 h8 g3 g4 g6 g7 p3 p4 p6 p7 v1 hnxbp; omega
  have d3 : c.bp - 4 + 4 ≤ nx.bp + nx.size - 8 ∨ nx.bp + nx.size - 8 + 4 ≤ c.bp - 4 := by
    clear * - h3 h4 h6 h7 h8 g3 g4 g6 g7 p3 p4 p6 p7 v1 hnxbp; omega
  have d4 : pv.bp + (pv.size + c.size + nx.size) - 8 = nx.bp + nx.size - 8 := by
    clear * - h3 h4 h6 h7 h8 g3 g4 g6 g7 p3 p4 p6 p7 v1 hnxbp; omega
  have hf : FTRP (PUT s.mem (pv.bp - 4) (pv.size + c.size + nx.size))
      (NEXT_BLKP (PUT s.mem (pv.bp - 4) (pv.size + c.size + nx.size)) c.bp) =
      nx.bp + nx.size - 8 := by
    have i1 : NEXT_BLKP (PUT s.mem (pv.bp - 4) (pv.size + c.size + nx.size)) c.bp = nx.bp := by
      rw [NEXT_BLKP_congr s.mem _ c.bp (GET_PUT_disj _ _ _ _ d1), hnv.2.1, hnxbp]
    rw [i1, FTRP_congr s.mem _ nx.bp (GET_PUT_disj _ _ _ _ d2), hfn]
  have hnx : NEXT_BLKP (PUT (PUT s.mem (pv.bp - 4) (pv.size + c.size + nx.size))
      (nx.bp + nx.size - 8) (pv.size + c.size + nx.size)) c.bp = nx.bp := by
    rw [NEXT_BLKP_congr s.mem _ c.bp, hnv.2.1, hnxbp]
    rw [GET_PUT_disj _ _ _ _ d3, GET_PUT_disj _ _ _ _ d1]
  have hmem : PUT (PUT s.mem (pv.bp - 4) (pv.size + c.size + nx.size))
      (nx.bp + nx.size - 8) (pv.size + c.size + nx.size) =
      setTags s.mem pv.bp (pv.size + c.size + nx.size) 0 := by
    unfold setTags
    rw [d4]
    rfl
  have key := coalesce_branch4 s c.bp (pv.size + c.size + nx.size) (nx.bp + nx.size - 8) pv.bp
    nx.bp hpa hna v2 hS hpk hf hnx
  simp only [HDRP, WSIZE] at key
  rw [key, hmem]


/-- Case 4 of `coalesce`: the merged block takes the place of `pv`, `c` and `nx`; `nx` leaves
the free list and `pv` keeps its position in it. -/
theorem coalesce_case4 (s : Heap) (pre post : List Blk) (pv c nx : Blk) (fl : List Nat)
    (h : PreCoal s (pre ++ [pv]) c (nx :: post) fl) (hp : pv.alloc = 0) (hn : nx.alloc = 0) :
    (coalesce s c.bp).2 = pv.bp ∧
    WF (coalesce s c.bp).1 (pre ++ ⟨pv.bp, pv.size + c.size + nx.size, 0⟩ :: post)
      (fl.erase nx.bp) ∧
    FrameOut s.mem (coalesce s c.bp).1.mem pv.bp (pv.bp + (pv.size + c.size + nx.size)) fl := by
  have hb1 := h.base
  have hb : Base s (pre ++ pv :: c :: nx :: post) fl := by simpa using hb1
  have hb2 : Base s ((pre ++ [pv, c]) ++ nx :: post) fl := by simpa using hb
  rw [coalesce_case4_eq s pre post pv c nx fl hb hp hn]
  obtain ⟨h1, h2, h3, h4, h5, h6, h7, h8, h9⟩ := Base_block s (pre ++ [pv]) (nx :: post) c fl hb1
  obtain ⟨g1, g2, g3, g4, g5, g6, g7, g8, g9⟩ := Base_block s (pre ++ [pv, c]) post nx fl hb2
  obtain ⟨p1, p2, p3, p4, p5, p6, p7, p8, p9⟩ := Base_block s pre (c :: nx :: post) pv fl hb
  obtain ⟨v1, v2, v3, v4⟩ := prev_view_some s pre (nx :: post) pv c fl hb
  have hnxbp : nx.bp = c.bp + c.size := ((Layout_cons _ _ _ _).1 h2).1
  have hflold := PreCoal_flsub s (pre ++ [pv]) (nx :: post) c fl h
  have hfl' : ∀ x ∈ fl, ∃ b ∈ pre ++ pv :: c :: nx :: post, b.bp = x := by
    intro x hx
    obtain ⟨b, hb1, hb2, -⟩ := hb.flsub x hx
    exact ⟨b, hb1, hb2⟩
  have hp4 : 4 ≤ s.mem_heap + 16 := by omega
  have hlo1 : s.mem_heap < s.mem_heap + 16 := by omega
  have hclp := Clear_tags _ _ _ hb.layout hp4 fl hfl' pv (by simp)
  have hcln := Clear_tags _ _ _ hb.layout hp4 fl hfl' nx (by simp)
  have hnxfl : nx.bp ∈ fl := h.flall nx (by simp) hn
  have hpvfl : pv.bp ∈ fl := h.flall pv (by simp) hp
  have hsep : FlSep s.mem_heap fl :=
    FlSep_of_layout _ _ _ _ hb.layout fl hfl' hlo1 h8
  -- arithmetic
  have a1 : 16 ≤ pv.size + c.size + nx.size := by
    clear * - h3 g3 p3; omega
  have a2 : (pv.size + c.size + nx.size) % 8 = 0 := by
    clear * - h4 g4 p4; omega
  have a3 : pv.bp + (pv.size + c.size + nx.size) = nx.bp + nx.size := by
    clear * - v1 hnxbp; omega
  have a4 : 4 ≤ pv.bp := by
    clear * - p6; omega
  have a5 : 8 ≤ pv.size + c.size + nx.size := by
    clear * - a1; omega
  have a6 : pv.size + c.size + nx.size + 0 < 2 ^ 32 := by
    clear * - a3 g7 g8 p6; omega
  have a7 : pv.bp + (pv.size + c.size + nx.size) - 8 = nx.bp + nx.size - 8 := by
    clear * - a3; omega
  have a8 : pv.bp + pv.size - 8 = c.bp - 8 := by
    clear * - v1; omega
  have a9 : c.bp - 8 + 4 ≤ pv.bp - 4 ∨ pv.bp - 4 + 4 ≤ c.bp - 8 := by
    clear * - v1 p3 p6; omega
  have a10 : c.bp - 8 + 4 ≤ pv.bp + (pv.size + c.size + nx.size) - 8 ∨
      pv.bp + (pv.size + c.size + nx.size) - 8 + 4 ≤ c.bp - 8 := by
    clear * - v1 p3 p6 h3 g3; omega
  -- step 1: retag
  have hl1 : Links (setTags s.mem pv.bp (pv.size + c.size + nx.size) 0) fl := by
    refine Links_setTags s.mem fl pv.bp _ 0 hb.links hclp.1 ?_
    rw [a7]; exact hcln.2
  have ht1 : Tagged (setTags s.mem pv.bp (pv.size + c.size + nx.size) 0)
      ⟨pv.bp, pv.size + c.size + nx.size, 0⟩ :=
    setTags_Tagged s.mem pv.bp _ 0 a4 a5 a6
  generalize hs1 : ({ s with mem := setTags s.mem pv.bp (pv.size + c.size + nx.size) 0 } : Heap)
    = s1
  have e1mem : s1.mem = setTags s.mem pv.bp (pv.size + c.size + nx.size) 0 := by rw [← hs1]
  have e1fr : s1.fr_listp = s.fr_listp := by rw [← hs1]
  have e1h : s1.mem_heap = s.mem_heap := by rw [← hs1]
  have e1b : s1.mem_brk = s.mem_brk := by rw [← hs1]
  have e1m : s1.mem_max_addr = s.mem_max_addr := by rw [← hs1]
  have e1l : s1.heap_listp = s.heap_listp := by rw [← hs1]
  have hl1' : Links s1.mem fl := by rw [e1mem]; exact hl1
  have hh1 : s1.fr_listp = fl.headD 0 := by rw [e1fr]; exact hb.flhead
  -- step 2: unlink nx
  obtain ⟨hl2, hh2, hf2⟩ :=
    delete_free_block_erase s1 fl nx.bp s.mem_heap hl1' hh1 hsep hb.nodup hnxfl
  have hg2 := GET_delete_free_block s1 fl nx.bp s.mem_heap hl1' hh1 hsep hb.nodup hnxfl
  -- the result pointer
  have hclpf : Clear (c.bp - 8) fl := by
    rw [← a8]; exact hclp.2
  have hres : PREV_BLKP (delete_free_block s1 nx.bp).mem c.bp = pv.bp := by
    rw [PREV_BLKP_congr s.mem _ c.bp, v2]
    rw [hg2 _ (Clear_erase _ _ _ hclpf), e1mem]
    exact GET_setTags_disj s.mem pv.bp _ 0 (c.bp - 8) a9 a10
  -- the frame of the whole operation
  have hFF : FrameOut s.mem (delete_free_block s1 nx.bp).mem pv.bp
      (pv.bp + (pv.size + c.size + nx.size)) fl := by
    intro a ha hx
    have j1 : a < pv.bp - 4 ∨ pv.bp - 4 + 4 ≤ a := by
      clear * - ha a4 a5; omega
    have j2 : a < pv.bp + (pv.size + c.size + nx.size) - 8 ∨
        pv.bp + (pv.size + c.size + nx.size) - 8 + 4 ≤ a := by
      clear * - ha a4 a5; omega
    have i1 : s1.mem a = s.mem a := by
      rw [e1mem]
      exact setTags_frame s.mem pv.bp _ 0 a j1 j2
    have i2 : (delete_free_block s1 nx.bp).mem a = s1.mem a :=
      hf2 a (fun x hx' => hx x (List.mem_of_mem_erase hx'))
    rw [i2, i1]
  have hT : Tags (delete_free_block s1 nx.bp).mem [⟨pv.bp, pv.size + c.size + nx.size, 0⟩] := by
    intro b hbm
    rw [List.mem_singleton] at hbm
    subst hbm
    have k1 : Clear (pv.bp - 4) (fl.erase nx.bp) := Clear_erase _ _ _ hclp.1
    have k2 : Clear (pv.bp + (pv.size + c.size + nx.size) - 8) (fl.erase nx.bp) := by
      rw [a7]; exact Clear_erase _ _ _ hcln.2
    exact Tagged_congr s1.mem _ _ (by rw [e1mem]; exact ht1) (hg2 _ k1) (hg2 _ k2)
  -- list bookkeeping
  have hne : ∀ b ∈ pre ++ post, b.bp ≠ nx.bp := by
    intro b hbm
    rcases List.mem_append.1 hbm with hq | hq
    · have := Layout_mem _ _ _ p1 b hq
      clear * - this v1 hnxbp p3 h3
      omega
    · have := Layout_mem _ _ _ g2 b hq
      clear * - this g3
      omega
  have hpvne : pv.bp ≠ nx.bp := by
    clear * - v1 hnxbp p3 h3
    omega
  have hsub : ∀ x ∈ fl.erase nx.bp,
      ∃ b ∈ pre ++ [(⟨pv.bp, pv.size + c.size + nx.size, 0⟩ : Blk)] ++ post,
        b.bp = x ∧ b.alloc = 0 := by
    intro x hx
    have hx1 := (hb.nodup.mem_erase_iff.1 hx)
    obtain ⟨b, q1, q2, q3⟩ := hflold x hx1.2
    simp only [List.mem_append, List.mem_cons, List.mem_singleton, List.not_mem_nil, or_false] at q1
    rcases q1 with (hq | hq) | hq | hq
    · exact ⟨b, by simp [hq], q2, q3⟩
    · rw [hq] at q2
      exact ⟨⟨pv.bp, pv.size + c.size + nx.size, 0⟩, by simp, q2, rfl⟩
    · rw [hq] at q2
      exact absurd q2.symm hx1.1
    · exact ⟨b, by simp [hq], q2, q3⟩
  have hall : ∀ b ∈ pre ++ [(⟨pv.bp, pv.size + c.size + nx.size, 0⟩ : Blk)] ++ post,
      b.alloc = 0 → b.bp ∈ fl.erase nx.bp := by
    intro b hbm hb0
    simp only [List.mem_append, List.mem_singleton] at hbm
    rcases hbm with (hq | hq) | hq
    · refine hb.nodup.mem_erase_iff.2 ⟨hne b (by simp [hq]), ?_⟩
      exact h.flall b (by simp [hq]) hb0
    · rw [hq]
      exact hb.nodup.mem_erase_iff.2 ⟨hpvne, hpvfl⟩
    · refine hb.nodup.mem_erase_iff.2 ⟨hne b (by simp [hq]), ?_⟩
      exact h.flall b (by simp [hq]) hb0
  have hnoadj := (NoAdj_mid (pre ++ [pv]) (nx :: post) { c with alloc := 1 }).1 h.noadj
  have hnoadj1 := (NoAdj_mid pre [] pv).1 hnoadj.1
  have hnoadj2 := (NoAdj_mid [] post nx).1 (by simpa using hnoadj.2.1)
  have e : pre ++ ⟨pv.bp, pv.size + c.size + nx.size, 0⟩ :: post
      = pre ++ [⟨pv.bp, pv.size + c.size + nx.size, 0⟩] ++ post := by simp
  have hna : NoAdjFree (pre ++ [(⟨pv.bp, pv.size + c.size + nx.size, 0⟩ : Blk)] ++ post) := by
    rw [← e, NoAdj_mid]
    refine ⟨hnoadj1.1, hnoadj2.2.1, ?_, ?_⟩
    · intro x hx
      rcases hnoadj1.2.2.1 x hx with h0 | h0
      · exact Or.inl h0
      · rw [hp] at h0
        exact absurd h0 (by norm_num)
    · intro y hy
      rcases hnoadj2.2.2.2 y hy with h0 | h0
      · rw [hn] at h0
        exact absurd h0 (by norm_num)
      · exact Or.inr h0
  have hlay : Layout pv.bp [⟨pv.bp, pv.size + c.size + nx.size, 0⟩] (nx.bp + nx.size) := by
    rw [Layout_cons, Layout_nil]
    exact ⟨rfl, a1, a2, by simp, a3⟩
  have hbm : Base s (pre ++ [pv, c, nx] ++ post) fl := by simpa using hb
  have hFF' : FrameOut s.mem (delete_free_block s1 nx.bp).mem pv.bp (nx.bp + nx.size) fl := by
    rw [← a3]; exact hFF
  refine ⟨hres, ?_, hFF⟩
  rw [e]
  exact WF_replace s _ pre [pv, c, nx] [⟨pv.bp, pv.size + c.size + nx.size, 0⟩] post fl
    (fl.erase nx.bp) pv.bp (nx.bp + nx.size) hbm (by simp [e1h]) (by simp [e1b])
    (by simp [e1m]) (by simp [e1l]) p1 hlay g2 hFF' hT hl2 hh2 (hb.nodup.erase _) hsub hall hna

end MM
namespace MM

theorem prevFree_none (pre : List Blk) (h : ∀ pv ∈ pre.getLast?, pv.alloc = 1) :
    prevFree pre = none := by
  unfold prevFree
  cases hg : pre.getLast? with
  | none => rfl
  | some pv => simp [h pv hg]

theorem prevFree_some (pre : List Blk) (pv : Blk) (h : pv.alloc = 0) :
    prevFree (pre ++ [pv]) = some pv := by
  unfold prevFree
  simp [h]

theorem nextFree_none (post : List Blk) (h : ∀ nx ∈ post.head?, nx.alloc = 1) :
    nextFree post = none := by
  unfold nextFree
  cases hg : post.head? with
  | none => rfl
  | some nx => simp [h nx hg]

theorem nextFree_some (post : List Blk) (nx : Blk) (h : nx.alloc = 0) :
    nextFree (nx :: post) = some nx := by
  unfold nextFree
  simp [h]

theorem prev_cases (pre : List Blk) (hal : ∀ b ∈ pre, b.alloc ≤ 1) :
    (∀ pv ∈ pre.getLast?, pv.alloc = 1) ∨ ∃ pre' pv, pre = pre' ++ [pv] ∧ pv.alloc = 0 := by
  rcases List.eq_nil_or_concat pre with rfl | ⟨L, pv, rfl⟩
  · left; simp
  · rw [List.concat_eq_append] at hal ⊢
    have := hal pv (by simp)
    by_cases h0 : pv.alloc = 0
    · right; exact ⟨L, pv, rfl, h0⟩
    · left
      intro x hx
      simp only [List.getLast?_concat, Option.mem_def, Option.some.injEq] at hx
      subst hx
      omega

theorem next_cases (post : List Blk) (hal : ∀ b ∈ post, b.alloc ≤ 1) :
    (∀ nx ∈ post.head?, nx.alloc = 1) ∨ ∃ nx post', post = nx :: post' ∧ nx.alloc = 0 := by
  cases post with
  | nil => left; simp
  | cons nx r =>
    have := hal nx (by simp)
    by_cases h0 : nx.alloc = 0
    · right; exact ⟨nx, r, rfl, h0⟩
    · left
      intro x hx
      simp only [List.head?_cons, Option.mem_def, Option.some.injEq] at hx
      subst hx
      omega

/-- Specification of `coalesce` on a heap in which `c` has just been tagged free. -/
theorem coalesce_spec (s : Heap) (pre post : List Blk) (c : Blk) (fl : List Nat)
    (h : PreCoal s pre c post fl) :
    (coalesce s c.bp).2 = (coalesceBlk pre c post).bp ∧
    WF (coalesce s c.bp).1 (coalesceBlocks pre c post) (coalesceList pre c post fl) ∧
    FrameOut s.mem (coalesce s c.bp).1.mem (coalesceBlk pre c post).bp
      ((coalesceBlk pre c post).bp + (coalesceBlk pre c post).size) fl := by
  have hb := h.base
  have hal : ∀ b ∈ pre ++ c :: post, b.alloc ≤ 1 :=
    fun b hbm => (Layout_mem _ _ _ hb.layout b hbm).2.2.2.2
  have hc : c = ⟨c.bp, c.size, 0⟩ := by
    have := h.cfree
    cases c
    simp_all
  rcases prev_cases pre (fun b hbm => hal b (by simp [hbm])) with hp | ⟨pre', pv, rfl, hp⟩
  · rcases next_cases post (fun b hbm => hal b (by simp [hbm])) with hn | ⟨nx, post', rfl, hn⟩
    · obtain ⟨k1, k2, k3⟩ := coalesce_case1 s pre post c fl h hp hn
      have e1 : coalesceBlk pre c post = c := by
        unfold coalesceBlk
        rw [prevFree_none pre hp, nextFree_none post hn]
        exact hc.symm
      have e2 : coalesceBlocks pre c post = pre ++ c :: post := by
        unfold coalesceBlocks
        rw [e1, prevFree_none pre hp, nextFree_none post hn]
        rfl
      have e3 : coalesceList pre c post fl = c.bp :: fl := by
        unfold coalesceList
        rw [prevFree_none pre hp, nextFree_none post hn]
      rw [e1, e2, e3, k1]
      exact ⟨rfl, k2, k3⟩
    · obtain ⟨k1, k2, k3⟩ := coalesce_case2 s pre post' c nx fl h hp hn
      have e1 : coalesceBlk pre c (nx :: post') = ⟨c.bp, c.size + nx.size, 0⟩ := by
        unfold coalesceBlk
        rw [prevFree_none pre hp, nextFree_some post' nx hn]
      have e2 : coalesceBlocks pre c (nx :: post') =
          pre ++ ⟨c.bp, c.size + nx.size, 0⟩ :: post' := by
        unfold coalesceBlocks
        rw [e1, prevFree_none pre hp, nextFree_some post' nx hn]
        rfl
      have e3 : coalesceList pre c (nx :: post') fl = c.bp :: fl.erase nx.bp := by
        unfold coalesceList
        rw [prevFree_none pre hp, nextFree_some post' nx hn]
      rw [e1, e2, e3]
      exact ⟨k1, k2, k3⟩
  · rcases next_cases post (fun b hbm => hal b (by simp [hbm])) with hn | ⟨nx, post', rfl, hn⟩
    · obtain ⟨k1, k2, k3⟩ := coalesce_case3 s pre' post pv c fl h hp hn
      have e1 : coalesceBlk (pre' ++ [pv]) c post = ⟨pv.bp, pv.size + c.size, 0⟩ := by
        unfold coalesceBlk
        rw [prevFree_some pre' pv hp, nextFree_none post hn]
      have e2 : coalesceBlocks (pre' ++ [pv]) c post =
          pre' ++ ⟨pv.bp, pv.size + c.size, 0⟩ :: post := by
        unfold coalesceBlocks
        rw [e1, prevFree_some pre' pv hp, nextFree_none post hn]
        simp
      have e3 : coalesceList (pre' ++ [pv]) c post fl = fl := by
        unfold coalesceList
        rw [prevFree_some pre' pv hp, nextFree_none post hn]
      have hb' : Base s (pre' ++ pv :: c :: post) fl := by simpa using hb
      obtain ⟨-, -, p3, -, -, p6, -, -, -⟩ := Base_block s pre' (c :: post) pv fl hb'
      have a4 : 4 ≤ pv.bp := by omega
      have a5 : 8 ≤ pv.size + c.size := by omega
      rw [e1, e2, e3, k1]
      exact ⟨rfl, k2, FrameOut_mono _ _ _ _ _ (FrameOut_setTags s.mem pv.bp _ 0 a4 a5)⟩
    · obtain ⟨k1, k2, k3⟩ := coalesce_case4 s pre' post' pv c nx fl h hp hn
      have e1 : coalesceBlk (pre' ++ [pv]) c (nx :: post') =
          ⟨pv.bp, pv.size + c.size + nx.size, 0⟩ := by
        unfold coalesceBlk
        rw [prevFree_some pre' pv hp, nextFree_some post' nx hn]
      have e2 : coalesceBlocks (pre' ++ [pv]) c (nx :: post') =
          pre' ++ ⟨pv.bp, pv.size + c.size + nx.size, 0⟩ :: post' := by
        unfold coalesceBlocks
        rw [e1, prevFree_some pre' pv hp, nextFree_some post' nx hn]
        simp
      have e3 : coalesceList (pre' ++ [pv]) c (nx :: post') fl = fl.erase nx.bp := by
        unfold coalesceList
        rw [prevFree_some pre' pv hp, nextFree_some post' nx hn]
      rw [e1, e2, e3]
      exact ⟨k1, k2, k3⟩

end MM
namespace MM

/-! ## `place` in closed form -/

theorem place_branch_whole (s : Heap) (bp asize csz : Nat)
    (hcs : GET_SIZE s.mem (HDRP bp) = csz)
    (hrem : ¬ (csz + SIZE_MOD - asize % SIZE_MOD) % SIZE_MOD ≥ 2 * DSIZE)
    (h8 : csz % 8 = 0) (hlt : csz + 1 < 2 ^ 32) :
    place s bp asize = delete_free_block { s with mem := setTags s.mem bp csz 1 } bp := by
  have ht := tag_write_eq s.mem bp csz 1 h8 (le_refl 1) hlt
  unfold place
  simp only [hcs, hrem, if_false, ht]

theorem place_branch_split (s : Heap) (bp asize csz rem bp2 : Nat)
    (hcs : GET_SIZE s.mem (HDRP bp) = csz)
    (hrem : (csz + SIZE_MOD - asize % SIZE_MOD) % SIZE_MOD = rem)
    (h16 : rem ≥ 2 * DSIZE)
    (ha8 : asize % 8 = 0) (halt : asize + 1 < 2 ^ 32)
    (hr8 : rem % 8 = 0) (hrlt : rem + 0 < 2 ^ 32)
    (hnb : NEXT_BLKP (delete_free_block { s with mem := setTags s.mem bp asize 1 } bp).mem bp
      = bp2) :
    place s bp asize =
      add_free_block
        { delete_free_block { s with mem := setTags s.mem bp asize 1 } bp with
          mem := setTags (delete_free_block { s with mem := setTags s.mem bp asize 1 } bp).mem
            bp2 rem 0 } bp2 := by
  have ht := tag_write_eq s.mem bp asize 1 ha8 (le_refl 1) halt
  have ht2 := tag_write_eq (delete_free_block { s with mem := setTags s.mem bp asize 1 } bp).mem
    bp2 rem 0 hr8 (by norm_num) hrlt
  unfold place
  simp only [hcs, hrem, h16, if_true, ht, hnb, ht2]

theorem Clear_inside (bs : List Blk) (p e : Nat) (h : Layout p bs e) (fl : List Nat)
    (hfl : ∀ x ∈ fl, ∃ b ∈ bs, b.bp = x) (c : Blk) (hc : c ∈ bs) (q : Nat)
    (h1 : c.bp + 8 ≤ q) (h2 : q + 4 ≤ c.bp + c.size) : Clear q fl := by
  intro x hx
  obtain ⟨b, hb, rfl⟩ := hfl x hx
  have hbm := Layout_mem _ _ _ h b hb
  rcases Layout_sep _ _ _ h b c hb hc with h3 | h3 | h3
  · subst h3; omega
  · omega
  · omega


/-- `place` without a split: the whole free block becomes allocated and leaves the list. -/
theorem place_whole (s : Heap) (pre post : List Blk) (c : Blk) (fl : List Nat) (asize : Nat)
    (hw : WF s (pre ++ c :: post) fl) (hc0 : c.alloc = 0) (hle : asize ≤ c.size)
    (hrem : c.size - asize < 16) :
    WF (place s c.bp asize) (pre ++ ⟨c.bp, c.size, 1⟩ :: post) (fl.erase c.bp) ∧
    FrameOut s.mem (place s c.bp asize).mem c.bp (c.bp + c.size) fl := by
  have hb := hw.toBase
  obtain ⟨h1, h2, h3, h4, h5, h6, h7, h8, h9⟩ := Base_block s pre post c fl hb
  have hcs : GET_SIZE s.mem (HDRP c.bp) = c.size := (next_view s pre post c fl hb).1
  have a0 : ¬ (c.size + SIZE_MOD - asize % SIZE_MOD) % SIZE_MOD ≥ 2 * DSIZE := by
    simp only [SIZE_MOD, DSIZE]
    clear * - hle hrem h6 h7 h8
    omega
  have a6 : c.size + 1 < 2 ^ 32 := by
    clear * - h6 h7 h8; omega
  rw [place_branch_whole s c.bp asize c.size hcs a0 h4 a6]
  have hfl' : ∀ x ∈ fl, ∃ b ∈ pre ++ c :: post, b.bp = x := by
    intro x hx
    obtain ⟨b, hb1, hb2, -⟩ := hb.flsub x hx
    exact ⟨b, hb1, hb2⟩
  have hp4 : 4 ≤ s.mem_heap + 16 := by omega
  have hlo1 : s.mem_heap < s.mem_heap + 16 := by omega
  have hclc := Clear_tags _ _ _ hb.layout hp4 fl hfl' c (by simp)
  have hcfl : c.bp ∈ fl := hw.flall c (by simp) hc0
  have hsep : FlSep s.mem_heap fl := FlSep_of_layout _ _ _ _ hb.layout fl hfl' hlo1 h8
  have a4 : 4 ≤ c.bp := by
    clear * - h6; omega
  have a5 : 8 ≤ c.size := by
    clear * - h3; omega
  -- step 1: retag
  have hl1 : Links (setTags s.mem c.bp c.size 1) fl :=
    Links_setTags s.mem fl c.bp _ 1 hb.links hclc.1 hclc.2
  have ht1 : Tagged (setTags s.mem c.bp c.size 1) ⟨c.bp, c.size, 1⟩ :=
    setTags_Tagged s.mem c.bp _ 1 a4 a5 a6
  generalize hs1 : ({ s with mem := setTags s.mem c.bp c.size 1 } : Heap) = s1
  have e1mem : s1.mem = setTags s.mem c.bp c.size 1 := by rw [← hs1]
  have e1fr : s1.fr_listp = s.fr_listp := by rw [← hs1]
  have e1h : s1.mem_heap = s.mem_heap := by rw [← hs1]
  have e1b : s1.mem_brk = s.mem_brk := by rw [← hs1]
  have e1m : s1.mem_max_addr = s.mem_max_addr := by rw [← hs1]
  have e1l : s1.heap_listp = s.heap_listp := by rw [← hs1]
  have hl1' : Links s1.mem fl := by rw [e1mem]; exact hl1
  have hh1 : s1.fr_listp = fl.headD 0 := by rw [e1fr]; exact hb.flhead
  -- step 2: unlink
  obtain ⟨hl2, hh2, hf2⟩ :=
    delete_free_block_erase s1 fl c.bp s.mem_heap hl1' hh1 hsep hb.nodup hcfl
  have hg2 := GET_delete_free_block s1 fl c.bp s.mem_heap hl1' hh1 hsep hb.nodup hcfl
  have hFF : FrameOut s.mem (delete_free_block s1 c.bp).mem c.bp (c.bp + c.size) fl := by
    intro a ha hx
    have j1 : a < c.bp - 4 ∨ c.bp - 4 + 4 ≤ a := by
      clear * - ha a4 a5; omega
    have j2 : a < c.bp + c.size - 8 ∨ c.bp + c.size - 8 + 4 ≤ a := by
      clear * - ha a4 a5; omega
    have i1 : s1.mem a = s.mem a := by
      rw [e1mem]
      exact setTags_frame s.mem c.bp _ 1 a j1 j2
    have i2 : (delete_free_block s1 c.bp).mem a = s1.mem a :=
      hf2 a (fun x hx' => hx x (List.mem_of_mem_erase hx'))
    rw [i2, i1]
  have hT : Tags (delete_free_block s1 c.bp).mem [⟨c.bp, c.size, 1⟩] := by
    intro b hbm
    rw [List.mem_singleton] at hbm
    subst hbm
    exact Tagged_congr s1.mem _ _ (by rw [e1mem]; exact ht1)
      (hg2 _ (Clear_erase _ _ _ hclc.1)) (hg2 _ (Clear_erase _ _ _ hclc.2))
  have hne : ∀ b ∈ pre ++ post, b.bp ≠ c.bp := by
    intro b hbm
    rcases List.mem_append.1 hbm with hq | hq
    · have := Layout_mem _ _ _ h1 b hq
      clear * - this
      omega
    · have := Layout_mem _ _ _ h2 b hq
      clear * - this h3
      omega
  have hsub : ∀ x ∈ fl.erase c.bp,
      ∃ b ∈ pre ++ [(⟨c.bp, c.size, 1⟩ : Blk)] ++ post, b.bp = x ∧ b.alloc = 0 := by
    intro x hx
    have hx1 := (hb.nodup.mem_erase_iff.1 hx)
    obtain ⟨b, q1, q2, q3⟩ := hb.flsub x hx1.2
    simp only [List.mem_append, List.mem_cons] at q1
    rcases q1 with hq | hq | hq
    · exact ⟨b, by simp [hq], q2, q3⟩
    · rw [hq] at q2
      exact absurd q2.symm hx1.1
    · exact ⟨b, by simp [hq], q2, q3⟩
  have hall : ∀ b ∈ pre ++ [(⟨c.bp, c.size, 1⟩ : Blk)] ++ post,
      b.alloc = 0 → b.bp ∈ fl.erase c.bp := by
    intro b hbm hb0
    simp only [List.mem_append, List.mem_singleton] at hbm
    rcases hbm with (hq | hq) | hq
    · refine hb.nodup.mem_erase_iff.2 ⟨hne b (by simp [hq]), ?_⟩
      exact hw.flall b (by simp [hq]) hb0
    · rw [hq] at hb0
      exact absurd hb0 (by norm_num)
    · refine hb.nodup.mem_erase_iff.2 ⟨hne b (by simp [hq]), ?_⟩
      exact hw.flall b (by simp [hq]) hb0
  have hnoadj := (NoAdj_mid pre post c).1 hw.noadj
  have e : pre ++ ⟨c.bp, c.size, 1⟩ :: post = pre ++ [⟨c.bp, c.size, 1⟩] ++ post := by simp
  have hna : NoAdjFree (pre ++ [(⟨c.bp, c.size, 1⟩ : Blk)] ++ post) := by
    rw [← e, NoAdj_mid]
    exact ⟨hnoadj.1, hnoadj.2.1, fun x hx => Or.inr rfl, fun y hy => Or.inl rfl⟩
  have hlay : Layout c.bp [⟨c.bp, c.size, 1⟩] (c.bp + c.size) := by
    rw [Layout_cons, Layout_nil]
    exact ⟨rfl, h3, h4, le_refl 1, rfl⟩
  have hbm : Base s (pre ++ [c] ++ post) fl := by simpa using hb
  refine ⟨?_, hFF⟩
  rw [e]
  exact WF_replace s _ pre [c] [⟨c.bp, c.size, 1⟩] post fl (fl.erase c.bp) c.bp
    (c.bp + c.size) hbm (by simp [e1h]) (by simp [e1b]) (by simp [e1m]) (by simp [e1l])
    h1 hlay h2 hFF hT hl2 hh2 (hb.nodup.erase _) hsub hall hna


/-- `place` with a split: the first `asize` bytes become an allocated block, the remainder a
free block that is pushed on the free list. -/
theorem place_split (s : Heap) (pre post : List Blk) (c : Blk) (fl : List Nat) (asize : Nat)
    (hw : WF s (pre ++ c :: post) fl) (hc0 : c.alloc = 0) (ha8 : asize % 8 = 0)
    (ha16 : 16 ≤ asize) (hrem : 16 ≤ c.size - asize) :
    WF (place s c.bp asize)
      (pre ++ ⟨c.bp, asize, 1⟩ :: ⟨c.bp + asize, c.size - asize, 0⟩ :: post)
      ((c.bp + asize) :: fl.erase c.bp) ∧
    FrameOut s.mem (place s c.bp asize).mem c.bp (c.bp + c.size) fl := by
  have hb := hw.toBase
  obtain ⟨h1, h2, h3, h4, h5, h6, h7, h8, h9⟩ := Base_block s pre post c fl hb
  have hcs : GET_SIZE s.mem (HDRP c.bp) = c.size := (next_view s pre post c fl hb).1
  have hfl' : ∀ x ∈ fl, ∃ b ∈ pre ++ c :: post, b.bp = x := by
    intro x hx
    obtain ⟨b, hb1, hb2, -⟩ := hb.flsub x hx
    exact ⟨b, hb1, hb2⟩
  have hp4 : 4 ≤ s.mem_heap + 16 := by omega
  have hlo1 : s.mem_heap < s.mem_heap + 16 := by omega
  have hclc := Clear_tags _ _ _ hb.layout hp4 fl hfl' c (by simp)
  have hcfl : c.bp ∈ fl := hw.flall c (by simp) hc0
  have hsep : FlSep s.mem_heap fl := FlSep_of_layout _ _ _ _ hb.layout fl hfl' hlo1 h8
  -- arithmetic
  have a0 : (c.size + SIZE_MOD - asize % SIZE_MOD) % SIZE_MOD = c.size - asize := by
    simp only [SIZE_MOD]
    clear * - hrem h6 h7 h8
    omega
  have a1 : c.size - asize ≥ 2 * DSIZE := by
    simp only [DSIZE]
    clear * - hrem; omega
  have a2 : asize + 1 < 2 ^ 32 := by
    clear * - hrem h6 h7 h8; omega
  have a3 : (c.size - asize) % 8 = 0 := by
    clear * - hrem h4 ha8; omega
  have a3' : c.size - asize + 0 < 2 ^ 32 := by
    clear * - hrem h6 h7 h8; omega
  have a4 : 4 ≤ c.bp := by
    clear * - h6; omega
  have a5 : 8 ≤ asize := by
    clear * - ha16; omega
  have a6 : 4 ≤ c.bp + asize := by
    clear * - h6; omega
  have a7 : 8 ≤ c.size - asize := by
    clear * - hrem; omega
  have a8 : c.bp + asize + (c.size - asize) = c.bp + c.size := by
    clear * - hrem; omega
  have a9 : c.bp + asize + (c.size - asize) - 8 = c.bp + c.size - 8 := by
    clear * - hrem; omega
  -- clearance of the new tag words
  have hclA : Clear (c.bp + asize - 8) fl :=
    Clear_inside _ _ _ hb.layout fl hfl' c (by simp) _ (by clear * - ha16; omega)
      (by clear * - hrem ha16; omega)
  have hclR : Clear (c.bp + asize - 4) fl :=
    Clear_inside _ _ _ hb.layout fl hfl' c (by simp) _ (by clear * - ha16; omega)
      (by clear * - hrem ha16; omega)
  -- step 1: tag the allocated part
  have hl1 : Links (setTags s.mem c.bp asize 1) fl :=
    Links_setTags s.mem fl c.bp _ 1 hb.links hclc.1 hclA
  have ht1 : Tagged (setTags s.mem c.bp asize 1) ⟨c.bp, asize, 1⟩ :=
    setTags_Tagged s.mem c.bp _ 1 a4 a5 a2
  generalize hs1 : ({ s with mem := setTags s.mem c.bp asize 1 } : Heap) = s1
  have e1mem : s1.mem = setTags s.mem c.bp asize 1 := by rw [← hs1]
  have e1fr : s1.fr_listp = s.fr_listp := by rw [← hs1]
  have e1h : s1.mem_heap = s.mem_heap := by rw [← hs1]
  have e1b : s1.mem_brk = s.mem_brk := by rw [← hs1]
  have e1m : s1.mem_max_addr = s.mem_max_addr := by rw [← hs1]
  have e1l : s1.heap_listp = s.heap_listp := by rw [← hs1]
  have hl1' : Links s1.mem fl := by rw [e1mem]; exact hl1
  have hh1 : s1.fr_listp = fl.headD 0 := by rw [e1fr]; exact hb.flhead
  -- step 2: unlink c
  obtain ⟨hl2, hh2, hf2⟩ :=
    delete_free_block_erase s1 fl c.bp s.mem_heap hl1' hh1 hsep hb.nodup hcfl
  have hg2 := GET_delete_free_block s1 fl c.bp s.mem_heap hl1' hh1 hsep hb.nodup hcfl
  have hA2 : Tagged (delete_free_block s1 c.bp).mem ⟨c.bp, asize, 1⟩ :=
    Tagged_congr s1.mem _ _ (by rw [e1mem]; exact ht1)
      (hg2 _ (Clear_erase _ _ _ hclc.1)) (hg2 _ (Clear_erase _ _ _ hclA))
  have hnb : NEXT_BLKP (delete_free_block s1 c.bp).mem c.bp = c.bp + asize :=
    NEXT_BLKP_of_tag _ ⟨c.bp, asize, 1⟩ hA2 ha8 (le_refl 1)
  have hpl := place_branch_split s c.bp asize c.size (c.size - asize) (c.bp + asize) hcs a0 a1
    ha8 a2 a3 a3' (by rw [hs1]; exact hnb)
  rw [hs1] at hpl
  rw [hpl]
  generalize hs2 : delete_free_block s1 c.bp = s2 at hl2 hh2 hf2 hg2 hA2 hnb ⊢
  have e2h : s2.mem_heap = s.mem_heap := by rw [← hs2, delete_free_block_heap, e1h]
  have e2b : s2.mem_brk = s.mem_brk := by rw [← hs2, delete_free_block_brk, e1b]
  have e2m : s2.mem_max_addr = s.mem_max_addr := by rw [← hs2, delete_free_block_max, e1m]
  have e2l : s2.heap_listp = s.heap_listp := by rw [← hs2, delete_free_block_hl, e1l]
  -- step 3: tag the remainder
  have hl3 : Links (setTags s2.mem (c.bp + asize) (c.size - asize) 0) (fl.erase c.bp) := by
    refine Links_setTags s2.mem _ (c.bp + asize) _ 0 hl2 ?_ ?_
    · rw [show c.bp + asize - 4 = c.bp + asize - 4 from rfl]
      exact Clear_erase _ _ _ hclR
    · rw [a9]
      exact Clear_erase _ _ _ hclc.2
  have ht3 : Tagged (setTags s2.mem (c.bp + asize) (c.size - asize) 0)
      ⟨c.bp + asize, c.size - asize, 0⟩ :=
    setTags_Tagged s2.mem _ _ 0 a6 a7 a3'
  have b1 : c.bp - 4 + 4 ≤ c.bp + asize - 4 ∨ c.bp + asize - 4 + 4 ≤ c.bp - 4 := by
    clear * - a4 a5; omega
  have b2 : c.bp - 4 + 4 ≤ c.bp + asize + (c.size - asize) - 8 ∨
      c.bp + asize + (c.size - asize) - 8 + 4 ≤ c.bp - 4 := by
    clear * - a4 a5 a7; omega
  have b3 : c.bp + asize - 8 + 4 ≤ c.bp + asize - 4 ∨
      c.bp + asize - 4 + 4 ≤ c.bp + asize - 8 := by
    clear * - a4 a5; omega
  have b4 : c.bp + asize - 8 + 4 ≤ c.bp + asize + (c.size - asize) - 8 ∨
      c.bp + asize + (c.size - asize) - 8 + 4 ≤ c.bp + asize - 8 := by
    clear * - a4 a5 a7; omega
  have hA3 : Tagged (setTags s2.mem (c.bp + asize) (c.size - asize) 0) ⟨c.bp, asize, 1⟩ :=
    Tagged_congr s2.mem _ _ hA2 (GET_setTags_disj _ _ _ _ _ b1 b2)
      (GET_setTags_disj _ _ _ _ _ b3 b4)
  generalize hs3 : ({ s2 with mem := setTags s2.mem (c.bp + asize) (c.size - asize) 0 } : Heap)
    = s3
  have e3mem : s3.mem = setTags s2.mem (c.bp + asize) (c.size - asize) 0 := by rw [← hs3]
  have e3fr : s3.fr_listp = s2.fr_listp := by rw [← hs3]
  have e3h : s3.mem_heap = s.mem_heap := by rw [← hs3]; exact e2h
  have e3b : s3.mem_brk = s.mem_brk := by rw [← hs3]; exact e2b
  have e3m : s3.mem_max_addr = s.mem_max_addr := by rw [← hs3]; exact e2m
  have e3l : s3.heap_listp = s.heap_listp := by rw [← hs3]; exact e2l
  have hl3' : Links s3.mem (fl.erase c.bp) := by rw [e3mem]; exact hl3
  have hh3 : s3.fr_listp = (fl.erase c.bp).headD 0 := by rw [e3fr]; exact hh2
  -- step 4: push the remainder
  have hlayAR : Layout c.bp [⟨c.bp, asize, 1⟩, ⟨c.bp + asize, c.size - asize, 0⟩]
      (c.bp + c.size) := by
    rw [Layout_cons, Layout_cons, Layout_nil]
    exact ⟨rfl, ha16, ha8, le_refl 1, rfl, hrem, a3, by simp, a8⟩
  have hlay' : Layout (s.mem_heap + 16)
      (pre ++ [⟨c.bp, asize, 1⟩, ⟨c.bp + asize, c.size - asize, 0⟩] ++ post) s.mem_brk := by
    rw [Layout_append]
    exact ⟨c.bp + c.size, (Layout_append _ _ _ _).2 ⟨c.bp, h1, hlayAR⟩, h2⟩
  have hne : ∀ b ∈ pre ++ post, b.bp ≠ c.bp := by
    intro b hbm
    rcases List.mem_append.1 hbm with hq | hq
    · have := Layout_mem _ _ _ h1 b hq
      clear * - this
      omega
    · have := Layout_mem _ _ _ h2 b hq
      clear * - this h3
      omega
  have hsub0 : ∀ x ∈ fl.erase c.bp, ∃ b ∈ pre ++ post, b.bp = x ∧ b.alloc = 0 := by
    intro x hx
    have hx1 := (hb.nodup.mem_erase_iff.1 hx)
    obtain ⟨b, q1, q2, q3⟩ := hb.flsub x hx1.2
    simp only [List.mem_append, List.mem_cons] at q1
    rcases q1 with hq | hq | hq
    · exact ⟨b, by simp [hq], q2, q3⟩
    · rw [hq] at q2
      exact absurd q2.symm hx1.1
    · exact ⟨b, by simp [hq], q2, q3⟩
  have hsub : ∀ x ∈ (c.bp + asize) :: fl.erase c.bp,
      ∃ b ∈ pre ++ [(⟨c.bp, asize, 1⟩ : Blk), ⟨c.bp + asize, c.size - asize, 0⟩] ++ post,
        b.bp = x ∧ b.alloc = 0 := by
    intro x hx
    rcases List.mem_cons.1 hx with rfl | hx'
    · exact ⟨⟨c.bp + asize, c.size - asize, 0⟩, by simp, rfl, rfl⟩
    · obtain ⟨b, q1, q2, q3⟩ := hsub0 x hx'
      refine ⟨b, ?_, q2, q3⟩
      rcases List.mem_append.1 q1 with hq | hq
      · simp [hq]
      · simp [hq]
  have hmem4 : ∀ x ∈ (c.bp + asize) :: fl.erase c.bp,
      ∃ b ∈ pre ++ [(⟨c.bp, asize, 1⟩ : Blk), ⟨c.bp + asize, c.size - asize, 0⟩] ++ post,
        b.bp = x := by
    intro x hx
    obtain ⟨b, q1, q2, -⟩ := hsub x hx
    exact ⟨b, q1, q2⟩
  have hsep4 : FlSep s.mem_heap ((c.bp + asize) :: fl.erase c.bp) :=
    FlSep_of_layout _ _ _ _ hlay' _ hmem4 hlo1 h8
  have hRnot : c.bp + asize ∉ fl.erase c.bp := by
    intro hm
    obtain ⟨b, q1, q2, -⟩ := hsub0 _ hm
    rcases List.mem_append.1 q1 with hq | hq
    · have := Layout_mem _ _ _ h1 b hq
      clear * - this q2 ha16
      omega
    · have := Layout_mem _ _ _ h2 b hq
      clear * - this q2 hrem
      omega
  have hnd4 : ((c.bp + asize) :: fl.erase c.bp).Nodup :=
    List.nodup_cons.2 ⟨hRnot, hb.nodup.erase _⟩
  obtain ⟨hl4, -⟩ := add_free_block_links s3 _ (c.bp + asize) s.mem_heap hl3' hh3 hsep4 hnd4
  have hf4 := add_free_block_frame s3 _ (c.bp + asize) s.mem_heap hl3' hh3 hsep4 hnd4
  have hg4 := GET_add_free_block s3 _ (c.bp + asize) s.mem_heap hl3' hh3 hsep4 hnd4
  -- tags after the push
  have c1 : c.bp - 4 + 4 ≤ c.bp + asize ∨ c.bp + asize + 8 ≤ c.bp - 4 := by
    clear * - a4; omega
  have c2 : c.bp + asize - 8 + 4 ≤ c.bp + asize ∨ c.bp + asize + 8 ≤ c.bp + asize - 8 := by
    clear * - a4 a5; omega
  have c3 : c.bp + asize - 4 + 4 ≤ c.bp + asize ∨ c.bp + asize + 8 ≤ c.bp + asize - 4 := by
    clear * - a4 a5; omega
  have c4 : c.bp + asize + (c.size - asize) - 8 + 4 ≤ c.bp + asize ∨
      c.bp + asize + 8 ≤ c.bp + asize + (c.size - asize) - 8 := by
    clear * - hrem; omega
  have hclF : Clear (c.bp + asize + (c.size - asize) - 8) (fl.erase c.bp) := by
    rw [a9]; exact Clear_erase _ _ _ hclc.2
  have hT : Tags (add_free_block s3 (c.bp + asize)).mem
      [⟨c.bp, asize, 1⟩, ⟨c.bp + asize, c.size - asize, 0⟩] := by
    intro b hbm
    simp only [List.mem_cons, List.mem_singleton, List.not_mem_nil, or_false] at hbm
    rcases hbm with hq | hq
    · subst hq
      exact Tagged_congr s3.mem _ _ (by rw [e3mem]; exact hA3)
        (hg4 _ (Clear_cons _ _ _ c1 (Clear_erase _ _ _ hclc.1)))
        (hg4 _ (Clear_cons _ _ _ c2 (Clear_erase _ _ _ hclA)))
    · subst hq
      exact Tagged_congr s3.mem _ _ (by rw [e3mem]; exact ht3)
        (hg4 _ (Clear_cons _ _ _ c3 (Clear_erase _ _ _ hclR)))
        (hg4 _ (Clear_cons _ _ _ c4 hclF))
  -- frame
  have hFF : FrameOut s.mem (add_free_block s3 (c.bp + asize)).mem c.bp (c.bp + c.size) fl := by
    intro a ha hx
    have j1 : a < c.bp - 4 ∨ c.bp - 4 + 4 ≤ a := by
      clear * - ha a4 a5 hrem; omega
    have j2 : a < c.bp + asize - 8 ∨ c.bp + asize - 8 + 4 ≤ a := by
      clear * - ha a4 a5 hrem; omega
    have j3 : a < c.bp + asize - 4 ∨ c.bp + asize - 4 + 4 ≤ a := by
      clear * - ha a4 a5 hrem; omega
    have j4 : a < c.bp + asize + (c.size - asize) - 8 ∨
        c.bp + asize + (c.size - asize) - 8 + 4 ≤ a := by
      clear * - ha a4 a5 hrem; omega
    have j5 : a < c.bp + asize ∨ c.bp + asize + 8 ≤ a := by
      clear * - ha a4 a5 hrem; omega
    have i1 : s1.mem a = s.mem a := by
      rw [e1mem]
      exact setTags_frame s.mem c.bp _ 1 a j1 j2
    have i2 : s2.mem a = s1.mem a :=
      hf2 a (fun x hx' => hx x (List.mem_of_mem_erase hx'))
    have i3 : s3.mem a = s2.mem a := by
      rw [e3mem]
      exact setTags_frame s2.mem _ _ 0 a j3 j4
    have i4 : (add_free_block s3 (c.bp + asize)).mem a = s3.mem a := by
      apply hf4 a
      intro x hx'
      rcases List.mem_cons.1 hx' with rfl | hx''
      · exact j5
      · exact hx x (List.mem_of_mem_erase hx'')
    rw [i4, i3, i2, i1]
  have hall : ∀ b ∈ pre ++ [(⟨c.bp, asize, 1⟩ : Blk), ⟨c.bp + asize, c.size - asize, 0⟩] ++ post,
      b.alloc = 0 → b.bp ∈ (c.bp + asize) :: fl.erase c.bp := by
    intro b hbm hb0
    simp only [List.mem_append, List.mem_cons, List.mem_singleton, List.not_mem_nil,
      or_false] at hbm
    rcases hbm with (hq | hq | hq) | hq
    · refine List.mem_cons_of_mem _ (hb.nodup.mem_erase_iff.2 ⟨hne b (by simp [hq]), ?_⟩)
      exact hw.flall b (by simp [hq]) hb0
    · rw [hq] at hb0
      exact absurd hb0 (by norm_num)
    · rw [hq]; simp
    · refine List.mem_cons_of_mem _ (hb.nodup.mem_erase_iff.2 ⟨hne b (by simp [hq]), ?_⟩)
      exact hw.flall b (by simp [hq]) hb0
  have hnoadj := (NoAdj_mid pre post c).1 hw.noadj
  have e : pre ++ ⟨c.bp, asize, 1⟩ :: ⟨c.bp + asize, c.size - asize, 0⟩ :: post =
      pre ++ [⟨c.bp, asize, 1⟩, ⟨c.bp + asize, c.size - asize, 0⟩] ++ post := by simp
  have hna : NoAdjFree
      (pre ++ [(⟨c.bp, asize, 1⟩ : Blk), ⟨c.bp + asize, c.size - asize, 0⟩] ++ post) := by
    rw [← e, NoAdj_mid]
    refine ⟨hnoadj.1, ?_, fun x hx => Or.inr rfl, fun y hy => Or.inl rfl⟩
    have := (NoAdj_mid [] post ⟨c.bp + asize, c.size - asize, 0⟩).2
      ⟨List.chain'_nil, hnoadj.2.1, by simp, ?_⟩
    · simpa using this
    · intro y hy
      rcases hnoadj.2.2.2 y hy with h0 | h0
      · rw [hc0] at h0
        exact absurd h0 (by norm_num)
      · exact Or.inr h0
  have hbm : Base s (pre ++ [c] ++ post) fl := by simpa using hb
  refine ⟨?_, hFF⟩
  rw [e]
  exact WF_replace s _ pre [c] [⟨c.bp, asize, 1⟩, ⟨c.bp + asize, c.size - asize, 0⟩] post fl
    ((c.bp + asize) :: fl.erase c.bp) c.bp (c.bp + c.size) hbm (by simp [e3h]) (by simp [e3b])
    (by simp [e3m]) (by simp [e3l]) h1 hlayAR h2 hFF hT hl4 (by simp) hnd4 hsub hall hna

end MM

namespace MM

/-- Specification of `place` on a free block of a well-formed heap. -/
theorem place_spec (s : Heap) (pre post : List Blk) (c : Blk) (fl : List Nat) (asize : Nat)
    (hw : WF s (pre ++ c :: post) fl) (hc0 : c.alloc = 0) (ha8 : asize % 8 = 0)
    (ha16 : 16 ≤ asize) (hle : asize ≤ c.size) :
    WF (place s c.bp asize) (placeBlocks pre c post asize) (placeList c asize fl) ∧
    FrameOut s.mem (place s c.bp asize).mem c.bp (c.bp + c.size) fl := by
  unfold placeBlocks placeList
  by_cases h : c.size - asize ≥ 16
  · rw [if_pos h, if_pos h]
    exact place_split s pre post c fl asize hw hc0 ha8 ha16 h
  · rw [if_neg h, if_neg h]
    exact place_whole s pre post c fl asize hw hc0 hle (by omega)

end MM
namespace MM

/-! ## `find_fit` -/

theorem find_fit_loop_last (m : Mem) (asize fuel x tmp record : Nat) (h0 : GET m x = 0) :
    find_fit_loop m asize (fuel + 1) x tmp record =
      if x ≠ 0 ∧ GET_SIZE m (HDRP x) ≥ asize ∧ GET_SIZE m (HDRP x) < tmp then some x
      else some record := by
  simp [find_fit_loop, NEXT_FRBP, h0]

theorem find_fit_loop_step (m : Mem) (asize fuel x y tmp record : Nat) (hx : x ≠ 0)
    (h0 : GET m x ≠ 0) (hy : ptrAdd x (toInt (GET m x)) = y) :
    find_fit_loop m asize (fuel + 1) x tmp record =
      if ((if GET_SIZE m (HDRP x) ≥ asize ∧ GET_SIZE m (HDRP x) < tmp then GET_SIZE m (HDRP x)
            else tmp) + SIZE_MOD - asize % SIZE_MOD) % SIZE_MOD < 256 then
        some (if GET_SIZE m (HDRP x) ≥ asize ∧ GET_SIZE m (HDRP x) < tmp then x else record)
      else find_fit_loop m asize fuel y
        (if GET_SIZE m (HDRP x) ≥ asize ∧ GET_SIZE m (HDRP x) < tmp then GET_SIZE m (HDRP x)
          else tmp)
        (if GET_SIZE m (HDRP x) ≥ asize ∧ GET_SIZE m (HDRP x) < tmp then x else record) := by
  rw [find_fit_loop]
  simp only [NEXT_FRBP, hx, h0, ne_eq, not_false_eq_true, and_self, if_true, hy]

/-- The scan of `find_fit` over a linked list `x :: l`: it terminates within
`l.length + 1` iterations, returns NULL only if neither the running candidate nor any
remaining member fits, and otherwise returns a fitting block. -/
theorem find_fit_loop_spec (m : Mem) (asize lo : Nat) (ha : asize < 2 ^ 64) :
    ∀ (l : List Nat) (x tmp record fuel : Nat),
      List.Chain' (LinkR m) (x :: l) →
      (∀ y, (x :: l).getLast? = some y → GET m y = 0) →
      (∀ y ∈ x :: l, lo < y ∧ y + 8 ≤ lo + 2 ^ 31) →
      (x :: l).Nodup →
      (∀ y ∈ x :: l, GET_SIZE m (HDRP y) < 2 ^ 31) →
      ((record = 0 ∧ tmp = TMP_INIT) ∨
        (record ≠ 0 ∧ tmp = GET_SIZE m (HDRP record) ∧ asize ≤ tmp ∧ tmp < 2 ^ 31)) →
      l.length < fuel →
      ∃ r, find_fit_loop m asize fuel x tmp record = some r ∧
        (r = 0 → record = 0 ∧ ∀ y ∈ x :: l, GET_SIZE m (HDRP y) < asize) ∧
        (r ≠ 0 → (r = record ∨ r ∈ x :: l) ∧ asize ≤ GET_SIZE m (HDRP r)) := by
  intro l
  induction l with
  | nil =>
    intro x tmp record fuel hc hlast hrng hnd hsz hinv hfuel
    obtain ⟨f, rfl⟩ : ∃ f, fuel = f + 1 := ⟨fuel - 1, by simp at hfuel; omega⟩
    have h0 : GET m x = 0 := hlast x (by simp)
    have hx0 : x ≠ 0 := by
      have := hrng x (by simp)
      omega
    have hsx := hsz x (by simp)
    rw [find_fit_loop_last m asize f x tmp record h0]
    by_cases hcnd : GET_SIZE m (HDRP x) ≥ asize ∧ GET_SIZE m (HDRP x) < tmp
    · rw [if_pos ⟨hx0, hcnd⟩]
      refine ⟨x, rfl, fun h => absurd h hx0, fun _ => ⟨Or.inr (by simp), hcnd.1⟩⟩
    · have hneg : ¬ (x ≠ 0 ∧ GET_SIZE m (HDRP x) ≥ asize ∧ GET_SIZE m (HDRP x) < tmp) :=
        fun h => hcnd h.2
      rw [if_neg hneg]
      refine ⟨record, rfl, ?_, ?_⟩
      · intro hr
        refine ⟨hr, ?_⟩
        intro y hy
        simp only [List.mem_singleton] at hy
        subst hy
        rcases hinv with ⟨-, ht⟩ | ⟨hne, -⟩
        · simp only [TMP_INIT] at ht
          clear * - hcnd ht hsx
          omega
        · exact absurd hr hne
      · intro hr
        rcases hinv with ⟨h1, -⟩ | ⟨-, ht, hle, -⟩
        · exact absurd h1 hr
        · exact ⟨Or.inl rfl, by rw [← ht]; exact hle⟩
  | cons y l ih =>
    intro x tmp record fuel hc hlast hrng hnd hsz hinv hfuel
    obtain ⟨f, rfl⟩ : ∃ f, fuel = f + 1 := ⟨fuel - 1, by simp at hfuel; omega⟩
    have hrx := hrng x (by simp)
    have hry := hrng y (by simp)
    have hx0 : x ≠ 0 := by omega
    have hxy : x ≠ y := by
      intro e
      rw [List.nodup_cons] at hnd
      exact hnd.1 (by simp [e])
    have hlk : LinkR m x y := (List.chain'_cons.1 hc).1
    have hg : GET m x ≠ 0 := by
      rw [hlk.1]
      exact linkTo_ne_zero x y (by omega) (by omega) hxy
    have hd : ptrAdd x (toInt (GET m x)) = y := by
      rw [hlk.1]
      exact linkTo_dec x y (by omega) (by omega)
    have hsx := hsz x (by simp)
    rw [find_fit_loop_step m asize f x y tmp record hx0 hg hd]
    have hsm : asize % SIZE_MOD = asize := Nat.mod_eq_of_lt (by simpa using ha)
    rw [hsm]
    by_cases hcnd : GET_SIZE m (HDRP x) ≥ asize ∧ GET_SIZE m (HDRP x) < tmp
    · simp only [if_pos hcnd]
      by_cases hex : (GET_SIZE m (HDRP x) + SIZE_MOD - asize) % SIZE_MOD < 256
      · rw [if_pos hex]
        refine ⟨x, rfl, fun h => absurd h hx0, fun _ => ⟨Or.inr (by simp), hcnd.1⟩⟩
      · rw [if_neg hex]
        have hinv' : (x = 0 ∧ GET_SIZE m (HDRP x) = TMP_INIT) ∨
            (x ≠ 0 ∧ GET_SIZE m (HDRP x) = GET_SIZE m (HDRP x) ∧ asize ≤ GET_SIZE m (HDRP x) ∧
              GET_SIZE m (HDRP x) < 2 ^ 31) := Or.inr ⟨hx0, rfl, hcnd.1, hsx⟩
        obtain ⟨r, hr1, hr2, hr3⟩ := ih y (GET_SIZE m (HDRP x)) x f (List.chain'_cons.1 hc).2
          (fun z hz => hlast z (by rw [List.getLast?_cons_cons]; exact hz))
          (fun z hz => hrng z (List.mem_cons_of_mem _ hz)) (List.nodup_cons.1 hnd).2
          (fun z hz => hsz z (List.mem_cons_of_mem _ hz)) hinv'
          (by simp only [List.length_cons] at hfuel; omega)
        refine ⟨r, hr1, ?_, ?_⟩
        · intro h0
          exact absurd (hr2 h0).1 hx0
        · intro hne
          obtain ⟨h1, h2⟩ := hr3 hne
          refine ⟨Or.inr ?_, h2⟩
          rcases h1 with h1 | h1
          · rw [h1]; simp
          · exact List.mem_cons_of_mem _ h1
    · simp only [if_neg hcnd]
      by_cases hex : (tmp + SIZE_MOD - asize) % SIZE_MOD < 256
      · rw [if_pos hex]
        refine ⟨record, rfl, ?_, ?_⟩
        · intro hr
          refine ⟨hr, ?_⟩
          rcases hinv with ⟨-, ht⟩ | ⟨hne, -⟩
          · intro z hz
            have hsz' := hsz z hz
            simp only [TMP_INIT] at ht
            simp only [SIZE_MOD] at hex
            clear * - hex ht hsz' ha
            omega
          · exact absurd hr hne
        · intro hr
          rcases hinv with ⟨h1, -⟩ | ⟨-, ht, hle, -⟩
          · exact absurd h1 hr
          · exact ⟨Or.inl rfl, by rw [← ht]; exact hle⟩
      · rw [if_neg hex]
        obtain ⟨r, hr1, hr2, hr3⟩ := ih y tmp record f (List.chain'_cons.1 hc).2
          (fun z hz => hlast z (by rw [List.getLast?_cons_cons]; exact hz))
          (fun z hz => hrng z (List.mem_cons_of_mem _ hz)) (List.nodup_cons.1 hnd).2
          (fun z hz => hsz z (List.mem_cons_of_mem _ hz)) hinv
          (by simp only [List.length_cons] at hfuel; omega)
        refine ⟨r, hr1, ?_, ?_⟩
        · intro h0
          obtain ⟨h1, h2⟩ := hr2 h0
          refine ⟨h1, ?_⟩
          intro z hz
          rcases List.mem_cons.1 hz with rfl | hz'
          · rcases hinv with ⟨-, ht⟩ | ⟨hne, -⟩
            · simp only [TMP_INIT] at ht
              clear * - hcnd ht hsx
              omega
            · exact absurd h1 hne
          · exact h2 z hz'
        · intro hne
          obtain ⟨h1, h2⟩ := hr3 hne
          refine ⟨?_, h2⟩
          rcases h1 with h1 | h1
          · exact Or.inl h1
          · exact Or.inr (List.mem_cons_of_mem _ h1)


theorem find_fit_loop_null (m : Mem) (asize fuel tmp record : Nat) :
    find_fit_loop m asize (fuel + 1) 0 tmp record = some record := by
  simp [find_fit_loop]

/-- Size read by `find_fit` for a free-list member of a well-formed heap. -/
theorem Base_fl_size (s : Heap) (bs : List Blk) (fl : List Nat) (hb : Base s bs fl) (x : Nat)
    (hx : x ∈ fl) :
    ∃ b ∈ bs, b.bp = x ∧ b.alloc = 0 ∧ GET_SIZE s.mem (HDRP x) = b.size ∧ b.size < 2 ^ 31 := by
  obtain ⟨b, hbm, hbx, hb0⟩ := hb.flsub x hx
  have hm := Layout_mem _ _ _ hb.layout b hbm
  have ht := hb.tags b hbm
  have hs : GET_SIZE s.mem (b.bp - 4) = b.size := GET_SIZE_hdr s.mem b ht hm.2.2.2.1 hm.2.2.2.2
  have hcap := hb.cap
  have hbrk := hb.brk_le
  refine ⟨b, hbm, hbx, hb0, ?_, ?_⟩
  · rw [← hbx]
    simpa [HDRP] using hs
  · clear * - hm hcap hbrk
    omega

/-- Specification of `find_fit` on a well-formed heap: with enough fuel it terminates; it
returns NULL exactly when no free block is large enough, and otherwise a free block of size
at least `asize`. -/
theorem find_fit_spec (s : Heap) (bs : List Blk) (fl : List Nat) (asize fuel : Nat)
    (hw : WF s bs fl) (ha : asize < 2 ^ 64) (hf : fl.length < fuel) :
    ∃ r, find_fit fuel s asize = some r ∧
      (r = 0 → ∀ b ∈ bs, b.alloc = 0 → b.size < asize) ∧
      (r ≠ 0 → ∃ b ∈ bs, b.bp = r ∧ b.alloc = 0 ∧ asize ≤ b.size) := by
  have hb := hw.toBase
  unfold find_fit
  cases hfl : fl with
  | nil =>
    obtain ⟨f, rfl⟩ : ∃ f, fuel = f + 1 := ⟨fuel - 1, by omega⟩
    have h0 : s.fr_listp = 0 := by rw [hb.flhead, hfl]; rfl
    rw [h0, find_fit_loop_null]
    refine ⟨0, rfl, ?_, fun h => absurd rfl h⟩
    intro _ b hbm hb0
    have := hw.flall b hbm hb0
    rw [hfl] at this
    cases this
  | cons x l =>
    have hfr : s.fr_listp = x := by rw [hb.flhead, hfl]; rfl
    have hfl' : ∀ y ∈ fl, ∃ b ∈ bs, b.bp = y := by
      intro y hy
      obtain ⟨b, h1, h2, -⟩ := hb.flsub y hy
      exact ⟨b, h1, h2⟩
    have hcap := hb.cap
    have hbrk := hb.brk_le
    have hsep : FlSep s.mem_heap fl :=
      FlSep_of_layout _ _ _ _ hb.layout fl hfl' (by omega) (by omega)
    have hlinks := hb.links
    have hnd := hb.nodup
    rw [hfl] at hlinks hnd hsep
    have hszs : ∀ y ∈ x :: l, GET_SIZE s.mem (HDRP y) < 2 ^ 31 := by
      intro y hy
      obtain ⟨b, -, -, -, h1, h2⟩ := Base_fl_size s bs fl hb y (by rw [hfl]; exact hy)
      rw [h1]; exact h2
    obtain ⟨r, hr1, hr2, hr3⟩ := find_fit_loop_spec s.mem asize s.mem_heap ha l x TMP_INIT 0 fuel
      hlinks.1 hlinks.2.2 hsep.1 hnd hszs (Or.inl ⟨rfl, rfl⟩)
      (by rw [hfl] at hf; simp only [List.length_cons] at hf; omega)
    rw [hfr]
    refine ⟨r, hr1, ?_, ?_⟩
    · intro h0 b hbm hb0
      have hmem : b.bp ∈ x :: l := by rw [← hfl]; exact hw.flall b hbm hb0
      have := (hr2 h0).2 b.bp hmem
      obtain ⟨b', hb'm, hb'x, -, h1, -⟩ := Base_fl_size s bs fl hb b.bp (by rw [hfl]; exact hmem)
      have e : b' = b := Layout_bp_inj _ _ _ hb.layout b' b hb'm hbm hb'x
      rw [h1, e] at this
      exact this
    · intro hne
      obtain ⟨h1, h2⟩ := hr3 hne
      have hmem : r ∈ x :: l := by
        rcases h1 with h1 | h1
        · exact absurd h1 hne
        · exact h1
      obtain ⟨b, hbm, hbx, hb0, h3, -⟩ := Base_fl_size s bs fl hb r (by rw [hfl]; exact hmem)
      exact ⟨b, hbm, hbx, hb0, by rw [← h3]; exact h2⟩

end MM
namespace MM

/-! ## `extend_heap` -/

theorem extend_heap_fail (s : Heap) (words S : Nat)
    (hS : (if words % 2 ≠ 0 then ((words + 1) * WSIZE) % SIZE_MOD
      else (words * WSIZE) % SIZE_MOD) = S)
    (hfit : s.mem_brk + S > s.mem_max_addr) : extend_heap s words = (s, 0) := by
  unfold extend_heap
  simp only [hS]
  simp [mem_sbrk, hfit]

theorem extend_heap_eq (s : Heap) (words S : Nat)
    (hS : (if words % 2 ≠ 0 then ((words + 1) * WSIZE) % SIZE_MOD
      else (words * WSIZE) % SIZE_MOD) = S)
    (hfit : s.mem_brk + S ≤ s.mem_max_addr) (hS8 : S % 8 = 0) (h8 : 8 ≤ S)
    (hSlt : S + 0 < 2 ^ 32) (hbrk : 4 ≤ s.mem_brk) :
    extend_heap s words =
      coalesce { s with mem_brk := s.mem_brk + S,
                        mem := PUT (setTags s.mem s.mem_brk S 0) (s.mem_brk + S - 4) 1 }
        s.mem_brk := by
  have ht := tag_write_eq s.mem s.mem_brk S 0 hS8 (by norm_num) hSlt
  have hT := setTags_Tagged s.mem s.mem_brk S 0 hbrk h8 hSlt
  have hn : NEXT_BLKP (setTags s.mem s.mem_brk S 0) s.mem_brk = s.mem_brk + S :=
    NEXT_BLKP_of_tag _ ⟨s.mem_brk, S, 0⟩ hT hS8 (by norm_num)
  have hnf : ¬ (s.mem_brk + S > s.mem_max_addr) := by omega
  have hp : PACK 0 1 = 1 := by decide
  simp only [HDRP, WSIZE] at ht
  unfold extend_heap
  simp only [hS]
  simp only [mem_sbrk, hnf, if_false, ht, hn, HDRP, WSIZE, hp]


/-- After `mem_sbrk` and the three tag writes of `extend_heap`, the new block `c` at the old
break is a free-tagged block awaiting `coalesce`. -/
theorem extend_heap_pre (s : Heap) (bs : List Blk) (fl : List Nat) (S : Nat)
    (hw : WF s bs fl) (hS8 : S % 8 = 0) (h16 : 16 ≤ S)
    (hfit : s.mem_brk + S ≤ s.mem_max_addr) :
    PreCoal { s with mem_brk := s.mem_brk + S,
                     mem := PUT (setTags s.mem s.mem_brk S 0) (s.mem_brk + S - 4) 1 }
      bs ⟨s.mem_brk, S, 0⟩ [] fl := by
  have hb := hw.toBase
  have hle := Layout_le _ _ _ hb.layout
  have hcap := hb.cap
  have hfl' : ∀ x ∈ fl, ∃ b ∈ bs, b.bp = x := by
    intro x hx
    obtain ⟨b, h1, h2, -⟩ := hb.flsub x hx
    exact ⟨b, h1, h2⟩
  have a4 : 4 ≤ s.mem_brk := by
    clear * - hle; omega
  have a5 : 8 ≤ S := by
    clear * - h16; omega
  have a6 : S + 0 < 2 ^ 32 := by
    clear * - hle hcap hfit; omega
  have hword : ∀ q, q + 8 ≤ s.mem_brk →
      GET (PUT (setTags s.mem s.mem_brk S 0) (s.mem_brk + S - 4) 1) q = GET s.mem q := by
    intro q hq
    have d1 : q + 4 ≤ s.mem_brk + S - 4 ∨ s.mem_brk + S - 4 + 4 ≤ q := by
      clear * - hq h16; omega
    have d2 : q + 4 ≤ s.mem_brk - 4 ∨ s.mem_brk - 4 + 4 ≤ q := by
      clear * - hq; omega
    have d3 : q + 4 ≤ s.mem_brk + S - 8 ∨ s.mem_brk + S - 8 + 4 ≤ q := by
      clear * - hq h16; omega
    rw [GET_PUT_disj _ _ _ _ d1, GET_setTags_disj _ _ _ _ _ d2 d3]
  have hT : Tagged (PUT (setTags s.mem s.mem_brk S 0) (s.mem_brk + S - 4) 1)
      ⟨s.mem_brk, S, 0⟩ := by
    have h0 := setTags_Tagged s.mem s.mem_brk S 0 a4 a5 a6
    have d1 : s.mem_brk - 4 + 4 ≤ s.mem_brk + S - 4 ∨ s.mem_brk + S - 4 + 4 ≤ s.mem_brk - 4 := by
      clear * - a4 h16; omega
    have d2 : s.mem_brk + S - 8 + 4 ≤ s.mem_brk + S - 4 ∨
        s.mem_brk + S - 4 + 4 ≤ s.mem_brk + S - 8 := by
      clear * - a4 h16; omega
    exact Tagged_congr _ _ _ h0 (GET_PUT_disj _ _ _ _ d1) (GET_PUT_disj _ _ _ _ d2)
  have c1 : Clear (s.mem_brk - 4) fl :=
    Clear_outside _ _ _ hb.layout fl hfl' _ (Or.inr (by clear * - a4; omega))
  have c2 : Clear (s.mem_brk + S - 8) fl :=
    Clear_outside _ _ _ hb.layout fl hfl' _ (Or.inr (by clear * - a4 h16; omega))
  have c3 : Clear (s.mem_brk + S - 4) fl :=
    Clear_outside _ _ _ hb.layout fl hfl' _ (Or.inr (by clear * - a4 h16; omega))
  have hlinks : Links (PUT (setTags s.mem s.mem_brk S 0) (s.mem_brk + S - 4) 1) fl :=
    Links_PUT _ fl _ _ (Links_setTags s.mem fl _ _ 0 hb.links c1 c2) c3
  have hlay : Layout (s.mem_heap + 16) (bs ++ [⟨s.mem_brk, S, 0⟩]) (s.mem_brk + S) := by
    rw [Layout_append]
    refine ⟨s.mem_brk, hb.layout, ?_⟩
    rw [Layout_cons, Layout_nil]
    exact ⟨rfl, h16, hS8, by simp, rfl⟩
  have htags : Tags (PUT (setTags s.mem s.mem_brk S 0) (s.mem_brk + S - 4) 1)
      (bs ++ [⟨s.mem_brk, S, 0⟩]) := by
    intro b hbm
    rcases List.mem_append.1 hbm with hq | hq
    · have hm := Layout_mem _ _ _ hb.layout b hq
      have e1 : b.bp - 4 + 8 ≤ s.mem_brk := by
        clear * - hm; omega
      have e2 : b.bp + b.size - 8 + 8 ≤ s.mem_brk := by
        clear * - hm; omega
      exact Tagged_congr s.mem _ b (hb.tags b hq) (hword _ e1) (hword _ e2)
    · rw [List.mem_singleton] at hq
      rw [hq]; exact hT
  have hbase : Base { s with mem_brk := s.mem_brk + S,
                             mem := PUT (setTags s.mem s.mem_brk S 0) (s.mem_brk + S - 4) 1 }
      (bs ++ [⟨s.mem_brk, S, 0⟩]) fl := by
    refine { lo8 := hb.lo8, cap := hb.cap, brk_le := hfit, hl := hb.hl, pro_h := ?_, pro_f := ?_,
             layout := hlay, epi := ?_, tags := htags, flhead := hb.flhead, links := hlinks,
             nodup := hb.nodup, flsub := ?_ }
    · show GET (PUT (setTags s.mem s.mem_brk S 0) (s.mem_brk + S - 4) 1) (s.mem_heap + 4) = 9
      rw [hword _ (by clear * - hle; omega)]
      exact hb.pro_h
    · show GET (PUT (setTags s.mem s.mem_brk S 0) (s.mem_brk + S - 4) 1) (s.mem_heap + 8) = 9
      rw [hword _ (by clear * - hle; omega)]
      exact hb.pro_f
    · show GET (PUT (setTags s.mem s.mem_brk S 0) (s.mem_brk + S - 4) 1) (s.mem_brk + S - 4) = 1
      rw [GET_PUT_same]; rfl
    · intro x hx
      obtain ⟨b, h1, h2, h3⟩ := hb.flsub x hx
      exact ⟨b, List.mem_append_left _ h1, h2, h3⟩
  refine { base := hbase, cfree := rfl, cnot := ?_, flall := ?_, noadj := ?_ }
  · intro hm
    obtain ⟨b, h1, h2, -⟩ := hb.flsub _ hm
    have := Layout_mem _ _ _ hb.layout b h1
    simp only at h2
    clear * - this h2
    omega
  · intro b hbm hb0
    rw [List.append_nil] at hbm
    exact hw.flall b hbm hb0
  · rw [NoAdj_mid]
    exact ⟨hw.noadj, List.chain'_nil, fun x hx => Or.inr rfl, by simp⟩

end MM
namespace MM

/-! ## Fields that the routines leave alone -/

@[simp] theorem coalesce_brk (s : Heap) (bp : Nat) : (coalesce s bp).1.mem_brk = s.mem_brk := by
  unfold coalesce
  simp only []
  split_ifs <;> simp

@[simp] theorem coalesce_heap (s : Heap) (bp : Nat) :
    (coalesce s bp).1.mem_heap = s.mem_heap := by
  unfold coalesce
  simp only []
  split_ifs <;> simp

@[simp] theorem coalesce_max (s : Heap) (bp : Nat) :
    (coalesce s bp).1.mem_max_addr = s.mem_max_addr := by
  unfold coalesce
  simp only []
  split_ifs <;> simp

@[simp] theorem coalesce_hl (s : Heap) (bp : Nat) :
    (coalesce s bp).1.heap_listp = s.heap_listp := by
  unfold coalesce
  simp only []
  split_ifs <;> simp

@[simp] theorem place_brk (s : Heap) (bp asize : Nat) :
    (place s bp asize).mem_brk = s.mem_brk := by
  unfold place
  simp only []
  split_ifs <;> simp

@[simp] theorem place_heap (s : Heap) (bp asize : Nat) :
    (place s bp asize).mem_heap = s.mem_heap := by
  unfold place
  simp only []
  split_ifs <;> simp

@[simp] theorem place_max (s : Heap) (bp asize : Nat) :
    (place s bp asize).mem_max_addr = s.mem_max_addr := by
  unfold place
  simp only []
  split_ifs <;> simp

@[simp] theorem place_hl (s : Heap) (bp asize : Nat) :
    (place s bp asize).heap_listp = s.heap_listp := by
  unfold place
  simp only []
  split_ifs <;> simp

/-! ## Properties of the abstract coalescing functions -/

theorem prevFree_eq_some (pre : List Blk) (pv : Blk) (h : prevFree pre = some pv) :
    pre = pre.dropLast ++ [pv] ∧ pv.alloc = 0 := by
  unfold prevFree at h
  cases hg : pre.getLast? with
  | none => rw [hg] at h; cases h
  | some x =>
    rw [hg] at h
    simp only at h
    split_ifs at h with h0
    simp only [Option.some.injEq] at h
    subst h
    obtain ⟨ys, rfl⟩ := List.getLast?_eq_some_iff.1 hg
    simp [h0]

theorem nextFree_eq_some (post : List Blk) (nx : Blk) (h : nextFree post = some nx) :
    post = nx :: post.tail ∧ nx.alloc = 0 := by
  unfold nextFree at h
  cases post with
  | nil => simp at h
  | cons x r =>
    simp only [List.head?_cons] at h
    split_ifs at h with h0
    simp only [Option.some.injEq] at h
    subst h
    simp [h0]

theorem coalesceBlk_alloc (pre post : List Blk) (c : Blk) : (coalesceBlk pre c post).alloc = 0 := by
  unfold coalesceBlk
  cases prevFree pre <;> cases nextFree post <;> rfl

theorem coalesceBlk_mem (pre post : List Blk) (c : Blk) :
    coalesceBlk pre c post ∈ coalesceBlocks pre c post := by
  unfold coalesceBlocks
  simp

/-- Allocated blocks are exactly preserved by coalescing. -/
theorem coalesceBlocks_alloc (pre post : List Blk) (c b : Blk) (hb : b.alloc = 1) :
    b ∈ coalesceBlocks pre c post ↔ b ∈ pre ++ post := by
  have hM : b ≠ coalesceBlk pre c post := by
    intro e
    have := coalesceBlk_alloc pre post c
    rw [← e, hb] at this
    exact absurd this (by norm_num)
  have h1 : b ∈ (if (prevFree pre).isSome then pre.dropLast else pre) ↔ b ∈ pre := by
    cases hp : prevFree pre with
    | none => simp
    | some pv =>
      obtain ⟨e1, e2⟩ := prevFree_eq_some pre pv hp
      simp only [Option.isSome_some, if_true]
      constructor
      · exact List.mem_of_mem_dropLast
      · intro hm
        rw [e1] at hm
        rcases List.mem_append.1 hm with h | h
        · exact h
        · rw [List.mem_singleton] at h
          rw [h, e2] at hb
          exact absurd hb (by norm_num)
  have h2 : b ∈ (if (nextFree post).isSome then post.tail else post) ↔ b ∈ post := by
    cases hp : nextFree post with
    | none => simp
    | some nx =>
      obtain ⟨e1, e2⟩ := nextFree_eq_some post nx hp
      simp only [Option.isSome_some, if_true]
      constructor
      · exact List.mem_of_mem_tail
      · intro hm
        rw [e1] at hm
        rcases List.mem_cons.1 hm with h | h
        · rw [h, e2] at hb
          exact absurd hb (by norm_num)
        · exact h
  unfold coalesceBlocks
  rw [List.mem_append, List.mem_cons, List.mem_append, h1, h2]
  constructor
  · rintro (h | h | h)
    · exact Or.inl h
    · exact absurd h hM
    · exact Or.inr h
  · rintro (h | h)
    · exact Or.inl h
    · exact Or.inr (Or.inr h)

/-- Position and size of the coalesced block. -/
theorem coalesceBlk_span (pre post : List Blk) (c : Blk) (p e : Nat)
    (hl : Layout p (pre ++ c :: post) e) :
    (coalesceBlk pre c post).bp ≤ c.bp ∧
    c.bp + c.size ≤ (coalesceBlk pre c post).bp + (coalesceBlk pre c post).size ∧
    (coalesceBlk pre c post).bp + (coalesceBlk pre c post).size ≤ e ∧
    p ≤ (coalesceBlk pre c post).bp ∧
    (post = [] → (coalesceBlk pre c post).bp + (coalesceBlk pre c post).size = c.bp + c.size) := by
  obtain ⟨h1, h2, h3, h4, h5⟩ := Layout_split _ _ _ _ _ hl
  have hle1 := Layout_le _ _ _ h1
  have hle2 := Layout_le _ _ _ h2
  unfold coalesceBlk
  cases hp : prevFree pre with
  | none =>
    cases hn : nextFree post with
    | none =>
      simp only
      exact ⟨le_refl _, le_refl _, hle2, hle1, fun _ => trivial⟩
    | some nx =>
      obtain ⟨e1, e2⟩ := nextFree_eq_some post nx hn
      rw [e1, Layout_cons] at h2
      obtain ⟨k1, k2, k3, k4, k5⟩ := h2
      have := Layout_le _ _ _ k5
      simp only
      refine ⟨le_refl _, by omega, by omega, hle1, ?_⟩
      intro h0
      rw [h0] at e1
      cases e1
  | some pv =>
    obtain ⟨e1, e2⟩ := prevFree_eq_some pre pv hp
    rw [e1, Layout_append] at h1
    obtain ⟨q, k0, k1, k2, k3, k4, k5⟩ := h1
    rw [Layout_nil] at k5
    have hq := Layout_le _ _ _ k0
    cases hn : nextFree post with
    | none =>
      simp only
      refine ⟨by omega, by omega, by omega, by omega, fun _ => by omega⟩
    | some nx =>
      obtain ⟨f1, f2⟩ := nextFree_eq_some post nx hn
      rw [f1, Layout_cons] at h2
      obtain ⟨g1, g2, g3, g4, g5⟩ := h2
      have := Layout_le _ _ _ g5
      simp only
      refine ⟨by omega, by omega, by omega, by omega, ?_⟩
      intro h0
      rw [h0] at f1
      cases f1

end MM
namespace MM

/-! ## Frames on allocated blocks; `extend_heap` -/

theorem SpanFrame_of_FrameOut (p e : Nat) (bs : List Blk) (fl : List Nat) (m m' : Mem)
    (q r : Nat) (hl : Layout p bs e)
    (hfl : ∀ x ∈ fl, ∃ b ∈ bs, b.bp = x ∧ b.alloc = 0)
    (hreg : ∀ b ∈ bs, b.alloc = 1 → b.bp + b.size ≤ q ∨ r ≤ b.bp)
    (hF : FrameOut m m' q r fl) : SpanFrame m m' bs := by
  intro b hb hb1 a h1 h2
  apply hF a
  · rcases hreg b hb hb1 with h | h
    · left; omega
    · right; omega
  · intro x hx
    obtain ⟨b0, hb0, hbx, h0⟩ := hfl x hx
    subst hbx
    have hm0 := Layout_mem _ _ _ hl b0 hb0
    rcases Layout_sep _ _ _ hl b b0 hb hb0 with h | h | h
    · subst h; omega
    · left; omega
    · right; omega

theorem SpanFrame_refl (m : Mem) (bs : List Blk) : SpanFrame m m bs :=
  fun _ _ _ _ _ _ => rfl

theorem SpanFrame_trans (m1 m2 m3 : Mem) (bs bs' : List Blk)
    (h12 : SpanFrame m1 m2 bs) (h23 : SpanFrame m2 m3 bs')
    (hsub : ∀ b ∈ bs, b.alloc = 1 → b ∈ bs') : SpanFrame m1 m3 bs := by
  intro b hb hb1 a h1 h2
  rw [h23 b (hsub b hb hb1) hb1 a h1 h2, h12 b hb hb1 a h1 h2]

/-- An allocated block and a free block of one layout do not overlap. -/
theorem Layout_alloc_free (p e : Nat) (bs : List Blk) (hl : Layout p bs e) (b M : Blk)
    (hb : b ∈ bs) (hM : M ∈ bs) (hb1 : b.alloc = 1) (hM0 : M.alloc = 0) :
    b.bp + b.size ≤ M.bp ∨ M.bp + M.size ≤ b.bp := by
  rcases Layout_sep _ _ _ hl b M hb hM with h | h | h
  · subst h; omega
  · exact Or.inl h
  · exact Or.inr h

/-- Effect of `coalesce` on allocated blocks: they stay blocks and their spans are untouched. -/
theorem coalesce_span (s : Heap) (pre post : List Blk) (c : Blk) (fl : List Nat)
    (h : PreCoal s pre c post fl) :
    SpanFrame s.mem (coalesce s c.bp).1.mem (pre ++ post) := by
  obtain ⟨-, hw, hF⟩ := coalesce_spec s pre post c fl h
  have hl := h.base.layout
  have hl' := hw.layout
  simp only [coalesce_heap, coalesce_brk] at hl'
  have hsf : SpanFrame s.mem (coalesce s c.bp).1.mem (pre ++ c :: post) := by
    apply SpanFrame_of_FrameOut _ _ _ fl _ _ _ _ hl h.base.flsub _ hF
    intro b hb hb1
    have hbne : b ∈ pre ++ post := by
      simp only [List.mem_append, List.mem_cons] at hb ⊢
      rcases hb with q1 | q2 | q3
      · exact Or.inl q1
      · subst q2
        have := h.cfree
        omega
      · exact Or.inr q3
    exact Layout_alloc_free _ _ _ hl' b _ ((coalesceBlocks_alloc pre post c b hb1).2 hbne)
      (coalesceBlk_mem pre post c) hb1 (coalesceBlk_alloc pre post c)
  intro b hb
  apply hsf b
  simp only [List.mem_append, List.mem_cons] at hb ⊢
  rcases hb with q1 | q3
  · exact Or.inl q1
  · exact Or.inr (Or.inr q3)

/-- Specification of a successful `extend_heap`: the new region becomes a free block, merged
with a free last block, and allocated blocks are untouched. -/
theorem extend_heap_spec (s : Heap) (bs : List Blk) (fl : List Nat) (words S : Nat)
    (hw : WF s bs fl)
    (hS : (if words % 2 ≠ 0 then ((words + 1) * WSIZE) % SIZE_MOD
      else (words * WSIZE) % SIZE_MOD) = S)
    (hS8 : S % 8 = 0) (h16 : 16 ≤ S) (hfit : s.mem_brk + S ≤ s.mem_max_addr) :
    (extend_heap s words).2 = (coalesceBlk bs ⟨s.mem_brk, S, 0⟩ []).bp ∧
    WF (extend_heap s words).1 (coalesceBlocks bs ⟨s.mem_brk, S, 0⟩ [])
      (coalesceList bs ⟨s.mem_brk, S, 0⟩ [] fl) ∧
    (extend_heap s words).1.mem_brk = s.mem_brk + S ∧
    (extend_heap s words).1.mem_heap = s.mem_heap ∧
    (extend_heap s words).1.mem_max_addr = s.mem_max_addr ∧
    SpanFrame s.mem (extend_heap s words).1.mem bs := by
  have hcap := hw.cap
  have hbl := Layout_le _ _ _ hw.layout
  have a1 : S + 0 < 2 ^ 32 := by
    have := hw.brk_le
    omega
  have a2 : 4 ≤ s.mem_brk := by omega
  have a3 : 8 ≤ S := by omega
  have heq := extend_heap_eq s words S hS hfit hS8 a3 a1 a2
  have hpre := extend_heap_pre s bs fl S hw hS8 h16 hfit
  obtain ⟨h1, h2, -⟩ := coalesce_spec _ bs [] ⟨s.mem_brk, S, 0⟩ fl hpre
  have hsp := coalesce_span _ bs [] ⟨s.mem_brk, S, 0⟩ fl hpre
  rw [heq]
  refine ⟨h1, h2, ?_, ?_, ?_, ?_⟩
  · simp only [coalesce_brk]
  · simp only [coalesce_heap]
  · simp only [coalesce_max]
  · intro b hb hb1 a ha1 ha2
    have hm := Layout_mem _ _ _ hw.layout b hb
    rw [hsp b (by simpa using hb) hb1 a ha1 ha2]
    show PUT (setTags s.mem s.mem_brk S 0) (s.mem_brk + S - 4) 1 a = s.mem a
    rw [PUT_frame _ _ _ _ (by omega), setTags_frame _ _ _ _ _ (by omega) (by omega)]

end MM
namespace MM

/-! ## `mm_init` -/

theorem mm_init_fail1 (s : Heap) (h : s.mem_brk + 16 > s.mem_max_addr) :
    mm_init s = ({ s with heap_listp := PTR_ERR }, -1) := by
  unfold mm_init mem_sbrk
  simp only [WSIZE]
  rw [if_pos (by omega)]

/-- The state in which `mm_init` calls `extend_heap`. -/
theorem mm_init_mid (s : Heap) (h : s.mem_brk + 16 ≤ s.mem_max_addr) :
    mm_init s =
      (if (extend_heap (initMid s) 1024).2 = 0 then ((extend_heap (initMid s) 1024).1, -1)
       else ((extend_heap (initMid s) 1024).1, 0)) := by
  unfold mm_init mem_sbrk
  simp only [WSIZE]
  rw [if_neg (by omega)]
  rfl

theorem mm_init_fail2 (s : Heap) (h : s.mem_brk + 16 ≤ s.mem_max_addr)
    (h2 : s.mem_brk + 4112 > s.mem_max_addr) : (mm_init s).2 = -1 := by
  rw [mm_init_mid s h, extend_heap_fail _ 1024 4096 (by decide)
    (by simp only [initMid]; omega)]
  rfl

theorem initMid_reads (s : Heap) :
    GET (PUT (setTags (initMid s).mem (s.mem_brk + 16) 4096 0) (s.mem_brk + 16 + 4096 - 4) 1)
      (s.mem_brk + 4) = 9 ∧
    GET (PUT (setTags (initMid s).mem (s.mem_brk + 16) 4096 0) (s.mem_brk + 16 + 4096 - 4) 1)
      (s.mem_brk + 8) = 9 ∧
    GET (PUT (setTags (initMid s).mem (s.mem_brk + 16) 4096 0) (s.mem_brk + 16 + 4096 - 4) 1)
      (s.mem_brk + 12) = 4096 ∧
    GET (PUT (setTags (initMid s).mem (s.mem_brk + 16) 4096 0) (s.mem_brk + 16 + 4096 - 4) 1)
      (s.mem_brk + 4104) = 4096 ∧
    GET (PUT (setTags (initMid s).mem (s.mem_brk + 16) 4096 0) (s.mem_brk + 16 + 4096 - 4) 1)
      (s.mem_brk + 4108) = 1 ∧
    GET (PUT (setTags (initMid s).mem (s.mem_brk + 16) 4096 0) (s.mem_brk + 16 + 4096 - 4) 1)
      s.mem_brk = 0 := by
  have e1 : s.mem_brk + 16 - 4 = s.mem_brk + 12 := by omega
  have e2 : s.mem_brk + 16 + 4096 - 8 = s.mem_brk + 4104 := by omega
  have e3 : s.mem_brk + 16 + 4096 - 4 = s.mem_brk + 4108 := by omega
  have a1 : s.mem_brk + 4 + 4 ≤ s.mem_brk + 8 := by omega
  have a2 : s.mem_brk + 4 + 4 ≤ s.mem_brk + 12 := by omega
  have a3 : s.mem_brk + 4 + 4 ≤ s.mem_brk + 4104 := by omega
  have a4 : s.mem_brk + 4 + 4 ≤ s.mem_brk + 4108 := by omega
  have b2 : s.mem_brk + 8 + 4 ≤ s.mem_brk + 12 := by omega
  have b3 : s.mem_brk + 8 + 4 ≤ s.mem_brk + 4104 := by omega
  have b4 : s.mem_brk + 8 + 4 ≤ s.mem_brk + 4108 := by omega
  have c3 : s.mem_brk + 12 + 4 ≤ s.mem_brk + 4104 := by omega
  have c4 : s.mem_brk + 12 + 4 ≤ s.mem_brk + 4108 := by omega
  have d4 : s.mem_brk + 4104 + 4 ≤ s.mem_brk + 4108 := by omega
  have z1 : s.mem_brk + 4 ≤ s.mem_brk + 4 := by omega
  have z2 : s.mem_brk + 4 ≤ s.mem_brk + 8 := by omega
  have z3 : s.mem_brk + 4 ≤ s.mem_brk + 12 := by omega
  have z4 : s.mem_brk + 4 ≤ s.mem_brk + 4104 := by omega
  have z5 : s.mem_brk + 4 ≤ s.mem_brk + 4108 := by omega
  unfold setTags initMid
  simp only [e1, e2, e3]
  refine ⟨?_, ?_, ?_, ?_, ?_, ?_⟩
  · rw [GET_PUT_disj _ _ _ _ (Or.inl a4), GET_PUT_disj _ _ _ _ (Or.inl a3),
      GET_PUT_disj _ _ _ _ (Or.inl a2), GET_PUT_disj _ _ _ _ (Or.inl a2),
      GET_PUT_disj _ _ _ _ (Or.inl a1), GET_PUT_same]
    norm_num
  · rw [GET_PUT_disj _ _ _ _ (Or.inl b4), GET_PUT_disj _ _ _ _ (Or.inl b3),
      GET_PUT_disj _ _ _ _ (Or.inl b2), GET_PUT_disj _ _ _ _ (Or.inl b2), GET_PUT_same]
    norm_num
  · rw [GET_PUT_disj _ _ _ _ (Or.inl c4), GET_PUT_disj _ _ _ _ (Or.inl c3), GET_PUT_same]
    norm_num
  · rw [GET_PUT_disj _ _ _ _ (Or.inl d4), GET_PUT_same]
    norm_num
  · rw [GET_PUT_same]
    norm_num
  · rw [GET_PUT_disj _ _ _ _ (Or.inl z5), GET_PUT_disj _ _ _ _ (Or.inl z4),
      GET_PUT_disj _ _ _ _ (Or.inl z3), GET_PUT_disj _ _ _ _ (Or.inl z3),
      GET_PUT_disj _ _ _ _ (Or.inl z2), GET_PUT_disj _ _ _ _ (Or.inl z1), GET_PUT_same]
    norm_num

/-- The result of a successful `mm_init`, in closed form. -/
theorem mm_init_ok (s : Heap) (h : s.mem_brk + 4112 ≤ s.mem_max_addr) :
    mm_init s = (initHeap s, 0) := by
  obtain ⟨r4, r8, r12, r4104, r4108, -⟩ := initMid_reads s
  have hbrk : (initMid s).mem_brk = s.mem_brk + 16 := rfl
  have hE := extend_heap_eq (initMid s) 1024 4096 (by decide) (by rw [hbrk]; exact h)
    (by decide) (by decide) (by decide) (by rw [hbrk]; omega)
  rw [hbrk] at hE
  rw [mm_init_mid s (by omega), hE]
  have e1 : s.mem_brk + 16 - 8 = s.mem_brk + 8 := by omega
  have e2 : s.mem_brk + 8 - 4 = s.mem_brk + 4 := by omega
  have e3 : s.mem_brk + 8 + 8 - 8 = s.mem_brk + 8 := by omega
  have e4 : s.mem_brk + 16 - 4 = s.mem_brk + 12 := by omega
  have e5 : s.mem_brk + 16 + 4096 - 4 = s.mem_brk + 4108 := by omega
  have r8s := GET_SIZE_of_tag _ _ 8 1 r8 (by decide) (by decide)
  have r4s := GET_SIZE_of_tag _ _ 8 1 r4 (by decide) (by decide)
  have r8a := GET_ALLOC_of_tag _ _ 8 1 r8 (by decide) (by decide)
  have r12s := GET_SIZE_of_tag _ _ 4096 0 r12 (by decide) (by decide)
  have r4108a := GET_ALLOC_of_tag _ _ 0 1 r4108 (by decide) (by decide)
  rw [coalesce_branch1]
  · rw [add_free_block_nil _ _ rfl]
    simp only []
    rw [if_neg (by omega)]
    rfl
  · simp only [PREV_BLKP, FTRP, HDRP, WSIZE, DSIZE]
    rw [e1, r8s, e1, e2, r4s, e3, r8a]
    decide
  · simp only [NEXT_BLKP, HDRP, WSIZE]
    rw [← e5] at r4108a
    rw [e4, r12s, r4108a]
    decide

end MM
namespace MM

/-! ## Walking the heap and the free list in memory -/

theorem blockWalk_mono (m : Mem) : ∀ (f : Nat) (bp : Nat) (L : List Nat),
    blockWalk m f bp = some L → ∀ f', f ≤ f' → blockWalk m f' bp = some L := by
  intro f
  induction f with
  | zero => intro bp L h; simp [blockWalk] at h
  | succ n ih =>
    intro bp L h f' hf
    obtain ⟨k, rfl⟩ : ∃ k, f' = k + 1 := ⟨f' - 1, by omega⟩
    unfold blockWalk at h ⊢
    by_cases h0 : GET_SIZE m (HDRP bp) = 0
    · rw [if_pos h0] at h ⊢; exact h
    · rw [if_neg h0] at h ⊢
      cases hr : blockWalk m n (NEXT_BLKP m bp) with
      | none => rw [hr] at h; simp at h
      | some L' =>
        rw [hr] at h
        rw [ih _ _ hr k (by omega)]
        exact h

theorem blockWalk_unique (m : Mem) (f f' bp : Nat) (L L' : List Nat)
    (h : blockWalk m f bp = some L) (h' : blockWalk m f' bp = some L') : L = L' := by
  have h1 := blockWalk_mono m f bp L h (max f f') (le_max_left _ _)
  have h2 := blockWalk_mono m f' bp L' h' (max f f') (le_max_right _ _)
  rw [h1] at h2
  exact Option.some.inj h2

theorem freeWalk_mono (m : Mem) : ∀ (f : Nat) (bp : Nat) (L : List Nat),
    freeWalk m f bp = some L → ∀ f', f ≤ f' → freeWalk m f' bp = some L := by
  intro f
  induction f with
  | zero => intro bp L h; simp [freeWalk] at h
  | succ n ih =>
    intro bp L h f' hf
    obtain ⟨k, rfl⟩ : ∃ k, f' = k + 1 := ⟨f' - 1, by omega⟩
    unfold freeWalk at h ⊢
    by_cases h0 : bp = 0
    · rw [if_pos h0] at h ⊢; exact h
    · rw [if_neg h0] at h ⊢
      by_cases h1 : GET m (NEXT_FRBP bp) = 0
      · rw [if_pos h1] at h ⊢; exact h
      · rw [if_neg h1] at h ⊢
        cases hr : freeWalk m n (ptrAdd bp (toInt (GET m (NEXT_FRBP bp)))) with
        | none => rw [hr] at h; simp at h
        | some L' =>
          rw [hr] at h
          rw [ih _ _ hr k (by omega)]
          exact h

theorem freeWalk_unique (m : Mem) (f f' bp : Nat) (L L' : List Nat)
    (h : freeWalk m f bp = some L) (h' : freeWalk m f' bp = some L') : L = L' := by
  have h1 := freeWalk_mono m f bp L h (max f f') (le_max_left _ _)
  have h2 := freeWalk_mono m f' bp L' h' (max f f') (le_max_right _ _)
  rw [h1] at h2
  exact Option.some.inj h2

/-- The memory walk of a tagged layout that ends in a size-0 header is its block list. -/
theorem blockWalk_layout (m : Mem) : ∀ (bs : List Blk) (p e : Nat), Layout p bs e →
    Tags m bs → GET_SIZE m (e - 4) = 0 →
    blockWalk m (bs.length + 1) p = some (bs.map Blk.bp) := by
  intro bs
  induction bs with
  | nil =>
    intro p e hl _ he
    rw [Layout_nil] at hl
    subst hl
    simp [blockWalk, HDRP, he]
  | cons b r ih =>
    intro p e hl ht he
    obtain ⟨h1, h2, h3, h4, h5⟩ := hl
    have htb : Tagged m b := ht b (List.mem_cons_self _ _)
    have hsz := GET_SIZE_hdr m b htb h3 h4
    rw [h1] at hsz
    have hne : GET_SIZE m (HDRP p) ≠ 0 := by
      simp only [HDRP, WSIZE]; rw [hsz]; omega
    have hnx : NEXT_BLKP m p = p + b.size := by
      simp only [NEXT_BLKP, WSIZE]; rw [hsz]
    have hr := ih (p + b.size) e h5 (fun c hc => ht c (List.mem_cons_of_mem _ hc)) he
    show blockWalk m (r.length + 1 + 1) p = _
    rw [blockWalk, if_neg hne, hnx, hr]
    simp [h1]

/-- The memory walk of a linked free list is that list. -/
theorem freeWalk_links (m : Mem) (lo : Nat) : ∀ (l : List Nat) (x : Nat),
    List.Chain' (LinkR m) (x :: l) →
    (∀ y, (x :: l).getLast? = some y → GET m y = 0) →
    (∀ y ∈ x :: l, lo < y ∧ y + 8 ≤ lo + 2 ^ 31) →
    (x :: l).Nodup →
    freeWalk m (l.length + 1) x = some (x :: l) := by
  intro l
  induction l with
  | nil =>
    intro x _ hlast hb _
    have hx := hb x (List.mem_cons_self _ _)
    have h0 : GET m x = 0 := hlast x rfl
    rw [freeWalk, if_neg (by omega)]
    simp only [NEXT_FRBP]
    rw [if_pos h0]
  | cons y l ih =>
    intro x hc hlast hb hnd
    have hx := hb x (List.mem_cons_self _ _)
    have hy := hb y (List.mem_cons_of_mem _ (List.mem_cons_self _ _))
    have hxy : x ≠ y := by
      intro h
      rw [h] at hnd
      exact (List.nodup_cons.1 hnd).1 (List.mem_cons_self _ _)
    have hlk : LinkR m x y := (List.chain'_cons.1 hc).1
    have hg : GET m x = linkTo x y := hlk.1
    have hne : GET m x ≠ 0 := by
      rw [hg]; exact linkTo_ne_zero x y (by omega) (by omega) hxy
    have hstep : ptrAdd x (toInt (GET m x)) = y := by
      rw [hg]; exact linkTo_dec x y (by omega) (by omega)
    have hr := ih y (List.chain'_cons.1 hc).2
      (fun z hz => hlast z (by rw [List.getLast?_cons_cons]; exact hz))
      (fun z hz => hb z (List.mem_cons_of_mem _ hz)) (List.nodup_cons.1 hnd).2
    show freeWalk m (l.length + 1 + 1) x = _
    rw [freeWalk, if_neg (by omega)]
    simp only [NEXT_FRBP]
    rw [if_neg hne, hstep, hr]
    rfl

/-- In a well-formed heap the walk from the prologue yields the block list. -/
theorem heapBlocks_Base (s : Heap) (bs : List Blk) (fl : List Nat) (hb : Base s bs fl) :
    heapBlocks (bs.length + 1) s = some (bs.map Blk.bp) := by
  unfold heapBlocks
  have h1 : GET_SIZE s.mem (s.mem_heap + 4) = 8 :=
    GET_SIZE_of_tag _ _ 8 1 hb.pro_h (by decide) (by decide)
  have h2 : NEXT_BLKP s.mem s.heap_listp = s.mem_heap + 16 := by
    simp only [NEXT_BLKP, WSIZE]
    rw [hb.hl]
    have e : s.mem_heap + 8 - 4 = s.mem_heap + 4 := by omega
    rw [e, h1]
  rw [h2]
  exact blockWalk_layout s.mem bs _ _ hb.layout hb.tags
    (GET_SIZE_of_tag _ _ 0 1 hb.epi (by decide) (by decide))

/-- In a well-formed heap the walk from `fr_listp` yields the free list. -/
theorem freeWalk_Base (s : Heap) (bs : List Blk) (fl : List Nat) (hb : Base s bs fl) :
    freeWalk s.mem (fl.length + 1) s.fr_listp = some fl := by
  rw [hb.flhead]
  cases hfl : fl with
  | nil => simp [freeWalk]
  | cons x l =>
    have hfl' : ∀ x ∈ fl, ∃ b ∈ bs, b.bp = x := by
      intro x hx
      obtain ⟨b, hb1, hb2, -⟩ := hb.flsub x hx
      exact ⟨b, hb1, hb2⟩
    have hcap := hb.cap
    have hbrk := hb.brk_le
    have hsep : FlSep s.mem_heap fl :=
      FlSep_of_layout _ _ _ _ hb.layout fl hfl' (by omega) (by omega)
    have hlinks := hb.links
    have hnd := hb.nodup
    rw [hfl] at hlinks hnd hsep
    have := freeWalk_links s.mem s.mem_heap l x hlinks.1 hlinks.2.2 hsep.1 hnd
    simp only [List.headD_cons, List.length_cons]
    exact freeWalk_mono _ _ _ _ this _ (by omega)

theorem NoAdjacentFree_of_WF (s : Heap) (bs : List Blk) (fl : List Nat) (hw : WF s bs fl) :
    NoAdjacentFree s := by
  refine ⟨bs.length + 1, bs.map Blk.bp, heapBlocks_Base s bs fl hw.toBase, ?_⟩
  rw [List.chain'_map]
  have hna := hw.noadj
  unfold NoAdjFree at hna
  rw [List.Chain'.iff_mem] at hna
  refine hna.imp ?_
  rintro a b ⟨ha, hb, hab⟩
  have hma := Layout_mem _ _ _ hw.layout a ha
  have hmb := Layout_mem _ _ _ hw.layout b hb
  have e1 := GET_ALLOC_hdr s.mem a (hw.tags a ha) hma.2.2.2.1 hma.2.2.2.2
  have e2 := GET_ALLOC_hdr s.mem b (hw.tags b hb) hmb.2.2.2.1 hmb.2.2.2.2
  simp only [HDRP, WSIZE]
  rw [e1, e2]
  omega

theorem FreeListExact_of_WF (s : Heap) (bs : List Blk) (fl : List Nat) (hw : WF s bs fl) :
    FreeListExact s := by
  refine ⟨bs.length + 1 + (fl.length + 1), bs.map Blk.bp, fl,
    blockWalk_mono _ _ _ _ (heapBlocks_Base s bs fl hw.toBase) _ (by omega),
    freeWalk_mono _ _ _ _ (freeWalk_Base s bs fl hw.toBase) _ (by omega), hw.nodup, ?_⟩
  intro x
  constructor
  · intro hx
    obtain ⟨b, hb, hbx, hb0⟩ := hw.flsub x hx
    have hm := Layout_mem _ _ _ hw.layout b hb
    have e1 := GET_ALLOC_hdr s.mem b (hw.tags b hb) hm.2.2.2.1 hm.2.2.2.2
    subst hbx
    refine ⟨List.mem_map_of_mem _ hb, ?_⟩
    simp only [HDRP, WSIZE]
    rw [e1, hb0]
  · rintro ⟨hx, h0⟩
    obtain ⟨b, hb, hbx⟩ := List.mem_map.1 hx
    have hm := Layout_mem _ _ _ hw.layout b hb
    have e1 := GET_ALLOC_hdr s.mem b (hw.tags b hb) hm.2.2.2.1 hm.2.2.2.2
    subst hbx
    simp only [HDRP, WSIZE] at h0
    rw [e1] at h0
    exact hw.flall b hb h0

theorem TagsMatch_of_Base (s : Heap) (bs : List Blk) (fl : List Nat) (hb : Base s bs fl) :
    TagsMatch s := by
  refine ⟨bs.length + 1, bs.map Blk.bp, heapBlocks_Base s bs fl hb, ?_⟩
  intro bp hbp
  obtain ⟨b, hbm, hbx⟩ := List.mem_map.1 hbp
  subst hbx
  have hm := Layout_mem _ _ _ hb.layout b hbm
  have ht := hb.tags b hbm
  have e1 := GET_SIZE_hdr s.mem b ht hm.2.2.2.1 hm.2.2.2.2
  have e2 := GET_SIZE_ftr s.mem b ht hm.2.2.2.1 hm.2.2.2.2
  have e3 : b.bp + b.size - 8 = b.bp + b.size - 8 := rfl
  constructor
  · simp only [FTRP, HDRP, WSIZE, DSIZE]
    rw [e1, ht.1, ht.2]
  · simp only [PREV_BLKP, NEXT_BLKP, WSIZE, DSIZE]
    rw [e1, e2]
    omega

end MM
namespace MM

/-- The words of the heap built by `mm_init`. -/
theorem initHeap_reads (s : Heap) :
    GET (initHeap s).mem s.mem_brk = 0 ∧
    GET (initHeap s).mem (s.mem_brk + 4) = 9 ∧
    GET (initHeap s).mem (s.mem_brk + 8) = 9 ∧
    GET (initHeap s).mem (s.mem_brk + 12) = 4096 ∧
    GET (initHeap s).mem (s.mem_brk + 16) = 0 ∧
    GET (initHeap s).mem (s.mem_brk + 20) = 0 ∧
    GET (initHeap s).mem (s.mem_brk + 4104) = 4096 ∧
    GET (initHeap s).mem (s.mem_brk + 4108) = 1 := by
  obtain ⟨r4, r8, r12, r4104, r4108, r0⟩ := initMid_reads s
  have e1 : s.mem_brk + 16 + 4 = s.mem_brk + 20 := by omega
  have a0 : s.mem_brk + 4 ≤ s.mem_brk + 16 := by omega
  have a0' : s.mem_brk + 4 ≤ s.mem_brk + 20 := by omega
  have a1 : s.mem_brk + 4 + 4 ≤ s.mem_brk + 16 := by omega
  have a1' : s.mem_brk + 4 + 4 ≤ s.mem_brk + 20 := by omega
  have a2 : s.mem_brk + 8 + 4 ≤ s.mem_brk + 16 := by omega
  have a2' : s.mem_brk + 8 + 4 ≤ s.mem_brk + 20 := by omega
  have a3 : s.mem_brk + 12 + 4 ≤ s.mem_brk + 16 := by omega
  have a3' : s.mem_brk + 12 + 4 ≤ s.mem_brk + 20 := by omega
  have a4 : s.mem_brk + 16 + 4 ≤ s.mem_brk + 4104 := by omega
  have a4' : s.mem_brk + 20 + 4 ≤ s.mem_brk + 4104 := by omega
  have a5 : s.mem_brk + 16 + 4 ≤ s.mem_brk + 4108 := by omega
  have a5' : s.mem_brk + 20 + 4 ≤ s.mem_brk + 4108 := by omega
  have a6 : s.mem_brk + 16 + 4 ≤ s.mem_brk + 20 := by omega
  unfold initHeap
  simp only [e1]
  refine ⟨?_, ?_, ?_, ?_, ?_, ?_, ?_, ?_⟩
  · rw [GET_PUT_disj _ _ _ _ (Or.inl a0'), GET_PUT_disj _ _ _ _ (Or.inl a0)]; exact r0
  · rw [GET_PUT_disj _ _ _ _ (Or.inl a1'), GET_PUT_disj _ _ _ _ (Or.inl a1)]; exact r4
  · rw [GET_PUT_disj _ _ _ _ (Or.inl a2'), GET_PUT_disj _ _ _ _ (Or.inl a2)]; exact r8
  · rw [GET_PUT_disj _ _ _ _ (Or.inl a3'), GET_PUT_disj _ _ _ _ (Or.inl a3)]; exact r12
  · rw [GET_PUT_disj _ _ _ _ (Or.inl a6), GET_PUT_same]; rfl
  · rw [GET_PUT_same]; rfl
  · rw [GET_PUT_disj _ _ _ _ (Or.inr a4'), GET_PUT_disj _ _ _ _ (Or.inr a4)]; exact r4104
  · rw [GET_PUT_disj _ _ _ _ (Or.inr a5'), GET_PUT_disj _ _ _ _ (Or.inr a5)]; exact r4108

/-- The heap built by `mm_init` is one tagged free block between prologue and epilogue,
linked as the only member of the free list. -/
theorem initHeap_shape (s : Heap) :
    Layout (s.mem_brk + 16) [⟨s.mem_brk + 16, 4096, 0⟩] (initHeap s).mem_brk ∧
    Tags (initHeap s).mem [⟨s.mem_brk + 16, 4096, 0⟩] ∧
    Links (initHeap s).mem [s.mem_brk + 16] := by
  obtain ⟨r0, r4, r8, r12, r16, r20, r4104, r4108⟩ := initHeap_reads s
  refine ⟨⟨rfl, by norm_num, by norm_num, by norm_num, rfl⟩, ?_, ?_⟩
  · intro b hb
    rw [List.mem_singleton] at hb
    subst hb
    have e1 : s.mem_brk + 16 - 4 = s.mem_brk + 12 := by omega
    have e2 : s.mem_brk + 16 + 4096 - 8 = s.mem_brk + 4104 := by omega
    refine ⟨?_, ?_⟩
    · show GET _ (s.mem_brk + 16 - 4) = 4096 + 0
      rw [e1]; exact r12
    · show GET _ (s.mem_brk + 16 + 4096 - 8) = 4096 + 0
      rw [e2]; exact r4104
  · refine ⟨List.chain'_singleton _, ?_, ?_⟩
    · intro x hx
      simp only [List.head?_cons, Option.some.injEq] at hx
      subst hx
      exact r20
    · intro x hx
      simp only [List.getLast?_singleton, Option.some.injEq] at hx
      subst hx
      exact r16

/-- A successful `mm_init` on a fresh arena yields a well-formed heap. -/
theorem mm_init_WF (s : Heap) (hf : Fresh s) (hok : (mm_init s).2 = 0) :
    WF (mm_init s).1 [⟨s.mem_heap + 16, 4096, 0⟩] [s.mem_heap + 16] := by
  obtain ⟨hbrk, h8, hcap⟩ := hf
  have hfit : s.mem_brk + 4112 ≤ s.mem_max_addr := by
    by_contra hn
    by_cases h1 : s.mem_brk + 16 ≤ s.mem_max_addr
    · have := mm_init_fail2 s h1 (by omega)
      rw [this] at hok
      exact absurd hok (by decide)
    · rw [mm_init_fail1 s (by omega)] at hok
      exact absurd hok (by simp)
  rw [mm_init_ok s hfit]
  obtain ⟨r0, r4, r8, r12, r16, r20, r4104, r4108⟩ := initHeap_reads s
  obtain ⟨hl, ht, hlk⟩ := initHeap_shape s
  rw [hbrk] at r0 r4 r8 r12 r16 r20 r4104 r4108 hl ht hlk
  have hb1 : (initHeap s).mem_brk = s.mem_heap + 16 + 4096 := by
    show s.mem_brk + 16 + 4096 = _
    rw [hbrk]
  have hh : (initHeap s).mem_heap = s.mem_heap := rfl
  have hm : (initHeap s).mem_max_addr = s.mem_max_addr := rfl
  have hhl : (initHeap s).heap_listp = s.mem_heap + 8 := by
    show s.mem_brk + 8 = _
    rw [hbrk]
  have hfr : (initHeap s).fr_listp = s.mem_heap + 16 := by
    show s.mem_brk + 16 = _
    rw [hbrk]
  have e5 : s.mem_heap + 16 + 4096 - 4 = s.mem_heap + 4108 := by omega
  exact
    { lo8 := by rw [hh]; exact h8
      cap := by rw [hh, hm]; exact hcap
      brk_le := by rw [hb1, hm]; omega
      hl := by rw [hhl, hh]
      pro_h := by rw [hh]; exact r4
      pro_f := by rw [hh]; exact r8
      layout := by rw [hh]; exact hl
      epi := by rw [hb1, e5]; exact r4108
      tags := ht
      flhead := by rw [hfr]; rfl
      links := hlk
      nodup := List.nodup_singleton _
      flsub := by
        intro x hx
        rw [List.mem_singleton] at hx
        exact ⟨_, List.mem_singleton_self _, hx.symm, rfl⟩
      noadj := List.chain'_singleton _
      flall := by
        intro b hb _
        rw [List.mem_singleton] at hb
        subst hb
        exact List.mem_singleton_self _ }

end MM
namespace MM

/-! ## `mm_malloc` -/

theorem adjust_lt (size : Nat) : adjust size < 2 ^ 64 := by
  unfold adjust
  simp only [DSIZE, SIZE_MOD]
  split_ifs <;> omega

theorem adjust_mod8 (size : Nat) : adjust size % 8 = 0 := by
  unfold adjust
  simp only [DSIZE, SIZE_MOD]
  split_ifs <;> omega

theorem adjust_ok (size : Nat) (h : size + 15 < 2 ^ 64) :
    16 ≤ adjust size ∧ size + 8 ≤ adjust size := by
  unfold adjust
  simp only [DSIZE, SIZE_MOD]
  split_ifs <;> omega

/-- What the client sees of `place`: the block becomes allocated with at least `asize`
bytes, all other allocated blocks stay in place and are not written. -/
theorem place_client (s : Heap) (pre post : List Blk) (c : Blk) (fl : List Nat) (asize : Nat)
    (hw : WF s (pre ++ c :: post) fl) (hc0 : c.alloc = 0) (ha8 : asize % 8 = 0)
    (ha16 : 16 ≤ asize) (hle : asize ≤ c.size) :
    ∃ bs' fl' sz, WF (place s c.bp asize) bs' fl' ∧ (⟨c.bp, sz, 1⟩ : Blk) ∈ bs' ∧ asize ≤ sz ∧
      (∀ b ∈ pre ++ c :: post, b.alloc = 1 → b ∈ bs' ∧ b.bp ≠ c.bp) ∧
      SpanFrame s.mem (place s c.bp asize).mem (pre ++ c :: post) := by
  obtain ⟨hw', hF⟩ := place_spec s pre post c fl asize hw hc0 ha8 ha16 hle
  have hcm : c ∈ pre ++ c :: post := by simp
  refine ⟨placeBlocks pre c post asize, placeList c asize fl,
    if c.size - asize ≥ 16 then asize else c.size, hw', ?_, ?_, ?_, ?_⟩
  · unfold placeBlocks
    split_ifs <;> simp
  · split_ifs
    · exact le_refl _
    · exact hle
  · intro b hb hb1
    constructor
    · have hb' : b ∈ pre ∨ b ∈ post := by
        simp only [List.mem_append, List.mem_cons] at hb
        rcases hb with q1 | q2 | q3
        · exact Or.inl q1
        · subst q2; omega
        · exact Or.inr q3
      unfold placeBlocks
      split_ifs
      · simp only [List.mem_append, List.mem_cons]
        rcases hb' with q | q
        · exact Or.inl q
        · exact Or.inr (Or.inr (Or.inr q))
      · simp only [List.mem_append, List.mem_cons]
        rcases hb' with q | q
        · exact Or.inl q
        · exact Or.inr (Or.inr q)
    · intro hbp
      have := Layout_bp_inj _ _ _ hw.layout b c hb hcm hbp
      subst this
      omega
  · apply SpanFrame_of_FrameOut _ _ _ fl _ _ _ _ hw.layout hw.flsub _ hF
    intro b hb hb1
    exact Layout_alloc_free _ _ _ hw.layout b c hb hcm hb1 hc0

/-- The three ways a call `mm_malloc(size)` with `size ≠ 0` on a well-formed heap can go:
a fit is found and placed; no fit and `mem_sbrk` fails; no fit and the heap is extended. -/
theorem mm_malloc_cases (s : Heap) (bs : List Blk) (fl : List Nat) (fuel size : Nat)
    (hw : WF s bs fl) (h1 : size ≠ 0) (hf : fl.length < fuel) :
    (∃ pre c post, bs = pre ++ c :: post ∧ c.alloc = 0 ∧ adjust size ≤ c.size ∧
      mm_malloc fuel s size = some (place s c.bp (adjust size), c.bp)) ∨
    ((∀ b ∈ bs, b.alloc = 0 → b.size < adjust size) ∧
      s.mem_brk + max (adjust size) CHUNKSIZE > s.mem_max_addr ∧
      mm_malloc fuel s size = some (s, 0)) ∨
    ((∀ b ∈ bs, b.alloc = 0 → b.size < adjust size) ∧
      s.mem_brk + max (adjust size) CHUNKSIZE ≤ s.mem_max_addr ∧
      mm_malloc fuel s size =
        some (place (extend_heap s (max (adjust size) CHUNKSIZE / WSIZE)).1
          (extend_heap s (max (adjust size) CHUNKSIZE / WSIZE)).2 (adjust size),
          (extend_heap s (max (adjust size) CHUNKSIZE / WSIZE)).2) ∧
      (extend_heap s (max (adjust size) CHUNKSIZE / WSIZE)).2 ≠ 0) := by
  have hh : s.heap_listp ≠ 0 := by rw [hw.hl]; omega
  have halt := adjust_lt size
  have ha8 := adjust_mod8 size
  obtain ⟨r, hr, hr0, hr1⟩ := find_fit_spec s bs fl (adjust size) fuel hw halt hf
  have key : mm_malloc fuel s size =
      (if r ≠ 0 then some (place s r (adjust size), r)
       else if (extend_heap s (max (adjust size) CHUNKSIZE / WSIZE)).2 = 0 then
         some ((extend_heap s (max (adjust size) CHUNKSIZE / WSIZE)).1, 0)
       else some (place (extend_heap s (max (adjust size) CHUNKSIZE / WSIZE)).1
          (extend_heap s (max (adjust size) CHUNKSIZE / WSIZE)).2 (adjust size),
          (extend_heap s (max (adjust size) CHUNKSIZE / WSIZE)).2)) := by
    unfold mm_malloc
    simp only [if_neg hh, if_neg h1, hr]
  by_cases hr' : r = 0
  · have hnofit := hr0 hr'
    rw [if_neg (not_not.2 hr')] at key
    right
    have hS : (if (max (adjust size) CHUNKSIZE / WSIZE) % 2 ≠ 0 then
        ((max (adjust size) CHUNKSIZE / WSIZE + 1) * WSIZE) % SIZE_MOD
        else ((max (adjust size) CHUNKSIZE / WSIZE) * WSIZE) % SIZE_MOD) =
        max (adjust size) CHUNKSIZE := by
      simp only [CHUNKSIZE, WSIZE, SIZE_MOD]
      have : (max (adjust size) 4096 / 4) % 2 = 0 := by omega
      rw [if_neg (by omega)]
      omega
    by_cases hfit : s.mem_brk + max (adjust size) CHUNKSIZE ≤ s.mem_max_addr
    · right
      obtain ⟨e1, e2, -⟩ := extend_heap_spec s bs fl _ _ hw hS
        (by simp only [CHUNKSIZE]; omega) (by simp only [CHUNKSIZE]; omega) hfit
      have hsp := coalesceBlk_span bs [] ⟨s.mem_brk, max (adjust size) CHUNKSIZE, 0⟩
        (s.mem_heap + 16) (s.mem_brk + max (adjust size) CHUNKSIZE)
        (Layout_join bs [] ⟨s.mem_brk, max (adjust size) CHUNKSIZE, 0⟩ _ _ hw.layout rfl
          (by simp only [CHUNKSIZE]; omega) (by simp only [CHUNKSIZE]; omega) (by simp))
      have hne : (extend_heap s (max (adjust size) CHUNKSIZE / WSIZE)).2 ≠ 0 := by
        rw [e1]
        have := hsp.2.2.2.1
        omega
      rw [if_neg hne] at key
      exact ⟨hnofit, hfit, key, hne⟩
    · left
      rw [extend_heap_fail s _ _ hS (by omega)] at key
      simp only [if_true] at key
      exact ⟨hnofit, by omega, key⟩
  · left
    obtain ⟨b, hb, hbr, hb0, hle⟩ := hr1 hr'
    obtain ⟨pre, post, hsplit⟩ := List.append_of_mem hb
    rw [if_pos hr', ← hbr] at key
    exact ⟨pre, b, post, hsplit, hb0, hle, key⟩

end MM
namespace MM

/-- Specification of `mm_malloc(size)` for `size ≠ 0` with `size + 15` not overflowing, on
a well-formed heap: the call returns; NULL only when the arena cannot grow, and then the
state is unchanged; otherwise the result is a fresh allocated block of at least `size + 8`
bytes, and every previously allocated block is still allocated and unmodified. -/
theorem mm_malloc_spec (s : Heap) (bs : List Blk) (fl : List Nat) (fuel size : Nat)
    (hw : WF s bs fl) (h1 : size ≠ 0) (h2 : size + 15 < 2 ^ 64) (hf : fl.length < fuel) :
    ∃ s' p, mm_malloc fuel s size = some (s', p) ∧
      (p = 0 → s' = s ∧ s.mem_brk + max (adjust size) CHUNKSIZE > s.mem_max_addr) ∧
      (p ≠ 0 → ∃ bs' fl' sz, WF s' bs' fl' ∧ (⟨p, sz, 1⟩ : Blk) ∈ bs' ∧ size + 8 ≤ sz ∧
        (∀ b ∈ bs, b.alloc = 1 → b ∈ bs' ∧ b.bp ≠ p) ∧ SpanFrame s.mem s'.mem bs) := by
  obtain ⟨ha16, hasz⟩ := adjust_ok size h2
  have ha8 := adjust_mod8 size
  rcases mm_malloc_cases s bs fl fuel size hw h1 hf with
    ⟨pre, c, post, hsplit, hc0, hle, heq⟩ | ⟨hno, hfail, heq⟩ | ⟨hno, hfit, heq, hne⟩
  · subst hsplit
    have hcm := Layout_mem _ _ _ hw.layout c (by simp)
    have hcne : c.bp ≠ 0 := by omega
    obtain ⟨bs', fl', sz, q1, q2, q3, q4, q5⟩ :=
      place_client s pre post c fl (adjust size) hw hc0 ha8 ha16 hle
    refine ⟨_, _, heq, fun h => absurd h hcne, fun _ => ⟨bs', fl', sz, q1, q2, ?_, q4, q5⟩⟩
    omega
  · exact ⟨s, 0, heq, fun _ => ⟨rfl, hfail⟩, fun h => absurd rfl h⟩
  · have hS : (if (max (adjust size) CHUNKSIZE / WSIZE) % 2 ≠ 0 then
        ((max (adjust size) CHUNKSIZE / WSIZE + 1) * WSIZE) % SIZE_MOD
        else ((max (adjust size) CHUNKSIZE / WSIZE) * WSIZE) % SIZE_MOD) =
        max (adjust size) CHUNKSIZE := by
      have halt := adjust_lt size
      simp only [CHUNKSIZE, WSIZE, SIZE_MOD]
      have : (max (adjust size) 4096 / 4) % 2 = 0 := by omega
      rw [if_neg (by omega)]
      omega
    have hS8 : max (adjust size) CHUNKSIZE % 8 = 0 := by simp only [CHUNKSIZE]; omega
    have hS16 : 16 ≤ max (adjust size) CHUNKSIZE := by simp only [CHUNKSIZE]; omega
    obtain ⟨e1, e2, e3, e4, e5, e6⟩ := extend_heap_spec s bs fl _ _ hw hS hS8 hS16 hfit
    have hsp := coalesceBlk_span bs [] ⟨s.mem_brk, max (adjust size) CHUNKSIZE, 0⟩
      (s.mem_heap + 16) (s.mem_brk + max (adjust size) CHUNKSIZE)
      (Layout_join bs [] ⟨s.mem_brk, max (adjust size) CHUNKSIZE, 0⟩ _ _ hw.layout rfl
        hS16 hS8 (by simp))
    have hM0 := coalesceBlk_alloc bs [] ⟨s.mem_brk, max (adjust size) CHUNKSIZE, 0⟩
    have hMle : adjust size ≤
        (coalesceBlk bs ⟨s.mem_brk, max (adjust size) CHUNKSIZE, 0⟩ []).size := by
      have q1 := hsp.1
      have q2 := hsp.2.1
      simp only [] at q1 q2
      omega
    rw [e1] at heq hne
    have e2' : WF (extend_heap s (max (adjust size) CHUNKSIZE / WSIZE)).1
        ((if (prevFree bs).isSome then bs.dropLast else bs) ++
          coalesceBlk bs ⟨s.mem_brk, max (adjust size) CHUNKSIZE, 0⟩ [] :: [])
        (coalesceList bs ⟨s.mem_brk, max (adjust size) CHUNKSIZE, 0⟩ [] fl) := e2
    obtain ⟨bs', fl', sz, q1, q2, q3, q4, q5⟩ :=
      place_client _ _ [] _ _ (adjust size) e2' hM0 ha8 ha16 hMle
    have hsub : ∀ b ∈ bs, b.alloc = 1 →
        b ∈ (if (prevFree bs).isSome then bs.dropLast else bs) ++
          coalesceBlk bs ⟨s.mem_brk, max (adjust size) CHUNKSIZE, 0⟩ [] :: [] := by
      intro b hb hb1
      exact (coalesceBlocks_alloc bs [] ⟨s.mem_brk, max (adjust size) CHUNKSIZE, 0⟩ b hb1).2
        (by simpa using hb)
    refine ⟨_, _, heq, fun h => absurd h hne, fun _ => ⟨bs', fl', sz, q1, q2, ?_, ?_, ?_⟩⟩
    · omega
    · intro b hb hb1
      exact q4 b (hsub b hb hb1) hb1
    · exact SpanFrame_trans _ _ _ _ _ e6 q5 hsub

/-- Specification of `mm_free(c.bp)` for an allocated block `c` of a well-formed heap. -/
theorem mm_free_spec (s : Heap) (pre post : List Blk) (c : Blk) (fl : List Nat)
    (hw : WF s (pre ++ c :: post) fl) (hc : c.alloc = 1) :
    WF (mm_free s c.bp) (coalesceBlocks pre ⟨c.bp, c.size, 0⟩ post)
      (coalesceList pre ⟨c.bp, c.size, 0⟩ post fl) ∧
    SpanFrame s.mem (mm_free s c.bp).mem (pre ++ post) := by
  obtain ⟨hq, hr, h16, h8, hal, hlo, hhi, hcap, htag⟩ := Base_block s pre post c fl hw.toBase
  have hcm : c ∈ pre ++ c :: post := by simp
  have hh : s.heap_listp ≠ 0 := by rw [hw.hl]; omega
  have hbp : c.bp ≠ 0 := by omega
  have hsz : GET_SIZE s.mem (HDRP c.bp) = c.size := GET_SIZE_hdr s.mem c htag h8 hal
  have a1 : c.size + 0 < 2 ^ 32 := by omega
  have a2 : 4 ≤ c.bp := by omega
  have a3 : 8 ≤ c.size := by omega
  have heq : mm_free s c.bp =
      (coalesce { s with mem := setTags s.mem c.bp c.size 0 } c.bp).1 := by
    unfold mm_free
    simp only [if_neg hbp, if_neg hh, hsz]
    rw [tag_write_eq s.mem c.bp c.size 0 h8 (by omega) a1]
  have hflold : ∀ x ∈ fl, ∃ b ∈ pre ++ c :: post, b.bp = x := by
    intro x hx
    obtain ⟨b, hb1, hb2, -⟩ := hw.flsub x hx
    exact ⟨b, hb1, hb2⟩
  have hcl := Clear_tags _ _ _ hw.layout (by omega) fl hflold c hcm
  have hF := FrameOut_setTags s.mem c.bp c.size 0 a2 a3
  have hsub : ∀ x ∈ fl, ∃ b ∈ pre ++ [(⟨c.bp, c.size, 0⟩ : Blk)] ++ post,
      b.bp = x ∧ b.alloc = 0 := by
    intro x hx
    obtain ⟨b, hb1, hb2, hb3⟩ := hw.flsub x hx
    refine ⟨b, ?_, hb2, hb3⟩
    simp only [List.mem_append, List.mem_cons, List.mem_singleton, List.not_mem_nil,
      or_false] at hb1 ⊢
    rcases hb1 with q1 | q2 | q3
    · exact Or.inl (Or.inl q1)
    · subst q2; omega
    · exact Or.inr q3
  have hbase : Base { s with mem := setTags s.mem c.bp c.size 0 }
      (pre ++ [(⟨c.bp, c.size, 0⟩ : Blk)] ++ post) fl := by
    apply Base_replace s { s with mem := setTags s.mem c.bp c.size 0 } pre [c]
      [⟨c.bp, c.size, 0⟩] post fl fl c.bp (c.bp + c.size)
      (by simpa using hw.toBase) rfl rfl rfl rfl hq
      ⟨rfl, h16, h8, by norm_num, rfl⟩ hr
    · intro a ha hfa
      exact hF a ha (by simp)
    · intro b hb
      rw [List.mem_singleton] at hb
      subst hb
      exact setTags_Tagged s.mem c.bp c.size 0 a2 a3 a1
    · exact Links_setTags s.mem fl c.bp c.size 0 hw.links hcl.1 hcl.2
    · exact hw.flhead
    · exact hw.nodup
    · exact hsub
  have hpre : PreCoal { s with mem := setTags s.mem c.bp c.size 0 } pre ⟨c.bp, c.size, 0⟩ post
      fl := by
    refine ⟨by simpa using hbase, rfl, ?_, ?_, ?_⟩
    · intro hin
      obtain ⟨b, hb1, hb2, hb3⟩ := hw.flsub _ hin
      have := Layout_bp_inj _ _ _ hw.layout b c hb1 hcm hb2
      subst this
      omega
    · intro b hb hb0
      apply hw.flall b _ hb0
      simp only [List.mem_append, List.mem_cons] at hb ⊢
      rcases hb with q1 | q3
      · exact Or.inl q1
      · exact Or.inr (Or.inr q3)
    · have : ({ (⟨c.bp, c.size, 0⟩ : Blk) with alloc := 1 } : Blk) = c := by
        cases c
        simp only [] at hc
        subst hc
        rfl
      rw [this]
      exact hw.noadj
  obtain ⟨-, h2, -⟩ := coalesce_spec _ pre post ⟨c.bp, c.size, 0⟩ fl hpre
  have hsp := coalesce_span _ pre post ⟨c.bp, c.size, 0⟩ fl hpre
  rw [heq]
  refine ⟨h2, ?_⟩
  intro b hb hb1 a ha1 ha2
  rw [hsp b hb hb1 a ha1 ha2]
  show setTags s.mem c.bp c.size 0 a = s.mem a
  rcases List.mem_append.1 hb with q | q
  · have hbm := Layout_mem _ _ _ hq b q
    exact setTags_frame _ _ _ _ _ (by omega) (by omega)
  · have hbm := Layout_mem _ _ _ hr b q
    exact setTags_frame _ _ _ _ _ (by omega) (by omega)

end MM
namespace MM

/-! ## Scan bound: more fuel does not change a result -/

theorem find_fit_loop_mono (m : Mem) (asize : Nat) : ∀ (f bp tmp record r : Nat),
    find_fit_loop m asize f bp tmp record = some r →
    ∀ f', f ≤ f' → find_fit_loop m asize f' bp tmp record = some r := by
  intro f
  induction f with
  | zero => intro bp tmp record r h; simp [find_fit_loop] at h
  | succ n ih =>
    intro bp tmp record r h f' hf
    obtain ⟨k, rfl⟩ : ∃ k, f' = k + 1 := ⟨f' - 1, by omega⟩
    rw [find_fit_loop] at h ⊢
    by_cases hc : bp ≠ 0 ∧ GET m (NEXT_FRBP bp) ≠ 0
    · rw [if_pos hc] at h ⊢
      simp only [] at h ⊢
      split_ifs at h ⊢
      all_goals first | exact h | exact ih _ _ _ _ h k (by omega)
    · rw [if_neg hc] at h ⊢
      exact h

theorem find_fit_mono (fuel fuel' : Nat) (s : Heap) (asize r : Nat)
    (h : find_fit fuel s asize = some r) (hf : fuel ≤ fuel') :
    find_fit fuel' s asize = some r :=
  find_fit_loop_mono _ _ _ _ _ _ _ h _ hf

theorem mm_malloc_mono (fuel fuel' : Nat) (s : Heap) (size : Nat) (r : Heap × Nat)
    (h : mm_malloc fuel s size = some r) (hf : fuel ≤ fuel') :
    mm_malloc fuel' s size = some r := by
  unfold mm_malloc at h ⊢
  simp only [] at h ⊢
  by_cases h0 : size = 0
  · rw [if_pos h0] at h ⊢
    exact h
  · rw [if_neg h0] at h ⊢
    cases hff : find_fit fuel (if s.heap_listp = 0 then (mm_init s).1 else s) (adjust size) with
    | none => rw [hff] at h; simp at h
    | some bp =>
      rw [hff] at h
      rw [find_fit_mono _ _ _ _ _ hff hf]
      exact h

theorem realloc_mono (fuel fuel' : Nat) (s : Heap) (ptr size : Nat) (r : Heap × Nat)
    (h : realloc fuel s ptr size = some r) (hf : fuel ≤ fuel') :
    realloc fuel' s ptr size = some r := by
  unfold realloc at h ⊢
  by_cases h0 : size = 0
  · rw [if_pos h0] at h ⊢
    exact h
  · rw [if_neg h0] at h ⊢
    by_cases h1 : ptr = 0
    · rw [if_pos h1] at h ⊢
      exact mm_malloc_mono _ _ _ _ _ h hf
    · rw [if_neg h1] at h ⊢
      cases hm : mm_malloc fuel s size with
      | none => rw [hm] at h; simp at h
      | some r1 =>
        rw [hm] at h
        rw [mm_malloc_mono _ _ _ _ _ hm hf]
        exact h

/-! ## The free list is shorter than the arena -/

theorem Layout_length (bs : List Blk) (p e : Nat) (h : Layout p bs e) :
    p + 16 * bs.length ≤ e := by
  induction bs generalizing p with
  | nil => rw [Layout_nil] at h; simp [h]
  | cons b r ih =>
    obtain ⟨h1, h2, h3, h4, h5⟩ := h
    have := ih _ h5
    simp only [List.length_cons]
    omega

theorem Base_fl_length (s : Heap) (bs : List Blk) (fl : List Nat) (hb : Base s bs fl) :
    fl.length < s.mem_brk - s.mem_heap := by
  have h1 := Layout_length _ _ _ hb.layout
  have hsub : fl ⊆ bs.map Blk.bp := by
    intro x hx
    obtain ⟨b, hb1, hb2, -⟩ := hb.flsub x hx
    exact List.mem_map.2 ⟨b, hb1, hb2⟩
  have h2 := (List.subperm_of_subset hb.nodup hsub).length_le
  rw [List.length_map] at h2
  omega

/-! ## Writes into the payload of an allocated block -/

theorem WF_payload_write (s : Heap) (pre post : List Blk) (A : Blk) (fl : List Nat) (m' : Mem)
    (hw : WF s (pre ++ A :: post) fl) (hA1 : A.alloc = 1)
    (hfr : ∀ a, (a < A.bp ∨ A.bp + A.size ≤ a + 8) → m' a = s.mem a) :
    WF { s with mem := m' } (pre ++ A :: post) fl := by
  obtain ⟨hq, hr, h16, h8, hal, hlo, hhi, hcap, htag⟩ := Base_block s pre post A fl hw.toBase
  have hAm : A ∈ pre ++ A :: post := by simp
  have e : pre ++ [A] ++ post = pre ++ A :: post := by simp
  rw [← e]
  apply WF_replace s { s with mem := m' } pre [A] [A] post fl fl A.bp (A.bp + A.size)
    (by rw [e]; exact hw.toBase) rfl rfl rfl rfl hq ⟨rfl, h16, h8, hal, rfl⟩ hr
  · intro a ha _
    apply hfr a
    omega
  · intro b hb
    rw [List.mem_singleton] at hb
    subst hb
    refine Tagged_congr s.mem m' b htag ?_ ?_
    · apply GET_congr
      intro a h1 h2
      exact hfr a (by omega)
    · apply GET_congr
      intro a h1 h2
      exact hfr a (by omega)
  · apply Links_congr s.mem m' fl _ hw.links
    intro x hx a h1 h2
    obtain ⟨b, hb1, hb2, hb3⟩ := hw.flsub x hx
    have hbm := Layout_mem _ _ _ hw.layout b hb1
    apply hfr a
    rcases Layout_alloc_free _ _ _ hw.layout A b hAm hb1 hA1 hb3 with q | q
    · right; omega
    · left; omega
  · exact hw.flhead
  · exact hw.nodup
  · rw [e]; exact hw.flsub
  · rw [e]; exact hw.flall
  · rw [e]; exact hw.noadj

/-! ## Blocks left alone -/

theorem Keeps_refl (m : Mem) (q : Nat) : Keeps m m q := fun _ _ _ => rfl

theorem Keeps_size (m m' : Mem) (q : Nat) (h : Keeps m m' q) (hs : GET_SIZE m (HDRP q) ≠ 0) :
    GET m' (HDRP q) = GET m (HDRP q) := by
  have h8 := GET_SIZE_mod8 m (HDRP q)
  apply GET_congr
  intro a h1 h2
  apply h a
  · simp only [HDRP, WSIZE] at h1; omega
  · simp only [HDRP, WSIZE] at h1 h2 hs h8 ⊢; omega

theorem Keeps_trans (m1 m2 m3 : Mem) (q : Nat) (h12 : Keeps m1 m2 q) (h23 : Keeps m2 m3 q) :
    Keeps m1 m3 q := by
  intro a h1 h2
  have hs : GET_SIZE m1 (HDRP q) ≠ 0 := by omega
  have hg := Keeps_size m1 m2 q h12 hs
  have hsz : GET_SIZE m2 (HDRP q) = GET_SIZE m1 (HDRP q) := by
    unfold GET_SIZE; rw [hg]
  rw [h23 a h1 (by rw [hsz]; exact h2), h12 a h1 h2]

theorem Keeps_of_SpanFrame (m m' : Mem) (bs : List Blk) (b : Blk) (h : SpanFrame m m' bs)
    (hb : b ∈ bs) (hb1 : b.alloc = 1) (hs : GET_SIZE m (HDRP b.bp) = b.size) :
    Keeps m m' b.bp := by
  intro a h1 h2
  rw [hs] at h2
  exact h b hb hb1 a h1 h2

end MM
namespace MM

/-! ## The routines as seen by the client -/

/-- A live allocation is an allocated block whose recorded size covers the request. -/
theorem live_block (s : Heap) (bs : List Blk) (fl : List Nat) (live : Live) (hw : WF s bs fl)
    (hl : LiveOK bs live) (e : Nat × Nat) (he : e ∈ live) :
    ∃ b ∈ bs, b.bp = e.1 ∧ b.alloc = 1 ∧ e.2 + 8 ≤ b.size ∧
      GET_SIZE s.mem (HDRP e.1) = b.size := by
  obtain ⟨b, hb, h1, h2, h3⟩ := hl e he
  have hm := Layout_mem _ _ _ hw.layout b hb
  have hs := GET_SIZE_hdr s.mem b (hw.tags b hb) hm.2.2.2.1 hm.2.2.2.2
  rw [h1] at hs
  exact ⟨b, hb, h1, h2, h3, hs⟩

theorem Inv_init (s : Heap) (hf : Fresh s) (hok : (mm_init s).2 = 0) : Inv (mm_init s).1 [] :=
  ⟨_, _, mm_init_WF s hf hok, fun e he => absurd he (List.not_mem_nil e)⟩

theorem Inv_heap_listp (s : Heap) (live : Live) (h : Inv s live) : s.heap_listp ≠ 0 := by
  obtain ⟨bs, fl, hw, -⟩ := h
  rw [hw.hl]
  omega

/-- Client view of `mm_malloc(size)`, `size ≠ 0`, `size + 15` not overflowing. -/
theorem mm_malloc_client (s : Heap) (live : Live) (fuel size : Nat) (hI : Inv s live)
    (h1 : size ≠ 0) (h2 : size + 15 < 2 ^ 64) (hf : s.mem_brk - s.mem_heap ≤ fuel) :
    ∃ s' p, mm_malloc fuel s size = some (s', p) ∧
      (p = 0 → s' = s ∧ s.mem_brk + max (adjust size) CHUNKSIZE > s.mem_max_addr) ∧
      (p ≠ 0 → Inv s' ((p, size) :: live) ∧ p % 8 = 0 ∧ s'.mem_heap + 16 ≤ p ∧
        p + size + 8 ≤ s'.mem_brk ∧
        (∀ e ∈ live, e.1 ≠ p ∧ (p + size ≤ e.1 ∨ e.1 + e.2 ≤ p))) ∧
      (∀ e ∈ live, Keeps s.mem s'.mem e.1) := by
  obtain ⟨bs, fl, hw, hl⟩ := hI
  have hlen := Base_fl_length s bs fl hw.toBase
  obtain ⟨s', p, heq, hnull, hok⟩ := mm_malloc_spec s bs fl fuel size hw h1 h2 (by omega)
  refine ⟨s', p, heq, hnull, ?_, ?_⟩
  · intro hp
    obtain ⟨bs', fl', sz, hw', hA, hsz, hold, hsf⟩ := hok hp
    have hAm := Layout_mem _ _ _ hw'.layout _ hA
    have hA8 := Layout_mod8 _ _ _ hw'.layout (by have := hw'.lo8; omega) _ hA
    simp only [] at hAm hA8
    refine ⟨⟨bs', fl', hw', ?_⟩, hA8, hAm.1, by omega, ?_⟩
    · intro e he
      rcases List.mem_cons.1 he with rfl | he'
      · exact ⟨_, hA, rfl, rfl, hsz⟩
      · obtain ⟨b, hb, q1, q2, q3⟩ := hl e he'
        exact ⟨b, (hold b hb q2).1, q1, q2, q3⟩
    · intro e he
      obtain ⟨b, hb, q1, q2, q3⟩ := hl e he
      have hne := (hold b hb q2).2
      refine ⟨by rw [← q1]; exact hne, ?_⟩
      rcases Layout_sep _ _ _ hw'.layout b _ (hold b hb q2).1 hA with q | q | q
      · rw [q] at hne; exact absurd rfl hne
      · right; simp only [] at q; omega
      · left; simp only [] at q; omega
  · intro e he
    obtain ⟨b, hb, q1, q2, q3, q4⟩ := live_block s bs fl live hw hl e he
    by_cases hp : p = 0
    · rw [(hnull hp).1]; exact Keeps_refl _ _
    · obtain ⟨bs', fl', sz, hw', hA, hsz, hold, hsf⟩ := hok hp
      rw [← q1] at q4 ⊢
      exact Keeps_of_SpanFrame _ _ bs b hsf hb q2 q4

/-- Client view of `mm_free(p)` for a live pointer `p`. -/
theorem mm_free_client (s : Heap) (live : Live) (p : Nat) (hI : Inv s live)
    (hp : p ∈ live.map Prod.fst) :
    Inv (mm_free s p) (live.filter (fun e => e.1 ≠ p)) ∧
    (∀ e ∈ live, e.1 ≠ p → Keeps s.mem (mm_free s p).mem e.1) := by
  obtain ⟨bs, fl, hw, hl⟩ := hI
  obtain ⟨e0, he0, hep⟩ := List.mem_map.1 hp
  obtain ⟨c, hc, c1, c2, c3⟩ := hl e0 he0
  obtain ⟨pre, post, hsplit⟩ := List.append_of_mem hc
  subst hsplit
  rw [hep] at c1
  subst c1
  obtain ⟨hw', hsf⟩ := mm_free_spec s pre post c fl hw c2
  have hother : ∀ b ∈ pre ++ c :: post, b.bp ≠ c.bp → b ∈ pre ++ post := by
    intro b hb hne
    simp only [List.mem_append, List.mem_cons] at hb ⊢
    rcases hb with q1 | q2 | q3
    · exact Or.inl q1
    · rw [q2] at hne; exact absurd rfl hne
    · exact Or.inr q3
  refine ⟨⟨_, _, hw', ?_⟩, ?_⟩
  · intro e he
    obtain ⟨he1, he2⟩ := List.mem_filter.1 he
    simp only [ne_eq, decide_not, Bool.not_eq_eq_eq_not, Bool.not_true,
      decide_eq_false_iff_not] at he2
    obtain ⟨b, hb, q1, q2, q3⟩ := hl e he1
    exact ⟨b, (coalesceBlocks_alloc pre post _ b q2).2 (hother b hb (by rw [q1]; exact he2)),
      q1, q2, q3⟩
  · intro e he hne
    obtain ⟨b, hb, q1, q2, q3, q4⟩ := live_block s _ fl live hw hl e he
    rw [← q1] at q4 hne ⊢
    exact Keeps_of_SpanFrame _ _ _ b hsf (hother b hb hne) q2 q4

end MM
namespace MM

theorem memcpy_in (m : Mem) (dst src n i : Nat) (h : i < n) :
    memcpy m dst src n (dst + i) = m (src + i) := by
  unfold memcpy
  rw [if_pos ⟨by omega, by omega⟩]
  congr 1
  omega

theorem memcpy_out (m : Mem) (dst src n a : Nat) (h : a < dst ∨ dst + n ≤ a) :
    memcpy m dst src n a = m a := by
  unfold memcpy
  rw [if_neg (by omega)]

/-- Client view of `realloc(ptr, size)` for a live pointer `ptr` and `size ≠ 0`, with
`size + 15` not overflowing. -/
theorem realloc_client (s : Heap) (live : Live) (fuel ptr N size : Nat) (hI : Inv s live)
    (hp : (ptr, N) ∈ live) (h1 : size ≠ 0) (h2 : size + 15 < 2 ^ 64)
    (hf : s.mem_brk - s.mem_heap ≤ fuel) :
    ∃ s' q, realloc fuel s ptr size = some (s', q) ∧
      (q = 0 → s' = s) ∧
      (q ≠ 0 → Inv s' ((q, size) :: live.filter (fun e => e.1 ≠ ptr)) ∧
        (∀ i, i < N → i < size → s'.mem (q + i) = s.mem (ptr + i))) ∧
      (∀ e ∈ live, e.1 ≠ ptr → Keeps s.mem s'.mem e.1) := by
  obtain ⟨s1, q, hm, hnull, hok, hkeep⟩ := mm_malloc_client s live fuel size hI h1 h2 hf
  obtain ⟨bs, fl, hw, hl⟩ := hI
  obtain ⟨c, hc, c1, c2, c3, c4⟩ := live_block s bs fl live hw hl (ptr, N) hp
  simp only [] at c1 c3 c4
  have hcm := Layout_mem _ _ _ hw.layout c hc
  have hptr : ptr ≠ 0 := by omega
  by_cases hq : q = 0
  · refine ⟨s1, 0, ?_, fun _ => (hnull hq).1, fun h => absurd rfl h, ?_⟩
    · unfold realloc
      rw [if_neg h1, if_neg hptr, hm]
      simp only [hq, if_true]
    · intro e he _
      exact hkeep e he
  · obtain ⟨hI1, -, -, -, hdis⟩ := hok hq
    obtain ⟨bs1, fl1, hw1, hl1⟩ := hI1
    obtain ⟨A, hA, A1, A2, A3, A4⟩ :=
      live_block s1 bs1 fl1 _ hw1 hl1 (q, size) (List.mem_cons_self _ _)
    obtain ⟨d, hd, d1, d2, d3, d4⟩ :=
      live_block s1 bs1 fl1 _ hw1 hl1 (ptr, N) (List.mem_cons_of_mem _ hp)
    simp only [] at A1 A3 A4 d1 d3 d4
    have hn : (if size < GET_SIZE s1.mem (HDRP ptr) then size else GET_SIZE s1.mem (HDRP ptr))
        ≤ size := by split_ifs <;> omega
    have hn' : ∀ i, i < N → i < size →
        i < (if size < GET_SIZE s1.mem (HDRP ptr) then size
          else GET_SIZE s1.mem (HDRP ptr)) := by
      intro i hi1 hi2
      rw [d4]
      split_ifs <;> omega
    generalize hnn : (if size < GET_SIZE s1.mem (HDRP ptr) then size
      else GET_SIZE s1.mem (HDRP ptr)) = n at hn hn'
    have heq : realloc fuel s ptr size =
        some (mm_free { s1 with mem := memcpy s1.mem q ptr n } ptr, q) := by
      unfold realloc
      rw [if_neg h1, if_neg hptr, hm]
      simp only [if_neg hq, hnn]
    obtain ⟨pre, post, hsplit⟩ := List.append_of_mem hA
    subst hsplit
    have hfr : ∀ a, (a < A.bp ∨ A.bp + A.size ≤ a + 8) →
        memcpy s1.mem q ptr n a = s1.mem a := by
      intro a ha
      apply memcpy_out
      omega
    have hw1' := WF_payload_write s1 pre post A fl1 _ hw1 A2 hfr
    have hI1' : Inv { s1 with mem := memcpy s1.mem q ptr n } ((q, size) :: live) :=
      ⟨_, _, hw1', hl1⟩
    have hpin : ptr ∈ ((q, size) :: live).map Prod.fst :=
      List.mem_map.2 ⟨(ptr, N), List.mem_cons_of_mem _ hp, rfl⟩
    obtain ⟨hI2, hk2⟩ := mm_free_client _ _ ptr hI1' hpin
    have hqp : q ≠ ptr := fun h => (hdis (ptr, N) hp).1 h.symm
    have hfilt : ((q, size) :: live).filter (fun e => e.1 ≠ ptr) =
        (q, size) :: live.filter (fun e => e.1 ≠ ptr) := by
      rw [List.filter_cons_of_pos]
      simpa using hqp
    rw [hfilt] at hI2
    have hAsz : GET_SIZE (memcpy s1.mem q ptr n) (HDRP q) = A.size := by
      obtain ⟨b, hb, q1, q2, q3, q4⟩ := live_block _ _ fl1 _ hw1' hl1 (q, size)
        (List.mem_cons_self _ _)
      simp only [] at q1 q4
      have := Layout_bp_inj _ _ _ hw1.layout b A hb hA (by rw [q1, A1])
      rw [q4, this]
    refine ⟨_, q, heq, fun h => absurd h hq, fun _ => ⟨hI2, ?_⟩, ?_⟩
    · intro i hi1 hi2
      have k1 := hk2 (q, size) (List.mem_cons_self _ _) hqp (q + i) (by simp only []; omega)
        (by simp only []; rw [hAsz]; omega)
      have k2 := hkeep (ptr, N) hp (ptr + i) (by simp only []; omega)
        (by simp only []; rw [c4]; omega)
      rw [k1]
      show memcpy s1.mem q ptr n (q + i) = _
      rw [memcpy_in _ _ _ _ _ (hn' i hi1 hi2), k2]
    · intro e he hne
      have k0 := hkeep e he
      have k2 := hk2 e (List.mem_cons_of_mem _ he) hne
      obtain ⟨b, hb, q1, q2, q3, q4⟩ :=
        live_block s1 _ fl1 _ hw1 hl1 e (List.mem_cons_of_mem _ he)
      have hbm := Layout_mem _ _ _ hw1.layout b hb
      have hbA : b.bp ≠ A.bp := by
        rw [q1, A1]; exact (hdis e he).1
      have k1 : Keeps s1.mem (memcpy s1.mem q ptr n) e.1 := by
        intro a ha1 ha2
        rw [q4] at ha2
        apply memcpy_out
        rcases Layout_sep _ _ _ hw1.layout b A hb hA with z | z | z
        · rw [z] at hbA; exact absurd rfl hbA
        · left; omega
        · right; omega
      exact Keeps_trans _ _ _ _ k0 (Keeps_trans _ _ _ _ k1 k2)

/-! ## Reachable states are well formed -/

/-- A client write into the payload of a live allocation keeps the heap well formed. -/
theorem Inv_payload_write (s : Heap) (live : Live) (p n : Nat) (m' : Mem) (hI : Inv s live)
    (hp : (p, n) ∈ live) (hfr : ∀ a, (a < p ∨ p + n ≤ a) → m' a = s.mem a) :
    Inv { s with mem := m' } live := by
  obtain ⟨bs, fl, hw, hl⟩ := hI
  obtain ⟨A, hA, A1, A2, A3⟩ := hl (p, n) hp
  simp only [] at A1 A3
  obtain ⟨pre, post, hsplit⟩ := List.append_of_mem hA
  subst hsplit
  refine ⟨_, fl, WF_payload_write s pre post A fl m' hw A2 ?_, hl⟩
  intro a ha
  apply hfr a
  omega

theorem Reach_Inv (lim : Nat) (hlim : lim + 15 ≤ 2 ^ 64) (s : Heap) (live : Live)
    (h : Reach lim s live) : Inv s live := by
  induction h with
  | start s0 hf hok => exact Inv_init s0 hf hok
  | malloc s live fuel size s' p _ hsz hm ih =>
    by_cases h0 : size = 0
    · have hh := Inv_heap_listp s live ih
      unfold mm_malloc at hm
      simp only [if_neg hh, if_pos h0, Option.some.injEq, Prod.mk.injEq] at hm
      obtain ⟨rfl, rfl⟩ := hm
      simpa using ih
    · obtain ⟨s'', p'', hm', hnull, hok, -⟩ := mm_malloc_client s live
        (max fuel (s.mem_brk - s.mem_heap)) size ih h0 (by omega) (le_max_right _ _)
      rw [mm_malloc_mono _ _ _ _ _ hm (le_max_left _ _)] at hm'
      simp only [Option.some.injEq, Prod.mk.injEq] at hm'
      obtain ⟨rfl, rfl⟩ := hm'
      by_cases hp : p = 0
      · rw [if_pos hp, (hnull hp).1]; exact ih
      · rw [if_neg hp]; exact (hok hp).1
  | free s live p _ hp ih => exact (mm_free_client s live p ih hp).1
  | realloc s live fuel ptr size s' q _ hsz hptr hr ih =>
    unfold reallocLive
    by_cases h0 : size = 0
    · rw [if_pos h0]
      unfold realloc at hr
      simp only [if_pos h0, Option.some.injEq, Prod.mk.injEq] at hr
      obtain ⟨rfl, rfl⟩ := hr
      rcases hptr with hz | hin
      · subst hz
        have : mm_free s 0 = s := by unfold mm_free; simp
        rw [this]
        obtain ⟨bs, fl, hw, hl⟩ := ih
        exact ⟨bs, fl, hw, fun e he => hl e (List.mem_filter.1 he).1⟩
      · exact (mm_free_client s live ptr ih hin).1
    · rw [if_neg h0]
      rcases hptr with hz | hin
      · subst hz
        have hr' : mm_malloc fuel s size = some (s', q) := by
          unfold realloc at hr
          simpa only [if_neg h0, if_true] using hr
        obtain ⟨s'', p'', hm', hnull, hok, -⟩ := mm_malloc_client s live
          (max fuel (s.mem_brk - s.mem_heap)) size ih h0 (by omega) (le_max_right _ _)
        rw [mm_malloc_mono _ _ _ _ _ hr' (le_max_left _ _)] at hm'
        simp only [Option.some.injEq, Prod.mk.injEq] at hm'
        obtain ⟨rfl, rfl⟩ := hm'
        by_cases hq : q = 0
        · rw [if_pos hq, (hnull hq).1]; exact ih
        · rw [if_neg hq]
          obtain ⟨bs, fl, hw, hl⟩ := (hok hq).1
          have hnone : live.filter (fun e => e.1 ≠ 0) = live := by
            rw [List.filter_eq_self]
            intro e he
            obtain ⟨b, hb, q1, q2, q3⟩ := ih.choose_spec.choose_spec.2 e he
            have hbm := Layout_mem _ _ _ ih.choose_spec.choose_spec.1.layout b hb
            simp only [ne_eq, decide_not, Bool.not_eq_eq_eq_not, Bool.not_true,
              decide_eq_false_iff_not]
            omega
          rw [hnone]
          exact ⟨bs, fl, hw, hl⟩
      · obtain ⟨e0, he0, hep⟩ := List.mem_map.1 hin
        obtain ⟨s'', q'', hm', hnull, hok, -⟩ := realloc_client s live
          (max fuel (s.mem_brk - s.mem_heap)) ptr e0.2 size ih (by rw [← hep]; exact he0) h0
          (by omega) (le_max_right _ _)
        rw [realloc_mono _ _ _ _ _ _ hr (le_max_left _ _)] at hm'
        simp only [Option.some.injEq, Prod.mk.injEq] at hm'
        obtain ⟨rfl, rfl⟩ := hm'
        by_cases hq : q = 0
        · rw [if_pos hq, hnull hq]; exact ih
        · rw [if_neg hq]; exact (hok hq).1
  | store s live p n m' _ hp hfr ih => exact Inv_payload_write s live p n m' ih hp hfr

end MM
namespace MM
set_option maxRecDepth 100000

/-! ## Reachability of the concrete states -/

theorem stepMalloc_eq (fuel : Nat) (s : Heap) (size : Nat)
    (h : (mm_malloc fuel s size).isSome = true) :
    mm_malloc fuel s size = some ((stepMalloc fuel s size).1, (stepMalloc fuel s size).2) := by
  unfold stepMalloc
  cases hm : mm_malloc fuel s size with
  | none => rw [hm] at h; simp at h
  | some r => rfl

theorem stepRealloc_eq (fuel : Nat) (s : Heap) (ptr size : Nat)
    (h : (realloc fuel s ptr size).isSome = true) :
    realloc fuel s ptr size =
      some ((stepRealloc fuel s ptr size).1, (stepRealloc fuel s ptr size).2) := by
  unfold stepRealloc
  cases hm : realloc fuel s ptr size with
  | none => rw [hm] at h; simp at h
  | some r => rfl

theorem fresh_s0 : Fresh s0 := ⟨rfl, by decide, by decide⟩

theorem init_s0 : (mm_init s0).2 = 0 := by decide

theorem reach_sI (lim : Nat) : Reach lim sI [] := Reach.start s0 fresh_s0 init_s0

theorem reach_sA (lim : Nat) (h : 16 < lim) : Reach lim sA [(1040, 16)] := by
  have hs : (mm_malloc 5 sI 16).isSome = true := by decide
  have hp : (stepMalloc 5 sI 16).2 = 1040 := by decide
  have := Reach.malloc sI [] 5 16 _ _ (reach_sI lim) h (stepMalloc_eq 5 sI 16 hs)
  rw [hp] at this
  exact this

theorem reach_sB (lim : Nat) (h : 16 < lim) : Reach lim sB [(1064, 16), (1040, 16)] := by
  have hs : (mm_malloc 5 sA 16).isSome = true := by decide
  have hp : (stepMalloc 5 sA 16).2 = 1064 := by decide
  have := Reach.malloc sA _ 5 16 _ _ (reach_sA lim h) h (stepMalloc_eq 5 sA 16 hs)
  rw [hp] at this
  exact this

theorem reach_sC (lim : Nat) (h : 16 < lim) : Reach lim sC [(1064, 16)] :=
  Reach.free sB _ 1040 (reach_sB lim h) (by decide)

theorem reach_sD : Reach (2 ^ 64) sD [(1040, 2 ^ 64 - 8), (1064, 16)] := by
  have hs : (mm_malloc 5 sC (2 ^ 64 - 8)).isSome = true := by decide
  have hp : (stepMalloc 5 sC (2 ^ 64 - 8)).2 = 1040 := by decide
  have := Reach.malloc sC _ 5 (2 ^ 64 - 8) _ _ (reach_sC (2 ^ 64) (by norm_num))
    (by norm_num) (stepMalloc_eq 5 sC _ hs)
  rw [hp] at this
  exact this

theorem reach_sE : Reach (2 ^ 64) sE [(1064, 16)] :=
  Reach.free sD _ 1040 reach_sD (by decide)

theorem reach_sW : Reach (2 ^ 64) sW [(1040, 2 ^ 64 - 1)] := by
  have hs : (mm_malloc 5 sI (2 ^ 64 - 1)).isSome = true := by decide
  have hp : (stepMalloc 5 sI (2 ^ 64 - 1)).2 = 1040 := by decide
  have := Reach.malloc sI [] 5 (2 ^ 64 - 1) _ _ (reach_sI (2 ^ 64)) (by norm_num)
    (stepMalloc_eq 5 sI _ hs)
  rw [hp] at this
  exact this

theorem reach_sX : Reach (2 ^ 64) sX [(1064, 2 ^ 64 - 8), (1040, 16)] := by
  have hs : (mm_malloc 5 sA (2 ^ 64 - 8)).isSome = true := by decide
  have hp : (stepMalloc 5 sA (2 ^ 64 - 8)).2 = 1064 := by decide
  have := Reach.malloc sA _ 5 (2 ^ 64 - 8) _ _ (reach_sA (2 ^ 64) (by norm_num))
    (by norm_num) (stepMalloc_eq 5 sA _ hs)
  rw [hp] at this
  exact this

/-! ## The calls that produce the concrete states -/

theorem malloc_sI_16 : mm_malloc 5 sI 16 = some (sA, 1040) := by
  have h := stepMalloc_eq 5 sI 16 (by decide)
  rw [show (stepMalloc 5 sI 16).2 = 1040 from by decide] at h
  exact h

theorem malloc_sA_16 : mm_malloc 5 sA 16 = some (sB, 1064) := by
  have h := stepMalloc_eq 5 sA 16 (by decide)
  rw [show (stepMalloc 5 sA 16).2 = 1064 from by decide] at h
  exact h

theorem malloc_sC_wrap : mm_malloc 5 sC (2 ^ 64 - 8) = some (sD, 1040) := by
  have h := stepMalloc_eq 5 sC (2 ^ 64 - 8) (by decide)
  rw [show (stepMalloc 5 sC (2 ^ 64 - 8)).2 = 1040 from by decide] at h
  exact h

theorem malloc_sI_wrap : mm_malloc 5 sI (2 ^ 64 - 1) = some (sW, 1040) := by
  have h := stepMalloc_eq 5 sI (2 ^ 64 - 1) (by decide)
  rw [show (stepMalloc 5 sI (2 ^ 64 - 1)).2 = 1040 from by decide] at h
  exact h

theorem malloc_sA_wrap : mm_malloc 5 sA (2 ^ 64 - 8) = some (sX, 1064) := by
  have h := stepMalloc_eq 5 sA (2 ^ 64 - 8) (by decide)
  rw [show (stepMalloc 5 sA (2 ^ 64 - 8)).2 = 1064 from by decide] at h
  exact h

theorem inv_sA : Inv sA [(1040, 16)] :=
  Reach_Inv (2 ^ 64 - 15) (by norm_num) sA _ (reach_sA _ (by norm_num))

theorem reach_sP (lim : Nat) (h : 16 < lim) : Reach lim sP [(1040, 16)] := by
  apply Reach.store sA _ 1040 16 _ (reach_sA lim h) (List.mem_singleton_self _)
  intro a ha
  rw [PUT_frame _ _ _ _ (by omega), PUT_frame _ _ _ _ (by omega)]

theorem inv_sP : Inv sP [(1040, 16)] := by
  apply Inv_payload_write sA _ 1040 16 _ inv_sA (List.mem_singleton_self _)
  intro a ha
  rw [PUT_frame _ _ _ _ (by omega), PUT_frame _ _ _ _ (by omega)]

end MM
namespace MM
set_option maxRecDepth 100000

/-! ## The claims -/

/-- C1, evaluated at a failing input: after a successful `mm_init` on the arena `s0`
(base 1024, a multiple of 8; both `mem_sbrk` calls succeed) the adjusted size of the
request `2^64 - 8` wraps to 0.  The call `mm_malloc(2^64 - 8)` makes no `mem_sbrk` call
(the arena still ends at 5136) and returns the non-NULL address 1040, but the byte range
`[1040, 1040 + 2^64 - 8)` does not lie inside the arena; the block it returns still is the
member of the free list and its header still has the allocated flag clear. -/
theorem C1_size_wrap_defect :
    Fresh s0 ∧ (mm_init s0).2 = 0 ∧ 1 ≤ 2 ^ 64 - 8 ∧ adjust (2 ^ 64 - 8) = 0 ∧
    (mm_malloc 5 (mm_init s0).1 (2 ^ 64 - 8)).map
      (fun r => (r.2, r.1.mem_heap, r.1.mem_brk)) = some (1040, 1024, 5136) ∧
    ¬ (1040 + (2 ^ 64 - 8) ≤ 5136) ∧
    (mm_malloc 5 (mm_init s0).1 (2 ^ 64 - 8)).map
      (fun r => (freeWalk r.1.mem 5 r.1.fr_listp, GET_ALLOC r.1.mem (HDRP 1040))) =
      some (some [1040], 0) :=
  ⟨fresh_s0, init_s0, by norm_num, by decide, by decide, by norm_num, by decide⟩

/-- Without the wrap of the adjusted size `mm_malloc` is sound: in every state reachable
from a successful `mm_init` on a fresh arena by calls whose sizes satisfy
`size + 15 < 2^64` and by stores of the client into its live allocations, a call
`mm_malloc(size)` with `1 ≤ size` and `size + 15 < 2^64` returns (given a scan bound of at
least the arena size); it returns NULL only if the `mem_sbrk` request fails; and a
non-NULL result `p` is a multiple of 8, the range `[p, p + size)` lies inside the arena and
is disjoint from the range of every live allocation. -/
theorem mm_malloc_sound_no_wrap (s : Heap) (live : Live) (fuel size : Nat)
    (hr : Reach (2 ^ 64 - 15) s live) (h1 : 1 ≤ size) (h2 : size + 15 < 2 ^ 64)
    (hf : s.mem_brk - s.mem_heap ≤ fuel) :
    ∃ s' p, mm_malloc fuel s size = some (s', p) ∧
      (p = 0 → mem_sbrk s (max (adjust size) CHUNKSIZE) = none) ∧
      (p ≠ 0 → p % 8 = 0 ∧ mem_heap_lo s' ≤ p ∧ p + size ≤ mem_heap_hi s' + 1 ∧
        ∀ e ∈ live, p + size ≤ e.1 ∨ e.1 + e.2 ≤ p) := by
  have hI := Reach_Inv _ (by norm_num) s live hr
  obtain ⟨s', p, hm, hnull, hok, -⟩ :=
    mm_malloc_client s live fuel size hI (by omega) h2 hf
  refine ⟨s', p, hm, ?_, ?_⟩
  · intro hp
    have := (hnull hp).2
    unfold mem_sbrk
    rw [if_pos this]
  · intro hp
    obtain ⟨-, q1, q2, q3, q4⟩ := hok hp
    refine ⟨q1, ?_, ?_, fun e he => (q4 e he).2⟩
    · unfold mem_heap_lo; omega
    · unfold mem_heap_hi; omega

/-- C2, evaluated at a failing input: `sA` is a well-formed heap in which 1040 is a live
allocation of 16 bytes (block size 24, footer word at 1056).  The adjusted size of the
request `2^64 - 8` wraps to 0, and the call `mm_malloc(2^64 - 8)`, which returns 1064,
overwrites that footer: it reads 25 before the call and 1 after it, so the live block 1040
is not left unchanged. -/
theorem C2_size_wrap_defect :
    Inv sA [(1040, 16)] ∧ GET_SIZE sA.mem (HDRP 1040) = 24 ∧ GET sA.mem 1056 = 25 ∧
    adjust (2 ^ 64 - 8) = 0 ∧ mm_malloc 5 sA (2 ^ 64 - 8) = some (sX, 1064) ∧
    GET sX.mem 1056 = 1 ∧ ¬ Keeps sA.mem sX.mem 1040 := by
  refine ⟨inv_sA, by decide, by decide, by decide, malloc_sA_wrap, by decide, ?_⟩
  intro h
  have := h 1056 (by decide) (by decide)
  revert this
  decide

/-- Without the wrap of the adjusted size live blocks are left alone: in a well-formed heap
with a live allocation `b`, each of `mm_malloc(n)`, `mm_free(q)` for a live `q ≠ b`, and
`realloc(q, n)` for `q` NULL or live with `q ≠ b`, where `n + 15 < 2^64`, returns and
leaves the header, the payload and the footer of `b` unchanged. -/
theorem live_block_kept_no_wrap (s : Heap) (live : Live) (fuel b nb n : Nat) (hI : Inv s live)
    (hb : (b, nb) ∈ live) (hn : n + 15 < 2 ^ 64) (hf : s.mem_brk - s.mem_heap ≤ fuel) :
    (∃ s' p, mm_malloc fuel s n = some (s', p) ∧ Keeps s.mem s'.mem b) ∧
    (∀ q, q ∈ live.map Prod.fst → q ≠ b → Keeps s.mem (mm_free s q).mem b) ∧
    (∀ q, (q = 0 ∨ q ∈ live.map Prod.fst) → q ≠ b →
      ∃ s' r, realloc fuel s q n = some (s', r) ∧ Keeps s.mem s'.mem b) := by
  have hh := Inv_heap_listp s live hI
  have hmalloc : ∃ s' p, mm_malloc fuel s n = some (s', p) ∧ Keeps s.mem s'.mem b := by
    by_cases h0 : n = 0
    · refine ⟨s, 0, ?_, Keeps_refl _ _⟩
      unfold mm_malloc
      simp only [if_neg hh, if_pos h0]
    · obtain ⟨s', p, hm, -, -, hk⟩ := mm_malloc_client s live fuel n hI h0 hn hf
      exact ⟨s', p, hm, hk (b, nb) hb⟩
  have hfree : ∀ q, q ∈ live.map Prod.fst → q ≠ b → Keeps s.mem (mm_free s q).mem b := by
    intro q hq hne
    exact (mm_free_client s live q hI hq).2 (b, nb) hb (fun h => hne h.symm)
  refine ⟨hmalloc, hfree, ?_⟩
  intro q hq hne
  by_cases h0 : n = 0
  · refine ⟨mm_free s q, 0, ?_, ?_⟩
    · unfold realloc
      rw [if_pos h0]
    · rcases hq with hz | hin
      · subst hz
        have : mm_free s 0 = s := by unfold mm_free; simp
        rw [this]; exact Keeps_refl _ _
      · exact hfree q hin hne
  · rcases hq with hz | hin
    · subst hz
      obtain ⟨s', p, hm, hk⟩ := hmalloc
      refine ⟨s', p, ?_, hk⟩
      unfold realloc
      rw [if_neg h0, if_pos rfl]
      exact hm
    · obtain ⟨e0, he0, hep⟩ := List.mem_map.1 hin
      obtain ⟨s', r, hm, -, -, hk⟩ := realloc_client s live fuel q e0.2 n hI
        (by rw [← hep]; exact he0) h0 hn hf
      exact ⟨s', r, hm, hk (b, nb) hb (fun h => hne h.symm)⟩

/-- C3, evaluated at a failing input: `sP` is a well-formed heap in which 1040 is a live
allocation of N = 16 bytes holding the words 4 and 7.  The adjusted size of the request
`2^64 - 8` wraps to 0, and the call `realloc(1040, 2^64 - 8)` returns the non-NULL address
1064, but the byte at offset 8 (below min(N, M) = 16) is 228 at the new address, while it
was 7 at the old address before the call. -/
theorem C3_size_wrap_defect :
    Inv sP [(1040, 16)] ∧ 1 ≤ 2 ^ 64 - 8 ∧ 8 < min 16 (2 ^ 64 - 8) ∧
    adjust (2 ^ 64 - 8) = 0 ∧
    (realloc 5 sP 1040 (2 ^ 64 - 8)).map (fun r => (r.2, r.1.mem (1064 + 8))) =
      some (1064, 228) ∧
    sP.mem (1040 + 8) = 7 :=
  ⟨inv_sP, by norm_num, by norm_num, by decide, by decide, by decide⟩

/-- Without the wrap of the adjusted size `realloc` preserves the contents: in a well-formed
heap, for a live pointer `p` obtained for `N` bytes and every `M` with `1 ≤ M` and
`M + 15 < 2^64`, `realloc(p, M)` returns, and if it returns a non-NULL address `q` then the
first `min(N, M)` bytes at `q` afterwards equal the first `min(N, M)` bytes at `p` before
the call. -/
theorem realloc_preserves_no_wrap (s : Heap) (live : Live) (fuel p N M : Nat) (hI : Inv s live)
    (hp : (p, N) ∈ live) (h1 : 1 ≤ M) (h2 : M + 15 < 2 ^ 64)
    (hf : s.mem_brk - s.mem_heap ≤ fuel) :
    ∃ s' q, realloc fuel s p M = some (s', q) ∧
      (q ≠ 0 → ∀ i, i < min N M → s'.mem (q + i) = s.mem (p + i)) := by
  obtain ⟨s', q, hm, -, hok, -⟩ := realloc_client s live fuel p N M hI hp (by omega) h2 hf
  refine ⟨s', q, hm, fun hq i hi => (hok hq).2 i ?_ ?_⟩
  · exact lt_of_lt_of_le hi (min_le_left _ _)
  · exact lt_of_lt_of_le hi (min_le_right _ _)

/-- C4: for every state and every `N ≥ 1`, `realloc(NULL, N)` has the same result (returned
address and final state) as `mm_malloc(N)`; and for every state and every pointer `ptr`
(in particular every live one), `realloc(ptr, 0)` returns NULL and leaves the state that
`mm_free(ptr)` leaves. -/
theorem C4_realloc_degenerate (fuel : Nat) (s : Heap) (N ptr : Nat) (hN : 1 ≤ N) :
    realloc fuel s 0 N = mm_malloc fuel s N ∧
    realloc fuel s ptr 0 = some (mm_free s ptr, 0) := by
  constructor
  · unfold realloc
    rw [if_neg (by omega), if_pos rfl]
  · unfold realloc
    rw [if_pos rfl]

/-- C4, witness: `realloc(NULL, 16)` and `realloc(1040, 0)` in the state `sA`. -/
theorem C4_witness :
    realloc 5 sA 0 16 = mm_malloc 5 sA 16 ∧ realloc 5 sA 1040 0 = some (mm_free sA 1040, 0) :=
  C4_realloc_degenerate 5 sA 16 1040 (by decide)

/-- C5, counterexample: in the state `s0`, in which `mm_init` has not been called
(`heap_listp = 0`), `mm_malloc(0)` returns NULL but runs `mm_init` first: the arena grows
from 1024 to 5136 and `heap_listp` and `fr_listp` change from 0 to 1032 and 1040. -/
theorem C5_counterexample :
    s0.heap_listp = 0 ∧ s0.mem_brk = 1024 ∧ s0.fr_listp = 0 ∧
    (mm_malloc 5 s0 0).map (fun r => (r.2, r.1.mem_brk, r.1.heap_listp, r.1.fr_listp)) =
      some (0, 5136, 1032, 1040) :=
  ⟨rfl, rfl, rfl, by decide⟩

/-- C5, amended: in every state `mm_malloc(0)` returns NULL; when the allocator has been
initialised (`heap_listp ≠ 0`) it leaves the whole state unchanged; in the state with
`heap_listp = 0` it runs `mm_init` first, and the state it leaves is the one `mm_init`
leaves. -/
theorem C5_malloc_zero (fuel : Nat) (s : Heap) :
    ∃ s', mm_malloc fuel s 0 = some (s', 0) ∧ (s.heap_listp ≠ 0 → s' = s) ∧
      (s.heap_listp = 0 → s' = (mm_init s).1) := by
  by_cases h : s.heap_listp = 0
  · refine ⟨(mm_init s).1, ?_, fun h' => absurd h h', fun _ => rfl⟩
    unfold mm_malloc
    simp only [if_pos h, if_true]
  · refine ⟨s, ?_, fun _ => rfl, fun h' => absurd h' h⟩
    unfold mm_malloc
    simp only [if_neg h, if_true]

end MM
namespace MM
set_option maxRecDepth 100000

/-- C6: in a well-formed initialised heap, for every `size ≥ 1` and a scan bound of at
least the arena size, `mm_malloc(size)` returns; with `F` the free list read from memory
and `asize = adjust size`, it returns NULL if and only if no member of `F` has size at
least `asize` and the `mem_sbrk` request for `max(asize, 4096)` bytes fails; and whenever
it returns NULL the state is unchanged. -/
theorem C6_malloc_null_iff (s : Heap) (live : Live) (fuel size : Nat) (hI : Inv s live)
    (h1 : 1 ≤ size) (hf : s.mem_brk - s.mem_heap ≤ fuel) :
    ∃ s' p F, mm_malloc fuel s size = some (s', p) ∧
      freeWalk s.mem fuel s.fr_listp = some F ∧
      (p = 0 ↔ ((∀ x ∈ F, GET_SIZE s.mem (HDRP x) < adjust size) ∧
        mem_sbrk s (max (adjust size) CHUNKSIZE) = none)) ∧
      (p = 0 → s' = s) := by
  obtain ⟨bs, fl, hw, hl⟩ := hI
  have hlen := Base_fl_length s bs fl hw.toBase
  have hwalk := freeWalk_mono _ _ _ _ (freeWalk_Base s bs fl hw.toBase) fuel (by omega)
  have hfit : (∀ x ∈ fl, GET_SIZE s.mem (HDRP x) < adjust size) ↔
      (∀ b ∈ bs, b.alloc = 0 → b.size < adjust size) := by
    constructor
    · intro h b hb hb0
      have hx := hw.flall b hb hb0
      obtain ⟨b', hb', q1, q2, q3, -⟩ := Base_fl_size s bs fl hw.toBase b.bp hx
      have := Layout_bp_inj _ _ _ hw.layout b' b hb' hb q1
      rw [← this, ← q3]
      exact h _ hx
    · intro h x hx
      obtain ⟨b', hb', q1, q2, q3, -⟩ := Base_fl_size s bs fl hw.toBase x hx
      rw [q3]
      exact h b' hb' q2
  have hsb : ∀ S, mem_sbrk s S = none ↔ s.mem_brk + S > s.mem_max_addr := by
    intro S
    unfold mem_sbrk
    split_ifs with hc
    · simp only [true_iff]; exact hc
    · simp only [false_iff]; exact hc
  rcases mm_malloc_cases s bs fl fuel size hw (by omega) (by omega) with
    ⟨pre, c, post, hsplit, hc0, hle, heq⟩ | ⟨hno, hfail, heq⟩ | ⟨hno, hgrow, heq, hne⟩
  · have hcm : c ∈ bs := by rw [hsplit]; simp
    have hcl := Layout_mem _ _ _ hw.layout c hcm
    have hcne : c.bp ≠ 0 := by omega
    refine ⟨_, _, fl, heq, hwalk, ?_, fun h => absurd h hcne⟩
    constructor
    · intro h; exact absurd h hcne
    · rintro ⟨h, -⟩
      have := (hfit.1 h) c hcm hc0
      omega
  · refine ⟨s, 0, fl, heq, hwalk, ?_, fun _ => rfl⟩
    constructor
    · intro _
      exact ⟨hfit.2 hno, (hsb _).2 hfail⟩
    · intro _; rfl
  · refine ⟨_, _, fl, heq, hwalk, ?_, fun h => absurd h hne⟩
    constructor
    · intro h; exact absurd h hne
    · rintro ⟨-, h⟩
      have := (hsb _).1 h
      omega

/-- C6, witness: the statement applied to `mm_malloc(16)` in the state `sA`. -/
theorem C6_witness :
    ∃ s' p F, mm_malloc 4112 sA 16 = some (s', p) ∧
      freeWalk sA.mem 4112 sA.fr_listp = some F ∧
      (p = 0 ↔ ((∀ x ∈ F, GET_SIZE sA.mem (HDRP x) < adjust 16) ∧
        mem_sbrk sA (max (adjust 16) CHUNKSIZE) = none)) ∧
      (p = 0 → s' = sA) :=
  C6_malloc_null_iff sA [(1040, 16)] 4112 16 inv_sA (by decide) (by decide)

/-- C7: on an arena on which nothing has been requested yet, with base address
`B = s.mem_heap`, `mm_init` returns -1 if and only if one of its two `mem_sbrk` requests
(16 bytes, then 4096 bytes) fails, and 0 otherwise; when it returns 0 the word at `B` is 0,
the words at `B + 4` and `B + 8` are the prologue header and footer `PACK(8, 1)`,
`heap_listp = B + 8`, the block list is exactly the block at `B + 16`, free with size 4096
and footer equal to header, the arena ends at `B + 4112` with the epilogue header
`PACK(0, 1)` in its last word `B + 4108`, and the free list is exactly that block, with
both link words 0. -/
theorem C7_mm_init_contract (s : Heap) (h0 : s.mem_brk = s.mem_heap) :
    ((mm_init s).2 = -1 ↔
      (mem_sbrk s (4 * WSIZE) = none ∨
        mem_sbrk { s with mem_brk := s.mem_brk + 4 * WSIZE } CHUNKSIZE = none)) ∧
    ((mm_init s).2 = -1 ∨ (mm_init s).2 = 0) ∧
    ((mm_init s).2 = 0 →
      GET (mm_init s).1.mem s.mem_heap = 0 ∧
      GET (mm_init s).1.mem (s.mem_heap + 4) = PACK DSIZE 1 ∧
      GET (mm_init s).1.mem (s.mem_heap + 8) = PACK DSIZE 1 ∧
      (mm_init s).1.heap_listp = s.mem_heap + 8 ∧
      heapBlocks 2 (mm_init s).1 = some [s.mem_heap + 16] ∧
      GET (mm_init s).1.mem (HDRP (s.mem_heap + 16)) = PACK CHUNKSIZE 0 ∧
      GET (mm_init s).1.mem (FTRP (mm_init s).1.mem (s.mem_heap + 16)) =
        GET (mm_init s).1.mem (HDRP (s.mem_heap + 16)) ∧
      (mm_init s).1.mem_brk = s.mem_heap + 4112 ∧
      mem_heap_hi (mm_init s).1 = s.mem_heap + 4108 + 3 ∧
      GET (mm_init s).1.mem (s.mem_heap + 4108) = PACK 0 1 ∧
      (mm_init s).1.fr_listp = s.mem_heap + 16 ∧
      freeWalk (mm_init s).1.mem 2 (mm_init s).1.fr_listp = some [s.mem_heap + 16] ∧
      GET (mm_init s).1.mem (NEXT_FRBP (s.mem_heap + 16)) = 0 ∧
      GET (mm_init s).1.mem (PREV_FRBP (s.mem_heap + 16)) = 0) := by
  rw [← h0]
  have p81 : PACK DSIZE 1 = 9 := by decide
  have p40 : PACK CHUNKSIZE 0 = 4096 := by decide
  have p01 : PACK 0 1 = 1 := by decide
  have hsb : ∀ (t : Heap) (S : Nat), mem_sbrk t S = none ↔ t.mem_brk + S > t.mem_max_addr := by
    intro t S
    unfold mem_sbrk
    split_ifs with hc
    · simp only [true_iff]; exact hc
    · simp only [false_iff]; exact hc
  rw [hsb, hsb]
  simp only [WSIZE, CHUNKSIZE, DSIZE] at *
  by_cases c1 : s.mem_brk + 16 ≤ s.mem_max_addr
  · by_cases c2 : s.mem_brk + 4112 ≤ s.mem_max_addr
    · rw [mm_init_ok s c2]
      obtain ⟨r0, r4, r8, r12, r16, r20, r4104, r4108⟩ := initHeap_reads s
      obtain ⟨hl, ht, hlk⟩ := initHeap_shape s
      have hb1 : (initHeap s).mem_brk = s.mem_brk + 16 + 4096 := rfl
      have hhl : (initHeap s).heap_listp = s.mem_brk + 8 := rfl
      have hfr : (initHeap s).fr_listp = s.mem_brk + 16 := rfl
      have e1 : s.mem_brk + 16 - 4 = s.mem_brk + 12 := by omega
      have e2 : s.mem_brk + 16 + 4096 - 4 = s.mem_brk + 4108 := by omega
      have e3 : s.mem_brk + 16 + 4096 - 8 = s.mem_brk + 4104 := by omega
      have e4 : s.mem_brk + 8 - 4 = s.mem_brk + 4 := by omega
      have s12 := GET_SIZE_of_tag _ _ 4096 0 r12 (by decide) (by decide)
      have s4 := GET_SIZE_of_tag _ _ 8 1 r4 (by decide) (by decide)
      have s4108 := GET_SIZE_of_tag _ _ 0 1 r4108 (by decide) (by decide)
      refine ⟨?_, Or.inr rfl, fun _ => ⟨r0, ?_, ?_, hhl, ?_, ?_, ?_, ?_, ?_, ?_, hfr, ?_, ?_, ?_⟩⟩
      · constructor
        · intro h; exact absurd h (by simp)
        · intro h; omega
      · rw [p81]; exact r4
      · rw [p81]; exact r8
      · unfold heapBlocks
        have hnx : NEXT_BLKP (initHeap s).mem (initHeap s).heap_listp = s.mem_brk + 16 := by
          simp only [NEXT_BLKP, WSIZE]
          rw [hhl, e4, s4]
        rw [hnx]
        exact blockWalk_layout _ _ _ _ hl ht (by rw [hb1, e2]; exact s4108)
      · simp only [HDRP, WSIZE]; rw [e1, p40]; exact r12
      · simp only [FTRP, HDRP, WSIZE, DSIZE]; rw [e1, s12, e3, r12, r4104]
      · rw [hb1]
      · unfold mem_heap_hi; rw [hb1]; omega
      · rw [p01]; exact r4108
      · rw [hfr, freeWalk, if_neg (by omega)]
        simp only [NEXT_FRBP]
        rw [if_pos r16]
      · exact r16
      · simp only [PREV_FRBP, WSIZE]; exact r20
    · have := mm_init_fail2 s c1 (by omega)
      rw [this]
      refine ⟨?_, Or.inl rfl, fun h => absurd h (by decide)⟩
      constructor
      · intro _; right; show s.mem_brk + 16 + 4096 > s.mem_max_addr; omega
      · intro _; rfl
  · rw [mm_init_fail1 s (by omega)]
    refine ⟨?_, Or.inl rfl, fun h => absurd h (by simp)⟩
    constructor
    · intro _; left; omega
    · intro _; rfl

/-- C7, witness: the statement applied to the empty arena `s0` at base address 1024. -/
theorem C7_witness :
    ((mm_init s0).2 = -1 ↔
      (mem_sbrk s0 (4 * WSIZE) = none ∨
        mem_sbrk { s0 with mem_brk := s0.mem_brk + 4 * WSIZE } CHUNKSIZE = none)) ∧
    ((mm_init s0).2 = -1 ∨ (mm_init s0).2 = 0) ∧
    ((mm_init s0).2 = 0 →
      GET (mm_init s0).1.mem s0.mem_heap = 0 ∧
      GET (mm_init s0).1.mem (s0.mem_heap + 4) = PACK DSIZE 1 ∧
      GET (mm_init s0).1.mem (s0.mem_heap + 8) = PACK DSIZE 1 ∧
      (mm_init s0).1.heap_listp = s0.mem_heap + 8 ∧
      heapBlocks 2 (mm_init s0).1 = some [s0.mem_heap + 16] ∧
      GET (mm_init s0).1.mem (HDRP (s0.mem_heap + 16)) = PACK CHUNKSIZE 0 ∧
      GET (mm_init s0).1.mem (FTRP (mm_init s0).1.mem (s0.mem_heap + 16)) =
        GET (mm_init s0).1.mem (HDRP (s0.mem_heap + 16)) ∧
      (mm_init s0).1.mem_brk = s0.mem_heap + 4112 ∧
      mem_heap_hi (mm_init s0).1 = s0.mem_heap + 4108 + 3 ∧
      GET (mm_init s0).1.mem (s0.mem_heap + 4108) = PACK 0 1 ∧
      (mm_init s0).1.fr_listp = s0.mem_heap + 16 ∧
      freeWalk (mm_init s0).1.mem 2 (mm_init s0).1.fr_listp = some [s0.mem_heap + 16] ∧
      GET (mm_init s0).1.mem (NEXT_FRBP (s0.mem_heap + 16)) = 0 ∧
      GET (mm_init s0).1.mem (PREV_FRBP (s0.mem_heap + 16)) = 0) :=
  C7_mm_init_contract s0 rfl

/-- C8, evaluated at a failing input: after a successful `mm_init` on `s0` the calls
`mm_malloc(16)` (returns 1040), `mm_malloc(16)` (1064), `mm_free(1040)`,
`mm_malloc(2^64 - 8)` (adjusted size 0, returns 1040) and `mm_free(1040)` lead to the state
`sE`; its block list is 1040, 1088, the two blocks are physically adjacent and both have
the allocated flag clear. -/
theorem C8_size_wrap_defect :
    Fresh s0 ∧ (mm_init s0).2 = 0 ∧ sI = (mm_init s0).1 ∧
    mm_malloc 5 sI 16 = some (sA, 1040) ∧ mm_malloc 5 sA 16 = some (sB, 1064) ∧
    sC = mm_free sB 1040 ∧ adjust (2 ^ 64 - 8) = 0 ∧
    mm_malloc 5 sC (2 ^ 64 - 8) = some (sD, 1040) ∧ sE = mm_free sD 1040 ∧
    heapBlocks 10 sE = some [1040, 1088] ∧
    GET_ALLOC sE.mem (HDRP 1040) = 0 ∧ GET_ALLOC sE.mem (HDRP 1088) = 0 ∧
    ¬ NoAdjacentFree sE := by
  have h10 : heapBlocks 10 sE = some [1040, 1088] := by decide
  refine ⟨fresh_s0, init_s0, rfl, malloc_sI_16, malloc_sA_16, rfl, by decide,
    malloc_sC_wrap, rfl, h10, by decide, by decide, ?_⟩
  rintro ⟨fuel, L, hL, hch⟩
  have := blockWalk_unique _ _ _ _ _ _ hL h10
  subst this
  have := (List.chain'_cons.1 hch).1
  revert this
  decide

/-- Without the wrap of the adjusted size no two adjacent blocks are free: in every state
reachable from a successful `mm_init` on a fresh arena by `mm_malloc`, `mm_free` of live
pointers and `realloc` calls whose sizes satisfy `size + 15 < 2^64`, and by stores of the
client into its live allocations, no two physically adjacent blocks between the prologue
and the epilogue both have the allocated flag clear. -/
theorem no_adjacent_free_no_wrap (s : Heap) (live : Live) (h : Reach (2 ^ 64 - 15) s live) :
    NoAdjacentFree s := by
  obtain ⟨bs, fl, hw, -⟩ := Reach_Inv _ (by norm_num) s live h
  exact NoAdjacentFree_of_WF s bs fl hw

/-- C9, evaluated at a failing input: after a successful `mm_init` on `s0` the call
`mm_malloc(2^64 - 1)` (adjusted size 8, returns 1040) leads to the state `sW`; its block
list is 1040, 1048 but its free list is 1048, 1049, and 1049 is not a block. -/
theorem C9_size_wrap_defect :
    Fresh s0 ∧ (mm_init s0).2 = 0 ∧ sI = (mm_init s0).1 ∧ adjust (2 ^ 64 - 1) = 8 ∧
    mm_malloc 5 sI (2 ^ 64 - 1) = some (sW, 1040) ∧
    heapBlocks 10 sW = some [1040, 1048] ∧
    freeWalk sW.mem 10 sW.fr_listp = some [1048, 1049] ∧ ¬ FreeListExact sW := by
  have h10 : heapBlocks 10 sW = some [1040, 1048] := by decide
  have f10 : freeWalk sW.mem 10 sW.fr_listp = some [1048, 1049] := by decide
  refine ⟨fresh_s0, init_s0, rfl, by decide, malloc_sI_wrap, h10, f10, ?_⟩
  rintro ⟨fuel, L, F, hL, hF, -, hiff⟩
  have e1 := blockWalk_unique _ _ _ _ _ _ hL h10
  have e2 := freeWalk_unique _ _ _ _ _ _ hF f10
  subst e1
  subst e2
  have := ((hiff 1049).1 (by decide)).1
  revert this
  decide

/-- Without the wrap of the adjusted size the free list is exact: in every state reachable
from a successful `mm_init` on a fresh arena by `mm_malloc`, `mm_free` of live pointers and
`realloc` calls whose sizes satisfy `size + 15 < 2^64`, and by stores of the client into
its live allocations, the blocks reached from `fr_listp` by the next-links are exactly the
blocks of the block list whose header has the allocated flag clear, each of them once. -/
theorem free_list_exact_no_wrap (s : Heap) (live : Live) (h : Reach (2 ^ 64 - 15) s live) :
    FreeListExact s := by
  obtain ⟨bs, fl, hw, -⟩ := Reach_Inv _ (by norm_num) s live h
  exact FreeListExact_of_WF s bs fl hw

/-- C10, evaluated at a failing input: after a successful `mm_init` on `s0` the calls
`mm_malloc(16)` (returns 1040) and `mm_malloc(2^64 - 8)` (adjusted size 0, returns 1064)
lead to the state `sX`; the block at 1040 has the header word 25 but the footer word 1. -/
theorem C10_size_wrap_defect :
    Fresh s0 ∧ (mm_init s0).2 = 0 ∧ sI = (mm_init s0).1 ∧
    mm_malloc 5 sI 16 = some (sA, 1040) ∧ adjust (2 ^ 64 - 8) = 0 ∧
    mm_malloc 5 sA (2 ^ 64 - 8) = some (sX, 1064) ∧
    heapBlocks 10 sX = some [1040, 1064] ∧
    GET sX.mem (HDRP 1040) = 25 ∧ GET sX.mem (FTRP sX.mem 1040) = 1 ∧ ¬ TagsMatch sX := by
  have h10 : heapBlocks 10 sX = some [1040, 1064] := by decide
  refine ⟨fresh_s0, init_s0, rfl, malloc_sI_16, by decide, malloc_sA_wrap, h10, by decide,
    by decide, ?_⟩
  rintro ⟨fuel, L, hL, htag⟩
  have e1 := blockWalk_unique _ _ _ _ _ _ hL h10
  subst e1
  have := (htag 1040 (by decide)).1
  revert this
  decide

/-- Without the wrap of the adjusted size the boundary tags match: in every state reachable
from a successful `mm_init` on a fresh arena by `mm_malloc`, `mm_free` of live pointers and
`realloc` calls whose sizes satisfy `size + 15 < 2^64`, and by stores of the client into
its live allocations, every block between the prologue and the epilogue has a footer word
equal to its header word, and `PREV_BLKP` of its successor is the block itself. -/
theorem tags_match_no_wrap (s : Heap) (live : Live) (h : Reach (2 ^ 64 - 15) s live) :
    TagsMatch s := by
  obtain ⟨bs, fl, hw, -⟩ := Reach_Inv _ (by norm_num) s live h
  exact TagsMatch_of_Base s bs fl hw.toBase

end MM
namespace MM

/-! ## `find_fit`: which block is chosen -/

/-- The scan of `find_fit` from the member `x`, with the members `seen` already visited:
the result is NULL only if no member fits, and otherwise it is a fitting member such that
every fitting member before it is strictly larger, and either it is within the slack of
256 bytes or no member after it is smaller. -/
theorem find_fit_loop_best (m : Mem) (asize lo : Nat) (ha : asize < 2 ^ 64) :
    ∀ (l : List Nat) (x tmp record fuel : Nat) (seen : List Nat),
      List.Chain' (LinkR m) (x :: l) →
      (∀ y, (x :: l).getLast? = some y → GET m y = 0) →
      (∀ y ∈ seen ++ x :: l, lo < y ∧ y + 8 ≤ lo + 2 ^ 31) →
      (x :: l).Nodup →
      ((record = 0 ∧ tmp = TMP_INIT ∧ ∀ y ∈ seen, GET_SIZE m (HDRP y) < asize) ∨
        (∃ s1 s2, seen = s1 ++ record :: s2 ∧ tmp = GET_SIZE m (HDRP record) ∧ asize ≤ tmp ∧
          (∀ y ∈ s1, asize ≤ GET_SIZE m (HDRP y) → tmp < GET_SIZE m (HDRP y)) ∧
          (∀ y ∈ s2, asize ≤ GET_SIZE m (HDRP y) → tmp ≤ GET_SIZE m (HDRP y)))) →
      l.length < fuel →
      ∃ r, find_fit_loop m asize fuel x tmp record = some r ∧
        (r = 0 → ∀ y ∈ seen ++ x :: l, GET_SIZE m (HDRP y) < asize) ∧
        (r ≠ 0 → ∃ l1 l2, seen ++ x :: l = l1 ++ r :: l2 ∧ asize ≤ GET_SIZE m (HDRP r) ∧
          (∀ y ∈ l1, asize ≤ GET_SIZE m (HDRP y) → GET_SIZE m (HDRP r) < GET_SIZE m (HDRP y)) ∧
          (GET_SIZE m (HDRP r) - asize < 256 ∨
            ∀ y ∈ l2, asize ≤ GET_SIZE m (HDRP y) →
              GET_SIZE m (HDRP r) ≤ GET_SIZE m (HDRP y))) := by
  intro l
  induction l with
  | nil =>
    intro x tmp record fuel seen hc hlast hrng hnd hinv hfuel
    obtain ⟨f, rfl⟩ : ∃ f, fuel = f + 1 := ⟨fuel - 1, by simp at hfuel; omega⟩
    have h0 : GET m x = 0 := hlast x (by simp)
    have hx0 : x ≠ 0 := by
      have := hrng x (by simp)
      omega
    have hsx := GET_SIZE_lt m (HDRP x)
    rw [find_fit_loop_last m asize f x tmp record h0]
    by_cases hcnd : GET_SIZE m (HDRP x) ≥ asize ∧ GET_SIZE m (HDRP x) < tmp
    · rw [if_pos ⟨hx0, hcnd⟩]
      refine ⟨x, rfl, fun h => absurd h hx0, fun _ => ⟨seen, [], rfl, hcnd.1, ?_, Or.inr ?_⟩⟩
      · intro y hy hay
        rcases hinv with ⟨-, -, hs⟩ | ⟨s1, s2, rfl, ht, hle, h1, h2⟩
        · have := hs y hy
          omega
        · have hxt := hcnd.2
          rcases List.mem_append.1 hy with q | q
          · have := h1 y q hay; omega
          · rcases List.mem_cons.1 q with q | q
            · subst q; omega
            · have := h2 y q hay; omega
      · intro y hy; cases hy
    · have hneg : ¬ (x ≠ 0 ∧ GET_SIZE m (HDRP x) ≥ asize ∧ GET_SIZE m (HDRP x) < tmp) :=
        fun h => hcnd h.2
      rw [if_neg hneg]
      rcases hinv with ⟨hr0, ht, hs⟩ | ⟨s1, s2, rfl, ht, hle, h1, h2⟩
      · refine ⟨record, rfl, ?_, fun h => absurd hr0 h⟩
        intro _ y hy
        rcases List.mem_append.1 hy with q | q
        · exact hs y q
        · rw [List.mem_singleton] at q
          subst q
          simp only [TMP_INIT] at ht
          clear * - hcnd ht hsx
          omega
      · have hrne : record ≠ 0 := by
          have := hrng record (by simp)
          omega
        refine ⟨record, rfl, fun h => absurd h hrne,
          fun _ => ⟨s1, s2 ++ [x], by simp, by rw [← ht]; exact hle, ?_, Or.inr ?_⟩⟩
        · intro y hy hay
          rw [← ht]; exact h1 y hy hay
        · intro y hy hay
          rw [← ht]
          rcases List.mem_append.1 hy with q | q
          · exact h2 y q hay
          · rw [List.mem_singleton] at q
            subst q
            clear * - hcnd hay
            omega
  | cons y l ih =>
    intro x tmp record fuel seen hc hlast hrng hnd hinv hfuel
    obtain ⟨f, rfl⟩ : ∃ f, fuel = f + 1 := ⟨fuel - 1, by simp at hfuel; omega⟩
    have hrx := hrng x (by simp)
    have hry := hrng y (by simp)
    have hx0 : x ≠ 0 := by omega
    have hxy : x ≠ y := by
      intro e
      rw [List.nodup_cons] at hnd
      exact hnd.1 (by simp [e])
    have hlk : LinkR m x y := (List.chain'_cons.1 hc).1
    have hg : GET m x ≠ 0 := by
      rw [hlk.1]
      exact linkTo_ne_zero x y (by omega) (by omega) hxy
    have hd : ptrAdd x (toInt (GET m x)) = y := by
      rw [hlk.1]
      exact linkTo_dec x y (by omega) (by omega)
    have hsx := GET_SIZE_lt m (HDRP x)
    have happ : seen ++ x :: y :: l = (seen ++ [x]) ++ y :: l := by simp
    rw [find_fit_loop_step m asize f x y tmp record hx0 hg hd]
    have hsm : asize % SIZE_MOD = asize := Nat.mod_eq_of_lt (by simpa using ha)
    rw [hsm]
    by_cases hcnd : GET_SIZE m (HDRP x) ≥ asize ∧ GET_SIZE m (HDRP x) < tmp
    · simp only [if_pos hcnd]
      have hbefore : ∀ z ∈ seen, asize ≤ GET_SIZE m (HDRP z) →
          GET_SIZE m (HDRP x) < GET_SIZE m (HDRP z) := by
        intro z hz haz
        rcases hinv with ⟨-, -, hs⟩ | ⟨s1, s2, rfl, ht, hle, h1, h2⟩
        · have := hs z hz
          omega
        · have hxt := hcnd.2
          rcases List.mem_append.1 hz with q | q
          · have := h1 z q haz; omega
          · rcases List.mem_cons.1 q with q | q
            · subst q; omega
            · have := h2 z q haz; omega
      by_cases hex : (GET_SIZE m (HDRP x) + SIZE_MOD - asize) % SIZE_MOD < 256
      · rw [if_pos hex]
        refine ⟨x, rfl, fun h => absurd h hx0,
          fun _ => ⟨seen, y :: l, rfl, hcnd.1, hbefore, Or.inl ?_⟩⟩
        simp only [SIZE_MOD] at hex
        clear * - hex hcnd hsx
        omega
      · rw [if_neg hex]
        obtain ⟨r, hr1, hr2, hr3⟩ := ih y (GET_SIZE m (HDRP x)) x f (seen ++ [x])
          (List.chain'_cons.1 hc).2
          (fun z hz => hlast z (by rw [List.getLast?_cons_cons]; exact hz))
          (fun z hz => hrng z (by rw [happ]; exact hz)) (List.nodup_cons.1 hnd).2
          (Or.inr ⟨seen, [], rfl, rfl, hcnd.1, hbefore, fun z hz => absurd hz (List.not_mem_nil z)⟩)
          (by simp only [List.length_cons] at hfuel; omega)
        rw [← happ] at hr2 hr3
        exact ⟨r, hr1, hr2, hr3⟩
    · simp only [if_neg hcnd]
      by_cases hex : (tmp + SIZE_MOD - asize) % SIZE_MOD < 256
      · rw [if_pos hex]
        rcases hinv with ⟨hr0, ht, hs⟩ | ⟨s1, s2, rfl, ht, hle, h1, h2⟩
        · refine ⟨record, rfl, ?_, fun h => absurd hr0 h⟩
          intro _ z hz
          have hsz' := GET_SIZE_lt m (HDRP z)
          simp only [TMP_INIT] at ht
          simp only [SIZE_MOD] at hex
          clear * - hex ht hsz' ha
          omega
        · have hrne : record ≠ 0 := by
            have := hrng record (by simp)
            omega
          refine ⟨record, rfl, fun h => absurd h hrne,
            fun _ => ⟨s1, s2 ++ x :: y :: l, by simp, by rw [← ht]; exact hle, ?_, Or.inl ?_⟩⟩
          · intro z hz haz
            rw [← ht]; exact h1 z hz haz
          · rw [← ht]
            have hsr := GET_SIZE_lt m (HDRP record)
            simp only [SIZE_MOD] at hex
            clear * - hex hle hsr ht
            omega
      · rw [if_neg hex]
        have hinv' : (record = 0 ∧ tmp = TMP_INIT ∧
              ∀ z ∈ seen ++ [x], GET_SIZE m (HDRP z) < asize) ∨
            (∃ s1 s2, seen ++ [x] = s1 ++ record :: s2 ∧ tmp = GET_SIZE m (HDRP record) ∧
              asize ≤ tmp ∧
              (∀ z ∈ s1, asize ≤ GET_SIZE m (HDRP z) → tmp < GET_SIZE m (HDRP z)) ∧
              (∀ z ∈ s2, asize ≤ GET_SIZE m (HDRP z) → tmp ≤ GET_SIZE m (HDRP z))) := by
          rcases hinv with ⟨hr0, ht, hs⟩ | ⟨s1, s2, hseen, ht, hle, h1, h2⟩
          · left
            refine ⟨hr0, ht, ?_⟩
            intro z hz
            rcases List.mem_append.1 hz with q | q
            · exact hs z q
            · rw [List.mem_singleton] at q
              subst q
              simp only [TMP_INIT] at ht
              clear * - hcnd ht hsx
              omega
          · right
            refine ⟨s1, s2 ++ [x], by rw [hseen]; simp, ht, hle, h1, ?_⟩
            intro z hz haz
            rcases List.mem_append.1 hz with q | q
            · exact h2 z q haz
            · rw [List.mem_singleton] at q
              subst q
              clear * - hcnd haz
              omega
        obtain ⟨r, hr1, hr2, hr3⟩ := ih y tmp record f (seen ++ [x])
          (List.chain'_cons.1 hc).2
          (fun z hz => hlast z (by rw [List.getLast?_cons_cons]; exact hz))
          (fun z hz => hrng z (by rw [happ]; exact hz)) (List.nodup_cons.1 hnd).2
          hinv' (by simp only [List.length_cons] at hfuel; omega)
        rw [← happ] at hr2 hr3
        exact ⟨r, hr1, hr2, hr3⟩

/-- `find_fit` on a well-formed free list: it returns; NULL exactly when no member fits;
otherwise a fitting member chosen as described in `find_fit_loop_best`. -/
theorem find_fit_best (s : Heap) (lo : Nat) (fl : List Nat) (asize fuel : Nat)
    (hwf : FreeListWF s lo fl) (ha : asize < 2 ^ 64) (hf : fl.length < fuel) :
    ∃ r, find_fit fuel s asize = some r ∧
      (r = 0 → ∀ y ∈ fl, GET_SIZE s.mem (HDRP y) < asize) ∧
      (r ≠ 0 → ∃ l1 l2, fl = l1 ++ r :: l2 ∧ asize ≤ GET_SIZE s.mem (HDRP r) ∧
        (∀ y ∈ l1, asize ≤ GET_SIZE s.mem (HDRP y) →
          GET_SIZE s.mem (HDRP r) < GET_SIZE s.mem (HDRP y)) ∧
        (GET_SIZE s.mem (HDRP r) - asize < 256 ∨
          ∀ y ∈ l2, asize ≤ GET_SIZE s.mem (HDRP y) →
            GET_SIZE s.mem (HDRP r) ≤ GET_SIZE s.mem (HDRP y))) := by
  obtain ⟨hh, hlinks, hnd, hsep⟩ := hwf
  unfold find_fit
  cases hfl : fl with
  | nil =>
    obtain ⟨f, rfl⟩ : ∃ f, fuel = f + 1 := ⟨fuel - 1, by omega⟩
    have h0 : s.fr_listp = 0 := by rw [hh, hfl]; rfl
    rw [h0, find_fit_loop_null]
    exact ⟨0, rfl, fun _ y hy => absurd hy (List.not_mem_nil y), fun h => absurd rfl h⟩
  | cons x l =>
    have hfr : s.fr_listp = x := by rw [hh, hfl]; rfl
    rw [hfl] at hlinks hnd hsep
    rw [hfr]
    have := find_fit_loop_best s.mem asize lo ha l x TMP_INIT 0 fuel [] hlinks.1 hlinks.2.2
      (by simpa using hsep.1) hnd (Or.inl ⟨rfl, rfl, fun y hy => absurd hy (List.not_mem_nil y)⟩)
      (by rw [hfl] at hf; simp only [List.length_cons] at hf; omega)
    simpa using this

end MM
namespace MM

/-! ## Free lists on their own; which block `mm_malloc` takes -/

theorem FreeListWF_of_Base (s : Heap) (bs : List Blk) (fl : List Nat) (hb : Base s bs fl) :
    FreeListWF s s.mem_heap fl := by
  have hfl' : ∀ x ∈ fl, ∃ b ∈ bs, b.bp = x := by
    intro x hx
    obtain ⟨b, hb1, hb2, -⟩ := hb.flsub x hx
    exact ⟨b, hb1, hb2⟩
  have hcap := hb.cap
  have hbrk := hb.brk_le
  exact ⟨hb.flhead, hb.links, hb.nodup,
    FlSep_of_layout _ _ _ _ hb.layout fl hfl' (by omega) (by omega)⟩

theorem freeWalk_FreeListWF (s : Heap) (lo : Nat) (fl : List Nat) (h : FreeListWF s lo fl) :
    freeWalk s.mem (fl.length + 1) s.fr_listp = some fl := by
  obtain ⟨hh, hlinks, hnd, hsep⟩ := h
  rw [hh]
  cases hfl : fl with
  | nil => simp [freeWalk]
  | cons x l =>
    rw [hfl] at hlinks hnd hsep
    have := freeWalk_links s.mem lo l x hlinks.1 hlinks.2.2 hsep.1 hnd
    simp only [List.headD_cons, List.length_cons]
    exact freeWalk_mono _ _ _ _ this _ (by omega)

/-- If the head of the free list fits and no fitting member is smaller, `find_fit` returns
the head. -/
theorem find_fit_head (s : Heap) (lo : Nat) (x : Nat) (l : List Nat) (asize fuel : Nat)
    (hwf : FreeListWF s lo (x :: l)) (ha : asize < 2 ^ 64) (hf : (x :: l).length < fuel)
    (hx : asize ≤ GET_SIZE s.mem (HDRP x))
    (hmin : ∀ y ∈ l, asize ≤ GET_SIZE s.mem (HDRP y) →
      GET_SIZE s.mem (HDRP x) ≤ GET_SIZE s.mem (HDRP y)) :
    find_fit fuel s asize = some x := by
  obtain ⟨r, hr, hr0, hr1⟩ := find_fit_best s lo (x :: l) asize fuel hwf ha hf
  have hrne : r ≠ 0 := by
    intro h0
    have := hr0 h0 x (List.mem_cons_self _ _)
    omega
  obtain ⟨l1, l2, hsplit, hle, hbefore, -⟩ := hr1 hrne
  rw [hr]
  cases l1 with
  | nil =>
    simp only [List.nil_append, List.cons.injEq] at hsplit
    rw [hsplit.1]
  | cons z l1' =>
    simp only [List.cons_append, List.cons.injEq] at hsplit
    obtain ⟨hz, hl⟩ := hsplit
    subst hz
    have h1 := hbefore x (List.mem_cons_self _ _) hx
    have h2 := hmin r (by rw [hl]; simp) hle
    omega

/-- `mm_malloc` when `find_fit` finds a block. -/
theorem mm_malloc_fit_eq (fuel : Nat) (s : Heap) (size r : Nat) (hh : s.heap_listp ≠ 0)
    (h1 : size ≠ 0) (hr : find_fit fuel s (adjust size) = some r) (hne : r ≠ 0) :
    mm_malloc fuel s size = some (place s r (adjust size), r) := by
  unfold mm_malloc
  simp only [if_neg hh, if_neg h1, hr, if_pos hne]

/-- In a well-formed heap, if the head `c` of the free list fits and no fitting free block
is smaller, `mm_malloc` places the request in `c`. -/
theorem mm_malloc_pick (s : Heap) (pre post : List Blk) (c : Blk) (fl l : List Nat)
    (fuel size : Nat) (hw : WF s (pre ++ c :: post) fl) (hfl : fl = c.bp :: l)
    (hc0 : c.alloc = 0) (hle : adjust size ≤ c.size)
    (hmin : ∀ b ∈ pre ++ post, b.alloc = 0 → adjust size ≤ b.size → c.size ≤ b.size)
    (h1 : size ≠ 0) (hf : fl.length < fuel) :
    mm_malloc fuel s size = some (place s c.bp (adjust size), c.bp) := by
  have hh : s.heap_listp ≠ 0 := by rw [hw.hl]; omega
  have hcm : c ∈ pre ++ c :: post := by simp
  have hcl := Layout_mem _ _ _ hw.layout c hcm
  have hwf := FreeListWF_of_Base s _ fl hw.toBase
  rw [hfl] at hwf hf
  obtain ⟨b0, hb0, q1, q2, q3, -⟩ := Base_fl_size s _ fl hw.toBase c.bp
    (by rw [hfl]; exact List.mem_cons_self _ _)
  have e0 := Layout_bp_inj _ _ _ hw.layout b0 c hb0 hcm q1
  rw [e0] at q3
  apply mm_malloc_fit_eq fuel s size c.bp hh h1 _ (by omega)
  apply find_fit_head s s.mem_heap c.bp l (adjust size) fuel hwf (adjust_lt size) hf
    (by rw [q3]; exact hle)
  intro y hy hay
  obtain ⟨b, hb, p1, p2, p3, -⟩ := Base_fl_size s _ fl hw.toBase y
    (by rw [hfl]; exact List.mem_cons_of_mem _ hy)
  rw [q3, p3]
  rw [p3] at hay
  have hbne : b ∈ pre ++ post := by
    simp only [List.mem_append, List.mem_cons] at hb ⊢
    rcases hb with z | z | z
    · exact Or.inl z
    · exfalso
      subst z
      have hnd := hw.nodup
      rw [hfl, List.nodup_cons] at hnd
      exact hnd.1 (by rw [p1]; exact hy)
    · exact Or.inr z
  exact hmin b hbne p2 hay

/-! ## Fields that `mm_free` leaves alone -/

theorem mm_free_brk (s : Heap) (p : Nat) (hh : s.heap_listp ≠ 0) :
    (mm_free s p).mem_brk = s.mem_brk := by
  unfold mm_free
  by_cases hp : p = 0
  · rw [if_pos hp]
  · simp only [if_neg hp, if_neg hh, coalesce_brk]

theorem mm_free_heap (s : Heap) (p : Nat) (hh : s.heap_listp ≠ 0) :
    (mm_free s p).mem_heap = s.mem_heap := by
  unfold mm_free
  by_cases hp : p = 0
  · rw [if_pos hp]
  · simp only [if_neg hp, if_neg hh, coalesce_heap]

theorem mm_free_max (s : Heap) (p : Nat) (hh : s.heap_listp ≠ 0) :
    (mm_free s p).mem_max_addr = s.mem_max_addr := by
  unfold mm_free
  by_cases hp : p = 0
  · rw [if_pos hp]
  · simp only [if_neg hp, if_neg hh, coalesce_max]

/-! ## Total size of a layout -/

theorem Layout_sum (bs : List Blk) (p e : Nat) (h : Layout p bs e) :
    p + (bs.map Blk.size).sum = e := by
  induction bs generalizing p with
  | nil => rw [Layout_nil] at h; simp [h]
  | cons b r ih =>
    obtain ⟨h1, h2, h3, h4, h5⟩ := h
    have := ih _ h5
    simp only [List.map_cons, List.sum_cons]
    omega

/-- The state in which `mm_free` calls `coalesce`. -/
theorem PreCoal_of_free (s : Heap) (pre post : List Blk) (c : Blk) (fl : List Nat)
    (hw : WF s (pre ++ c :: post) fl) (hc : c.alloc = 1) :
    PreCoal { s with mem := setTags s.mem c.bp c.size 0 } pre ⟨c.bp, c.size, 0⟩ post fl := by
  obtain ⟨hq, hr, h16, h8, hal, hlo, hhi, hcap, htag⟩ := Base_block s pre post c fl hw.toBase
  have hcm : c ∈ pre ++ c :: post := by simp
  have a1 : c.size + 0 < 2 ^ 32 := by omega
  have a2 : 4 ≤ c.bp := by omega
  have a3 : 8 ≤ c.size := by omega
  have hflold : ∀ x ∈ fl, ∃ b ∈ pre ++ c :: post, b.bp = x := by
    intro x hx
    obtain ⟨b, hb1, hb2, -⟩ := hw.flsub x hx
    exact ⟨b, hb1, hb2⟩
  have hcl := Clear_tags _ _ _ hw.layout (by omega) fl hflold c hcm
  have hF := FrameOut_setTags s.mem c.bp c.size 0 a2 a3
  have hsub : ∀ x ∈ fl, ∃ b ∈ pre ++ [(⟨c.bp, c.size, 0⟩ : Blk)] ++ post,
      b.bp = x ∧ b.alloc = 0 := by
    intro x hx
    obtain ⟨b, hb1, hb2, hb3⟩ := hw.flsub x hx
    refine ⟨b, ?_, hb2, hb3⟩
    simp only [List.mem_append, List.mem_cons, List.mem_singleton, List.not_mem_nil,
      or_false] at hb1 ⊢
    rcases hb1 with q1 | q2 | q3
    · exact Or.inl (Or.inl q1)
    · subst q2; omega
    · exact Or.inr q3
  have hbase : Base { s with mem := setTags s.mem c.bp c.size 0 }
      (pre ++ [(⟨c.bp, c.size, 0⟩ : Blk)] ++ post) fl := by
    apply Base_replace s { s with mem := setTags s.mem c.bp c.size 0 } pre [c]
      [⟨c.bp, c.size, 0⟩] post fl fl c.bp (c.bp + c.size)
      (by simpa using hw.toBase) rfl rfl rfl rfl hq
      ⟨rfl, h16, h8, by norm_num, rfl⟩ hr
    · intro a ha hfa
      exact hF a ha (by simp)
    · intro b hb
      rw [List.mem_singleton] at hb
      subst hb
      exact setTags_Tagged s.mem c.bp c.size 0 a2 a3 a1
    · exact Links_setTags s.mem fl c.bp c.size 0 hw.links hcl.1 hcl.2
    · exact hw.flhead
    · exact hw.nodup
    · exact hsub
  refine ⟨by simpa using hbase, rfl, ?_, ?_, ?_⟩
  · intro hin
    obtain ⟨b, hb1, hb2, hb3⟩ := hw.flsub _ hin
    have := Layout_bp_inj _ _ _ hw.layout b c hb1 hcm hb2
    subst this
    omega
  · intro b hb hb0
    apply hw.flall b _ hb0
    simp only [List.mem_append, List.mem_cons] at hb ⊢
    rcases hb with q1 | q3
    · exact Or.inl q1
    · exact Or.inr (Or.inr q3)
  · have : ({ (⟨c.bp, c.size, 0⟩ : Blk) with alloc := 1 } : Blk) = c := by
      cases c
      simp only [] at hc
      subst hc
      rfl
    rw [this]
    exact hw.noadj

/-- The closed form of `mm_free` on an allocated block of a well-formed heap. -/
theorem mm_free_coalesce (s : Heap) (pre post : List Blk) (c : Blk) (fl : List Nat)
    (hw : WF s (pre ++ c :: post) fl) :
    mm_free s c.bp = (coalesce { s with mem := setTags s.mem c.bp c.size 0 } c.bp).1 := by
  obtain ⟨hq, hr, h16, h8, hal, hlo, hhi, hcap, htag⟩ := Base_block s pre post c fl hw.toBase
  have hh : s.heap_listp ≠ 0 := by rw [hw.hl]; omega
  have hsz : GET_SIZE s.mem (HDRP c.bp) = c.size := GET_SIZE_hdr s.mem c htag h8 hal
  have hp : c.bp ≠ 0 := by omega
  unfold mm_free
  simp only [if_neg hp, if_neg hh, hsz]
  rw [tag_write_eq s.mem c.bp c.size 0 h8 (by omega) (by omega)]

end MM
namespace MM

/-! ## Memory readings of a well-formed heap -/

theorem totalSize_Base (s : Heap) (bs : List Blk) (fl : List Nat) (hb : Base s bs fl) :
    totalSize s.mem (bs.map Blk.bp) = (bs.map Blk.size).sum := by
  unfold totalSize
  rw [List.map_map]
  congr 1
  apply List.map_congr_left
  intro b hbm
  have hm := Layout_mem _ _ _ hb.layout b hbm
  have := GET_SIZE_hdr s.mem b (hb.tags b hbm) hm.2.2.2.1 hm.2.2.2.2
  simpa [HDRP] using this

/-- In a well-formed heap the recorded block sizes add up to the distance from the first
block to the end of the arena. -/
theorem totalSize_heap (s : Heap) (bs : List Blk) (fl : List Nat) (hb : Base s bs fl) :
    ∃ L, heapBlocks (bs.length + 1) s = some L ∧
      s.mem_heap + 16 + totalSize s.mem L = s.mem_brk :=
  ⟨_, heapBlocks_Base s bs fl hb, by
    rw [totalSize_Base s bs fl hb]; exact Layout_sum _ _ _ hb.layout⟩

theorem tags_Base (s : Heap) (pre post : List Blk) (c : Blk) (fl : List Nat)
    (hb : Base s (pre ++ c :: post) fl) :
    GET s.mem (HDRP c.bp) = PACK c.size c.alloc ∧
    GET s.mem (FTRP s.mem c.bp) = PACK c.size c.alloc ∧
    GET_SIZE s.mem (HDRP c.bp) = c.size := by
  obtain ⟨hq, hr, h16, h8, hal, hlo, hhi, hcap, htag⟩ := Base_block s pre post c fl hb
  have hs := GET_SIZE_hdr s.mem c htag h8 hal
  have hp : PACK c.size c.alloc = c.size + c.alloc := PACK_eq _ _ h8 (by omega)
  refine ⟨?_, ?_, ?_⟩
  · simp only [HDRP, WSIZE]; rw [hp]; exact htag.1
  · simp only [FTRP, HDRP, WSIZE, DSIZE]; rw [hs, hp]; exact htag.2
  · simpa [HDRP] using hs

/-- Both physical neighbours of a free block of a well-formed heap are allocated (the
prologue and the epilogue count as allocated). -/
theorem free_neighbours (s : Heap) (pre post : List Blk) (c : Blk) (fl : List Nat)
    (hw : WF s (pre ++ c :: post) fl) (hc : c.alloc = 0) :
    prev_alloc s.mem c.bp = 1 ∧ next_alloc s.mem c.bp = 1 := by
  have hp := prev_view s pre post c fl hw.toBase
  have hn := (next_view s pre post c fl hw.toBase).2.2
  obtain ⟨-, -, h3, h4⟩ := (NoAdj_mid pre post c).1 hw.noadj
  unfold prev_alloc next_alloc
  rw [hp, hn]
  constructor
  · cases hg : pre.getLast? with
    | none => rfl
    | some pv =>
      have := h3 pv (by rw [hg]; rfl)
      simp only [Option.map_some', Option.getD_some]
      omega
  · cases hg : post.head? with
    | none => rfl
    | some nx =>
      have := h4 nx (by rw [hg]; rfl)
      simp only [Option.map_some', Option.getD_some]
      omega

/-! ## What `coalesce` does, in terms of the readings it makes -/

theorem coalesce_report (s : Heap) (pre post : List Blk) (c : Blk) (fl : List Nat)
    (h : PreCoal s pre c post fl) :
    ∃ P Q M F, WF (coalesce s c.bp).1 (P ++ M :: Q) F ∧ (coalesce s c.bp).2 = M.bp ∧
      M.alloc = 0 ∧
      (prev_alloc s.mem c.bp ≠ 0 → M.bp = c.bp) ∧
      (prev_alloc s.mem c.bp = 0 → M.bp = PREV_BLKP s.mem c.bp) ∧
      M.size = GET_SIZE s.mem (HDRP c.bp) +
        (if prev_alloc s.mem c.bp = 0 then GET_SIZE s.mem (HDRP (PREV_BLKP s.mem c.bp)) else 0) +
        (if next_alloc s.mem c.bp = 0 then GET_SIZE s.mem (HDRP (NEXT_BLKP s.mem c.bp)) else 0) ∧
      (prev_alloc s.mem c.bp ≠ 0 ∧ next_alloc s.mem c.bp ≠ 0 → F = c.bp :: fl) ∧
      (prev_alloc s.mem c.bp ≠ 0 ∧ next_alloc s.mem c.bp = 0 →
        F = c.bp :: fl.erase (NEXT_BLKP s.mem c.bp)) ∧
      (prev_alloc s.mem c.bp = 0 ∧ next_alloc s.mem c.bp ≠ 0 → F = fl) ∧
      (prev_alloc s.mem c.bp = 0 ∧ next_alloc s.mem c.bp = 0 →
        F = fl.erase (NEXT_BLKP s.mem c.bp)) := by
  have hl := h.base.layout
  have hal : ∀ b ∈ pre ++ c :: post, b.alloc ≤ 1 := fun b hb => (Layout_mem _ _ _ hl b hb).2.2.2.2
  have hpv := prev_view s pre post c fl h.base
  obtain ⟨hcs, hnb, hnv⟩ := next_view s pre post c fl h.base
  have hc0 := h.cfree
  rcases prev_cases pre (fun b hb => hal b (by simp [hb])) with hp | ⟨pre', pv, rfl, hp⟩
  · have hpa : prev_alloc s.mem c.bp = 1 := by
      unfold prev_alloc
      rw [hpv]
      cases hg : pre.getLast? with
      | none => rfl
      | some pv =>
        have := hp pv (by rw [hg]; rfl)
        simp only [Option.map_some', Option.getD_some]
        exact this
    rcases next_cases post (fun b hb => hal b (by simp [hb])) with hn | ⟨nx, post', rfl, hn⟩
    · have hna : next_alloc s.mem c.bp = 1 := by
        unfold next_alloc
        rw [hnv]
        cases hg : post.head? with
        | none => rfl
        | some nx =>
          have := hn nx (by rw [hg]; rfl)
          simp only [Option.map_some', Option.getD_some]
          exact this
      obtain ⟨e1, e2, -⟩ := coalesce_case1 s pre post c fl h hp hn
      rw [e1]
      refine ⟨pre, post, c, c.bp :: fl, e2, rfl, hc0, fun _ => rfl, ?_, ?_, fun _ => rfl, ?_, ?_, ?_⟩
      · intro h0; rw [hpa] at h0; exact absurd h0 (by decide)
      · rw [hpa, hna, hcs]; simp
      · rintro ⟨-, h0⟩; rw [hna] at h0; exact absurd h0 (by decide)
      · rintro ⟨h0, -⟩; rw [hpa] at h0; exact absurd h0 (by decide)
      · rintro ⟨h0, -⟩; rw [hpa] at h0; exact absurd h0 (by decide)
    · have hna : next_alloc s.mem c.bp = 0 := by
        unfold next_alloc
        rw [hnv]
        simpa using hn
      have hb' : Base s ((pre ++ [c]) ++ nx :: post') fl := by simpa using h.base
      obtain ⟨-, -, hnxs⟩ := tags_Base s (pre ++ [c]) post' nx fl hb'
      have hnxbp : nx.bp = c.bp + c.size := by
        have := (Layout_split pre (nx :: post') c _ _ hl).2.1
        rw [Layout_cons] at this
        exact this.1
      obtain ⟨e1, e2, -⟩ := coalesce_case2 s pre post' c nx fl h hp hn
      refine ⟨pre, post', ⟨c.bp, c.size + nx.size, 0⟩, c.bp :: fl.erase nx.bp, e2, e1, rfl,
        fun _ => rfl, ?_, ?_, ?_, ?_, ?_, ?_⟩
      · intro h0; rw [hpa] at h0; exact absurd h0 (by decide)
      · rw [hpa, hna, hcs, hnb, ← hnxbp, hnxs]; simp
      · rintro ⟨-, h0⟩; exact absurd hna h0
      · intro _; rw [hnb, ← hnxbp]
      · rintro ⟨h0, -⟩; rw [hpa] at h0; exact absurd h0 (by decide)
      · rintro ⟨h0, -⟩; rw [hpa] at h0; exact absurd h0 (by decide)
  · have hbp : Base s (pre' ++ pv :: c :: post) fl := by simpa using h.base
    obtain ⟨hpc, hprev, hpvs, hpva⟩ := prev_view_some s pre' post pv c fl hbp
    have hpa : prev_alloc s.mem c.bp = 0 := by
      unfold prev_alloc
      rw [hpva, hp]
    rcases next_cases post (fun b hb => hal b (by simp [hb])) with hn | ⟨nx, post', rfl, hn⟩
    · have hna : next_alloc s.mem c.bp = 1 := by
        unfold next_alloc
        rw [hnv]
        cases hg : post.head? with
        | none => rfl
        | some nx =>
          have := hn nx (by rw [hg]; rfl)
          simp only [Option.map_some', Option.getD_some]
          exact this
      obtain ⟨e1, e2, -⟩ := coalesce_case3 s pre' post pv c fl h hp hn
      rw [e1]
      refine ⟨pre', post, ⟨pv.bp, pv.size + c.size, 0⟩, fl, e2, rfl, rfl, ?_, ?_, ?_, ?_, ?_,
        fun _ => rfl, ?_⟩
      · intro h0; exact absurd hpa h0
      · intro _; exact hprev.symm
      · rw [hpa, hna, hcs, hprev, hpvs]; simp; omega
      · rintro ⟨h0, -⟩; exact absurd hpa h0
      · rintro ⟨h0, -⟩; exact absurd hpa h0
      · rintro ⟨-, h0⟩; rw [hna] at h0; exact absurd h0 (by decide)
    · have hna : next_alloc s.mem c.bp = 0 := by
        unfold next_alloc
        rw [hnv]
        simpa using hn
      have hb' : Base s ((pre' ++ [pv] ++ [c]) ++ nx :: post') fl := by simpa using h.base
      obtain ⟨-, -, hnxs⟩ := tags_Base s (pre' ++ [pv] ++ [c]) post' nx fl hb'
      have hnxbp : nx.bp = c.bp + c.size := by
        have := (Layout_split (pre' ++ [pv]) (nx :: post') c _ _ hl).2.1
        rw [Layout_cons] at this
        exact this.1
      obtain ⟨e1, e2, -⟩ := coalesce_case4 s pre' post' pv c nx fl h hp hn
      refine ⟨pre', post', ⟨pv.bp, pv.size + c.size + nx.size, 0⟩, fl.erase nx.bp, e2, e1, rfl,
        ?_, ?_, ?_, ?_, ?_, ?_, ?_⟩
      · intro h0; exact absurd hpa h0
      · intro _; exact hprev.symm
      · rw [hpa, hna, hcs, hprev, hpvs, hnb, ← hnxbp, hnxs]; simp; omega
      · rintro ⟨h0, -⟩; exact absurd hpa h0
      · rintro ⟨h0, -⟩; exact absurd hpa h0
      · rintro ⟨-, h0⟩; exact absurd hna h0
      · intro _; rw [hnb, ← hnxbp]

end MM
namespace MM

/-! ## What `place` does, in terms of memory readings -/

theorem other_tags_kept (s s' : Heap) (bs bs' : List Blk) (fl fl' : List Nat)
    (hb : Base s bs fl) (hb' : Base s' bs' fl') (b : Blk) (h1 : b ∈ bs) (h2 : b ∈ bs') :
    GET s'.mem (HDRP b.bp) = GET s.mem (HDRP b.bp) ∧
    GET s'.mem (FTRP s.mem b.bp) = GET s.mem (FTRP s.mem b.bp) := by
  have hm := Layout_mem _ _ _ hb.layout b h1
  have t1 := hb.tags b h1
  have t2 := hb'.tags b h2
  have hs := GET_SIZE_hdr s.mem b t1 hm.2.2.2.1 hm.2.2.2.2
  simp only [FTRP, HDRP, WSIZE, DSIZE]
  rw [hs, t1.1, t1.2, t2.1, t2.2]
  exact ⟨rfl, rfl⟩

theorem place_report (s : Heap) (pre post : List Blk) (c : Blk) (fl : List Nat) (asize : Nat)
    (hw : WF s (pre ++ c :: post) fl) (hc0 : c.alloc = 0) (ha8 : asize % 8 = 0)
    (ha16 : 16 ≤ asize) (hle : asize ≤ c.size) :
    (16 ≤ c.size - asize →
      WF (place s c.bp asize)
        (pre ++ ⟨c.bp, asize, 1⟩ :: ⟨c.bp + asize, c.size - asize, 0⟩ :: post)
        ((c.bp + asize) :: fl.erase c.bp) ∧
      GET (place s c.bp asize).mem (HDRP c.bp) = PACK asize 1 ∧
      GET (place s c.bp asize).mem (FTRP (place s c.bp asize).mem c.bp) = PACK asize 1 ∧
      GET (place s c.bp asize).mem (HDRP (c.bp + asize)) = PACK (c.size - asize) 0 ∧
      GET (place s c.bp asize).mem (FTRP (place s c.bp asize).mem (c.bp + asize)) =
        PACK (c.size - asize) 0 ∧
      (place s c.bp asize).fr_listp = c.bp + asize) ∧
    (c.size - asize < 16 →
      WF (place s c.bp asize) (pre ++ ⟨c.bp, c.size, 1⟩ :: post) (fl.erase c.bp) ∧
      GET (place s c.bp asize).mem (HDRP c.bp) = PACK c.size 1 ∧
      GET (place s c.bp asize).mem (FTRP (place s c.bp asize).mem c.bp) = PACK c.size 1) := by
  constructor
  · intro hrem
    obtain ⟨hw', -⟩ := place_split s pre post c fl asize hw hc0 ha8 ha16 hrem
    obtain ⟨t1, t2, -⟩ := tags_Base _ pre (⟨c.bp + asize, c.size - asize, 0⟩ :: post)
      ⟨c.bp, asize, 1⟩ _ hw'.toBase
    have hb2 : Base (place s c.bp asize)
        ((pre ++ [(⟨c.bp, asize, 1⟩ : Blk)]) ++ ⟨c.bp + asize, c.size - asize, 0⟩ :: post)
        ((c.bp + asize) :: fl.erase c.bp) := by simpa using hw'.toBase
    obtain ⟨u1, u2, -⟩ := tags_Base _ _ post ⟨c.bp + asize, c.size - asize, 0⟩ _ hb2
    exact ⟨hw', t1, t2, u1, u2, by rw [hw'.flhead]; rfl⟩
  · intro hrem
    obtain ⟨hw', -⟩ := place_whole s pre post c fl asize hw hc0 hle hrem
    obtain ⟨t1, t2, -⟩ := tags_Base _ pre post ⟨c.bp, c.size, 1⟩ _ hw'.toBase
    exact ⟨hw', t1, t2⟩

end MM
namespace MM
set_option maxRecDepth 100000

/-! ## More facts about the concrete states -/

theorem WF_sI : WF sI [⟨1040, 4096, 0⟩] [1040] := mm_init_WF s0 fresh_s0 init_s0

theorem sA_eq : sA = place sI 1040 24 := rfl

theorem WF_sA : WF sA [⟨1040, 24, 1⟩, ⟨1064, 4072, 0⟩] [1064] := by
  have := (place_split sI [] [] ⟨1040, 4096, 0⟩ [1040] 24 WF_sI rfl (by decide) (by decide)
    (by decide)).1
  rw [sA_eq]
  simpa using this

theorem PreCoal_sF : PreCoal sF [] ⟨1040, 24, 0⟩ [⟨1064, 4072, 0⟩] [1064] :=
  PreCoal_of_free sA [] [⟨1064, 4072, 0⟩] ⟨1040, 24, 1⟩ [1064] WF_sA rfl

theorem FreeListWF_sA : FreeListWF sA 1024 [1064] :=
  FreeListWF_of_Base sA _ _ WF_sA.toBase

theorem FreeListWF_sG : FreeListWF sG 1024 [1040, 2072, 2208, 2272] := by
  refine ⟨by decide, ⟨?_, ?_, ?_⟩, by decide, ?_⟩
  · simp only [List.chain'_cons, List.chain'_singleton, and_true, LinkR]
    decide
  · intro x hx
    simp only [List.head?_cons, Option.some.injEq] at hx
    subst hx
    decide
  · intro x hx
    simp at hx
    subst hx
    decide
  · unfold FlSep
    decide

theorem FlSep_sG_add : FlSep 1024 (2048 :: [1040, 2072, 2208, 2272]) := by
  unfold FlSep
  decide

end MM
namespace MM
set_option maxRecDepth 100000

/-- C13, counterexample: in the well-formed heap `sA` the live pointer 1040 has a block of
recorded size 24, so its payload has 16 bytes.  `realloc(1040, 24)` returns the fresh block
1064 and copies 24 bytes, not min(16, 24) = 16: the byte at offset 16 of the new block,
which is 0 right after the fresh `mm_malloc(24)`, becomes 25, the low byte of the old
block's footer at offset 16 of the old block.  And for a size whose adjustment wraps,
`realloc(1040, 2^64 - 8)` returns 1064 although after the call 1064 is no block at all:
its header word has the allocated bit clear and the heap is the single free block 1040. -/
theorem C13_counterexample :
    Inv sA [(1040, 16)] ∧ GET_SIZE sA.mem (HDRP 1040) = 24 ∧ min (24 - 8) 24 = 16 ∧
    (mm_malloc 5 sA 24).map (fun r => (r.2, r.1.mem (1064 + 16))) = some (1064, 0) ∧
    sA.mem (1040 + 16) = 25 ∧
    (realloc 5 sA 1040 24).map (fun r => (r.2, r.1.mem (1064 + 16))) = some (1064, 25) ∧
    (realloc 5 sA 1040 (2 ^ 64 - 8)).map
      (fun r => (r.2, GET_ALLOC r.1.mem (HDRP 1064), heapBlocks 5 r.1)) =
      some (1064, 0, some [1040]) :=
  ⟨inv_sA, by decide, by decide, by decide, by decide, by decide, by decide⟩

/-- C13, amended: in a well-formed heap, for a live pointer `ptr` and a size with
`1 ≤ size` and `size + 15 < 2^64`, `mm_malloc(size)` returns some state `s1` and address
`q`; if `q` is not NULL then `q ≠ ptr` and `realloc(ptr, size)` returns `q` after copying
`min(size, recorded size of the old block)` bytes (the recorded size includes the 8 bytes
of header and footer) from `ptr` to `q` in `s1` and freeing `ptr`. -/
theorem C13_realloc_copy_length (s : Heap) (live : Live) (fuel ptr N size : Nat)
    (hI : Inv s live) (hp : (ptr, N) ∈ live) (h1 : 1 ≤ size) (h2 : size + 15 < 2 ^ 64)
    (hf : s.mem_brk - s.mem_heap ≤ fuel) :
    ∃ s1 q, mm_malloc fuel s size = some (s1, q) ∧
      (q ≠ 0 → q ≠ ptr ∧
        realloc fuel s ptr size = some (mm_free
          { s1 with mem := memcpy s1.mem q ptr (min size (GET_SIZE s.mem (HDRP ptr))) } ptr,
          q)) := by
  obtain ⟨s1, q, hm, -, hok, hkeep⟩ := mm_malloc_client s live fuel size hI (by omega) h2 hf
  obtain ⟨bs, fl, hw, hl⟩ := hI
  obtain ⟨c, hc, c1, c2, c3, c4⟩ := live_block s bs fl live hw hl (ptr, N) hp
  simp only [] at c1 c3 c4
  have hcm := Layout_mem _ _ _ hw.layout c hc
  have hptr : ptr ≠ 0 := by omega
  refine ⟨s1, q, hm, fun hq => ⟨fun h => ((hok hq).2.2.2.2 (ptr, N) hp).1 h.symm, ?_⟩⟩
  have hg := Keeps_size s.mem s1.mem ptr (hkeep (ptr, N) hp) (by rw [c4]; omega)
  have hsz : GET_SIZE s1.mem (HDRP ptr) = GET_SIZE s.mem (HDRP ptr) := by
    unfold GET_SIZE; rw [hg]
  have hn : (if size < GET_SIZE s.mem (HDRP ptr) then size else GET_SIZE s.mem (HDRP ptr)) =
      min size (GET_SIZE s.mem (HDRP ptr)) := by
    rw [Nat.min_def]
    split_ifs <;> omega
  unfold realloc
  rw [if_neg (by omega), if_neg hptr, hm]
  simp only [if_neg hq, hsz, hn]

/-- C13, witness: the amended statement applied to `realloc(1040, 24)` in `sA`. -/
theorem C13_witness :
    ∃ s1 q, mm_malloc 4112 sA 24 = some (s1, q) ∧
      (q ≠ 0 → q ≠ 1040 ∧
        realloc 4112 sA 1040 24 = some (mm_free
          { s1 with mem := memcpy s1.mem q 1040 (min 24 (GET_SIZE sA.mem (HDRP 1040))) } 1040,
          q)) :=
  C13_realloc_copy_length sA [(1040, 16)] 4112 1040 16 24 inv_sA (List.mem_singleton_self _)
    (by decide) (by decide) (by decide)

/-- C14: for every request size with `1 ≤ size` and `size + 15 < 2^64` the adjusted size
computed by `mm_malloc` is `max(16, 8 * ceil((size + 8) / 8))`; it is a multiple of 8, at
least 16, at least `size + 8`, and no multiple of 8 that is at least `size + 8` is smaller;
and in a well-formed heap the block that `mm_malloc(size)` hands out has a recorded size of
at least `size + 8`, so at least `size` bytes lie between its header and its footer. -/
theorem C14_adjusted_size (s : Heap) (live : Live) (fuel size : Nat) (hI : Inv s live)
    (h1 : 1 ≤ size) (h2 : size + 15 < 2 ^ 64) (hf : s.mem_brk - s.mem_heap ≤ fuel) :
    adjust size = max 16 (8 * ((size + 8 + 7) / 8)) ∧
    adjust size % 8 = 0 ∧ 16 ≤ adjust size ∧ size + 8 ≤ adjust size ∧
    (∀ m, m % 8 = 0 → size + 8 ≤ m → adjust size ≤ m) ∧
    ∃ s' p, mm_malloc fuel s size = some (s', p) ∧
      (p ≠ 0 → size ≤ GET_SIZE s'.mem (HDRP p) - 8 ∧ 8 ≤ GET_SIZE s'.mem (HDRP p)) := by
  have e : adjust size = max 16 (8 * ((size + 8 + 7) / 8)) := by
    unfold adjust
    simp only [DSIZE, SIZE_MOD]
    split_ifs <;> omega
  refine ⟨e, adjust_mod8 size, (adjust_ok size h2).1, (adjust_ok size h2).2, ?_, ?_⟩
  · intro m hm hle
    rw [e]
    omega
  · obtain ⟨s', p, hm, -, hok, -⟩ := mm_malloc_client s live fuel size hI (by omega) h2 hf
    refine ⟨s', p, hm, fun hp => ?_⟩
    obtain ⟨⟨bs', fl', hw', hl'⟩, -⟩ := hok hp
    obtain ⟨b, hb, q1, q2, q3, q4⟩ :=
      live_block s' bs' fl' _ hw' hl' (p, size) (List.mem_cons_self _ _)
    simp only [] at q3 q4
    rw [q4]
    omega

/-- C14, witness: the statement applied to a request of 16 bytes in `sA`. -/
theorem C14_witness :
    adjust 16 = max 16 (8 * ((16 + 8 + 7) / 8)) ∧
    adjust 16 % 8 = 0 ∧ 16 ≤ adjust 16 ∧ 16 + 8 ≤ adjust 16 ∧
    (∀ m, m % 8 = 0 → 16 + 8 ≤ m → adjust 16 ≤ m) ∧
    ∃ s' p, mm_malloc 4112 sA 16 = some (s', p) ∧
      (p ≠ 0 → 16 ≤ GET_SIZE s'.mem (HDRP p) - 8 ∧ 8 ≤ GET_SIZE s'.mem (HDRP p)) :=
  C14_adjusted_size sA [(1040, 16)] 4112 16 inv_sA (by decide) (by decide) (by decide)

/-- C15: for every well-formed free list `fl` of `s` and every required size `asize`
(a `size_t` value), `find_fit(asize)` returns within `fl.length + 1` iterations; it returns
NULL if and only if the list is empty or no member has size at least `asize`; and a
non-NULL result is a member of the list whose recorded size is at least `asize`.
(`find_fit` only reads: it yields an address and no new state.) -/
theorem C15_find_fit_null_iff (s : Heap) (lo : Nat) (fl : List Nat) (asize fuel : Nat)
    (hwf : FreeListWF s lo fl) (ha : asize < 2 ^ 64) (hf : fl.length < fuel) :
    ∃ r, find_fit fuel s asize = some r ∧
      (r = 0 ↔ (fl = [] ∨ ∀ y ∈ fl, GET_SIZE s.mem (HDRP y) < asize)) ∧
      (r ≠ 0 → r ∈ fl ∧ asize ≤ GET_SIZE s.mem (HDRP r)) := by
  obtain ⟨r, hr, hr0, hr1⟩ := find_fit_best s lo fl asize fuel hwf ha hf
  refine ⟨r, hr, ⟨fun h => Or.inr (hr0 h), ?_⟩, ?_⟩
  · intro h
    by_contra hne
    obtain ⟨l1, l2, hsplit, hle, -⟩ := hr1 hne
    rcases h with h | h
    · rw [h] at hsplit
      simp at hsplit
    · have := h r (by rw [hsplit]; simp)
      omega
  · intro hne
    obtain ⟨l1, l2, hsplit, hle, -⟩ := hr1 hne
    exact ⟨by rw [hsplit]; simp, hle⟩

/-- C15, witness: the statement applied to the free list of `sA` and `asize = 24`. -/
theorem C15_witness :
    ∃ r, find_fit 2 sA 24 = some r ∧
      (r = 0 ↔ (([1064] : List Nat) = [] ∨ ∀ y ∈ ([1064] : List Nat),
        GET_SIZE sA.mem (HDRP y) < 24)) ∧
      (r ≠ 0 → r ∈ ([1064] : List Nat) ∧ 24 ≤ GET_SIZE sA.mem (HDRP r)) :=
  C15_find_fit_null_iff sA 1024 [1064] 24 2 FreeListWF_sA (by decide) (by decide)

/-- C16: for every well-formed free list `fl` of `s` and every `asize`, if
`find_fit(asize)` returns a block `r` then `r` splits the list as `l1 ++ r :: l2` such that
(i) every member before `r` with size at least `asize` is strictly larger than `r`, and
(ii) either `size(r) - asize < 256` or no member of the whole list with size at least
`asize` is smaller than `r`. -/
theorem C16_find_fit_choice (s : Heap) (lo : Nat) (fl : List Nat) (asize fuel r : Nat)
    (hwf : FreeListWF s lo fl) (ha : asize < 2 ^ 64) (hr : find_fit fuel s asize = some r)
    (hne : r ≠ 0) :
    ∃ l1 l2, fl = l1 ++ r :: l2 ∧ asize ≤ GET_SIZE s.mem (HDRP r) ∧
      (∀ y ∈ l1, asize ≤ GET_SIZE s.mem (HDRP y) →
        GET_SIZE s.mem (HDRP r) < GET_SIZE s.mem (HDRP y)) ∧
      (GET_SIZE s.mem (HDRP r) - asize < 256 ∨
        ∀ y ∈ fl, asize ≤ GET_SIZE s.mem (HDRP y) →
          GET_SIZE s.mem (HDRP r) ≤ GET_SIZE s.mem (HDRP y)) := by
  obtain ⟨r', hr', -, hr1⟩ := find_fit_best s lo fl asize (max fuel (fl.length + 1)) hwf ha
    (by have := le_max_right fuel (fl.length + 1); omega)
  rw [find_fit_mono _ _ _ _ _ hr (le_max_left _ _)] at hr'
  have e : r = r' := Option.some.inj hr'
  subst e
  obtain ⟨l1, l2, hsplit, hle, hbefore, hafter⟩ := hr1 hne
  refine ⟨l1, l2, hsplit, hle, hbefore, ?_⟩
  rcases hafter with h | h
  · exact Or.inl h
  · right
    intro y hy hay
    rw [hsplit] at hy
    rcases List.mem_append.1 hy with q | q
    · exact le_of_lt (hbefore y q hay)
    · rcases List.mem_cons.1 q with q | q
      · rw [q]
      · exact h y q hay

/-- C16, witness: the statement applied to the state `sG`, whose free list is 1040, 2072,
2208, 2272 with the sizes 1008, 112, 40 and 2864, and `asize = 24`.  `find_fit` passes
1040, which fits but leaves 984 bytes, records 2072 and returns it at once because
`112 - 24 < 256`: the member 1040 before it fits and is strictly larger, and the member
2208 after it fits and is smaller, so of (ii) only the slack alternative holds. -/
theorem C16_witness :
    find_fit 5 sG 24 = some 2072 ∧
    24 ≤ GET_SIZE sG.mem (HDRP 1040) ∧
    24 ≤ GET_SIZE sG.mem (HDRP 2208) ∧
    GET_SIZE sG.mem (HDRP 2208) < GET_SIZE sG.mem (HDRP 2072) ∧
    ∃ l1 l2, ([1040, 2072, 2208, 2272] : List Nat) = l1 ++ 2072 :: l2 ∧
      24 ≤ GET_SIZE sG.mem (HDRP 2072) ∧
      (∀ y ∈ l1, 24 ≤ GET_SIZE sG.mem (HDRP y) →
        GET_SIZE sG.mem (HDRP 2072) < GET_SIZE sG.mem (HDRP y)) ∧
      (GET_SIZE sG.mem (HDRP 2072) - 24 < 256 ∨
        ∀ y ∈ ([1040, 2072, 2208, 2272] : List Nat), 24 ≤ GET_SIZE sG.mem (HDRP y) →
          GET_SIZE sG.mem (HDRP 2072) ≤ GET_SIZE sG.mem (HDRP y)) :=
  ⟨by decide, by decide, by decide, by decide,
    C16_find_fit_choice sG 1024 [1040, 2072, 2208, 2272] 24 5 2072 FreeListWF_sG (by decide)
      (by decide) (by decide)⟩

end MM
namespace MM
set_option maxRecDepth 100000

/-- C17: in a heap that is well formed except that the block `c` has just been tagged free
and is not on the free list, `coalesce(c.bp)` returns `c.bp` when the preceding block is
allocated and the preceding block otherwise; afterwards header and footer of the returned
block both are `PACK(S, 0)`, where `S` is the size of `c` plus the sizes of its free
immediate neighbours; the recorded block sizes between prologue and epilogue add up to the
same total before and after; and both physical neighbours of the returned block are
allocated. -/
theorem C17_coalesce_result (s : Heap) (pre post : List Blk) (c : Blk) (fl : List Nat)
    (h : PreCoal s pre c post fl) :
    (prev_alloc s.mem c.bp ≠ 0 → (coalesce s c.bp).2 = c.bp) ∧
    (prev_alloc s.mem c.bp = 0 → (coalesce s c.bp).2 = PREV_BLKP s.mem c.bp) ∧
    GET (coalesce s c.bp).1.mem (HDRP (coalesce s c.bp).2) =
      PACK (GET_SIZE s.mem (HDRP c.bp) +
        (if prev_alloc s.mem c.bp = 0 then GET_SIZE s.mem (HDRP (PREV_BLKP s.mem c.bp)) else 0) +
        (if next_alloc s.mem c.bp = 0 then GET_SIZE s.mem (HDRP (NEXT_BLKP s.mem c.bp)) else 0))
        0 ∧
    GET (coalesce s c.bp).1.mem (FTRP (coalesce s c.bp).1.mem (coalesce s c.bp).2) =
      GET (coalesce s c.bp).1.mem (HDRP (coalesce s c.bp).2) ∧
    (∃ L L', (∃ f, heapBlocks f s = some L) ∧
      (∃ f, heapBlocks f (coalesce s c.bp).1 = some L') ∧
      totalSize s.mem L = totalSize (coalesce s c.bp).1.mem L') ∧
    prev_alloc (coalesce s c.bp).1.mem (coalesce s c.bp).2 = 1 ∧
    next_alloc (coalesce s c.bp).1.mem (coalesce s c.bp).2 = 1 := by
  obtain ⟨P, Q, M, F, hw', hr, hM0, h1, h2, hsz, -⟩ := coalesce_report s pre post c fl h
  obtain ⟨t1, t2, -⟩ := tags_Base _ P Q M F hw'.toBase
  obtain ⟨n1, n2⟩ := free_neighbours _ P Q M F hw' hM0
  obtain ⟨L, hL, hLs⟩ := totalSize_heap s _ fl h.base
  obtain ⟨L', hL', hLs'⟩ := totalSize_heap _ _ F hw'.toBase
  simp only [coalesce_heap, coalesce_brk] at hLs'
  rw [hr]
  refine ⟨fun hp => h1 hp, fun hp => h2 hp, ?_, ?_, ⟨L, L', ⟨_, hL⟩, ⟨_, hL'⟩, ?_⟩, n1, n2⟩
  · rw [t1, hM0, hsz]
  · rw [t1, t2]
  · omega

/-- C17, witness: the statement applied to `sF`, in which block 1040 has just been tagged
free and is followed by the free block 1064. -/
theorem C17_witness :
    (prev_alloc sF.mem 1040 ≠ 0 → (coalesce sF 1040).2 = 1040) ∧
    (prev_alloc sF.mem 1040 = 0 → (coalesce sF 1040).2 = PREV_BLKP sF.mem 1040) ∧
    GET (coalesce sF 1040).1.mem (HDRP (coalesce sF 1040).2) =
      PACK (GET_SIZE sF.mem (HDRP 1040) +
        (if prev_alloc sF.mem 1040 = 0 then GET_SIZE sF.mem (HDRP (PREV_BLKP sF.mem 1040)) else 0) +
        (if next_alloc sF.mem 1040 = 0 then GET_SIZE sF.mem (HDRP (NEXT_BLKP sF.mem 1040)) else 0))
        0 ∧
    GET (coalesce sF 1040).1.mem (FTRP (coalesce sF 1040).1.mem (coalesce sF 1040).2) =
      GET (coalesce sF 1040).1.mem (HDRP (coalesce sF 1040).2) ∧
    (∃ L L', (∃ f, heapBlocks f sF = some L) ∧
      (∃ f, heapBlocks f (coalesce sF 1040).1 = some L') ∧
      totalSize sF.mem L = totalSize (coalesce sF 1040).1.mem L') ∧
    prev_alloc (coalesce sF 1040).1.mem (coalesce sF 1040).2 = 1 ∧
    next_alloc (coalesce sF 1040).1.mem (coalesce sF 1040).2 = 1 :=
  C17_coalesce_result sF [] [⟨1064, 4072, 0⟩] ⟨1040, 24, 0⟩ [1064] PreCoal_sF

/-- C18: in a heap that is well formed except that the block `c` has just been tagged free
and is not on the free list, let `fl` be the free list read from `fr_listp` before
`coalesce(c.bp)`.  The free list `F` read from `fr_listp` afterwards is `c.bp :: fl` when
both neighbours are allocated, `c.bp :: fl` with the following block erased when only the
following block is free, `fl` itself when only the preceding block is free, and `fl` with
the following block erased when both are free; in every case `F` is a well-formed doubly
linked list. -/
theorem C18_coalesce_free_list (s : Heap) (pre post : List Blk) (c : Blk) (fl : List Nat)
    (h : PreCoal s pre c post fl) :
    freeWalk s.mem (fl.length + 1) s.fr_listp = some fl ∧
    ∃ F, freeWalk (coalesce s c.bp).1.mem (F.length + 1) (coalesce s c.bp).1.fr_listp = some F ∧
      FreeListWF (coalesce s c.bp).1 s.mem_heap F ∧
      (prev_alloc s.mem c.bp ≠ 0 ∧ next_alloc s.mem c.bp ≠ 0 → F = c.bp :: fl) ∧
      (prev_alloc s.mem c.bp ≠ 0 ∧ next_alloc s.mem c.bp = 0 →
        F = c.bp :: fl.erase (NEXT_BLKP s.mem c.bp)) ∧
      (prev_alloc s.mem c.bp = 0 ∧ next_alloc s.mem c.bp ≠ 0 → F = fl) ∧
      (prev_alloc s.mem c.bp = 0 ∧ next_alloc s.mem c.bp = 0 →
        F = fl.erase (NEXT_BLKP s.mem c.bp)) := by
  obtain ⟨P, Q, M, F, hw', -, -, -, -, -, c1, c2, c3, c4⟩ := coalesce_report s pre post c fl h
  have hwf := FreeListWF_of_Base _ _ F hw'.toBase
  simp only [coalesce_heap] at hwf
  exact ⟨freeWalk_Base s _ fl h.base, F, freeWalk_Base _ _ F hw'.toBase, hwf, c1, c2, c3, c4⟩

/-- C18, witness: the statement applied to `sF`, in which block 1040 has just been tagged
free and is followed by the free block 1064. -/
theorem C18_witness :
    freeWalk sF.mem (([1064] : List Nat).length + 1) sF.fr_listp = some [1064] ∧
    ∃ F, freeWalk (coalesce sF 1040).1.mem (F.length + 1) (coalesce sF 1040).1.fr_listp =
        some F ∧
      FreeListWF (coalesce sF 1040).1 sF.mem_heap F ∧
      (prev_alloc sF.mem 1040 ≠ 0 ∧ next_alloc sF.mem 1040 ≠ 0 → F = 1040 :: [1064]) ∧
      (prev_alloc sF.mem 1040 ≠ 0 ∧ next_alloc sF.mem 1040 = 0 →
        F = 1040 :: ([1064] : List Nat).erase (NEXT_BLKP sF.mem 1040)) ∧
      (prev_alloc sF.mem 1040 = 0 ∧ next_alloc sF.mem 1040 ≠ 0 → F = [1064]) ∧
      (prev_alloc sF.mem 1040 = 0 ∧ next_alloc sF.mem 1040 = 0 →
        F = ([1064] : List Nat).erase (NEXT_BLKP sF.mem 1040)) :=
  C18_coalesce_free_list sF [] [⟨1064, 4072, 0⟩] ⟨1040, 24, 0⟩ [1064] PreCoal_sF

/-- C19: in a well-formed heap with free list `fl`, for a member `b` of `fl` of recorded
size `c` and every `asize` that is a multiple of 8 with `16 ≤ asize ≤ c`: if
`c - asize ≥ 16` then after `place(b, asize)` header and footer of `b` are
`PACK(asize, 1)`, header and footer of the block at `b + asize` are `PACK(c - asize, 0)`,
that block is the head of the free list, and the free list is `(b + asize) :: fl` with `b`
erased, so `b` is not on it; otherwise header and footer of `b` are `PACK(c, 1)` and the
free list is `fl` with `b` erased.  In both cases the new free list is well formed, the
recorded block sizes add up to the same total, and header and footer of every other block
are unchanged. -/
theorem C19_place_effect (s : Heap) (bs : List Blk) (fl : List Nat) (b asize : Nat)
    (hw : WF s bs fl) (hb : b ∈ fl) (ha8 : asize % 8 = 0) (ha16 : 16 ≤ asize)
    (hle : asize ≤ GET_SIZE s.mem (HDRP b)) :
    (16 ≤ GET_SIZE s.mem (HDRP b) - asize →
      GET (place s b asize).mem (HDRP b) = PACK asize 1 ∧
      GET (place s b asize).mem (FTRP (place s b asize).mem b) = PACK asize 1 ∧
      GET (place s b asize).mem (HDRP (b + asize)) = PACK (GET_SIZE s.mem (HDRP b) - asize) 0 ∧
      GET (place s b asize).mem (FTRP (place s b asize).mem (b + asize)) =
        PACK (GET_SIZE s.mem (HDRP b) - asize) 0 ∧
      (place s b asize).fr_listp = b + asize ∧
      FreeListWF (place s b asize) s.mem_heap ((b + asize) :: fl.erase b) ∧
      b ∉ (b + asize) :: fl.erase b) ∧
    (GET_SIZE s.mem (HDRP b) - asize < 16 →
      GET (place s b asize).mem (HDRP b) = PACK (GET_SIZE s.mem (HDRP b)) 1 ∧
      GET (place s b asize).mem (FTRP (place s b asize).mem b) =
        PACK (GET_SIZE s.mem (HDRP b)) 1 ∧
      FreeListWF (place s b asize) s.mem_heap (fl.erase b) ∧ b ∉ fl.erase b) ∧
    (∃ L L', (∃ f, heapBlocks f s = some L) ∧ (∃ f, heapBlocks f (place s b asize) = some L') ∧
      totalSize s.mem L = totalSize (place s b asize).mem L' ∧
      ∀ x ∈ L, x ≠ b → GET (place s b asize).mem (HDRP x) = GET s.mem (HDRP x) ∧
        GET (place s b asize).mem (FTRP s.mem x) = GET s.mem (FTRP s.mem x)) := by
  obtain ⟨c, hc, c1, c2, c3, -⟩ := Base_fl_size s bs fl hw.toBase b hb
  obtain ⟨pre, post, hsplit⟩ := List.append_of_mem hc
  subst hsplit
  subst c1
  rw [c3] at hle ⊢
  obtain ⟨hsp, hwh⟩ := place_report s pre post c fl asize hw c2 ha8 ha16 hle
  have hne : c.bp ∉ fl.erase c.bp := fun h => (List.Nodup.mem_erase_iff hw.nodup).1 h |>.1 rfl
  obtain ⟨L, hL, hLs⟩ := totalSize_heap s _ fl hw.toBase
  have hLeq : L = (pre ++ c :: post).map Blk.bp := by
    have := heapBlocks_Base s _ fl hw.toBase
    rw [hL] at this
    exact Option.some.inj this
  have hother : ∀ (bs' : List Blk) (fl' : List Nat), Base (place s c.bp asize) bs' fl' →
      (∀ b' ∈ pre ++ post, b' ∈ bs') →
      ∀ x ∈ L, x ≠ c.bp → GET (place s c.bp asize).mem (HDRP x) = GET s.mem (HDRP x) ∧
        GET (place s c.bp asize).mem (FTRP s.mem x) = GET s.mem (FTRP s.mem x) := by
    intro bs' fl' hb' hsub x hx hxne
    rw [hLeq] at hx
    obtain ⟨b', hb'm, hb'x⟩ := List.mem_map.1 hx
    subst hb'x
    have hin : b' ∈ pre ++ post := by
      simp only [List.mem_append, List.mem_cons] at hb'm ⊢
      rcases hb'm with q | q | q
      · exact Or.inl q
      · rw [q] at hxne; exact absurd rfl hxne
      · exact Or.inr q
    exact other_tags_kept s _ _ bs' fl fl' hw.toBase hb' b' hb'm (hsub b' hin)
  refine ⟨?_, ?_, ?_⟩
  · intro hrem
    obtain ⟨hw', t1, t2, u1, u2, hfr⟩ := hsp hrem
    have hwf := FreeListWF_of_Base _ _ _ hw'.toBase
    simp only [place_heap] at hwf
    refine ⟨t1, t2, u1, u2, hfr, hwf, ?_⟩
    intro hin
    rcases List.mem_cons.1 hin with q | q
    · omega
    · exact hne q
  · intro hrem
    obtain ⟨hw', t1, t2⟩ := hwh hrem
    have hwf := FreeListWF_of_Base _ _ _ hw'.toBase
    simp only [place_heap] at hwf
    exact ⟨t1, t2, hwf, hne⟩
  · by_cases hrem : 16 ≤ c.size - asize
    · obtain ⟨hw', -⟩ := hsp hrem
      obtain ⟨L', hL', hLs'⟩ := totalSize_heap _ _ _ hw'.toBase
      simp only [place_heap, place_brk] at hLs'
      refine ⟨L, L', ⟨_, hL⟩, ⟨_, hL'⟩, by omega, hother _ _ hw'.toBase ?_⟩
      intro b' hb'
      simp only [List.mem_append, List.mem_cons] at hb' ⊢
      rcases hb' with q | q
      · exact Or.inl q
      · exact Or.inr (Or.inr (Or.inr q))
    · obtain ⟨hw', -⟩ := hwh (by omega)
      obtain ⟨L', hL', hLs'⟩ := totalSize_heap _ _ _ hw'.toBase
      simp only [place_heap, place_brk] at hLs'
      refine ⟨L, L', ⟨_, hL⟩, ⟨_, hL'⟩, by omega, hother _ _ hw'.toBase ?_⟩
      intro b' hb'
      simp only [List.mem_append, List.mem_cons] at hb' ⊢
      rcases hb' with q | q
      · exact Or.inl q
      · exact Or.inr (Or.inr q)

/-- C19, witness: the statement applied to `place(1040, 24)` in the state after
`mm_init`. -/
theorem C19_witness :
    (16 ≤ GET_SIZE sI.mem (HDRP 1040) - 24 →
      GET (place sI 1040 24).mem (HDRP 1040) = PACK 24 1 ∧
      GET (place sI 1040 24).mem (FTRP (place sI 1040 24).mem 1040) = PACK 24 1 ∧
      GET (place sI 1040 24).mem (HDRP (1040 + 24)) = PACK (GET_SIZE sI.mem (HDRP 1040) - 24) 0 ∧
      GET (place sI 1040 24).mem (FTRP (place sI 1040 24).mem (1040 + 24)) =
        PACK (GET_SIZE sI.mem (HDRP 1040) - 24) 0 ∧
      (place sI 1040 24).fr_listp = 1040 + 24 ∧
      FreeListWF (place sI 1040 24) sI.mem_heap ((1040 + 24) :: ([1040] : List Nat).erase 1040) ∧
      1040 ∉ (1040 + 24) :: ([1040] : List Nat).erase 1040) ∧
    (GET_SIZE sI.mem (HDRP 1040) - 24 < 16 →
      GET (place sI 1040 24).mem (HDRP 1040) = PACK (GET_SIZE sI.mem (HDRP 1040)) 1 ∧
      GET (place sI 1040 24).mem (FTRP (place sI 1040 24).mem 1040) =
        PACK (GET_SIZE sI.mem (HDRP 1040)) 1 ∧
      FreeListWF (place sI 1040 24) sI.mem_heap (([1040] : List Nat).erase 1040) ∧
      1040 ∉ ([1040] : List Nat).erase 1040) ∧
    (∃ L L', (∃ f, heapBlocks f sI = some L) ∧ (∃ f, heapBlocks f (place sI 1040 24) = some L') ∧
      totalSize sI.mem L = totalSize (place sI 1040 24).mem L' ∧
      ∀ x ∈ L, x ≠ 1040 → GET (place sI 1040 24).mem (HDRP x) = GET sI.mem (HDRP x) ∧
        GET (place sI 1040 24).mem (FTRP sI.mem x) = GET sI.mem (FTRP sI.mem x)) :=
  C19_place_effect sI _ [1040] 1040 24 WF_sI (List.mem_singleton_self _) (by decide)
    (by decide) (by decide)

/-- C20: let `L` be the well-formed free list of `s` (the blocks reached from `fr_listp`
by the signed 32-bit next-offsets up to a 0 offset).  For a block `b` not in `L` whose link
words lie in the same window and overlap no member's, `add_free_block(b)` yields the list
`b :: L`; for every `b` in `L`, `delete_free_block(b)` yields `L` with `b` erased, the
order of the other members preserved; in both cases the result is again a well-formed
list: the head's prev-offset and the tail's next-offset are 0 and every consecutive pair
`(x, y)` stores the offsets `y - x` at `x` and `x - y` at `y + 4`. -/
theorem C20_free_list_ops (s : Heap) (lo : Nat) (L : List Nat) (b : Nat)
    (hwf : FreeListWF s lo L) :
    freeWalk s.mem (L.length + 1) s.fr_listp = some L ∧
    (b ∉ L → FlSep lo (b :: L) →
      FreeListWF (add_free_block s b) lo (b :: L) ∧
      freeWalk (add_free_block s b).mem ((b :: L).length + 1) (add_free_block s b).fr_listp =
        some (b :: L)) ∧
    (b ∈ L →
      FreeListWF (delete_free_block s b) lo (L.erase b) ∧
      freeWalk (delete_free_block s b).mem ((L.erase b).length + 1)
        (delete_free_block s b).fr_listp = some (L.erase b)) := by
  refine ⟨freeWalk_FreeListWF s lo L hwf, ?_, ?_⟩
  · intro hb hsep
    obtain ⟨hh, hlinks, hnd, -⟩ := hwf
    have hnd' : (b :: L).Nodup := List.nodup_cons.2 ⟨hb, hnd⟩
    obtain ⟨h1, -⟩ := add_free_block_links s L b lo hlinks hh hsep hnd'
    have hwf' : FreeListWF (add_free_block s b) lo (b :: L) :=
      ⟨by simp, h1, hnd', hsep⟩
    exact ⟨hwf', freeWalk_FreeListWF _ lo _ hwf'⟩
  · intro hb
    obtain ⟨l1, l2, hsplit⟩ := List.append_of_mem hb
    subst hsplit
    obtain ⟨hh, hlinks, hnd, hsep⟩ := hwf
    obtain ⟨h1, h2, -⟩ := delete_free_block_links s l1 l2 b lo hlinks hh hsep hnd
    rw [erase_mid l1 l2 b hnd]
    have hsub : ∀ x ∈ l1 ++ l2, x ∈ l1 ++ b :: l2 := by
      intro x hx
      simp only [List.mem_append, List.mem_cons] at hx ⊢
      rcases hx with q | q
      · exact Or.inl q
      · exact Or.inr (Or.inr q)
    have hnd' : (l1 ++ l2).Nodup := by
      rw [List.nodup_append] at hnd ⊢
      refine ⟨hnd.1, (List.nodup_cons.1 hnd.2.1).2, ?_⟩
      intro x hx1 hx2
      exact hnd.2.2 hx1 (List.mem_cons_of_mem _ hx2)
    have hwf' : FreeListWF (delete_free_block s b) lo (l1 ++ l2) :=
      ⟨h2, h1, hnd', fun x hx => hsep.1 x (hsub x hx),
        fun x hx y hy => hsep.2 x (hsub x hx) y (hsub y hy)⟩
    exact ⟨hwf', freeWalk_FreeListWF _ lo _ hwf'⟩

/-- C20, witness: the statement applied to the free list 1040, 2072, 2208, 2272 of the
state `sG`: `add_free_block` of the block 2048, which is not on the list, and
`delete_free_block` of the head 1040, of the interior member 2072 and of the tail 2272. -/
theorem C20_witness :
    (FreeListWF (add_free_block sG 2048) 1024 (2048 :: [1040, 2072, 2208, 2272]) ∧
      freeWalk (add_free_block sG 2048).mem ((2048 :: [1040, 2072, 2208, 2272]).length + 1)
        (add_free_block sG 2048).fr_listp = some (2048 :: [1040, 2072, 2208, 2272])) ∧
    (FreeListWF (delete_free_block sG 1040) 1024
        (([1040, 2072, 2208, 2272] : List Nat).erase 1040) ∧
      freeWalk (delete_free_block sG 1040).mem
        ((([1040, 2072, 2208, 2272] : List Nat).erase 1040).length + 1)
        (delete_free_block sG 1040).fr_listp =
          some (([1040, 2072, 2208, 2272] : List Nat).erase 1040)) ∧
    (FreeListWF (delete_free_block sG 2072) 1024
        (([1040, 2072, 2208, 2272] : List Nat).erase 2072) ∧
      freeWalk (delete_free_block sG 2072).mem
        ((([1040, 2072, 2208, 2272] : List Nat).erase 2072).length + 1)
        (delete_free_block sG 2072).fr_listp =
          some (([1040, 2072, 2208, 2272] : List Nat).erase 2072)) ∧
    (FreeListWF (delete_free_block sG 2272) 1024
        (([1040, 2072, 2208, 2272] : List Nat).erase 2272) ∧
      freeWalk (delete_free_block sG 2272).mem
        ((([1040, 2072, 2208, 2272] : List Nat).erase 2272).length + 1)
        (delete_free_block sG 2272).fr_listp =
          some (([1040, 2072, 2208, 2272] : List Nat).erase 2272)) :=
  ⟨(C20_free_list_ops sG 1024 [1040, 2072, 2208, 2272] 2048 FreeListWF_sG).2.1 (by decide)
      FlSep_sG_add,
    (C20_free_list_ops sG 1024 [1040, 2072, 2208, 2272] 1040 FreeListWF_sG).2.2 (by decide),
    (C20_free_list_ops sG 1024 [1040, 2072, 2208, 2272] 2072 FreeListWF_sG).2.2 (by decide),
    (C20_free_list_ops sG 1024 [1040, 2072, 2208, 2272] 2272 FreeListWF_sG).2.2 (by decide)⟩

end MM
namespace MM
set_option maxRecDepth 100000

/-- C11: starting from the state produced by a successful `mm_init` on a fresh arena with
base `B`, the calls `mm_malloc(16)`, `mm_malloc(32)`, `mm_malloc(64)` return `a = B + 16`,
`b = B + 40`, `c = B + 80`; after `mm_free(b)` the call `mm_malloc(24)` returns `b`: it
places the request in the block that `find_fit` found (no `extend_heap`, hence no
`mem_sbrk` call), and the arena extent is unchanged. -/
theorem C11_reuse_freed_block (s0 : Heap) (fuel : Nat) (hf : Fresh s0)
    (hok : (mm_init s0).2 = 0) (hfuel : 3 ≤ fuel) :
    ∃ s1 s2 s3 s5,
      mm_malloc fuel (mm_init s0).1 16 = some (s1, s0.mem_heap + 16) ∧
      mm_malloc fuel s1 32 = some (s2, s0.mem_heap + 40) ∧
      mm_malloc fuel s2 64 = some (s3, s0.mem_heap + 80) ∧
      mm_malloc fuel (mm_free s3 (s0.mem_heap + 40)) 24 = some (s5, s0.mem_heap + 40) ∧
      s5 = place (mm_free s3 (s0.mem_heap + 40)) (s0.mem_heap + 40) (adjust 24) ∧
      (mm_free s3 (s0.mem_heap + 40)).mem_brk = s3.mem_brk ∧ s5.mem_brk = s3.mem_brk := by
  have a16 : adjust 16 = 24 := by decide
  have a32 : adjust 32 = 40 := by decide
  have a64 : adjust 64 = 72 := by decide
  have a24 : adjust 24 = 32 := by decide
  have W0 := mm_init_WF s0 hf hok
  generalize (mm_init s0).1 = sI at W0
  generalize s0.mem_heap = B at W0
  -- first allocation
  have m1 := mm_malloc_pick sI [] [] ⟨B + 16, 4096, 0⟩ [B + 16] [] fuel 16 W0 rfl rfl
    (by rw [a16]; norm_num) (fun b hb => absurd hb (List.not_mem_nil b)) (by norm_num)
    (by simp only [List.length_singleton]; omega)
  have W1 : WF (place sI (B + 16) 24) [⟨B + 16, 24, 1⟩, ⟨B + 40, 4072, 0⟩] [B + 40] := by
    have := (place_split sI [] [] ⟨B + 16, 4096, 0⟩ [B + 16] 24 W0 rfl (by norm_num) (by norm_num)
      (by norm_num)).1
    have e : B + 16 + 24 = B + 40 := by omega
    simpa [e] using this
  rw [a16] at m1
  -- second allocation
  have m2 := mm_malloc_pick (place sI (B + 16) 24) [⟨B + 16, 24, 1⟩] [] ⟨B + 40, 4072, 0⟩
    [B + 40] [] fuel 32 W1 rfl rfl (by rw [a32]; norm_num)
    (by
      intro b hb hb0
      simp only [List.append_nil, List.mem_singleton] at hb
      subst hb
      exact absurd hb0 (by norm_num))
    (by norm_num) (by simp only [List.length_singleton]; omega)
  rw [a32] at m2
  have W2 : WF (place (place sI (B + 16) 24) (B + 40) 40)
      [⟨B + 16, 24, 1⟩, ⟨B + 40, 40, 1⟩, ⟨B + 80, 4032, 0⟩] [B + 80] := by
    have := (place_split (place sI (B + 16) 24) [⟨B + 16, 24, 1⟩] [] ⟨B + 40, 4072, 0⟩
      [B + 40] 40 W1 rfl (by norm_num) (by norm_num) (by norm_num)).1
    have e : B + 40 + 40 = B + 80 := by omega
    simpa [e] using this
  -- third allocation
  have m3 := mm_malloc_pick (place (place sI (B + 16) 24) (B + 40) 40)
    [⟨B + 16, 24, 1⟩, ⟨B + 40, 40, 1⟩] [] ⟨B + 80, 4032, 0⟩ [B + 80] [] fuel 64 W2 rfl rfl
    (by rw [a64]; norm_num)
    (by
      intro b hb hb0
      simp only [List.append_nil, List.mem_cons, List.mem_singleton, List.not_mem_nil,
        or_false] at hb
      rcases hb with hb | hb <;> subst hb <;> exact absurd hb0 (by norm_num))
    (by norm_num) (by simp only [List.length_singleton]; omega)
  rw [a64] at m3
  have W3 : WF (place (place (place sI (B + 16) 24) (B + 40) 40) (B + 80) 72)
      [⟨B + 16, 24, 1⟩, ⟨B + 40, 40, 1⟩, ⟨B + 80, 72, 1⟩, ⟨B + 152, 3960, 0⟩] [B + 152] := by
    have := (place_split (place (place sI (B + 16) 24) (B + 40) 40)
      [⟨B + 16, 24, 1⟩, ⟨B + 40, 40, 1⟩] [] ⟨B + 80, 4032, 0⟩
      [B + 80] 72 W2 rfl (by norm_num) (by norm_num) (by norm_num)).1
    have e : B + 80 + 72 = B + 152 := by omega
    simpa [e] using this
  generalize place (place (place sI (B + 16) 24) (B + 40) 40) (B + 80) 72 = s3 at W3 m3
  -- the free
  have hh3 : s3.heap_listp ≠ 0 := by rw [W3.hl]; omega
  have W4 : WF (mm_free s3 (B + 40))
      [⟨B + 16, 24, 1⟩, ⟨B + 40, 40, 0⟩, ⟨B + 80, 72, 1⟩, ⟨B + 152, 3960, 0⟩]
      [B + 40, B + 152] :=
    (mm_free_spec s3 [⟨B + 16, 24, 1⟩] [⟨B + 80, 72, 1⟩, ⟨B + 152, 3960, 0⟩] ⟨B + 40, 40, 1⟩
      [B + 152] W3 rfl).1
  -- the last allocation
  have m5 := mm_malloc_pick (mm_free s3 (B + 40)) [⟨B + 16, 24, 1⟩]
    [⟨B + 80, 72, 1⟩, ⟨B + 152, 3960, 0⟩] ⟨B + 40, 40, 0⟩ [B + 40, B + 152] [B + 152] fuel 24
    W4 rfl rfl (by rw [a24]; norm_num)
    (by
      intro b hb hb0 _
      simp only [List.singleton_append, List.mem_cons, List.mem_singleton, List.not_mem_nil,
        or_false] at hb
      rcases hb with hb | hb | hb
      · subst hb; exact absurd hb0 (by norm_num)
      · subst hb; exact absurd hb0 (by norm_num)
      · subst hb; norm_num)
    (by norm_num) (by simp only [List.length_cons, List.length_nil]; omega)
  refine ⟨_, _, s3, _, m1, m2, m3, m5, rfl, mm_free_brk s3 _ hh3, ?_⟩
  rw [place_brk, mm_free_brk s3 _ hh3]

/-- C11, witness: the statement applied to the empty arena `s0` at base address 1024. -/
theorem C11_witness :
    ∃ s1 s2 s3 s5,
      mm_malloc 3 (mm_init s0).1 16 = some (s1, s0.mem_heap + 16) ∧
      mm_malloc 3 s1 32 = some (s2, s0.mem_heap + 40) ∧
      mm_malloc 3 s2 64 = some (s3, s0.mem_heap + 80) ∧
      mm_malloc 3 (mm_free s3 (s0.mem_heap + 40)) 24 = some (s5, s0.mem_heap + 40) ∧
      s5 = place (mm_free s3 (s0.mem_heap + 40)) (s0.mem_heap + 40) (adjust 24) ∧
      (mm_free s3 (s0.mem_heap + 40)).mem_brk = s3.mem_brk ∧ s5.mem_brk = s3.mem_brk :=
  C11_reuse_freed_block s0 3 fresh_s0 init_s0 (by decide)

end MM
namespace MM

/-! ## Allocation rounds: heaps whose only free block is the last one -/

theorem list_single (l : List Nat) (a : Nat) (hnd : l.Nodup) (hall : ∀ x ∈ l, x = a)
    (ha : a ∈ l) : l = [a] := by
  cases l with
  | nil => cases ha
  | cons x l' =>
    have hx := hall x (List.mem_cons_self _ _)
    subst hx
    cases l' with
    | nil => rfl
    | cons y l'' =>
      have hy := hall y (by simp)
      subst hy
      rw [List.nodup_cons] at hnd
      exact absurd (List.mem_cons_self _ _) hnd.1

theorem WF_fl_single (s : Heap) (as : List Blk) (t : Blk) (fl : List Nat)
    (hw : WF s (as ++ [t]) fl) (has : ∀ b ∈ as, b.alloc = 1) (ht : t.alloc = 0) :
    fl = [t.bp] := by
  apply list_single fl t.bp hw.nodup
  · intro x hx
    obtain ⟨b, hb, q1, q2⟩ := hw.flsub x hx
    rcases List.mem_append.1 hb with q | q
    · have := has b q; omega
    · rw [List.mem_singleton] at q
      rw [← q1, q]
  · exact hw.flall t (by simp) ht

/-- `place` on the last block of a heap whose other blocks `as` are all allocated. -/
theorem place_tail (s : Heap) (as : List Blk) (t : Blk) (fl : List Nat) (A : Nat)
    (hw : WF s (as ++ [t]) fl) (ht : t.alloc = 0) (ha8 : A % 8 = 0) (ha16 : 16 ≤ A)
    (hle : A ≤ t.size) :
    ∃ nb tail' fl', WF (place s t.bp A) (as ++ [nb] ++ tail') fl' ∧ nb.bp = t.bp ∧
      nb.alloc = 1 ∧ A ≤ nb.size ∧
      ((tail' = [] ∧ t.size - A < 16) ∨
        (∃ t', tail' = [t'] ∧ t'.alloc = 0 ∧ t'.size = t.size - A ∧ 16 ≤ t.size - A)) := by
  obtain ⟨hsp, hwh⟩ := place_report s as [] t fl A hw ht ha8 ha16 hle
  by_cases hrem : 16 ≤ t.size - A
  · obtain ⟨hw', -⟩ := hsp hrem
    exact ⟨⟨t.bp, A, 1⟩, [⟨t.bp + A, t.size - A, 0⟩], _, by simpa using hw', rfl, rfl,
      le_refl _, Or.inr ⟨_, rfl, rfl, rfl, hrem⟩⟩
  · obtain ⟨hw', -⟩ := hwh (by omega)
    exact ⟨⟨t.bp, t.size, 1⟩, [], _, by simpa using hw', rfl, rfl, hle, Or.inl ⟨rfl, by omega⟩⟩

/-- `mm_malloc` when the last block is free and large enough: the request is placed there
and the arena does not grow. -/
theorem malloc_tail_fit (s : Heap) (as : List Blk) (t : Blk) (fl : List Nat)
    (fuel size : Nat) (hw : WF s (as ++ [t]) fl) (has : ∀ b ∈ as, b.alloc = 1)
    (ht : t.alloc = 0) (h1 : size ≠ 0) (h2 : size + 15 < 2 ^ 64) (hle : adjust size ≤ t.size)
    (hfuel : 2 ≤ fuel) :
    ∃ s' nb tail' fl', mm_malloc fuel s size = some (s', t.bp) ∧ t.bp ≠ 0 ∧
      s'.mem_brk = s.mem_brk ∧ s'.mem_heap = s.mem_heap ∧
      WF s' (as ++ [nb] ++ tail') fl' ∧ nb.bp = t.bp ∧ nb.alloc = 1 ∧ adjust size ≤ nb.size ∧
      ((tail' = [] ∧ t.size - adjust size < 16) ∨
        (∃ t', tail' = [t'] ∧ t'.alloc = 0 ∧ t'.size = t.size - adjust size ∧
          16 ≤ t.size - adjust size)) := by
  have hfl := WF_fl_single s as t fl hw has ht
  have htm := Layout_mem _ _ _ hw.layout t (by simp)
  have hm := mm_malloc_pick s as [] t fl [] fuel size hw hfl ht hle
    (by
      intro b hb hb0
      rw [List.append_nil] at hb
      have := has b hb
      omega)
    h1 (by rw [hfl]; simp only [List.length_singleton]; omega)
  obtain ⟨nb, tail', fl', q1, q2, q3, q4, q5⟩ :=
    place_tail s as t fl (adjust size) hw ht (adjust_mod8 size) (adjust_ok size h2).1 hle
  exact ⟨_, nb, tail', fl', hm, by omega, place_brk _ _ _, place_heap _ _ _, q1, q2, q3, q4, q5⟩

/-- One `mm_malloc` that returns a block, on a heap whose only free block (if any) is the
last one: the new block is appended to the allocated blocks. -/
theorem malloc_tail_any (s : Heap) (as tail : List Blk) (fl : List Nat)
    (fuel size : Nat) (s' : Heap) (p : Nat) (hw : WF s (as ++ tail) fl)
    (has : ∀ b ∈ as, b.alloc = 1) (htail : tail = [] ∨ ∃ t, tail = [t] ∧ t.alloc = 0)
    (h1 : size ≠ 0) (h2 : size + 15 < 2 ^ 64) (hfuel : 2 ≤ fuel)
    (hm : mm_malloc fuel s size = some (s', p)) (hp : p ≠ 0) :
    ∃ nb tail' fl', WF s' (as ++ [nb] ++ tail') fl' ∧ nb.bp = p ∧ nb.alloc = 1 ∧
      adjust size ≤ nb.size ∧ (tail' = [] ∨ ∃ t', tail' = [t'] ∧ t'.alloc = 0) ∧
      s'.mem_heap = s.mem_heap := by
  have ha8 := adjust_mod8 size
  obtain ⟨ha16, -⟩ := adjust_ok size h2
  have shape : ∀ (tl : List Blk) (A : Nat),
      ((tl = [] ∧ A < 16) ∨ (∃ t', tl = [t'] ∧ t'.alloc = 0 ∧ t'.size = A ∧ 16 ≤ A)) →
      (tl = [] ∨ ∃ t', tl = [t'] ∧ t'.alloc = 0) := by
    rintro tl A (⟨h, -⟩ | ⟨t', h, h0, -, -⟩)
    · exact Or.inl h
    · exact Or.inr ⟨t', h, h0⟩
  by_cases hfit : ∃ t, tail = [t] ∧ t.alloc = 0 ∧ adjust size ≤ t.size
  · obtain ⟨t, rfl, ht, hle⟩ := hfit
    obtain ⟨s'', nb, tail', fl', e1, -, -, e3, q1, q2, q3, q4, q5⟩ :=
      malloc_tail_fit s as t fl fuel size hw has ht h1 h2 hle hfuel
    rw [hm] at e1
    simp only [Option.some.injEq, Prod.mk.injEq] at e1
    obtain ⟨rfl, rfl⟩ := e1
    exact ⟨nb, tail', fl', q1, q2, q3, q4, shape _ _ q5, e3⟩
  · have hnofit : ∀ b ∈ as ++ tail, b.alloc = 0 → b.size < adjust size := by
      intro b hb hb0
      rcases List.mem_append.1 hb with q | q
      · have := has b q; omega
      · rcases htail with rfl | ⟨t, rfl, ht⟩
        · cases q
        · rw [List.mem_singleton] at q
          subst q
          by_contra hcon
          exact hfit ⟨b, rfl, ht, by omega⟩
    have hlen : fl.length < fuel := by
      have hle1 : fl.length ≤ 1 := by
        rcases htail with rfl | ⟨t, rfl, ht⟩
        · have : fl = [] := by
            cases hfl : fl with
            | nil => rfl
            | cons x l =>
              obtain ⟨b, hb, -, q2⟩ := hw.flsub x (by rw [hfl]; simp)
              rw [List.append_nil] at hb
              have := has b hb
              omega
          rw [this]; simp
        · rw [WF_fl_single s as t fl hw has ht]; simp
      omega
    rcases mm_malloc_cases s (as ++ tail) fl fuel size hw h1 hlen with
      ⟨pre, c, post, hsplit, hc0, hle, -⟩ | ⟨-, -, heq⟩ | ⟨-, hgrow, heq, hne⟩
    · have := hnofit c (by rw [hsplit]; simp) hc0
      omega
    · rw [hm] at heq
      simp only [Option.some.injEq, Prod.mk.injEq] at heq
      exact absurd heq.2 hp
    · rw [hm] at heq
      simp only [Option.some.injEq, Prod.mk.injEq] at heq
      obtain ⟨rfl, rfl⟩ := heq
      have hS : (if (max (adjust size) CHUNKSIZE / WSIZE) % 2 ≠ 0 then
          ((max (adjust size) CHUNKSIZE / WSIZE + 1) * WSIZE) % SIZE_MOD
          else ((max (adjust size) CHUNKSIZE / WSIZE) * WSIZE) % SIZE_MOD) =
          max (adjust size) CHUNKSIZE := by
        have halt := adjust_lt size
        simp only [CHUNKSIZE, WSIZE, SIZE_MOD]
        have : (max (adjust size) 4096 / 4) % 2 = 0 := by omega
        rw [if_neg (by omega)]
        omega
      have hS8 : max (adjust size) CHUNKSIZE % 8 = 0 := by simp only [CHUNKSIZE]; omega
      have hS16 : 16 ≤ max (adjust size) CHUNKSIZE := by simp only [CHUNKSIZE]; omega
      have hSA : adjust size ≤ max (adjust size) CHUNKSIZE := le_max_left _ _
      obtain ⟨e1, e2, -, e4, -, -⟩ := extend_heap_spec s _ fl _ _ hw hS hS8 hS16 hgrow
      generalize extend_heap s (max (adjust size) CHUNKSIZE / WSIZE) = E at e1 e2 e4 hne ⊢
      generalize max (adjust size) CHUNKSIZE = S at e1 e2 hS8 hS16 hSA
      have key : ∃ M, M.alloc = 0 ∧ adjust size ≤ M.size ∧
          coalesceBlk (as ++ tail) ⟨s.mem_brk, S, 0⟩ [] = M ∧
          coalesceBlocks (as ++ tail) ⟨s.mem_brk, S, 0⟩ [] = as ++ [M] := by
        rcases htail with rfl | ⟨t, rfl, ht⟩
        · have hpn : prevFree (as ++ []) = none := by
            apply prevFree_none
            intro pv hpv
            rw [List.append_nil] at hpv
            exact has pv (List.mem_of_mem_getLast? hpv)
          refine ⟨⟨s.mem_brk, S, 0⟩, rfl, hSA, ?_, ?_⟩
          · unfold coalesceBlk
            rw [hpn]
            rfl
          · unfold coalesceBlocks coalesceBlk
            rw [hpn]
            simp [nextFree]
        · have hps : prevFree (as ++ [t]) = some t := prevFree_some as t ht
          refine ⟨⟨t.bp, t.size + S, 0⟩, rfl, by simp only []; omega, ?_, ?_⟩
          · unfold coalesceBlk
            rw [hps]
            rfl
          · unfold coalesceBlocks coalesceBlk
            rw [hps]
            simp [nextFree]
      obtain ⟨M, hM0, hMle, k1, k2⟩ := key
      rw [k1] at e1
      rw [k2] at e2
      rw [e1]
      obtain ⟨nb, tail', fl', q1, q2, q3, q4, q5⟩ :=
        place_tail E.1 as M _ (adjust size) e2 hM0 ha8 ha16 hMle
      exact ⟨nb, tail', fl', q1, q2, q3, q4, shape _ _ q5, by rw [place_heap, e4]⟩

end MM
namespace MM

/-! ## Allocation rounds: `k` allocations, then `k` frees in the same order -/

theorem mallocN_succ (fuel size k : Nat) (s s' s1 : Heap) (p : Nat) (ps : List Nat)
    (h1 : mm_malloc fuel s size = some (s', p)) (h2 : mallocN fuel size k s' = some (s1, ps)) :
    mallocN fuel size (k + 1) s = some (s1, p :: ps) := by
  simp only [mallocN, h1, h2]

theorem mallocN_succ_inv (fuel size k : Nat) (s s1 : Heap) (ps : List Nat)
    (h : mallocN fuel size (k + 1) s = some (s1, ps)) :
    ∃ s' p ps', mm_malloc fuel s size = some (s', p) ∧
      mallocN fuel size k s' = some (s1, ps') ∧ ps = p :: ps' := by
  rw [mallocN] at h
  cases hm : mm_malloc fuel s size with
  | none => rw [hm] at h; simp at h
  | some r =>
    obtain ⟨s', p⟩ := r
    rw [hm] at h
    simp only [] at h
    cases hn : mallocN fuel size k s' with
    | none => rw [hn] at h; simp at h
    | some r2 =>
      obtain ⟨s2, ps'⟩ := r2
      rw [hn] at h
      simp only [Option.some.injEq, Prod.mk.injEq] at h
      exact ⟨s', p, ps', rfl, by rw [← h.1]; exact hn, h.2.symm⟩

/-- `k` allocations that all return a block, on a heap whose only free block (if any) is
the last one: `k` allocated blocks are appended. -/
theorem mallocN_any (fuel size : Nat) (h1 : size ≠ 0) (h2 : size + 15 < 2 ^ 64)
    (hfuel : 2 ≤ fuel) :
    ∀ (k : Nat) (s : Heap) (as tail : List Blk) (fl : List Nat) (s1 : Heap) (ps : List Nat),
      WF s (as ++ tail) fl → (∀ b ∈ as, b.alloc = 1) →
      (tail = [] ∨ ∃ t, tail = [t] ∧ t.alloc = 0) →
      mallocN fuel size k s = some (s1, ps) → (∀ p ∈ ps, p ≠ 0) →
      ∃ new tail' fl', WF s1 (as ++ new ++ tail') fl' ∧ new.map Blk.bp = ps ∧
        (∀ b ∈ new, b.alloc = 1 ∧ adjust size ≤ b.size) ∧ new.length = k ∧
        (tail' = [] ∨ ∃ t', tail' = [t'] ∧ t'.alloc = 0) ∧ s1.mem_heap = s.mem_heap := by
  intro k
  induction k with
  | zero =>
    intro s as tail fl s1 ps hw has htail hm hnn
    simp only [mallocN, Option.some.injEq, Prod.mk.injEq] at hm
    obtain ⟨rfl, rfl⟩ := hm
    exact ⟨[], tail, fl, by simpa using hw, rfl, fun b hb => absurd hb (List.not_mem_nil b), rfl,
      htail, rfl⟩
  | succ k ih =>
    intro s as tail fl s1 ps hw has htail hm hnn
    obtain ⟨s', p, ps', e1, e2, rfl⟩ := mallocN_succ_inv fuel size k s s1 ps hm
    have hp : p ≠ 0 := hnn p (List.mem_cons_self _ _)
    obtain ⟨nb, tail1, fl1, q1, q2, q3, q4, q5, q6⟩ :=
      malloc_tail_any s as tail fl fuel size s' p hw has htail h1 h2 hfuel e1 hp
    have has' : ∀ b ∈ as ++ [nb], b.alloc = 1 := by
      intro b hb
      rcases List.mem_append.1 hb with q | q
      · exact has b q
      · rw [List.mem_singleton] at q; rw [q]; exact q3
    obtain ⟨new, tail', fl', r1, r2, r3, r4, r5, r6⟩ :=
      ih s' (as ++ [nb]) tail1 fl1 s1 ps' q1 has' q5 e2
        (fun x hx => hnn x (List.mem_cons_of_mem _ hx))
    refine ⟨nb :: new, tail', fl', by simpa using r1, by simp [r2, q2], ?_, by simp [r4], r5,
      by rw [r6, q6]⟩
    intro b hb
    rcases List.mem_cons.1 hb with q | q
    · rw [q]; exact ⟨q3, q4⟩
    · exact r3 b q

/-- `r` allocations on a heap whose last block is free and has room for `r` blocks of the
adjusted size: every call returns a block and the arena does not grow. -/
theorem mallocN_fit (fuel size : Nat) (h1 : size ≠ 0) (h2 : size + 15 < 2 ^ 64)
    (hfuel : 2 ≤ fuel) :
    ∀ (r : Nat) (s : Heap) (as : List Blk) (t : Blk) (fl : List Nat),
      WF s (as ++ [t]) fl → (∀ b ∈ as, b.alloc = 1) → t.alloc = 0 →
      r * adjust size ≤ t.size →
      ∃ s1 ps, mallocN fuel size r s = some (s1, ps) ∧ (∀ p ∈ ps, p ≠ 0) ∧
        s1.mem_brk = s.mem_brk := by
  obtain ⟨ha16, -⟩ := adjust_ok size h2
  intro r
  induction r with
  | zero =>
    intro s as t fl _ _ _ _
    exact ⟨s, [], rfl, fun p hp => absurd hp (List.not_mem_nil p), rfl⟩
  | succ r ih =>
    intro s as t fl hw has ht hroom
    rw [Nat.succ_mul] at hroom
    obtain ⟨s', nb, tail', fl', e1, hne, e2, -, q1, q2, q3, q4, q5⟩ :=
      malloc_tail_fit s as t fl fuel size hw has ht h1 h2 (by omega) hfuel
    have has' : ∀ b ∈ as ++ [nb], b.alloc = 1 := by
      intro b hb
      rcases List.mem_append.1 hb with q | q
      · exact has b q
      · rw [List.mem_singleton] at q; rw [q]; exact q3
    rcases q5 with ⟨rfl, hsmall⟩ | ⟨t', rfl, ht', hsz, -⟩
    · have hr0 : r = 0 := by
        by_contra hr
        have : adjust size ≤ r * adjust size := Nat.le_mul_of_pos_left _ (Nat.pos_of_ne_zero hr)
        omega
      subst hr0
      exact ⟨s', [t.bp], mallocN_succ fuel size 0 s s' s' t.bp [] e1 rfl,
        fun p hp => by rw [List.mem_singleton] at hp; rw [hp]; exact hne, e2⟩
    · obtain ⟨s1, ps, r1, r2, r3⟩ := ih s' (as ++ [nb]) t' fl' q1 has' ht' (by rw [hsz]; omega)
      refine ⟨s1, t.bp :: ps, mallocN_succ fuel size r s s' s1 t.bp ps e1 r1, ?_, by rw [r3, e2]⟩
      intro p hp
      rcases List.mem_cons.1 hp with q | q
      · rw [q]; exact hne
      · exact r2 p q

/-! ## Freeing in allocation order merges everything -/

theorem cb_shape (front rest tail : List Blk) (a0 : Blk)
    (hfront : front = [] ∨ ∃ f, front = [f] ∧ f.alloc = 0)
    (hrest : ∀ b ∈ rest, b.alloc = 1)
    (htail : tail = [] ∨ ∃ t, tail = [t] ∧ t.alloc = 0) :
    ∃ M, M.alloc = 0 ∧
      ((rest = [] ∧ coalesceBlocks front a0 (rest ++ tail) = [M]) ∨
        (rest ≠ [] ∧ coalesceBlocks front a0 (rest ++ tail) = [M] ++ rest ++ tail)) := by
  refine ⟨coalesceBlk front a0 (rest ++ tail), coalesceBlk_alloc _ _ _, ?_⟩
  cases rest with
  | nil =>
    left
    refine ⟨rfl, ?_⟩
    rcases hfront with rfl | ⟨f, rfl, hf⟩ <;> rcases htail with rfl | ⟨t, rfl, ht⟩ <;>
      simp [coalesceBlocks, prevFree, nextFree, *]
  | cons r rest' =>
    right
    refine ⟨by simp, ?_⟩
    have hr := hrest r (List.mem_cons_self _ _)
    rcases hfront with rfl | ⟨f, rfl, hf⟩ <;>
      simp [coalesceBlocks, prevFree, nextFree, *]

theorem freeAll_cons (s : Heap) (p : Nat) (ps : List Nat) :
    freeAll s (p :: ps) = freeAll (mm_free s p) ps := rfl

/-- Freeing all allocated blocks of a heap in address order, where at most the first and
the last block are free, leaves one free block. -/
theorem freeAll_merge : ∀ (as front tail : List Blk) (s : Heap) (fl : List Nat),
    as ≠ [] → WF s (front ++ as ++ tail) fl →
    (front = [] ∨ ∃ f, front = [f] ∧ f.alloc = 0) → (∀ b ∈ as, b.alloc = 1) →
    (tail = [] ∨ ∃ t, tail = [t] ∧ t.alloc = 0) →
    ∃ M fl', WF (freeAll s (as.map Blk.bp)) [M] fl' ∧ M.alloc = 0 ∧
      (freeAll s (as.map Blk.bp)).mem_brk = s.mem_brk ∧
      (freeAll s (as.map Blk.bp)).mem_heap = s.mem_heap := by
  intro as
  induction as with
  | nil => intro front tail s fl h; exact absurd rfl h
  | cons a rest ih =>
    intro front tail s fl _ hw hfront has htail
    have hh : s.heap_listp ≠ 0 := by rw [hw.hl]; omega
    have hw' : WF s (front ++ a :: (rest ++ tail)) fl := by simpa using hw
    obtain ⟨W, -⟩ := mm_free_spec s front (rest ++ tail) a fl hw' (has a (List.mem_cons_self _ _))
    obtain ⟨M, hM0, hsh⟩ := cb_shape front rest tail ⟨a.bp, a.size, 0⟩ hfront
      (fun b hb => has b (List.mem_cons_of_mem _ hb)) htail
    rw [List.map_cons, freeAll_cons]
    rcases hsh with ⟨rfl, hcb⟩ | ⟨hne, hcb⟩
    · rw [hcb] at W
      exact ⟨M, _, W, hM0, mm_free_brk s _ hh, mm_free_heap s _ hh⟩
    · rw [hcb] at W
      obtain ⟨M', fl', r1, r2, r3, r4⟩ := ih [M] tail (mm_free s a.bp) _ hne W
        (Or.inr ⟨M, rfl, hM0⟩) (fun b hb => has b (List.mem_cons_of_mem _ hb)) htail
      exact ⟨M', fl', r1, r2, by rw [r3, mm_free_brk s _ hh], by rw [r4, mm_free_heap s _ hh]⟩

/-- A well-formed heap with a single block, which is free, is one free block spanning
everything between prologue and epilogue, and the free list has that one member. -/
theorem OneBlock_of_WF (s : Heap) (M : Blk) (fl : List Nat) (hw : WF s [M] fl)
    (hM : M.alloc = 0) : OneBlock s ∧ M.bp = s.mem_heap + 16 ∧
      s.mem_heap + 16 + M.size = s.mem_brk := by
  have hl := hw.layout
  rw [Layout_cons, Layout_nil] at hl
  obtain ⟨hbp, h16, h8, -, hend⟩ := hl
  have hfl := WF_fl_single s [] M fl (by simpa using hw)
    (fun b hb => absurd hb (List.not_mem_nil b)) hM
  obtain ⟨t1, t2, -⟩ := tags_Base s [] [] M fl (by simpa using hw.toBase)
  have hb : heapBlocks 2 s = some [M.bp] := heapBlocks_Base s [M] fl hw.toBase
  have hf0 := freeWalk_Base s [M] fl hw.toBase
  rw [hfl] at hf0
  have hf : freeWalk s.mem 2 s.fr_listp = some [M.bp] := hf0
  rw [hbp] at t1 t2 hb hf
  rw [hM] at t1 t2
  have hsz : s.mem_brk - (s.mem_heap + 16) = M.size := by omega
  refine ⟨⟨hb, ?_, ?_, hf⟩, hbp, by omega⟩
  · rw [hsz]; exact t1
  · rw [t1, t2]

end MM
namespace MM
set_option maxRecDepth 100000

/-- One round on a heap that is a single free block with room for `k` blocks of the
adjusted size: every allocation returns a block, the arena does not grow, and the round
ends with a single free block again. -/
theorem round_good (fuel k size : Nat) (h1 : size ≠ 0) (h2 : size + 15 < 2 ^ 64)
    (hfuel : 2 ≤ fuel) (hk : 1 ≤ k) (s : Heap) (M : Blk) (fl : List Nat) (hw : WF s [M] fl)
    (hM : M.alloc = 0) (hroom : k * adjust size ≤ M.size) :
    ∃ s1 ps, mallocN fuel size k s = some (s1, ps) ∧ (∀ p ∈ ps, p ≠ 0) ∧
      s1.mem_brk = s.mem_brk ∧
      ∃ M' fl', WF (freeAll s1 ps) [M'] fl' ∧ M'.alloc = 0 ∧ M'.size = M.size ∧
        (freeAll s1 ps).mem_brk = s.mem_brk ∧ (freeAll s1 ps).mem_heap = s.mem_heap := by
  have hw0 : WF s ([] ++ [M]) fl := by simpa using hw
  obtain ⟨s1, ps, e1, e2, e3⟩ := mallocN_fit fuel size h1 h2 hfuel k s [] M fl hw0
    (fun b hb => absurd hb (List.not_mem_nil b)) hM hroom
  obtain ⟨new, tail', fl', q1, q2, q3, q4, q5, q6⟩ :=
    mallocN_any fuel size h1 h2 hfuel k s [] [M] fl s1 ps hw0
      (fun b hb => absurd hb (List.not_mem_nil b)) (Or.inr ⟨M, rfl, hM⟩) e1 e2
  have hne : new ≠ [] := by
    intro h
    rw [h] at q4
    simp at q4
    omega
  obtain ⟨M', fl'', r1, r2, r3, r4⟩ := freeAll_merge new [] tail' s1 fl' hne q1 (Or.inl rfl)
    (fun b hb => (q3 b hb).1) q5
  rw [q2] at r1 r3 r4
  obtain ⟨-, -, z1⟩ := OneBlock_of_WF s M fl hw hM
  obtain ⟨-, -, z2⟩ := OneBlock_of_WF _ M' fl'' r1 r2
  refine ⟨s1, ps, e1, e2, e3, M', fl'', r1, r2, ?_, by rw [r3, e3], by rw [r4, q6]⟩
  rw [r3, r4, e3, q6] at z2
  omega

theorem rounds_good (fuel k size : Nat) (h1 : size ≠ 0) (h2 : size + 15 < 2 ^ 64)
    (hfuel : 2 ≤ fuel) (hk : 1 ≤ k) :
    ∀ (n : Nat) (s : Heap) (M : Blk) (fl : List Nat), WF s [M] fl → M.alloc = 0 →
      k * adjust size ≤ M.size →
      ∃ sn Mn fln, rounds fuel k size n s = some sn ∧ WF sn [Mn] fln ∧ Mn.alloc = 0 ∧
        Mn.size = M.size ∧ sn.mem_brk = s.mem_brk ∧ sn.mem_heap = s.mem_heap := by
  intro n
  induction n with
  | zero =>
    intro s M fl hw hM _
    exact ⟨s, M, fl, rfl, hw, hM, rfl, rfl, rfl⟩
  | succ n ih =>
    intro s M fl hw hM hroom
    obtain ⟨s1, ps, e1, -, -, M', fl', r1, r2, r3, r4, r5⟩ :=
      round_good fuel k size h1 h2 hfuel hk s M fl hw hM hroom
    obtain ⟨sn, Mn, fln, t1, t2, t3, t4, t5, t6⟩ := ih (freeAll s1 ps) M' fl' r1 r2
      (by rw [r3]; exact hroom)
    refine ⟨sn, Mn, fln, ?_, t2, t3, by rw [t4, r3], by rw [t5, r4], by rw [t6, r5]⟩
    simp only [rounds, round, e1, Option.map_some', Option.some_bind]
    exact t1

theorem sum_ge_of_all (l : List Blk) (A : Nat) (h : ∀ b ∈ l, A ≤ b.size) :
    l.length * A ≤ (l.map Blk.size).sum := by
  induction l with
  | nil => simp
  | cons b r ih =>
    have h1 := h b (List.mem_cons_self _ _)
    have h2 := ih (fun x hx => h x (List.mem_cons_of_mem _ hx))
    simp only [List.length_cons, List.map_cons, List.sum_cons, Nat.succ_mul]
    omega

/-- C12, evaluated at a failing input: with `k = 1` and `size = 2^64 - 1` the adjusted size
wraps to 8; after a successful `mm_init` on `s0` the call `mm_malloc(size)` returns 1040
(no `mem_sbrk` call is made); after `mm_free(1040)` the round ends in the state `sV`, whose
free list read from `fr_listp` has the two members 1040 and 1049 rather than exactly
one. -/
theorem C12_size_wrap_defect :
    Fresh s0 ∧ (mm_init s0).2 = 0 ∧ 1 ≤ 2 ^ 64 - 1 ∧ adjust (2 ^ 64 - 1) = 8 ∧
    (mallocN 5 (2 ^ 64 - 1) 1 (mm_init s0).1).map Prod.snd = some [1040] ∧
    round 5 1 (2 ^ 64 - 1) (mm_init s0).1 = some sV ∧
    freeWalk sV.mem 5 sV.fr_listp = some [1040, 1049] ∧ ¬ OneBlock sV := by
  refine ⟨fresh_s0, init_s0, by norm_num, by decide, by decide, rfl, by decide, ?_⟩
  intro h
  have := h.2.2.2
  revert this
  decide

/-- Without the wrap of the adjusted size FIFO rounds do not grow the arena: for every
`k ≥ 1` and every size with `1 ≤ size` and `size + 15 < 2^64`, starting from the state
produced by a successful `mm_init` on a fresh arena: if `k` calls `mm_malloc(size)` all
return a block, then after freeing the `k` blocks in allocation order the heap is one free
block spanning everything between prologue and epilogue and the free list has exactly that
member; and after any number `n` of further rounds the arena extent is the same, the heap
is again one such block, and in the next round every `mm_malloc` returns a block without
growing the arena. -/
theorem fifo_rounds_no_wrap (s0 : Heap) (fuel k size : Nat) (s1 : Heap) (ps : List Nat)
    (hf : Fresh s0) (hok : (mm_init s0).2 = 0) (hk : 1 ≤ k) (h1 : 1 ≤ size)
    (h2 : size + 15 < 2 ^ 64) (hfuel : 2 ≤ fuel)
    (hm : mallocN fuel size k (mm_init s0).1 = some (s1, ps)) (hnn : ∀ p ∈ ps, p ≠ 0) :
    OneBlock (freeAll s1 ps) ∧ (freeAll s1 ps).mem_brk = s1.mem_brk ∧
    ∀ n, ∃ sn, rounds fuel k size n (freeAll s1 ps) = some sn ∧
      sn.mem_brk = (freeAll s1 ps).mem_brk ∧ OneBlock sn ∧
      ∃ s1' ps', mallocN fuel size k sn = some (s1', ps') ∧ (∀ p ∈ ps', p ≠ 0) ∧
        s1'.mem_brk = sn.mem_brk := by
  have hs0 : size ≠ 0 := by omega
  have W0 := mm_init_WF s0 hf hok
  have hw0 : WF (mm_init s0).1 ([] ++ [(⟨s0.mem_heap + 16, 4096, 0⟩ : Blk)])
      [s0.mem_heap + 16] := by simpa using W0
  obtain ⟨new, tail', fl', q1, q2, q3, q4, q5, q6⟩ :=
    mallocN_any fuel size hs0 h2 hfuel k _ [] _ _ s1 ps hw0
      (fun b hb => absurd hb (List.not_mem_nil b)) (Or.inr ⟨_, rfl, rfl⟩) hm hnn
  have hne : new ≠ [] := by
    intro h
    rw [h] at q4
    simp at q4
    omega
  obtain ⟨M, fl2, r1, r2, r3, r4⟩ := freeAll_merge new [] tail' s1 fl' hne q1 (Or.inl rfl)
    (fun b hb => (q3 b hb).1) q5
  rw [q2] at r1 r3 r4
  obtain ⟨ob, -, z⟩ := OneBlock_of_WF _ M fl2 r1 r2
  have hroom : k * adjust size ≤ M.size := by
    have hsum := Layout_sum _ _ _ q1.layout
    have hge := sum_ge_of_all new (adjust size) (fun b hb => (q3 b hb).2)
    rw [q4] at hge
    simp only [List.nil_append, List.map_append, List.sum_append] at hsum
    rw [r3, r4] at z
    omega
  refine ⟨ob, r3, ?_⟩
  intro n
  obtain ⟨sn, Mn, fln, t1, t2, t3, t4, t5, t6⟩ :=
    rounds_good fuel k size hs0 h2 hfuel hk n _ M fl2 r1 r2 hroom
  obtain ⟨s1', ps', u1, u2, u3, -⟩ :=
    round_good fuel k size hs0 h2 hfuel hk sn Mn fln t2 t3 (by rw [t4]; exact hroom)
  exact ⟨sn, t1, t5, (OneBlock_of_WF sn Mn fln t2 t3).1, s1', ps', u1, u2, u3⟩

end MM
namespace MM

/-! ## The heap checker: what its free-list walk tests -/

theorem mem_ite_single (c : Prop) [Decidable c] (a b : Diag) :
    a ∈ (if c then [b] else []) ↔ c ∧ a = b := by
  split_ifs with h <;> simp [h]

theorem checkheap_free_last (s : Heap) (fuel tmp : Nat) (h0 : GET s.mem tmp = 0) :
    checkheap_free s (fuel + 1) tmp =
      some ((if prevBad s tmp then [Diag.inconsPrev] else []) ++
        (if GET_ALLOC s.mem tmp ≠ 0 then [Diag.alloced tmp] else []) ++
        (if tmp < mem_heap_lo s ∨ tmp > mem_heap_hi s then [Diag.outOfHeap tmp] else [])) := by
  simp [checkheap_free, NEXT_FRBP, h0]

theorem checkheap_free_step (s : Heap) (fuel tmp y : Nat) (h0 : GET s.mem tmp ≠ 0)
    (hy : ptrAdd tmp (toInt (GET s.mem tmp)) = y) :
    checkheap_free s (fuel + 1) tmp =
      (checkheap_free s fuel y).map (fun r =>
        (if prevBad s tmp then [Diag.inconsPrev] else []) ++
        (if nextBad s tmp then [Diag.inconsNext] else []) ++
        (if GET_ALLOC s.mem tmp ≠ 0 then [Diag.alloced tmp] else []) ++ r) := by
  simp [checkheap_free, NEXT_FRBP, h0, hy]

/-- The block loop of `mm_checkheap` never prints the line "this block has been
alloced". -/
theorem checkheap_blocks_alloced (s : Heap) : ∀ (fuel p cnt : Nat) (out : List Diag),
    checkheap_blocks s fuel p cnt = some out → ∀ q, Diag.alloced q ∉ out := by
  intro fuel
  induction fuel with
  | zero =>
    intro p cnt out h
    simp [checkheap_blocks] at h
  | succ f ih =>
    intro p cnt out h q
    unfold checkheap_blocks at h
    by_cases hz : GET_SIZE s.mem (HDRP p) = 0
    · rw [if_pos hz] at h
      rw [← Option.some.inj h]
      simp
    · rw [if_neg hz] at h
      simp only [Option.map_eq_some'] at h
      obtain ⟨r, hr, rfl⟩ := h
      have := ih _ _ r hr q
      simp only [List.mem_append, mem_ite_single]
      simp [this]

/-- The free-list walk of `mm_checkheap` prints "this block has been alloced" only for an
address whose own word, the next offset stored at it, has the low bit set. -/
theorem checkheap_free_alloced (s : Heap) : ∀ (fuel tmp : Nat) (out : List Diag),
    checkheap_free s fuel tmp = some out → ∀ q, Diag.alloced q ∈ out →
      GET_ALLOC s.mem q ≠ 0 := by
  intro fuel
  induction fuel with
  | zero =>
    intro tmp out h
    simp [checkheap_free] at h
  | succ f ih =>
    intro tmp out h q hq
    by_cases h0 : GET s.mem tmp = 0
    · rw [checkheap_free_last s f tmp h0] at h
      rw [← Option.some.inj h] at hq
      simp only [List.mem_append, mem_ite_single] at hq
      simp at hq
      rw [hq.2]
      exact hq.1
    · rw [checkheap_free_step s f tmp _ h0 rfl] at h
      simp only [Option.map_eq_some'] at h
      obtain ⟨r, hr, rfl⟩ := h
      simp only [List.mem_append, mem_ite_single] at hq
      simp at hq
      rcases hq with hq | hq
      · rw [hq.2]
        exact hq.1
      · exact ih _ r hr q hq

/-- Whatever the headers say, `mm_checkheap` prints "this block has been alloced" only for an
address at which the stored next offset is odd. -/
theorem mm_checkheap_alloced (s : Heap) (fuel : Nat) (lineno : Int) (out : List Diag)
    (h : mm_checkheap fuel s lineno = some out) (q : Nat) (hq : Diag.alloced q ∈ out) :
    GET s.mem q % 2 = 1 := by
  have key : GET_ALLOC s.mem q ≠ 0 := by
    unfold mm_checkheap at h
    cases hb : checkheap_blocks s fuel s.heap_listp 0 with
    | none => simp [hb] at h
    | some db =>
      have hdb := checkheap_blocks_alloced s fuel _ _ db hb q
      simp only [hb] at h
      by_cases hfr : s.fr_listp = 0
      · rw [if_pos hfr] at h
        rw [← Option.some.inj h] at hq
        simp only [List.mem_append, List.mem_cons, mem_ite_single] at hq
        simp [hdb] at hq
      · rw [if_neg hfr] at h
        cases hf : checkheap_free s fuel s.fr_listp with
        | none => simp [hf] at h
        | some df =>
          simp only [hf] at h
          rw [← Option.some.inj h] at hq
          simp only [List.mem_append, List.mem_cons, mem_ite_single] at hq
          simp [hdb] at hq
          exact checkheap_free_alloced s fuel _ df hf q hq
  rw [GET_ALLOC_eq] at key
  omega

theorem linkTo_even (x y : Nat) (hx : x % 2 = 0) (hy : y % 2 = 0) : linkTo x y % 2 = 0 := by
  unfold linkTo toWord
  omega

/-- In a linked list of even addresses every stored next offset is even. -/
theorem Links_even (m : Mem) : ∀ (l : List Nat) (x : Nat),
    List.Chain' (LinkR m) (x :: l) →
    (∀ y, (x :: l).getLast? = some y → GET m y = 0) →
    (∀ y ∈ x :: l, y % 2 = 0) →
    ∀ q ∈ x :: l, GET_ALLOC m q = 0 := by
  intro l
  induction l with
  | nil =>
    intro x _ hlast _ q hq
    rw [List.mem_singleton] at hq
    rw [hq, GET_ALLOC_eq, hlast x (by simp)]
  | cons y l ih =>
    intro x hc hlast hev q hq
    rcases List.mem_cons.1 hq with e | e
    · have hlk : LinkR m x y := (List.chain'_cons.1 hc).1
      rw [e, GET_ALLOC_eq, hlk.1]
      exact linkTo_even x y (hev x (by simp)) (hev y (by simp))
    · exact ih y (List.chain'_cons.1 hc).2
        (fun z hz => hlast z (by rw [List.getLast?_cons_cons]; exact hz))
        (fun z hz => hev z (List.mem_cons_of_mem _ hz)) q e

/-- The free-list walk of `mm_checkheap` on a well-formed list from the member `x`: it
returns; "out of heap" is printed exactly for the last member when that lies outside the
arena; "this block has been alloced" is printed exactly for the members whose stored next
offset is odd. -/
theorem checkheap_free_links (s : Heap) (lo : Nat) : ∀ (l : List Nat) (x fuel : Nat),
    List.Chain' (LinkR s.mem) (x :: l) →
    (∀ y, (x :: l).getLast? = some y → GET s.mem y = 0) →
    (∀ y ∈ x :: l, lo < y ∧ y + 8 ≤ lo + 2 ^ 31) →
    (x :: l).Nodup →
    l.length < fuel →
    ∃ out, checkheap_free s fuel x = some out ∧
      (∀ q, Diag.outOfHeap q ∈ out ↔
        (x :: l).getLast? = some q ∧ (q < mem_heap_lo s ∨ q > mem_heap_hi s)) ∧
      (∀ q, Diag.alloced q ∈ out ↔ q ∈ x :: l ∧ GET_ALLOC s.mem q ≠ 0) := by
  intro l
  induction l with
  | nil =>
    intro x fuel _ hlast _ _ hfuel
    obtain ⟨f, rfl⟩ : ∃ f, fuel = f + 1 := ⟨fuel - 1, by simp at hfuel; omega⟩
    have h0 : GET s.mem x = 0 := hlast x (by simp)
    rw [checkheap_free_last s f x h0]
    refine ⟨_, rfl, ?_, ?_⟩
    · intro q
      simp only [List.mem_append, mem_ite_single]
      simp
      constructor
      · rintro ⟨h, rfl⟩
        exact ⟨rfl, h⟩
      · rintro ⟨rfl, h⟩
        exact ⟨h, rfl⟩
    · intro q
      simp only [List.mem_append, mem_ite_single]
      simp
      constructor
      · rintro ⟨h, rfl⟩
        exact ⟨rfl, h⟩
      · rintro ⟨rfl, h⟩
        exact ⟨h, rfl⟩
  | cons y l ih =>
    intro x fuel hc hlast hrng hnd hfuel
    obtain ⟨f, rfl⟩ : ∃ f, fuel = f + 1 := ⟨fuel - 1, by simp at hfuel; omega⟩
    have hrx := hrng x (by simp)
    have hry := hrng y (by simp)
    have hxy : x ≠ y := by
      intro e
      rw [List.nodup_cons] at hnd
      exact hnd.1 (by simp [e])
    have hlk : LinkR s.mem x y := (List.chain'_cons.1 hc).1
    have hg : GET s.mem x ≠ 0 := by
      rw [hlk.1]
      exact linkTo_ne_zero x y (by omega) (by omega) hxy
    have hd : ptrAdd x (toInt (GET s.mem x)) = y := by
      rw [hlk.1]
      exact linkTo_dec x y (by omega) (by omega)
    obtain ⟨r, hr, ho, ha⟩ := ih y f (List.chain'_cons.1 hc).2
      (fun z hz => hlast z (by rw [List.getLast?_cons_cons]; exact hz))
      (fun z hz => hrng z (List.mem_cons_of_mem _ hz)) (List.nodup_cons.1 hnd).2
      (by simp only [List.length_cons] at hfuel; omega)
    rw [checkheap_free_step s f x y hg hd, hr]
    refine ⟨_, rfl, ?_, ?_⟩
    · intro q
      rw [List.getLast?_cons_cons, ← ho q]
      simp only [List.mem_append, mem_ite_single]
      simp
    · intro q
      simp only [List.mem_append, mem_ite_single]
      rw [ha q]
      simp
      constructor
      · rintro (⟨h, rfl⟩ | ⟨h1, h2⟩)
        · exact ⟨Or.inl rfl, h⟩
        · exact ⟨Or.inr h1, h2⟩
      · rintro ⟨rfl | h1, h2⟩
        · exact Or.inl ⟨h2, rfl⟩
        · exact Or.inr ⟨h1, h2⟩

end MM
namespace MM
set_option maxRecDepth 100000

/-! ## The heap checker: more fuel does not change its output -/

theorem checkheap_blocks_mono (s : Heap) : ∀ (f p cnt : Nat) (out : List Diag),
    checkheap_blocks s f p cnt = some out →
    ∀ f', f ≤ f' → checkheap_blocks s f' p cnt = some out := by
  intro f
  induction f with
  | zero => intro p cnt out h; simp [checkheap_blocks] at h
  | succ n ih =>
    intro p cnt out h f' hf
    obtain ⟨k, rfl⟩ : ∃ k, f' = k + 1 := ⟨f' - 1, by omega⟩
    unfold checkheap_blocks at h ⊢
    by_cases h0 : GET_SIZE s.mem (HDRP p) = 0
    · rw [if_pos h0] at h ⊢; exact h
    · rw [if_neg h0] at h ⊢
      simp only [Option.map_eq_some'] at h ⊢
      obtain ⟨r, hr, hout⟩ := h
      exact ⟨r, ih _ _ r hr k (by omega), hout⟩

theorem checkheap_free_mono (s : Heap) : ∀ (f tmp : Nat) (out : List Diag),
    checkheap_free s f tmp = some out →
    ∀ f', f ≤ f' → checkheap_free s f' tmp = some out := by
  intro f
  induction f with
  | zero => intro tmp out h; simp [checkheap_free] at h
  | succ n ih =>
    intro tmp out h f' hf
    obtain ⟨k, rfl⟩ : ∃ k, f' = k + 1 := ⟨f' - 1, by omega⟩
    by_cases h0 : GET s.mem tmp = 0
    · rw [checkheap_free_last s n tmp h0] at h
      rw [checkheap_free_last s k tmp h0]
      exact h
    · rw [checkheap_free_step s n tmp _ h0 rfl] at h
      rw [checkheap_free_step s k tmp _ h0 rfl]
      simp only [Option.map_eq_some'] at h ⊢
      obtain ⟨r, hr, hout⟩ := h
      exact ⟨r, ih _ r hr k (by omega), hout⟩

theorem mm_checkheap_mono (s : Heap) (f f' : Nat) (l l' : Int) (out : List Diag)
    (h : mm_checkheap f s l = some out) (hf : f ≤ f') : mm_checkheap f' s l' = some out := by
  unfold mm_checkheap at h ⊢
  cases hb : checkheap_blocks s f s.heap_listp 0 with
  | none => simp [hb] at h
  | some db =>
    simp only [hb] at h
    simp only [checkheap_blocks_mono s f _ _ db hb f' hf]
    by_cases hfr : s.fr_listp = 0
    · rw [if_pos hfr] at h ⊢
      exact h
    · rw [if_neg hfr] at h ⊢
      cases hw : checkheap_free s f s.fr_listp with
      | none => simp [hw] at h
      | some df =>
        simp only [hw] at h
        simp only [checkheap_free_mono s f _ df hw f' hf]
        exact h

/-- The output of `mm_checkheap` does not depend on the bound or on `lineno`. -/
theorem mm_checkheap_unique (s : Heap) (f f' : Nat) (l l' : Int) (out out' : List Diag)
    (h : mm_checkheap f s l = some out) (h' : mm_checkheap f' s l' = some out') :
    out = out' := by
  have h1 := mm_checkheap_mono s f (max f f') l l out h (le_max_left _ _)
  have h2 := mm_checkheap_mono s f' (max f f') l' l out' h' (le_max_right _ _)
  rw [h1] at h2
  exact Option.some.inj h2

/-- On a well-formed non-empty free list, once the block loop has returned `db`,
`mm_checkheap` returns; its free-list part prints "out of heap" exactly for the last member
of the list when that lies outside the arena, and "this block has been alloced" exactly for
the members whose stored next offset is odd. -/
theorem mm_checkheap_free_list (s : Heap) (lo : Nat) (fl : List Nat) (fuel : Nat)
    (lineno : Int) (db : List Diag) (hwf : FreeListWF s lo fl) (hne : fl ≠ [])
    (hf : fl.length ≤ fuel) (hb : checkheap_blocks s fuel s.heap_listp 0 = some db) :
    ∃ df, mm_checkheap fuel s lineno =
        some ((Diag.checkHeap ::
          (if GET_SIZE s.mem (HDRP s.heap_listp) = DSIZE then [Diag.epilogueOK] else [])) ++
          db ++ [Diag.prologueOK, Diag.checkFreeList] ++ df) ∧
      (∀ q, Diag.outOfHeap q ∈ df ↔
        fl.getLast? = some q ∧ (q < mem_heap_lo s ∨ q > mem_heap_hi s)) ∧
      (∀ q, Diag.alloced q ∈ df ↔ q ∈ fl ∧ GET s.mem q % 2 = 1) := by
  obtain ⟨hh, hlinks, hnd, hsep⟩ := hwf
  cases hfl : fl with
  | nil => exact absurd hfl hne
  | cons x l =>
    rw [hfl] at hlinks hnd hsep hf
    have hfr : s.fr_listp = x := by rw [hh, hfl]; rfl
    have hx := hsep.1 x (by simp)
    have hx0 : x ≠ 0 := by omega
    obtain ⟨df, h1, h2, h3⟩ := checkheap_free_links s lo l x fuel hlinks.1 hlinks.2.2 hsep.1 hnd
      (by simp only [List.length_cons] at hf; omega)
    refine ⟨df, ?_, h2, ?_⟩
    · unfold mm_checkheap
      simp only [hb, hfr, if_neg hx0, h1]
    · intro q
      rw [h3 q, GET_ALLOC_eq]
      have := Nat.mod_two_eq_zero_or_one (GET s.mem q)
      constructor
      · rintro ⟨a, b⟩
        exact ⟨a, by omega⟩
      · rintro ⟨a, b⟩
        exact ⟨a, by omega⟩

/-- On a well-formed free list of even addresses `mm_checkheap` never prints "this block
has been alloced" for a member, whatever the member's header says. -/
theorem mm_checkheap_flag_ignored (s : Heap) (lo : Nat) (fl : List Nat) (fuel : Nat)
    (lineno : Int) (out : List Diag) (hwf : FreeListWF s lo fl) (hev : ∀ y ∈ fl, y % 2 = 0)
    (h : mm_checkheap fuel s lineno = some out) : ∀ q ∈ fl, Diag.alloced q ∉ out := by
  intro q hq hin
  have h1 := mm_checkheap_alloced s fuel lineno out h q hin
  obtain ⟨-, hlinks, -, -⟩ := hwf
  cases hfl : fl with
  | nil => rw [hfl] at hq; cases hq
  | cons x l =>
    rw [hfl] at hlinks hev hq
    have h2 := Links_even s.mem l x hlinks.1 hlinks.2.2 hev q hq
    rw [GET_ALLOC_eq] at h2
    omega

/-! ## The claims about the heap checker -/

/-- C21, evaluated at a failing input: in the state `sK` the free list read from
`fr_listp` is the single member 1064, acyclic and 0-terminated, and the header of 1064 has
the allocated flag set; yet `mm_checkheap` prints only its four unconditional lines, and
for no bound and no `lineno` does its output hold the line "this block has been alloced"
for 1064.  The walk tests `GET_ALLOC(tmp)`, the low bit of the next offset stored at the
member, not `GET_ALLOC(HDRP(tmp))`. -/
theorem C21_alloc_flag_unreported :
    freeWalk sK.mem 2 sK.fr_listp = some [1064] ∧
    GET_ALLOC sK.mem (HDRP 1064) = 1 ∧
    mm_checkheap 5 sK 0 =
      some [Diag.checkHeap, Diag.epilogueOK, Diag.prologueOK, Diag.checkFreeList] ∧
    (∀ fuel lineno out, mm_checkheap fuel sK lineno = some out →
      Diag.alloced 1064 ∉ out) := by
  have h5 : mm_checkheap 5 sK 0 =
      some [Diag.checkHeap, Diag.epilogueOK, Diag.prologueOK, Diag.checkFreeList] := by
    decide
  refine ⟨by decide, by decide, h5, ?_⟩
  intro fuel lineno out h
  rw [mm_checkheap_unique sK fuel 5 lineno 0 out _ h h5]
  decide

/-- C22, evaluated at a failing input: in the state `sQ` the free list read from
`fr_listp` is 6000, 1064, acyclic and 0-terminated, and its head 6000 lies above
`mem_heap_hi()`; yet `mm_checkheap` prints only its four unconditional lines, and for no
bound and no `lineno` does its output hold the line "out of heap" for 6000.  The walk
compares only the member it stops at, the tail, with the arena bounds. -/
theorem C22_out_of_heap_unreported :
    freeWalk sQ.mem 3 sQ.fr_listp = some [6000, 1064] ∧
    mem_heap_hi sQ < 6000 ∧
    mm_checkheap 5 sQ 0 =
      some [Diag.checkHeap, Diag.epilogueOK, Diag.prologueOK, Diag.checkFreeList] ∧
    (∀ fuel lineno out, mm_checkheap fuel sQ lineno = some out →
      Diag.outOfHeap 6000 ∉ out) := by
  have h5 : mm_checkheap 5 sQ 0 =
      some [Diag.checkHeap, Diag.epilogueOK, Diag.prologueOK, Diag.checkFreeList] := by
    decide
  refine ⟨by decide, by decide, h5, ?_⟩
  intro fuel lineno out h
  rw [mm_checkheap_unique sQ fuel 5 lineno 0 out _ h h5]
  decide

end MM
